import Mathlib

/-!
Nazara Engine: bitsets, entities, system filters, the render system, module
initialisation, audio mixing and the deferred lighting pass.

A shallow embedding of `Nz::Bitset<>` (include/Nazara/Core/Bitset.inl, with the
default block type, a 32-bit unsigned integer), of the parts of `Ndk::Entity`
(SDK/include/NDK/Entity.inl), `Ndk::BaseSystem` (SDK/src/NDK/BaseSystem.cpp) and
`Ndk::RenderSystem` (SDK/src/NDK/Systems/RenderSystem.cpp) that use it, of
`Nz::Core` (src/Nazara/Core/Core.cpp), `Ndk::Sdk` (SDK/src/NDK/Sdk.cpp),
`MixToMono` (include/Nazara/Audio/Algorithm.inl), `GetNearestPowerOfTwo`
(include/Nazara/Math/Algorithm.inl) and `DeferredPhongLightingPass::Process`
(src/Nazara/Graphics/DeferredPhongLightingPass.cpp), followed by theorems about
them.

Conventions of the embedding:
* a block is a natural number; every arithmetic step that the 32-bit type would
  truncate is followed by an explicit reduction modulo `2 ^ 32`;
* a member function that changes `*this` takes the object and returns the new one;
* an operation whose `NazaraAssert` fails, or that would read or write a block
  outside `m_blocks`, returns `none`;
* counted loops are written with `forLoop` (loops that update the object) and
  `scanLoop` (loops that only read and may return early);
* an argument passed by reference is a `Ref`: another bitset, or the object itself;
* calls into classes whose code is not at hand are kept as a record of the calls,
  in the order in which they are made.
-/

namespace Nz

/-- The number of bits of a block, `std::numeric_limits<Block>::digits` for the default block type. -/
def bitsPerBlock : Nat := 32

/-- The block with every bit set, `std::numeric_limits<Block>::max()`. -/
def fullBitMask : Nat := 4294967295

/-- The "not found" value of `FindFirst` and `FindNext`, `std::numeric_limits<unsigned int>::max()`. -/
def npos : Nat := 4294967295

/-- Truncation of a number to a 32-bit unsigned integer. -/
def u32 (x : Nat) : Nat := x % 4294967296

/-- The loop `for (i = lo; i < lo + n; ++i) body(i)` on a state that the body may update or fail on:
`forLoop body lo n s`. -/
def forLoop {σ : Type} (body : Nat → σ → Option σ) : Nat → Nat → σ → Option σ
  | _, 0, s => some s
  | i, n + 1, s => (body i s).bind (forLoop body (i + 1) n)

/-- The read-only loop `for (i = lo; i < lo + n; ++i) body(i)` whose body may fail (`none`), return a
value from the enclosing function (`some (some r)`) or fall through to the next round (`some none`). -/
def scanLoop {ρ : Type} (body : Nat → Option (Option ρ)) : Nat → Nat → Option (Option ρ)
  | _, 0 => some none
  | i, n + 1 =>
    match body i with
    | none => none
    | some (some r) => some (some r)
    | some none => scanLoop body (i + 1) n

/-- The code after a loop: skipped when the loop has returned a value or failed. -/
def afterLoop {ρ : Type} (loop : Option (Option ρ)) (rest : Option ρ) : Option ρ :=
  match loop with
  | none => none
  | some (some r) => some r
  | some none => rest

/-- The effect of `std::vector::resize(n, v)`. -/
def vecResize (l : List Nat) (n v : Nat) : List Nat :=
  l.take n ++ List.replicate (n - l.length) v

/-- The table `MultiplyDeBruijnBitPosition2` of Math/Algorithm.inl. -/
def MultiplyDeBruijnBitPosition2 : List Nat :=
  [0, 1, 28, 2, 29, 14, 24, 3, 30, 22, 20, 15, 25, 17, 4, 8,
   31, 27, 13, 23, 21, 19, 16, 7, 26, 12, 18, 6, 11, 5, 10, 9]

/-- The overload of `Detail::IntegralLog2Pot` for types of at most 32 bits:
`MultiplyDeBruijnBitPosition2[static_cast<UInt32>(number * 0x077CB531U) >> 27]`; the index is
below 32, inside the table. -/
def IntegralLog2Pot (number : Nat) : Nat :=
  MultiplyDeBruijnBitPosition2.getD (u32 (number * 125613361) >>> 27) 0

/-- The loop `while (value) { value &= value - 1; count++; }` of `CountBits`; every round lowers
`value`, and `fuel` bounds the number of rounds. -/
def CountBitsLoop : Nat → Nat → Nat → Option Nat
  | 0, value, count => if value = 0 then some count else none
  | fuel + 1, value, count =>
    if value = 0 then some count
    else CountBitsLoop fuel (value &&& (value - 1)) (count + 1)

/-- The number of bits set in `value`. A round clears one bit, so `value` rounds are enough. -/
def CountBits (value : Nat) : Option Nat := CountBitsLoop value value 0

/-- The state of a `Bitset<>`: the vector of blocks and the logical number of bits. -/
structure Bitset where
  m_blocks : List Nat
  m_bitCount : Nat
deriving DecidableEq, Repr

namespace Bitset

/-- The source computes `bit & (bitsPerBlock - 1U)`. -/
def GetBitIndex (bit : Nat) : Nat := bit &&& (bitsPerBlock - 1)

/-- The source computes `bit / bitsPerBlock`. -/
def GetBlockIndex (bit : Nat) : Nat := bit / bitsPerBlock

/-- The number of blocks that hold `bitCount` bits. -/
def ComputeBlockCount (bitCount : Nat) : Nat :=
  GetBlockIndex bitCount + (if GetBitIndex bitCount ≠ 0 then 1 else 0)

/-- The default constructor `Bitset()`. -/
def empty : Bitset := { m_blocks := [], m_bitCount := 0 }

/-- The block `i`, with the assertion `i < m_blocks.size()`. -/
def GetBlock (s : Bitset) (i : Nat) : Option Nat := s.m_blocks[i]?

/-- The number of blocks. -/
def GetBlockCount (s : Bitset) : Nat := s.m_blocks.length

/-- The logical number of bits. -/
def GetSize (s : Bitset) : Nat := s.m_bitCount

/-- The assignment `m_blocks[i] = v`, which needs `i` inside the vector. -/
def writeBlock (s : Bitset) (i v : Nat) : Option Bitset :=
  if i < s.m_blocks.length then some { s with m_blocks := s.m_blocks.set i v } else none

/-- The mask `(Block(1U) << GetBitIndex(m_bitCount)) - 1U`; the shift count is below 32, so the
shifted value is at least 1 and the subtraction does not wrap. -/
def GetLastBlockMask (s : Bitset) : Nat :=
  u32 (1 <<< GetBitIndex s.m_bitCount) - 1

/-- Clears the bits of the last block beyond the logical size: `if (mask) m_blocks.back() &= mask`. -/
def ResetExtraBits (s : Bitset) : Option Bitset :=
  let mask := s.GetLastBlockMask
  if mask ≠ 0 then
    match s.m_blocks[s.m_blocks.length - 1]? with
    | some last => s.writeBlock (s.m_blocks.length - 1) (last &&& mask)
    | none => none
  else some s

/-- Changes the number of bits, new bits taking `defaultVal`. -/
def Resize (s : Bitset) (bitCount : Nat) (defaultVal : Bool) : Option Bitset :=
  let lastBlockIndex := u32 (s.m_blocks.length + 4294967295)
  let s1 : Bitset :=
    { s with m_blocks := vecResize s.m_blocks (ComputeBlockCount bitCount)
                           (if defaultVal then fullBitMask else 0) }
  let remainingBits := GetBitIndex s.m_bitCount
  let s2 : Option Bitset :=
    if bitCount > s.m_bitCount ∧ remainingBits > 0 ∧ defaultVal = true then
      match s1.m_blocks[lastBlockIndex]? with
      | some block => s1.writeBlock lastBlockIndex (block ||| u32 (fullBitMask <<< remainingBits))
      | none => none
    else some s1
  s2.bind fun s3 => ResetExtraBits { s3 with m_bitCount := bitCount }

/-- The constructor `Bitset(unsigned int bitCount, bool val)`. -/
def ofSize (bitCount : Nat) (val : Bool) : Option Bitset :=
  Resize empty bitCount val

/-- The overload `Set(unsigned int bit, bool val)`, with the assertion `bit < m_bitCount`;
`-val` is the all-ones word for `true` and zero for `false`, `~mask` the 32-bit complement. -/
def Set (s : Bitset) (bit : Nat) (val : Bool) : Option Bitset :=
  if bit < s.m_bitCount then
    match s.m_blocks[GetBlockIndex bit]? with
    | some block =>
      let mask := u32 (1 <<< GetBitIndex bit)
      s.writeBlock (GetBlockIndex bit)
        ((block &&& (mask ^^^ fullBitMask)) ||| ((if val then fullBitMask else 0) &&& mask))
    | none => none
  else none

/-- The overload `Set(bool val)`: fills every block, then clears the extra bits when `val` holds. -/
def SetAll (s : Bitset) (val : Bool) : Option Bitset :=
  let s1 : Bitset := { s with m_blocks := s.m_blocks.map fun _ => if val then fullBitMask else 0 }
  if val then ResetExtraBits s1 else some s1

/-- The overload `Reset()`. -/
def ResetAll (s : Bitset) : Option Bitset := s.SetAll false

/-- The overload `Reset(unsigned int bit)`. -/
def Reset (s : Bitset) (bit : Nat) : Option Bitset := s.Set bit false

/-- Inverts every bit. -/
def Flip (s : Bitset) : Option Bitset :=
  ResetExtraBits { s with m_blocks := s.m_blocks.map fun block => block ^^^ fullBitMask }

/-- Overwrites block `i`, with the assertion `i < m_blocks.size()`. -/
def SetBlock (s : Bitset) (i block : Nat) : Option Bitset :=
  (s.writeBlock i block).bind fun s1 =>
    if i = s1.m_blocks.length - 1 then ResetExtraBits s1 else some s1

/-- The value of a bit, with the assertion `bit < m_bitCount`. -/
def Test (s : Bitset) (bit : Nat) : Option Bool :=
  if bit < s.m_bitCount then
    match s.m_blocks[GetBlockIndex bit]? with
    | some block => some (decide ((block &&& u32 (1 <<< GetBitIndex bit)) ≠ 0))
    | none => none
  else none

/-- The value of a bit, `false` outside the logical size. -/
def UnboundedTest (s : Bitset) (bit : Nat) : Option Bool :=
  if bit < s.m_bitCount then s.Test bit else some false

/-- Writes a bit, growing the bitset when a bit beyond the size is set. -/
def UnboundedSet (s : Bitset) (bit : Nat) (val : Bool) : Option Bitset :=
  if bit < s.m_bitCount then s.Set bit val
  else if val then (s.Resize (u32 (bit + 1)) false).bind fun s1 => s1.Set bit true
  else some s

/-- Clears a bit without growing. -/
def UnboundedReset (s : Bitset) (bit : Nat) : Option Bitset := s.UnboundedSet bit false

/-- Whether some block is non-zero. -/
def TestAny (s : Bitset) : Option Bool :=
  if s.m_blocks.isEmpty then some false
  else
    afterLoop
      (scanLoop (fun i => (s.m_blocks[i]?).map fun block => if block ≠ 0 then some true else none)
        0 s.m_blocks.length)
      (some false)

/-- The negation of `TestAny`. -/
def TestNone (s : Bitset) : Option Bool := s.TestAny.map not

/-- An argument that a member function receives by reference: another bitset, or the object the
function is called on (as in `x.PerformsAND(x, y)`, which is what `x &= y` runs). -/
inductive Ref where
  | self
  | other (b : Bitset)

/-- The bitset a reference stands for, `cur` being the present state of the object. -/
def Ref.get (cur : Bitset) : Ref → Bitset
  | Ref.self => cur
  | Ref.other b => b

/-- Sets `self` to the conjunction of `a` and `b`: the blocks are cleared and resized, the size is
set, the common blocks are combined, the extra bits are cleared. -/
def PerformsAND (self : Bitset) (a b : Ref) : Option Bitset :=
  let minmax : Nat × Nat :=
    (min (a.get self).GetBlockCount (b.get self).GetBlockCount,
     max (a.get self).GetBlockCount (b.get self).GetBlockCount)
  let s1 : Bitset := { self with m_blocks := vecResize [] minmax.2 0 }
  let s2 : Bitset := { s1 with m_bitCount := max (a.get s1).GetSize (b.get s1).GetSize }
  (forLoop (fun i s =>
      ((a.get s).GetBlock i).bind fun x => ((b.get s).GetBlock i).bind fun y => s.writeBlock i (x &&& y))
      0 minmax.1 s2).bind ResetExtraBits

/-- Sets `self` to the complement of `a`; `~` is the 32-bit complement. -/
def PerformsNOT (self : Bitset) (a : Ref) : Option Bitset :=
  let s1 : Bitset := { self with m_blocks := vecResize self.m_blocks (a.get self).GetBlockCount 0 }
  let s2 : Bitset := { s1 with m_bitCount := (a.get s1).GetSize }
  (forLoop (fun i s => ((a.get s).GetBlock i).bind fun x => s.writeBlock i (x ^^^ fullBitMask))
      0 s2.m_blocks.length s2).bind ResetExtraBits

/-- The common shape of `PerformsOR` and `PerformsXOR`, which differ in the block operation only. -/
def performsWith (op : Nat → Nat → Nat) (self : Bitset) (a b : Ref) : Option Bitset :=
  let greater := if (a.get self).GetBlockCount > (b.get self).GetBlockCount then a else b
  let lesser := if (a.get self).GetBlockCount > (b.get self).GetBlockCount then b else a
  let maxBlockCount := (greater.get self).GetBlockCount
  let minBlockCount := (lesser.get self).GetBlockCount
  let s1 : Bitset := { self with m_blocks := vecResize self.m_blocks maxBlockCount 0 }
  let s2 : Bitset := { s1 with m_bitCount := (greater.get s1).GetSize }
  ((forLoop (fun i s =>
      ((a.get s).GetBlock i).bind fun x => ((b.get s).GetBlock i).bind fun y => s.writeBlock i (op x y))
      0 minBlockCount s2).bind fun s3 =>
    forLoop (fun i s => ((greater.get s).GetBlock i).bind fun x => s.writeBlock i x)
      minBlockCount (maxBlockCount - minBlockCount) s3).bind ResetExtraBits

/-- Sets `self` to the disjunction of `a` and `b`. -/
def PerformsOR (self : Bitset) (a b : Ref) : Option Bitset :=
  let greater := if (a.get self).GetBlockCount > (b.get self).GetBlockCount then a else b
  let lesser := if (a.get self).GetBlockCount > (b.get self).GetBlockCount then b else a
  let maxBlockCount := (greater.get self).GetBlockCount
  let minBlockCount := (lesser.get self).GetBlockCount
  let s1 : Bitset := { self with m_blocks := vecResize self.m_blocks maxBlockCount 0 }
  let s2 : Bitset := { s1 with m_bitCount := (greater.get s1).GetSize }
  ((forLoop (fun i s =>
      ((a.get s).GetBlock i).bind fun x => ((b.get s).GetBlock i).bind fun y => s.writeBlock i (x ||| y))
      0 minBlockCount s2).bind fun s3 =>
    forLoop (fun i s => ((greater.get s).GetBlock i).bind fun x => s.writeBlock i x)
      minBlockCount (maxBlockCount - minBlockCount) s3).bind ResetExtraBits

/-- Sets `self` to the exclusive disjunction of `a` and `b`. -/
def PerformsXOR (self : Bitset) (a b : Ref) : Option Bitset :=
  let greater := if (a.get self).GetBlockCount > (b.get self).GetBlockCount then a else b
  let lesser := if (a.get self).GetBlockCount > (b.get self).GetBlockCount then b else a
  let maxBlockCount := (greater.get self).GetBlockCount
  let minBlockCount := (lesser.get self).GetBlockCount
  let s1 : Bitset := { self with m_blocks := vecResize self.m_blocks maxBlockCount 0 }
  let s2 : Bitset := { s1 with m_bitCount := (greater.get s1).GetSize }
  ((forLoop (fun i s =>
      ((a.get s).GetBlock i).bind fun x => ((b.get s).GetBlock i).bind fun y => s.writeBlock i (x ^^^ y))
      0 minBlockCount s2).bind fun s3 =>
    forLoop (fun i s => ((greater.get s).GetBlock i).bind fun x => s.writeBlock i x)
      minBlockCount (maxBlockCount - minBlockCount) s3).bind ResetExtraBits

/-- Whether the two bitsets share a set bit in one of their common blocks. -/
def Intersects (s bitset : Bitset) : Option Bool :=
  let sharedBlocks := min s.GetBlockCount bitset.GetBlockCount
  afterLoop
    (scanLoop (fun i => (s.GetBlock i).bind fun a => (bitset.GetBlock i).map fun b =>
        if (a &&& b) ≠ 0 then some true else none) 0 sharedBlocks)
    (some false)

/-- The free function `operator&`: `PerformsAND` on a fresh bitset. -/
def opAnd (lhs rhs : Bitset) : Option Bitset := PerformsAND empty (Ref.other lhs) (Ref.other rhs)

/-- The free function `operator|`: `PerformsOR` on a fresh bitset. -/
def opOr (lhs rhs : Bitset) : Option Bitset := PerformsOR empty (Ref.other lhs) (Ref.other rhs)

/-- The free function `operator^`: `PerformsXOR` on a fresh bitset. -/
def opXor (lhs rhs : Bitset) : Option Bitset := PerformsXOR empty (Ref.other lhs) (Ref.other rhs)

/-- The member `operator~`: `PerformsNOT` on a fresh bitset. -/
def opNot (s : Bitset) : Option Bitset := PerformsNOT empty (Ref.other s)

/-- The free function `operator==`. -/
def opEq (lhs rhs : Bitset) : Option Bool :=
  let greater := if lhs.GetBlockCount > rhs.GetBlockCount then lhs else rhs
  let lesser := if lhs.GetBlockCount > rhs.GetBlockCount then rhs else lhs
  let maxBlockCount := greater.GetBlockCount
  let minBlockCount := lesser.GetBlockCount
  afterLoop
    (scanLoop (fun i => (lhs.GetBlock i).bind fun x => (rhs.GetBlock i).map fun y =>
        if x ≠ y then some false else none) 0 minBlockCount)
    (afterLoop
      (scanLoop (fun i => (greater.GetBlock i).map fun g => if g ≠ 0 then some false else none)
        minBlockCount (maxBlockCount - minBlockCount))
      (some true))

/-- The free function `operator!=`. -/
def opNe (lhs rhs : Bitset) : Option Bool := (opEq lhs rhs).map not

/-- The first loop of `operator<`, `for (i = maxBlockCount; i > minBlockCount; ++i)`: the counter
goes up, wrapping at `2 ^ 32`; `fuel` bounds the number of rounds. -/
def ltUpLoop (greater lhs rhs : Bitset) (minBlockCount : Nat) : Nat → Nat → Option (Option Bool)
  | _, 0 => none
  | i, fuel + 1 =>
    if i > minBlockCount then
      match greater.GetBlock i with
      | none => none
      | some g =>
        if g ≠ 0 then some (some (decide (lhs.GetBlockCount < rhs.GetBlockCount)))
        else ltUpLoop greater lhs rhs minBlockCount (u32 (i + 1)) fuel
    else some none

/-- The free function `operator<`. The counter of the first loop takes at most `2 ^ 32` values
before it wraps to zero and the loop ends, which bounds the rounds of that loop. -/
def opLt (lhs rhs : Bitset) : Option Bool :=
  let greater := if lhs.GetBlockCount > rhs.GetBlockCount then lhs else rhs
  let lesser := if lhs.GetBlockCount > rhs.GetBlockCount then rhs else lhs
  let maxBlockCount := greater.GetBlockCount
  let minBlockCount := lesser.GetBlockCount
  afterLoop
    (ltUpLoop greater lhs rhs minBlockCount maxBlockCount 4294967297)
    (afterLoop
      (scanLoop (fun i =>
          let index := minBlockCount - i - 1
          (lhs.GetBlock index).bind fun x => (rhs.GetBlock index).map fun y =>
            if x < y then some true else none) 0 minBlockCount)
      (some false))

/-- The free function `operator<=`, with the short-circuit of `||`. -/
def opLe (lhs rhs : Bitset) : Option Bool :=
  (opLt lhs rhs).bind fun lt => if lt then some true else opEq lhs rhs

/-- The free function `operator>`. -/
def opGt (lhs rhs : Bitset) : Option Bool := opLt rhs lhs

/-- The free function `operator>=`. -/
def opGe (lhs rhs : Bitset) : Option Bool := opLe rhs lhs

/-- The constructor `Bitset(const char* bits, unsigned int bitCount)`: the first character is the
highest bit; a character other than `0` and `1`, or the end of the text, fails. -/
def ofChars (bits : List Char) (bitCount : Nat) : Option Bitset :=
  let s0 : Bitset := { m_blocks := vecResize [] (ComputeBlockCount bitCount) 0, m_bitCount := bitCount }
  forLoop (fun i s =>
      match bits[i]? with
      | some c =>
        if c = '1' then s.Set (s.m_bitCount - i - 1) true
        else if c = '0' then some s
        else none
      | none => none) 0 bitCount s0

/-- The constructors `Bitset(const char* bits)` and `Bitset(const String& bits)`. -/
def ofString (bits : List Char) : Option Bitset := ofChars bits bits.length

/-- The text of the bits, highest bit first: a text of `m_bitCount` zeros in which character
`m_bitCount - i - 1` becomes `1` when bit `i` is set. -/
def ToString (s : Bitset) : Option (List Char) :=
  forLoop (fun i str =>
      (s.Test i).bind fun t =>
        if t then
          (if s.m_bitCount - i - 1 < str.length then some (str.set (s.m_bitCount - i - 1) '1') else none)
        else some str) 0 s.m_bitCount (List.replicate s.m_bitCount '0')

/-- The conjunction of two binary digits, as a character: `1` when both are `1`, else `0`. -/
def andChar (c d : Char) : Char := if c = '1' ∧ d = '1' then '1' else '0'

/-- The number a bitset stands for when read as an unsigned binary number, block 0 lowest. -/
def toNat (s : Bitset) : Nat := s.m_blocks.foldr (fun block acc => block + 4294967296 * acc) 0

/-- Block `j` of the bitset, zero outside the vector (a proof device). -/
def blockAt (s : Bitset) (j : Nat) : Nat := (s.m_blocks[j]?).getD 0

/-- The stored bit at position `i`: bit `i % 32` of block `i / 32`, zero outside the vector. -/
def bitAt (s : Bitset) (i : Nat) : Bool := (s.blockAt (i / 32)).testBit (i % 32)

/-- The class invariant of `Bitset`: the vector holds exactly the blocks the size needs, every block
fits the 32-bit block type, and the bits of the last block beyond the size are zero. -/
def WellFormed (s : Bitset) : Prop :=
  s.m_blocks.length = ComputeBlockCount s.m_bitCount ∧
  (∀ x ∈ s.m_blocks, x < 4294967296) ∧
  (GetBitIndex s.m_bitCount ≠ 0 →
    (s.m_blocks[s.m_blocks.length - 1]?).getD 0 < 2 ^ GetBitIndex s.m_bitCount)

instance (s : Bitset) : Decidable (WellFormed s) := by
  unfold WellFormed; infer_instance

/-- The operand whose size `PerformsOR` and `PerformsXOR` give to the result: the one with more
blocks, the second operand when both have as many. -/
def greaterOf (a b : Bitset) : Bitset := if a.GetBlockCount > b.GetBlockCount then a else b

/-- The shape the block vector has in the middle of an operation: a fixed length, a fixed size, and
blocks that fit the block type. -/
def Shaped (len size : Nat) (s : Bitset) : Prop :=
  s.m_blocks.length = len ∧ s.m_bitCount = size ∧ ∀ j, s.blockAt j < 4294967296

/-- An operand is usable when it is the object itself or a well-formed bitset. -/
def RefOk (a : Ref) : Prop := ∀ x, a = Ref.other x → WellFormed x

/-- The bitsets a program can hold: those the constructors build, and those that a successful call
of a mutating member function leaves behind. An operand passed by reference is the object itself or
another such bitset; the block written by `SetBlock` is a value of the block type. -/
inductive Reachable : Bitset → Prop
  | default : Reachable empty
  | ofSize (bitCount : Nat) (val : Bool) {r : Bitset} :
      ofSize bitCount val = some r → Reachable r
  | ofChars (bits : List Char) (bitCount : Nat) {r : Bitset} :
      ofChars bits bitCount = some r → Reachable r
  | set {s r : Bitset} (bit : Nat) (val : Bool) :
      Reachable s → s.Set bit val = some r → Reachable r
  | setAll {s r : Bitset} (val : Bool) :
      Reachable s → s.SetAll val = some r → Reachable r
  | resetAll {s r : Bitset} :
      Reachable s → s.ResetAll = some r → Reachable r
  | reset {s r : Bitset} (bit : Nat) :
      Reachable s → s.Reset bit = some r → Reachable r
  | flip {s r : Bitset} :
      Reachable s → s.Flip = some r → Reachable r
  | resize {s r : Bitset} (bitCount : Nat) (defaultVal : Bool) :
      Reachable s → s.Resize bitCount defaultVal = some r → Reachable r
  | setBlock {s r : Bitset} (i block : Nat) :
      Reachable s → block < 4294967296 → s.SetBlock i block = some r → Reachable r
  | unboundedSet {s r : Bitset} (bit : Nat) (val : Bool) :
      Reachable s → s.UnboundedSet bit val = some r → Reachable r
  | unboundedReset {s r : Bitset} (bit : Nat) :
      Reachable s → s.UnboundedReset bit = some r → Reachable r
  | performsAND {s r : Bitset} (a b : Ref) :
      Reachable s → (∀ x, a = Ref.other x → Reachable x) → (∀ x, b = Ref.other x → Reachable x) →
      s.PerformsAND a b = some r → Reachable r
  | performsOR {s r : Bitset} (a b : Ref) :
      Reachable s → (∀ x, a = Ref.other x → Reachable x) → (∀ x, b = Ref.other x → Reachable x) →
      s.PerformsOR a b = some r → Reachable r
  | performsXOR {s r : Bitset} (a b : Ref) :
      Reachable s → (∀ x, a = Ref.other x → Reachable x) → (∀ x, b = Ref.other x → Reachable x) →
      s.PerformsXOR a b = some r → Reachable r
  | performsNOT {s r : Bitset} (a : Ref) :
      Reachable s → (∀ x, a = Ref.other x → Reachable x) →
      s.PerformsNOT a = some r → Reachable r

/-- The number of set bits: `CountBits` summed over the blocks in an `unsigned int`. -/
def Count (s : Bitset) : Option Nat :=
  if s.m_blocks.isEmpty then some 0
  else
    forLoop (fun i count => (s.m_blocks[i]?).bind fun block =>
        (CountBits block).map fun bits => u32 (count + bits)) 0 s.m_blocks.length 0

/-- The index of the first set bit at or after block `blockIndex`, or `npos`; `-block` is the
32-bit negation. -/
def FindFirstFrom (s : Bitset) (blockIndex : Nat) : Option Nat :=
  if blockIndex ≥ s.m_blocks.length then some npos
  else
    match scanLoop (fun i => (s.m_blocks[i]?).map fun block => if block ≠ 0 then some i else none)
        blockIndex (s.m_blocks.length - blockIndex) with
    | none => none
    | some none => some npos
    | some (some i) =>
      (s.m_blocks[i]?).map fun block =>
        u32 (IntegralLog2Pot (block &&& u32 (4294967296 - block)) + i * bitsPerBlock)

/-- The index of the first set bit, or `npos`. -/
def FindFirst (s : Bitset) : Option Nat := s.FindFirstFrom 0

/-- The index of the first set bit after `bit`, or `npos`, with the assertion `bit < m_bitCount`. -/
def FindNext (s : Bitset) (bit : Nat) : Option Nat :=
  if bit < s.m_bitCount then
    let bit1 := u32 (bit + 1)
    if bit1 ≥ s.m_bitCount then some npos
    else
      let blockIndex := GetBlockIndex bit1
      let bitIndex := GetBitIndex bit1
      match s.m_blocks[blockIndex]? with
      | none => none
      | some block0 =>
        let block := block0 >>> bitIndex
        if block ≠ 0 then some (u32 (IntegralLog2Pot (block &&& u32 (4294967296 - block)) + bit1))
        else s.FindFirstFrom (blockIndex + 1)
  else none

/-- The loop `for (i = FindFirst(); i != npos; i = FindNext(i))` that a caller runs to visit the
set bits, `cur` being the index at hand: the indices it visits, in order. -/
def visitFrom (s : Bitset) : Nat → Nat → Option (List Nat)
  | 0, _ => none
  | fuel + 1, cur =>
    if cur = npos then some []
    else (s.FindNext cur).bind fun next => (visitFrom s fuel next).map fun rest => cur :: rest

/-- The indices visited by `FindFirst` followed by `FindNext` until `npos`; the loop makes at most
one round per bit. -/
def visitSetBits (s : Bitset) : Option (List Nat) :=
  s.FindFirst.bind fun first => visitFrom s (s.m_bitCount + 1) first

/-- The number of one bits among the 32 bits of a block (what `CountBits` has to return). -/
def onesOf (x : Nat) : Nat := (List.range 32).countP fun k => x.testBit k

/-- The number of set bits at the positions below `n`. -/
def setBitsBelow (s : Bitset) (n : Nat) : Nat := (List.range n).countP fun i => s.bitAt i

/-- The index `r` is the first set bit at or after position `lo`, or `npos` when there is none. -/
def IsFirstSetFrom (s : Bitset) (lo r : Nat) : Prop :=
  (r = npos ∧ ∀ j, lo ≤ j → s.bitAt j = false) ∨
  (lo ≤ r ∧ s.bitAt r = true ∧ ∀ j, lo ≤ j → j < r → s.bitAt j = false)

end Bitset

end Nz

namespace Ndk

open Nz

/-- The identity of an entity inside its world. -/
abbrev EntityId := Nat

/-- The index a component type receives at registration. -/
abbrev ComponentIndex := Nat

/-- The index a system type receives at first use. -/
abbrev SystemIndex := Nat

/-- The state of an `Entity` that the functions below read or write: identity, component and system
bitsets, flags, and the registered handles. -/
structure Entity where
  m_id : EntityId
  m_componentBits : Bitset
  m_systemBits : Bitset
  m_enabled : Bool
  m_valid : Bool
  m_handles : List Nat
deriving DecidableEq

namespace Entity

/-- The component bitset of the entity. -/
def GetComponentBits (e : Entity) : Bitset := e.m_componentBits

/-- The identity of the entity. -/
def GetId (e : Entity) : EntityId := e.m_id

/-- The system bitset of the entity. -/
def GetSystemBits (e : Entity) : Bitset := e.m_systemBits

/-- Whether the entity holds the component of the given index: `m_componentBits.UnboundedTest(index)`. -/
def HasComponent (e : Entity) (index : ComponentIndex) : Option Bool :=
  e.m_componentBits.UnboundedTest index

end Entity

/-- The filter state of a `BaseSystem`; `m_filterResult` is the `mutable` scratch bitset. -/
structure BaseSystem where
  m_requiredComponents : Bitset
  m_excludedComponents : Bitset
  m_requiredAnyComponents : Bitset
  m_filterResult : Bitset
  m_entities : List EntityId
  m_systemIndex : SystemIndex
deriving DecidableEq

namespace BaseSystem

/-- Whether the system accepts the entity; `none` as argument is the null pointer. The result comes
with the system, whose scratch bitset the call overwrites. -/
def Filters (sys : BaseSystem) (entity : Option Entity) : Option (Bool × BaseSystem) :=
  match entity with
  | none => some (false, sys)
  | some e =>
    let components := e.GetComponentBits
    (sys.m_filterResult.PerformsAND (Bitset.Ref.other sys.m_requiredComponents) (Bitset.Ref.other components)).bind
      fun fr1 =>
        let sys1 := { sys with m_filterResult := fr1 }
        (Bitset.opNe sys1.m_filterResult sys1.m_requiredComponents).bind fun differs =>
          if differs then some (false, sys1)
          else
            (sys1.m_filterResult.PerformsAND (Bitset.Ref.other sys1.m_excludedComponents)
                (Bitset.Ref.other components)).bind fun fr2 =>
              let sys2 := { sys1 with m_filterResult := fr2 }
              sys2.m_filterResult.TestAny.bind fun excluded =>
                if excluded then some (false, sys2)
                else
                  sys2.m_requiredAnyComponents.TestAny.bind fun hasAny =>
                    if hasAny then
                      (sys2.m_requiredAnyComponents.Intersects components).bind fun shared =>
                        if !shared then some (false, sys2) else some (true, sys2)
                    else some (true, sys2)

end BaseSystem

/-- Modelled from the spec: `EntityList` (NDK/EntityList.hpp is not among the sources), the set-like
container, keyed by entity identity, of the `RenderSystem` buckets; it is kept as the list of its
entities in order. -/
abbrev EntityList := List EntityId

/-- Modelled from the spec: `EntityList::Has`, whether the entity is in the container. -/
def EntityList.Has (l : EntityList) (entity : EntityId) : Bool := decide (entity ∈ l)

/-- Modelled from the spec: `EntityList::Insert` puts an entity that is not yet in the container
at its end and changes nothing for one that is. -/
def EntityList.Insert (l : EntityList) (entity : EntityId) : EntityList :=
  if EntityList.Has l entity then l else l ++ [entity]

/-- Modelled from the spec: `EntityList::Remove` takes the entity out of the container and changes
nothing when it is absent. -/
def EntityList.Remove (l : EntityList) (entity : EntityId) : EntityList :=
  List.erase l entity

/-- The contract of `std::sort` of the standard library, the algorithm being left open: the result
rearranges the input, and it is in order when the comparison compares a key. -/
structure StdSort where
  sort : (EntityId → EntityId → Bool) → List EntityId → List EntityId
  perm : ∀ lt l, (sort lt l).Perm l
  sorted : ∀ (key : EntityId → Nat) (l : List EntityId),
    (sort (fun x y => decide (key x < key y)) l).Pairwise (fun x y => key x ≤ key y)

/-- A sort that meets the contract, for evaluating the functions on concrete inputs. -/
def insertionStdSort : StdSort where
  sort := fun lt l => List.insertionSort (fun x y => lt y x = false) l
  perm := fun lt l => List.perm_insertionSort (fun x y => lt y x = false) l
  sorted := fun key l => by
    have h := @List.sorted_insertionSort EntityId
      (fun x y => decide (key y < key x) = false) _
      ⟨fun a b => by
        rcases Nat.le_total (key a) (key b) with h | h
        · exact Or.inl (decide_eq_false (Nat.not_lt.2 h))
        · exact Or.inr (decide_eq_false (Nat.not_lt.2 h))⟩
      ⟨fun a b c hab hbc => by
        have h1 : ¬ key b < key a := of_decide_eq_false hab
        have h2 : ¬ key c < key b := of_decide_eq_false hbc
        exact decide_eq_false (by omega)⟩ l
    exact List.Pairwise.imp (fun hxy => Nat.not_lt.1 (of_decide_eq_false hxy)) h

/-- The indices that the component types used by the render system received at registration. -/
structure ComponentIndices where
  camera : ComponentIndex
  graphics : ComponentIndex
  light : ComponentIndex
  node : ComponentIndex

/-- The conjunction `x && y` of two tests that may fail, the second one evaluated only when the
first holds. -/
def andAlso (x y : Option Bool) : Option Bool :=
  x.bind fun b => if b then y else some false

/-- The buckets of a `RenderSystem` and its coordinate-system flag. -/
structure RenderSystem where
  m_cameras : EntityList
  m_drawables : EntityList
  m_lights : EntityList
  m_coordinateSystemInvalidated : Bool
deriving DecidableEq

namespace RenderSystem

/-- Takes the entity out of the three buckets. -/
def OnEntityRemoved (rs : RenderSystem) (entity : Entity) : RenderSystem :=
  { rs with
    m_cameras := EntityList.Remove rs.m_cameras entity.m_id
    m_drawables := EntityList.Remove rs.m_drawables entity.m_id
    m_lights := EntityList.Remove rs.m_lights entity.m_id }

/-- Puts the entity into, or takes it out of, each bucket according to its components; the camera
bucket is sorted after an insertion. `layer handle` stands for
`handle->GetComponent<CameraComponent>().GetLayer()`, which is `none` for an entity without camera
component (`GetComponent` asserts the component). Which handles `std::sort` compares is left open by
its contract, so the sort is taken to need the camera component of every handle of the bucket. -/
def OnEntityValidation (srt : StdSort) (idx : ComponentIndices) (layer : EntityId → Option Nat)
    (rs : RenderSystem) (entity : Entity) (justAdded : Bool) : Option RenderSystem :=
  let _ := justAdded
  (andAlso (entity.HasComponent idx.camera) (entity.HasComponent idx.node)).bind fun isCamera =>
    let cameras : Option EntityList :=
      if isCamera then
        let inserted := EntityList.Insert rs.m_cameras entity.m_id
        if inserted.all (fun handle => (layer handle).isSome) then
          some (srt.sort
            (fun handle1 handle2 => decide ((layer handle1).getD 0 < (layer handle2).getD 0))
            inserted)
        else none
      else some (EntityList.Remove rs.m_cameras entity.m_id)
    cameras.bind fun sortedCameras =>
      let rs1 : RenderSystem := { rs with m_cameras := sortedCameras }
      (andAlso (entity.HasComponent idx.graphics) (entity.HasComponent idx.node)).bind
        fun isDrawable =>
          let rs2 : RenderSystem :=
            if isDrawable then
              { rs1 with m_drawables := EntityList.Insert rs1.m_drawables entity.m_id }
            else { rs1 with m_drawables := EntityList.Remove rs1.m_drawables entity.m_id }
          (andAlso (entity.HasComponent idx.light) (entity.HasComponent idx.node)).bind
            fun isLight =>
              let rs3 : RenderSystem :=
                if isLight then { rs2 with m_lights := EntityList.Insert rs2.m_lights entity.m_id }
                else { rs2 with m_lights := EntityList.Remove rs2.m_lights entity.m_id }
              some rs3

end RenderSystem

/-- Modelled from the spec: `Entity::RemoveComponent` (Entity.cpp is not among the sources) clears
the bit of the component in the component bitset; the validation of the entity by its systems
follows. -/
def Entity.RemoveComponent (e : Entity) (index : ComponentIndex) : Option Entity :=
  (e.m_componentBits.UnboundedReset index).map fun bits => { e with m_componentBits := bits }

/-- The component indices of the light scenario: camera 0, graphics 1, light 2, node 3. -/
def scenarioIndices : ComponentIndices := { camera := 0, graphics := 1, light := 2, node := 3 }

/-- The entity of the light scenario: entity 5, holding a light and a node component only. -/
def scenarioEntity : Entity :=
  { m_id := 5, m_componentBits := Bitset.mk [12] 4, m_systemBits := Bitset.empty,
    m_enabled := true, m_valid := false, m_handles := [] }

/-- The render system of the light scenario: two cameras, one drawable, no light. -/
def scenarioSystem : RenderSystem :=
  { m_cameras := [1, 2], m_drawables := [2], m_lights := [], m_coordinateSystemInvalidated := true }

/-- The camera layers of the light scenario: layer 3 for entity 1, layer 1 for entity 2, and no
camera component on the other entities. -/
def scenarioLayer : EntityId → Option Nat :=
  fun entity => if entity = 1 then some 3 else if entity = 2 then some 1 else none

namespace Entity

/-- Whether the entity takes part: the flag `m_enabled`. -/
def IsEnabled (e : Entity) : Bool := e.m_enabled

/-- Modelled from the spec: `Entity::Invalidate` (Entity.cpp is not among the sources) asks for the
entity to be validated again by its systems; the request is appended to the record of requests
`invalidated`, and the entity itself is left as it is. -/
def Invalidate (e : Entity) (invalidated : List EntityId) : List EntityId :=
  invalidated ++ [e.m_id]

/-- Sets the flag and invalidates the entity when the flag changes; the result is the entity and
the record of invalidation requests. -/
def Enable (e : Entity) (enable : Bool) (invalidated : List EntityId) :
    Entity × List EntityId :=
  if e.m_enabled ≠ enable then
    let e1 : Entity := { e with m_enabled := enable }
    (e1, e1.Invalidate invalidated)
  else (e, invalidated)

/-- Adds the handle at the end of the list: `m_handles.push_back(handle)`. -/
def RegisterHandle (e : Entity) (handle : Nat) : Entity :=
  { e with m_handles := e.m_handles ++ [handle] }

/-- Finds the handle, swaps it with the last one and drops the last one; a handle that is not in
the list makes `std::find` return the end of the list, which cannot be dereferenced. -/
def UnregisterHandle (e : Entity) (handle : Nat) : Option Entity :=
  let it := e.m_handles.indexOf handle
  match e.m_handles[it]?, e.m_handles[e.m_handles.length - 1]? with
  | some found, some back =>
    let swapped := (e.m_handles.set it back).set (e.m_handles.length - 1) found
    some { e with m_handles := swapped.dropLast }
  | _, _ => none

end Entity

/-- A sort that meets the contract of `std::sort` and puts, among entities that compare equal, the
later one of the input first. -/
def reverseTieStdSort : StdSort where
  sort := fun lt l => List.insertionSort (fun x y => lt y x = false) l.reverse
  perm := fun lt l =>
    (List.perm_insertionSort (fun x y => lt y x = false) l.reverse).trans (List.reverse_perm l)
  sorted := fun key l => insertionStdSort.sorted key l.reverse

/-- The entity of the camera scenarios: the given identity, a camera and a node component. -/
def cameraEntity (entity : EntityId) : Entity :=
  { m_id := entity, m_componentBits := Bitset.mk [9] 4, m_systemBits := Bitset.empty,
    m_enabled := true, m_valid := false, m_handles := [] }

/-- The layers of the sorting scenario: layer 3 for entity 10, layer 1 for entity 11, layer 2 for
entity 12. -/
def sortScenarioLayer : EntityId → Option Nat :=
  fun entity =>
    if entity = 10 then some 3 else if entity = 11 then some 1
    else if entity = 12 then some 2 else none

/-- A render system with empty buckets. -/
def emptyRenderSystem : RenderSystem :=
  { m_cameras := [], m_drawables := [], m_lights := [], m_coordinateSystemInvalidated := true }

/-- The layers of the tie scenario: every camera on layer 1. -/
def tieScenarioLayer : EntityId → Option Nat := fun _ => some 1

end Ndk

namespace Nz

/-- The loop `for (x : l) body(x)` over a container, on a state that the body may update or fail
on. -/
def forEach {α σ : Type} (body : α → σ → Option σ) : List α → σ → Option σ
  | [], s => some s
  | x :: xs, s => (body x s).bind (forEach body xs)

/-- The calls that `Core` makes to the other classes of the module. -/
inductive CoreCall where
  | LogInitialize
  | HardwareInfoUninitialize
  | LogUninitialize
  | PluginManagerUninitialize
  | TaskSchedulerUninitialize
deriving DecidableEq

/-- The static state of the `Core` module class: its reference counter, an `unsigned int`, and the
record of the calls it has made to the other classes. -/
structure Core where
  s_moduleReferenceCounter : Nat
  calls : List CoreCall
deriving DecidableEq

namespace Core

/-- The module before any call: `s_moduleReferenceCounter = 0`. -/
def start : Core := { s_moduleReferenceCounter := 0, calls := [] }

/-- Takes a reference; the first one initialises the log. The result is the returned value and the
new state. -/
def Initialize (c : Core) : Bool × Core :=
  if c.s_moduleReferenceCounter > 0 then
    (true, { c with s_moduleReferenceCounter := u32 (c.s_moduleReferenceCounter + 1) })
  else
    (true, { s_moduleReferenceCounter := u32 (c.s_moduleReferenceCounter + 1),
             calls := c.calls ++ [CoreCall.LogInitialize] })

/-- Whether the module holds a reference. -/
def IsInitialized (c : Core) : Bool := decide (c.s_moduleReferenceCounter ≠ 0)

/-- The calls of the release of the module, in the order of the source. -/
def teardown : List CoreCall :=
  [CoreCall.HardwareInfoUninitialize, CoreCall.LogUninitialize,
   CoreCall.PluginManagerUninitialize, CoreCall.TaskSchedulerUninitialize]

/-- Gives a reference back; the last one releases the module. -/
def Uninitialize (c : Core) : Core :=
  if c.s_moduleReferenceCounter ≠ 1 then
    if c.s_moduleReferenceCounter > 1 then
      { c with s_moduleReferenceCounter := u32 (c.s_moduleReferenceCounter - 1) }
    else c
  else
    { s_moduleReferenceCounter := 0, calls := c.calls ++ teardown }

/-- The state after `n` calls of `Initialize` followed by `k` calls of `Uninitialize`. -/
def afterCalls (n k : Nat) (c : Core) : Core :=
  Uninitialize^[k] ((fun s => (Initialize s).2)^[n] c)

end Core

/-- The loop `while (x < number) x <<= 1;` of `GetNearestPowerOfTwo` for a 32-bit unsigned `T`, run
for at most `fuel` rounds; `none` when the rounds do not suffice. -/
def GetNearestPowerOfTwoLoop : Nat → Nat → Nat → Option Nat
  | 0, x, number => if x < number then none else some x
  | fuel + 1, x, number =>
    if x < number then GetNearestPowerOfTwoLoop fuel (u32 (x <<< 1)) number else some x

/-- The function `GetNearestPowerOfTwo` for a 32-bit unsigned `T`: `T x = 1;`, the loop,
`return x;`. -/
def GetNearestPowerOfTwo (fuel number : Nat) : Option Nat :=
  GetNearestPowerOfTwoLoop fuel 1 number

/-- An integer sample type `T` of `MixToMono`: whether it is signed, and its number of bits. -/
structure SampleType where
  isSigned : Bool
  bits : Nat
deriving DecidableEq

namespace SampleType

/-- The least value of the type, `std::numeric_limits<T>::min()`. -/
def minValue (T : SampleType) : Int :=
  if T.isSigned then -(2 ^ (T.bits - 1)) else 0

/-- The greatest value of the type, `std::numeric_limits<T>::max()`. -/
def maxValue (T : SampleType) : Int :=
  if T.isSigned then 2 ^ (T.bits - 1) - 1 else 2 ^ T.bits - 1

/-- Whether the number is a value of the type. -/
def holds (T : SampleType) (v : Int) : Prop := T.minValue ≤ v ∧ v ≤ T.maxValue

instance (T : SampleType) (v : Int) : Decidable (T.holds v) := by
  unfold holds
  exact inferInstance

/-- The conversion `static_cast<T>(v)`: the value of the type that is congruent to `v` modulo
`2 ^ bits`. -/
def cast (T : SampleType) (v : Int) : Int :=
  if T.isSigned then (v + 2 ^ (T.bits - 1)) % 2 ^ T.bits - 2 ^ (T.bits - 1) else v % 2 ^ T.bits

/-- The statement `acc += sample` in the accumulator type `Biggest` of an integer `T`: `UInt64`
for an unsigned `T`, in which the sum wraps, and `Int64` for a signed `T`, in which a sum outside
the type is undefined behaviour (`none`). -/
def accumulate (T : SampleType) (acc sample : Int) : Option Int :=
  if T.isSigned then
    if -9223372036854775808 ≤ acc + sample ∧ acc + sample < 9223372036854775808 then
      some (acc + sample)
    else none
  else some ((acc + sample) % 18446744073709551616)

/-- The quotient `acc / channelCount` in the accumulator type, which truncates toward zero; a
division by zero is undefined behaviour (`none`). -/
def divide (_T : SampleType) (acc : Int) (channelCount : Nat) : Option Int :=
  if channelCount = 0 then none else some (Int.tdiv acc channelCount)

end SampleType

/-- The memory that the sample buffers of `MixToMono` lie in: the sample at each address, counted
in samples; a pointer `T*` is an address. -/
abbrev Samples := Nat → Int

/-- The function `MixToMono<T>` for an integer `T`: for every frame `i` the samples
`input[i*channelCount + j]`, the index computed in `unsigned int`, are added up in the accumulator
and `output[i]` receives the quotient by `channelCount`, converted to `T`. `input` and `output` are
addresses of the same memory, so that the buffers may be the same or overlap. -/
def MixToMono (T : SampleType) (input output channelCount frameCount : Nat) (mem : Samples) :
    Option Samples :=
  forLoop (fun i m =>
      (forLoop (fun j acc => T.accumulate acc (m (input + u32 (u32 (i * channelCount) + j))))
        0 channelCount 0).bind fun acc =>
        (T.divide acc channelCount).map fun mean =>
          fun a => if a = output + i then T.cast mean else m a)
    0 frameCount mem

/-- The exact sum of the samples of frame `i` of the input buffer, as the specification has it:
the sum of `input[i*channelCount + j]` for `j < channelCount`. -/
def frameSum (mem : Samples) (input channelCount i : Nat) : Int :=
  ((List.range channelCount).map fun j => mem (input + (i * channelCount + j))).sum

/-- The sample that the specification states for `output[i]`: the exact sum of the frame divided by
`channelCount`, the division truncating toward zero. -/
def monoMean (mem : Samples) (input channelCount i : Nat) : Int :=
  Int.tdiv (frameSum mem input channelCount i) channelCount

/-- The 16-bit signed sample type. -/
def int16 : SampleType := { isSigned := true, bits := 16 }

/-- The 64-bit unsigned sample type. -/
def uint64 : SampleType := { isSigned := false, bits := 64 }

/-- The memory of the mixing scenario: two stereo frames, `-3, -4` and `5, 6`, at the addresses 0
to 3, and zero elsewhere. -/
def stereoSamples : Samples :=
  fun a => if a = 0 then -3 else if a = 1 then -4 else if a = 2 then 5 else if a = 3 then 6 else 0

/-- A memory with one stereo frame of the 64-bit unsigned type, `2 ^ 63` twice. -/
def wideSamples : Samples :=
  fun a => if a < 2 then 9223372036854775808 else 0

/-- A memory that holds 0 at the addresses below `2 ^ 32` and 1 from there on. -/
def longSamples : Samples :=
  fun a => if a < 4294967296 then 0 else 1

/-- Modelled from the spec: the enumeration `RendererParameter` (Enums.hpp is not among the
sources), with the enumerators that DeferredPhongLightingPass.cpp names and `other` in place of
the remaining ones. -/
inductive RendererParameter where
  | Blend
  | ColorWrite
  | DepthBuffer
  | DepthWrite
  | FaceCulling
  | StencilTest
  | other
deriving DecidableEq

/-- Modelled from the spec: the enumeration `BlendFunc`, with the enumerator that the source
names and `other` in place of the remaining ones. -/
inductive BlendFunc where
  | One
  | other
deriving DecidableEq

/-- Modelled from the spec: the enumeration `FaceSide`; `FrontAndBack` is the default argument of
the stencil functions of the renderer. -/
inductive FaceSide where
  | Back
  | Front
  | FrontAndBack
deriving DecidableEq

/-- Modelled from the spec: the enumeration `FaceFilling`, with the enumerators that the source
names and `other` in place of the remaining ones. -/
inductive FaceFilling where
  | Fill
  | Line
  | other
deriving DecidableEq

/-- Modelled from the spec: the enumeration `RendererComparison`, with the enumerators that the
source names and `other` in place of the remaining ones. -/
inductive RendererComparison where
  | Always
  | NotEqual
  | other
deriving DecidableEq

/-- Modelled from the spec: the enumeration `StencilOperation`, with the enumerators that the
source names and `other` in place of the remaining ones. -/
inductive StencilOperation where
  | Invert
  | Keep
  | Zero
  | other
deriving DecidableEq

/-- The stencil part of the render states for one side of the faces. -/
structure FaceStates where
  stencilCompare : RendererComparison
  stencilFail : StencilOperation
  stencilPass : StencilOperation
  stencilZFail : StencilOperation
  stencilMask : Nat
  stencilReference : Nat
deriving DecidableEq

/-- Modelled from the spec: the render state block `RenderStates` (RenderStates.hpp is not among
the sources), with the members that DeferredPhongLightingPass.cpp sets; `parameters` is the array
of booleans indexed by `RendererParameter`. -/
structure RenderStates where
  backFace : FaceStates
  frontFace : FaceStates
  dstBlend : BlendFunc
  srcBlend : BlendFunc
  faceCulling : FaceSide
  faceFilling : FaceFilling
  parameters : RendererParameter → Bool

/-- The assignment `parameters[param] = value`. -/
def setParameter (parameters : RendererParameter → Bool) (param : RendererParameter)
    (value : Bool) : RendererParameter → Bool :=
  fun p => if p = param then value else parameters p

/-- The shaders of the lighting pass. -/
inductive LightShader where
  | directionalLight
  | pointSpotLight
  | debugSimple
deriving DecidableEq

/-- The light volumes of the lighting pass. -/
inductive LightMesh where
  | sphere
  | cone
deriving DecidableEq

/-- The two kinds of draw of the lighting pass. -/
inductive DrawKind where
  | fullscreenQuad
  | indexedPrimitives
deriving DecidableEq

/-- The calls that `Process` makes to the renderer and to its shaders, in the order in which they
are made. A light of the queue is kept as a number that stands for its record; the uniforms of one
light (colour, factors, parameters) are sent by one `SendLightUniforms`, the ambient colour and
the eye position of the scene by one `SendSceneUniforms`. A draw carries the render states in
force when it is issued and the light whose uniforms the shader then holds. -/
inductive Command where
  | SetColorTarget
  | SetTarget
  | SetViewport
  | SetTexture (unit : Nat)
  | SetTextureSampler (unit : Nat)
  | SetClearColor
  | Clear
  | SetShader (shader : LightShader)
  | SendSceneUniforms (shader : LightShader)
  | SendLightUniforms (shader : LightShader) (light : Nat)
  | SendLightType (spot : Bool)
  | SendDiscard (discard : Bool)
  | SetIndexBuffer (mesh : LightMesh)
  | SetVertexBuffer (mesh : LightMesh)
  | SetMatrix (light : Nat)
  | Draw (kind : DrawKind) (states : RenderStates) (light : Option Nat)

/-- Modelled from the spec: the renderer (Renderer.cpp is not among the sources), an
immediate-mode command sink that holds the render state block in force; `sentLight` is the light
whose uniforms were sent last, and `calls` the record of the calls. -/
structure Renderer where
  states : RenderStates
  sentLight : Option Nat
  calls : List Command

namespace Renderer

/-- Records a call that leaves the render states as they are. -/
def call (r : Renderer) (c : Command) : Renderer := { r with calls := r.calls ++ [c] }

/-- Modelled from the spec: `Renderer::SetRenderStates` puts the whole state block in force. -/
def SetRenderStates (r : Renderer) (states : RenderStates) : Renderer := { r with states := states }

/-- Modelled from the spec: `Renderer::Enable(parameter, enable)` sets one parameter of the state
block in force. -/
def Enable (r : Renderer) (param : RendererParameter) (enable : Bool) : Renderer :=
  { r with states := { r.states with parameters := setParameter r.states.parameters param enable } }

/-- Modelled from the spec: `Renderer::SetFaceCulling`. -/
def SetFaceCulling (r : Renderer) (side : FaceSide) : Renderer :=
  { r with states := { r.states with faceCulling := side } }

/-- Modelled from the spec: `Renderer::SetFaceFilling`. -/
def SetFaceFilling (r : Renderer) (filling : FaceFilling) : Renderer :=
  { r with states := { r.states with faceFilling := filling } }

/-- Modelled from the spec: `Renderer::SetStencilCompareFunction(compareFunc, faceSide)` sets the
comparison of the side, of both sides for `FrontAndBack`. -/
def SetStencilCompareFunction (r : Renderer) (compareFunc : RendererComparison)
    (side : FaceSide) : Renderer :=
  { r with states := { r.states with
      backFace :=
        if side = FaceSide.Front then r.states.backFace
        else { r.states.backFace with stencilCompare := compareFunc }
      frontFace :=
        if side = FaceSide.Back then r.states.frontFace
        else { r.states.frontFace with stencilCompare := compareFunc } } }

/-- Modelled from the spec: `Renderer::SetStencilPassOperation(passOperation, faceSide)` sets the
operation of the side, of both sides for `FrontAndBack`. -/
def SetStencilPassOperation (r : Renderer) (passOperation : StencilOperation)
    (side : FaceSide) : Renderer :=
  { r with states := { r.states with
      backFace :=
        if side = FaceSide.Front then r.states.backFace
        else { r.states.backFace with stencilPass := passOperation }
      frontFace :=
        if side = FaceSide.Back then r.states.frontFace
        else { r.states.frontFace with stencilPass := passOperation } } }

/-- The uniforms of a light are sent to the shader. -/
def SendLightUniforms (r : Renderer) (shader : LightShader) (light : Nat) : Renderer :=
  { r with sentLight := some light, calls := r.calls ++ [Command.SendLightUniforms shader light] }

/-- A draw with the render states in force. -/
def Draw (r : Renderer) (kind : DrawKind) : Renderer :=
  r.call (Command.Draw kind r.states r.sentLight)

end Renderer

/-- The lights of the render queue of the deferred technique, by category. -/
structure DeferredRenderQueue where
  directionalLights : List Nat
  pointLights : List Nat
  spotLights : List Nat

/-- The members of `DeferredPhongLightingPass` that `Process` reads. -/
structure DeferredPhongLightingPass where
  m_lightMeshesDrawing : Bool
  m_renderQueue : DeferredRenderQueue

namespace DeferredPhongLightingPass

/-- The body of the loop over the directional lights. -/
def directionalLightStep (r : Renderer) (light : Nat) : Renderer :=
  (r.SendLightUniforms LightShader.directionalLight light).Draw DrawKind.fullscreenQuad

/-- The two draws of a light volume: into the stencil buffer, then as the zone of effect;
`spot` tells whether the loop is the one over the spot lights, which sets the face culling
again. -/
def volumeLightStep (spot : Bool) (r : Renderer) (light : Nat) : Renderer :=
  let r1 := (r.SendLightUniforms LightShader.pointSpotLight light).call (Command.SetMatrix light)
  let r2 := (((r1.Enable RendererParameter.ColorWrite false).Enable
    RendererParameter.DepthBuffer true).Enable RendererParameter.FaceCulling false)
  let r3 := r2.SetStencilCompareFunction RendererComparison.Always FaceSide.FrontAndBack
  let r4 := (r3.call (Command.SendDiscard true)).Draw DrawKind.indexedPrimitives
  let r5 := (((r4.Enable RendererParameter.ColorWrite true).Enable
    RendererParameter.DepthBuffer false).Enable RendererParameter.FaceCulling true)
  let r6 := if spot then r5.SetFaceCulling FaceSide.Front else r5
  let r7 := (r6.SetStencilCompareFunction RendererComparison.NotEqual
    FaceSide.Back).SetStencilPassOperation StencilOperation.Zero FaceSide.Back
  (r7.call (Command.SendDiscard false)).Draw DrawKind.indexedPrimitives

/-- The body of the loop that draws the mesh of a light volume when `m_lightMeshesDrawing` is
set. -/
def meshLightStep (r : Renderer) (light : Nat) : Renderer :=
  ((r.call (Command.SetMatrix light)).SendLightUniforms LightShader.debugSimple light).Draw
    DrawKind.indexedPrimitives

/-- The block `if (m_lightMeshesDrawing)`, the same after both loops over light volumes. -/
def drawLightMeshes (r : Renderer) (lights : List Nat) : Renderer :=
  let r1 := ((((r.Enable RendererParameter.DepthBuffer true).Enable
    RendererParameter.DepthWrite true).Enable RendererParameter.FaceCulling false).Enable
    RendererParameter.StencilTest false).SetFaceFilling FaceFilling.Line
  let r2 := r1.call (Command.SetShader LightShader.debugSimple)
  let r3 := lights.foldl meshLightStep r2
  ((((r3.Enable RendererParameter.DepthBuffer false).Enable
    RendererParameter.DepthWrite false).Enable RendererParameter.FaceCulling true).Enable
    RendererParameter.StencilTest true).SetFaceFilling FaceFilling.Fill

/-- The block of one category of light volumes: buffers of the mesh, light type, the loop over the
lights, and the meshes when they are asked for. -/
def volumeLights (pass : DeferredPhongLightingPass) (spot : Bool) (lights : List Nat)
    (r : Renderer) : Renderer :=
  let mesh := if spot then LightMesh.cone else LightMesh.sphere
  let r1 := ((r.call (Command.SetIndexBuffer mesh)).call (Command.SetVertexBuffer mesh)).call
    (Command.SendLightType spot)
  let r2 := lights.foldl (volumeLightStep spot) r1
  if pass.m_lightMeshesDrawing then drawLightMeshes r2 lights else r2

/-- The local `lightStates` of `Process` as it is first filled; `defaultStates` is what the
default constructor of `RenderStates` gives. -/
def lightStates (defaultStates : RenderStates) : RenderStates :=
  { defaultStates with
    dstBlend := BlendFunc.One
    srcBlend := BlendFunc.One
    parameters :=
      setParameter (setParameter (setParameter defaultStates.parameters RendererParameter.Blend true)
        RendererParameter.DepthBuffer false) RendererParameter.DepthWrite false }

/-- The local `lightStates` of `Process` as the block of the light volumes changes it. -/
def volumeStates (defaultStates : RenderStates) : RenderStates :=
  let s := lightStates defaultStates
  { s with
    parameters := setParameter s.parameters RendererParameter.StencilTest true
    faceCulling := FaceSide.Front
    backFace := { s.backFace with
      stencilMask := 255, stencilReference := 0, stencilFail := StencilOperation.Keep,
      stencilPass := StencilOperation.Keep, stencilZFail := StencilOperation.Invert }
    frontFace := { s.frontFace with
      stencilMask := 255, stencilReference := 0, stencilFail := StencilOperation.Keep,
      stencilPass := StencilOperation.Keep, stencilZFail := StencilOperation.Invert } }

/-- The block `// Directional lights` of `Process`: when the queue holds directional lights, the
state block, the shader and the uniforms of the scene are set, and every light is drawn with a
full-screen quad. -/
def directionalLights (pass : DeferredPhongLightingPass) (defaultStates : RenderStates)
    (r : Renderer) : Renderer :=
  if !pass.m_renderQueue.directionalLights.isEmpty then
    let d1 := r.SetRenderStates (lightStates defaultStates)
    let d2 := (d1.call (Command.SetShader LightShader.directionalLight)).call
      (Command.SendSceneUniforms LightShader.directionalLight)
    pass.m_renderQueue.directionalLights.foldl directionalLightStep d2
  else r

/-- The block `// Point lights/Spot lights` of `Process`: when the queue holds point or spot
lights, the state block with the stencil test, the shader and the uniforms of the scene are set,
the point lights and then the spot lights are drawn, and the stencil test is disabled. -/
def pointSpotLights (pass : DeferredPhongLightingPass) (defaultStates : RenderStates)
    (r : Renderer) : Renderer :=
  if !pass.m_renderQueue.pointLights.isEmpty || !pass.m_renderQueue.spotLights.isEmpty then
    let v1 := r.SetRenderStates (volumeStates defaultStates)
    let v2 := (v1.call (Command.SetShader LightShader.pointSpotLight)).call
      (Command.SendSceneUniforms LightShader.pointSpotLight)
    let v3 :=
      if !pass.m_renderQueue.pointLights.isEmpty then
        volumeLights pass false pass.m_renderQueue.pointLights v2
      else v2
    let v4 :=
      if !pass.m_renderQueue.spotLights.isEmpty then
        volumeLights pass true pass.m_renderQueue.spotLights v3
      else v3
    v4.Enable RendererParameter.StencilTest false
  else r

/-- The function `Process`: targets, textures and the clearing of the colour buffer, then the
directional lights, then the point and spot lights. `viewer` is `sceneData.viewer`, which the
function asserts. The result is the returned value and the renderer after the calls. -/
def Process (pass : DeferredPhongLightingPass) (defaultStates : RenderStates)
    (viewer : Option Nat) (r : Renderer) : Option (Bool × Renderer) :=
  match viewer with
  | none => none
  | some _ =>
    let r1 := ((r.call Command.SetColorTarget).call Command.SetTarget).call Command.SetViewport
    let r2 := ((((((r1.call (Command.SetTexture 0)).call (Command.SetTextureSampler 0)).call
      (Command.SetTexture 1)).call (Command.SetTextureSampler 1)).call
      (Command.SetTexture 2)).call (Command.SetTextureSampler 2))
    let r3 := (r2.call Command.SetClearColor).call Command.Clear
    some (true, pointSpotLights pass defaultStates (directionalLights pass defaultStates r3))

end DeferredPhongLightingPass

/-- A state block for evaluating the lighting pass: nothing enabled but colour and depth writes. -/
def plainStates : RenderStates :=
  { backFace := ⟨RendererComparison.Always, StencilOperation.Keep, StencilOperation.Keep,
      StencilOperation.Keep, 255, 0⟩
    frontFace := ⟨RendererComparison.Always, StencilOperation.Keep, StencilOperation.Keep,
      StencilOperation.Keep, 255, 0⟩
    dstBlend := BlendFunc.other
    srcBlend := BlendFunc.One
    faceCulling := FaceSide.Back
    faceFilling := FaceFilling.Fill
    parameters := fun p =>
      decide (p = RendererParameter.ColorWrite) || decide (p = RendererParameter.DepthWrite) }

/-- A renderer before any call, with the plain state block in force. -/
def plainRenderer : Renderer := { states := plainStates, sentLight := none, calls := [] }

namespace Bitset

/-- Whether every bit is set, as the function is written: the loop returns `false` at the first
block that is equal to its mask (the mask of the last block for the last block, the full mask for
the others), and `true` is returned after the loop. -/
def TestAll (s : Bitset) : Option Bool :=
  let lastBlockMask := s.GetLastBlockMask
  afterLoop
    (scanLoop (fun i =>
        let mask := if i = s.m_blocks.length - 1 then lastBlockMask else fullBitMask
        (s.m_blocks[i]?).map fun block => if block = mask then some false else none)
      0 s.m_blocks.length)
    (some true)

/-- The member `operator&=`: `PerformsAND(*this, bitset)`. -/
def opAndAssign (s bitset : Bitset) : Option Bitset := s.PerformsAND Ref.self (Ref.other bitset)

/-- The member `operator|=`: `PerformsOR(*this, bitset)`. -/
def opOrAssign (s bitset : Bitset) : Option Bitset := s.PerformsOR Ref.self (Ref.other bitset)

/-- The member `operator^=`: `PerformsXOR(*this, bitset)`. -/
def opXorAssign (s bitset : Bitset) : Option Bitset := s.PerformsXOR Ref.self (Ref.other bitset)

end Bitset

/-- The table `MultiplyDeBruijnBitPosition` of Math/Algorithm.inl. -/
def MultiplyDeBruijnBitPosition : List Nat :=
  [0, 9, 1, 10, 13, 21, 2, 29, 11, 14, 16, 18, 22, 25, 3, 30,
   8, 12, 20, 28, 15, 17, 24, 7, 19, 27, 23, 6, 26, 5, 4, 31]

/-- The overload of `Detail::IntegralLog2` for types of at most 32 bits: the highest set bit is
smeared over the lower ones by `number |= number >> 1`, `>> 2`, `>> 4`, `>> 8`, `>> 16`, and the
result is `MultiplyDeBruijnBitPosition[static_cast<UInt32>(number * 0x07C4ACDDU) >> 27]`; the
index is below 32, inside the table. -/
def IntegralLog2 (number : Nat) : Nat :=
  let n1 := number ||| (number >>> 1)
  let n2 := n1 ||| (n1 >>> 2)
  let n3 := n2 ||| (n2 >>> 4)
  let n4 := n3 ||| (n3 >>> 8)
  let n5 := n4 ||| (n4 >>> 16)
  MultiplyDeBruijnBitPosition.getD (u32 (n5 * 130329821) >>> 27) 0

/-- The loop of the overload of `Detail::IntegralLog2Pot` for types of more than 32 bits:
`for (int i = sizeof(T)-sizeof(UInt32); i >= 0; i -= sizeof(UInt32))`, written on the number
`words` of 32-bit words not yet looked at, so that `i` is `4 * (words - 1)`. The mask is
`T(0xFFFFFFFF) << i*8` in the type `T` of `sizeofT` bytes, the word is handed to the 32-bit
overload, and the first non-zero result is returned with `i*8` added; `0` is returned after the
loop. -/
def IntegralLog2PotLoop (sizeofT number : Nat) : Nat → Nat
  | 0 => 0
  | words + 1 =>
    let i := 4 * words
    let mask := (4294967295 <<< (i * 8)) % 2 ^ (8 * sizeofT)
    let val := u32 ((number &&& mask) >>> (i * 8))
    let log2 := IntegralLog2Pot val
    if log2 ≠ 0 then log2 + i * 8 else IntegralLog2PotLoop sizeofT number words

/-- The overload of `Detail::IntegralLog2Pot` for types of more than 32 bits, `sizeofT` being
`sizeof(T)`, a multiple of 4: the loop starts at `i = sizeof(T) - sizeof(UInt32)`. -/
def IntegralLog2PotWide (sizeofT number : Nat) : Nat :=
  IntegralLog2PotLoop sizeofT number (sizeofT / 4)

/-- The overload `GetNumberLength(signed char)`. -/
def GetNumberLengthSigned (number : Int) : Nat :=
  if number ≥ 100 then 3
  else if number ≥ 10 then 2
  else if number ≥ 0 then 1
  else if number > -10 then 2
  else if number > -100 then 3
  else 4

/-- The overload `GetNumberLength(unsigned char)`. -/
def GetNumberLengthUnsigned (number : Nat) : Nat :=
  if number ≥ 100 then 3
  else if number ≥ 10 then 2
  else 1

/-- The base-10 representation of an integer as the specification describes it: the decimal
digits of the absolute value, after a `-` for a negative number. -/
def decimalRepresentation (n : Int) : List Char :=
  if n < 0 then '-' :: Nat.toDigits 10 n.natAbs else Nat.toDigits 10 n.natAbs

/-- The string `symbols` of `NumberToString` and `StringToNumber`, without its terminator. -/
def symbols : List Char :=
  ['0', '1', '2', '3', '4', '5', '6', '7', '8', '9', 'A', 'B', 'C', 'D', 'E', 'F', 'G', 'H', 'I',
   'J', 'K', 'L', 'M', 'N', 'O', 'P', 'Q', 'R', 'S', 'T', 'U', 'V', 'W', 'X', 'Y', 'Z']

/-- The greatest value of `long long`. -/
def longLongMax : Int := 9223372036854775807

/-- The least value of `long long`. -/
def longLongMin : Int := -9223372036854775808

/-- The negation of a `long long`; the negation of the least value overflows, which is undefined
behaviour, and gives no result. -/
def negateLongLong (number : Int) : Option Int :=
  if -number > longLongMax then none else some (-number)

/-- The conversion of an `unsigned long long` to `long long`, which keeps the value modulo
2^64. -/
def toLongLong (total : Nat) : Int :=
  if total % 18446744073709551616 ≥ 9223372036854775808 then
    ((total % 18446744073709551616 : Nat) : Int) - 18446744073709551616
  else ((total % 18446744073709551616 : Nat) : Int)

/-- The loop `do { str.Append(symbols[number % radix]); number /= radix; } while (number > 0)`
of `NumberToString`, with the truncating division and remainder of C++; `fuel` bounds the number
of rounds. A string is the list of its characters and `Append` adds at the end. -/
def NumberToStringLoop (radix : Nat) : Nat → Int → List Char → Option (List Char)
  | 0, _, _ => none
  | fuel + 1, number, str =>
    let index := Int.tmod number radix
    if index < 0 then none
    else
      match symbols[index.toNat]? with
      | none => none
      | some symbol =>
        let number1 := Int.tdiv number radix
        if number1 > 0 then NumberToStringLoop radix fuel number1 (str ++ [symbol])
        else some (str ++ [symbol])

/-- The function `NumberToString(long long number, UInt8 radix)`, with the check of the radix
that `NAZARA_MATH_SAFE` enables (the empty string is returned). `str.Reserve`, which only sets
the capacity of the string, is left out; `String::Append` and `String::Reverse` (String.cpp is
not among the sources) are taken to add a character at the end and to reverse the characters.
The loop is given 64 rounds, more than a 63-bit number has digits in any radix. -/
def NumberToString (number : Int) (radix : Nat) : Option (List Char) :=
  if radix < 2 ∨ radix > 36 then some []
  else if number = 0 then some ['0']
  else
    let negative := decide (number < 0)
    (if number < 0 then negateLongLong number else some number).bind fun number1 =>
      (NumberToStringLoop radix 64 number1 []).map fun str =>
        (if negative then str ++ ['-'] else str).reverse

/-- Modelled from the spec: `String::Simplify` (String.cpp is not among the sources) removes the
white space at both ends of the string and replaces every run of white space inside it by one
space. -/
def Simplify (str : List Char) : List Char :=
  [' '].intercalate ((str.splitOnP Char.isWhitespace).filter fun word => !word.isEmpty)

/-- Modelled from the spec: `String::ToUpper` gives the string with its letters in upper case. -/
def ToUpper (str : List Char) : List Char := str.map Char.toUpper

/-- Modelled from the spec: `String::StartsWith(character)`. -/
def StartsWith (str : List Char) (character : Char) : Bool := str.head? = some character

/-- The body of the loop of `StringToNumber` on one character: a space is skipped; otherwise
the total is multiplied by the radix and the position of the character in `symbols` is added, in
`unsigned long long`. `strchr` also finds the terminator of `symbols`, at position 36. The result
is `none` when the function sets `*ok = false` and returns 0. -/
def digitStep (radix total : Nat) (digit : Char) : Option Nat :=
  if digit = ' ' then some total
  else
    let total1 := (total * radix) % 18446744073709551616
    let c := (symbols ++ [Char.ofNat 0]).indexOf digit
    if c < 37 ∧ c < radix then some ((total1 + c) % 18446744073709551616) else none

/-- The loop `do { ... } while (*++digit)` of `StringToNumber` over the characters it visits. -/
def digitLoop (radix : Nat) : List Char → Nat → Option Nat
  | [], total => some total
  | digit :: rest, total => (digitStep radix total digit).bind (digitLoop radix rest)

/-- The function `StringToNumber(String str, UInt8 radix, bool* ok)`, with the check of the radix
that `NAZARA_MATH_SAFE` enables; the result is the returned number and the value given to `*ok`.
The loop visits the character at `&str[negative ? 1 : 0]` (the terminator when the string ends
there) and then the characters up to the terminator. The negation of the total, as a
`long long`, gives no result when it overflows. -/
def StringToNumber (str : List Char) (radix : Nat) : Option (Int × Bool) :=
  if radix < 2 ∨ radix > 36 then some (0, false)
  else
    let str1 := Simplify str
    let str2 := if radix > 10 then ToUpper str1 else str1
    let negative := StartsWith str2 '-'
    let digits := str2.drop (if negative then 1 else 0)
    let visited := digits.headD (Char.ofNat 0) :: digits.tail.takeWhile fun c => c ≠ Char.ofNat 0
    match digitLoop radix visited 0 with
    | none => some (0, false)
    | some total =>
      if negative then (negateLongLong (toLongLong total)).map fun number => (number, true)
      else some (toLongLong total, true)

/-- The expression `StringToNumber(NumberToString(number, radix), radix, &ok)`. -/
def numberRoundTrip (number : Int) (radix : Nat) : Option (Int × Bool) :=
  (NumberToString number radix).bind fun str => StringToNumber str radix

/-- Modelled from the spec: the members of `ParticleSystem` that the functions below use
(ParticleSystem.hpp is not among the sources). The buffer is kept slot by slot: one entry stands
for the `m_particleSize` bytes of a particle, and the constructor gives the buffer
`m_maxParticleCount` slots. `m_dyingParticles` is the `std::set` ordered by `std::greater` that
the comment in `ApplyControllers` describes, kept as the list of its elements from the greatest to
the least. -/
structure ParticleSystem where
  m_buffer : List Nat
  m_dyingParticles : List Nat
  m_maxParticleCount : Nat
  m_particleCount : Nat
  m_processing : Bool
deriving DecidableEq

namespace ParticleSystem

/-- Modelled from the spec: `std::set::insert` on a set ordered by `std::greater`; an element that
the set already holds is not added again. -/
def dyingInsert (index : Nat) : List Nat → List Nat
  | [] => [index]
  | x :: xs =>
    if index > x then index :: x :: xs
    else if index = x then x :: xs
    else x :: dyingInsert index xs

/-- The constructor: no particle, not processing, the buffer sized by `ResizeBuffer`; `fill` is
the content of a slot that was never written. -/
def create (maxParticleCount fill : Nat) : ParticleSystem :=
  { m_buffer := List.replicate maxParticleCount fill
    m_dyingParticles := []
    m_maxParticleCount := maxParticleCount
    m_particleCount := 0
    m_processing := false }

/-- The function `GetParticleCount`. -/
def GetParticleCount (s : ParticleSystem) : Nat := s.m_particleCount

/-- The function `GetMaxParticleCount`. -/
def GetMaxParticleCount (s : ParticleSystem) : Nat := s.m_maxParticleCount

/-- The function `CreateParticles(count)`: the result is the index of the first created slot
(`none` for the null pointer) and the system after the call. The sum `m_particleCount + count`
and the addition `m_particleCount += count` are in `unsigned int`. -/
def CreateParticles (s : ParticleSystem) (count : Nat) : Option Nat × ParticleSystem :=
  if count = 0 then (none, s)
  else if u32 (s.m_particleCount + count) > s.m_maxParticleCount then (none, s)
  else (some s.m_particleCount, { s with m_particleCount := u32 (s.m_particleCount + count) })

/-- The function `CreateParticle`. -/
def CreateParticle (s : ParticleSystem) : Option Nat × ParticleSystem := s.CreateParticles 1

/-- The function `GenerateParticles(count)`; a generator is given as the content it writes into
the created slots, `generate slot old` being the new content of the slot of that index. A
generator that writes outside the buffer gives no result. -/
def GenerateParticles (s : ParticleSystem) (generators : List (Nat → Nat → Nat)) (count : Nat) :
    Option (Option Nat × ParticleSystem) :=
  match s.CreateParticles count with
  | (none, s1) => some (none, s1)
  | (some ptr, s1) =>
    if ptr + count ≤ s1.m_buffer.length then
      let written := generators.foldl
        (fun buffer generate =>
          (List.range buffer.length).map fun slot =>
            if ptr ≤ slot ∧ slot < ptr + count then generate slot (buffer.getD slot 0)
            else buffer.getD slot 0)
        s1.m_buffer
      some (some ptr, { s1 with m_buffer := written })
    else none

/-- The function `GenerateParticle`. -/
def GenerateParticle (s : ParticleSystem) (generators : List (Nat → Nat → Nat)) :
    Option (Option Nat × ParticleSystem) := s.GenerateParticles generators 1

/-- The decrement `--m_particleCount` of `KillParticle`, in `unsigned int`. -/
def decrementCount (s : ParticleSystem) : ParticleSystem :=
  { s with m_particleCount := u32 (s.m_particleCount + 4294967295) }

/-- The call `std::memcpy(&m_buffer[index*m_particleSize], &m_buffer[m_particleCount*m_particleSize],
m_particleSize)` of `KillParticle`, slot by slot: the slot `m_particleCount` is copied over the
slot `index`. A slot outside the buffer gives no result; the copy of a slot onto itself leaves the
buffer as it is. -/
def moveLast (s : ParticleSystem) (index : Nat) : Option ParticleSystem :=
  match s.m_buffer[s.m_particleCount]? with
  | none => none
  | some last =>
    if index < s.m_buffer.length then some { s with m_buffer := s.m_buffer.set index last }
    else none

/-- The function `KillParticle(index)`: during the processing the index joins the dying
particles; otherwise the count is decremented and, when it is still positive, the last living
particle takes the place of the killed one. -/
def KillParticle (s : ParticleSystem) (index : Nat) : Option ParticleSystem :=
  if s.m_processing then some { s with m_dyingParticles := dyingInsert index s.m_dyingParticles }
  else
    let s1 := s.decrementCount
    if s1.m_particleCount > 0 then s1.moveLast index else some s1

/-- The function `KillParticles`. -/
def KillParticles (s : ParticleSystem) : ParticleSystem := { s with m_particleCount := 0 }

/-- Modelled from the spec: a controller (ParticleController.hpp is not among the sources), as
far as the dying particles are concerned: the indices that its `Apply` hands to `KillParticle`,
in the order of the calls. -/
abbrev Controller := List Nat

/-- The call `controller->Apply(...)` of a controller. -/
def applyController (controller : Controller) (s : ParticleSystem) : Option ParticleSystem :=
  forEach (fun index t => t.KillParticle index) controller s

/-- The function `ApplyControllers`: the controllers run with `m_processing` set; then the dying
particles are killed from the greatest index to the least, or all particles at once when the
dying ones are not fewer than the living ones; the set of dying particles is cleared. -/
def ApplyControllers (s : ParticleSystem) (controllers : List Controller) :
    Option ParticleSystem :=
  let s1 := { s with m_processing := true }
  (forEach applyController controllers s1).bind fun s2 =>
    let s3 := { s2 with m_processing := false }
    (if s3.m_dyingParticles.length < s3.m_particleCount then
        forEach (fun index t => t.KillParticle index) s3.m_dyingParticles s3
      else some s3.KillParticles).map fun s4 =>
      { s4 with m_dyingParticles := [] }

/-- The living particles of a system: the content of the slots below the count. -/
def living (s : ParticleSystem) : List Nat := s.m_buffer.take s.m_particleCount

/-- The content of the slots of a buffer below `count` whose index is not among `dead`, in the
order of the slots. -/
def survivors (buffer : List Nat) (count : Nat) (dead : List Nat) : List Nat :=
  ((List.range count).filter fun i => i ∉ dead).map fun i => buffer.getD i 0

/-- A system for evaluating: five living particles 10, 11, 12, 13, 14 in a buffer of eight
slots. -/
def fiveParticles : ParticleSystem :=
  { m_buffer := [10, 11, 12, 13, 14, 0, 0, 0]
    m_dyingParticles := []
    m_maxParticleCount := 8
    m_particleCount := 5
    m_processing := false }

end ParticleSystem

/-- What a statement about the shader of a draw looks at: the shader bound when the draw is
issued, the light whose uniforms were sent last and the shader they were sent to, whether colour
writes are enabled, and the filling of the faces. -/
structure ShaderAtDraw where
  bound : Option LightShader
  light : Option Nat
  sentTo : Option LightShader
  colorWrite : Bool
  faceFilling : FaceFilling
deriving DecidableEq

/-- The draws of a record of calls, each with the shader that the last `SetShader` before it has
bound and the shader that the last uniforms of a light were sent to; `bound` and `sentTo` are the
values before the first call. -/
def shadersAtDraws : Option LightShader → Option LightShader → List Command → List ShaderAtDraw
  | _, _, [] => []
  | _, sentTo, Command.SetShader shader :: calls => shadersAtDraws (some shader) sentTo calls
  | bound, _, Command.SendLightUniforms shader _ :: calls =>
    shadersAtDraws bound (some shader) calls
  | bound, sentTo, Command.Draw _ states light :: calls =>
    { bound := bound, light := light, sentTo := sentTo,
      colorWrite := states.parameters RendererParameter.ColorWrite,
      faceFilling := states.faceFilling } :: shadersAtDraws bound sentTo calls
  | bound, sentTo, _ :: calls => shadersAtDraws bound sentTo calls

/-- A lighting scenario with the debug drawing of the light meshes: one point light (1) and one
spot light (2). -/
def debugScenario (lightMeshesDrawing : Bool) : DeferredPhongLightingPass :=
  { m_lightMeshesDrawing := lightMeshesDrawing
    m_renderQueue := { directionalLights := [], pointLights := [1], spotLights := [2] } }

/-- The function `NumberEquals(a, b, maxDifference)` of Math/Algorithm.inl, on rationals in the
place of `float`: the greater operand first, then `diff <= maxDifference`. -/
def NumberEquals (a b maxDifference : ℚ) : Bool :=
  let a1 := if b > a then b else a
  let b1 := if b > a then a else b
  decide (a1 - b1 ≤ maxDifference)

end Nz

namespace Ndk

open Nz

/-- The entities that the handles refer to: an `EntityHandle` is kept as the identity of its
entity, and `none` is the lookup of a handle whose entity is gone, which cannot be dereferenced. -/
abbrev Entities := EntityId → Option Entity

/-- The assignment to the entity that a handle refers to. -/
def Entities.update (world : Entities) (handle : EntityId) (e : Entity) : Entities :=
  fun x => if x = handle then some e else world x

namespace Entity

/-- Sets the bit of the system in the system bitset: `m_systemBits.UnboundedSet(index)`, the value
defaulting to `true`. -/
def RegisterSystem (e : Entity) (index : SystemIndex) : Option Entity :=
  (e.m_systemBits.UnboundedSet index true).map fun bits => { e with m_systemBits := bits }

/-- Clears the bit of the system in the system bitset: `m_systemBits.UnboundedReset(index)`. -/
def UnregisterSystem (e : Entity) (index : SystemIndex) : Option Entity :=
  (e.m_systemBits.UnboundedReset index).map fun bits => { e with m_systemBits := bits }

/-- The assertion `HasComponent(index)` of `GetComponent(index)`; the component itself is not
kept, so that the call gives nothing back but its success. -/
def GetComponent (e : Entity) (index : ComponentIndex) : Option Unit :=
  (e.HasComponent index).bind fun has => if has then some () else none

end Entity

/-- The destructor of `BaseSystem`: every entity of `m_entities` is dereferenced and unregisters
the system. -/
def BaseSystem.destroy (sys : BaseSystem) (world : Entities) : Option Entities :=
  forEach (fun entity w =>
      (w entity).bind fun e =>
        (e.UnregisterSystem sys.m_systemIndex).map fun e1 => Entities.update w entity e1)
    sys.m_entities world

/-- The call `handle->GetComponent<ComponentType>()`: the handle is dereferenced and the entity
asserts the component. -/
def getComponentOf (world : Entities) (handle : EntityId) (index : ComponentIndex) : Option Unit :=
  (world handle).bind fun e => e.GetComponent index

/-- Modelled from the spec: the enumeration `ProjectionType` (Enums.hpp is not among the
sources). -/
inductive ProjectionType where
  | Orthogonal
  | Perspective
deriving DecidableEq

/-- A rectangle of `float`, on rationals. -/
structure Rectf where
  x : ℚ
  y : ℚ
  width : ℚ
  height : ℚ
deriving DecidableEq

/-- A rectangle of `int`. -/
structure Recti where
  x : Int
  y : Int
  width : Int
  height : Int
deriving DecidableEq

/-- The conversion of a `float` to `int`, which drops the fractional part. -/
def toInt (q : ℚ) : Int := Int.tdiv q.num q.den

/-- Modelled from the spec: a render target, as far as the camera reads it: `GetWidth` and
`GetHeight`. -/
structure RenderTarget where
  width : Nat
  height : Nat
deriving DecidableEq

/-- A projection matrix, kept as the call that built it: `MakeOrtho(0, width, 0, height, zNear,
zFar)` or `MakePerspective(fov, aspectRatio, zNear, zFar)`; `m_fov`, `m_zNear` and `m_zFar` are
left out, no function below changes them. `initial` is the matrix before the first update. -/
inductive ProjectionMatrix where
  | initial
  | ortho (width height : ℚ)
  | perspective (aspectRatio : ℚ)
deriving DecidableEq

/-- A view matrix, kept as the node transform that `MakeViewMatrix` built it from. -/
inductive ViewMatrix where
  | initial
  | ofNode (transform : Nat)
deriving DecidableEq

/-- The calls that `ApplyView` makes to the renderer. -/
inductive ViewCall where
  | SetProjectionMatrix (matrix : ProjectionMatrix)
  | SetViewMatrix (matrix : ViewMatrix)
  | SetTarget (target : RenderTarget)
  | SetViewport (viewport : Recti)
deriving DecidableEq

/-- Modelled from the spec: the members of `CameraComponent` that the functions below use
(CameraComponent.hpp is not among the sources). `m_node` is the global position and rotation of
the node component of the entity, `none` when the entity has no node component. The three
`...Updated` members are the dirty flags, a value being dirty when its member is `false`. -/
structure CameraComponent where
  m_projectionType : ProjectionType
  m_target : Option RenderTarget
  m_targetRegion : Rectf
  m_size : ℚ × ℚ
  m_aspectRatio : ℚ
  m_viewport : Recti
  m_projectionMatrix : ProjectionMatrix
  m_viewMatrix : ViewMatrix
  m_node : Option Nat
  m_projectionMatrixUpdated : Bool
  m_viewMatrixUpdated : Bool
  m_viewportUpdated : Bool
deriving DecidableEq

namespace CameraComponent

/-- Modelled from the spec: `InvalidateProjectionMatrix` (CameraComponent.inl is not among the
sources) marks the projection matrix as dirty. -/
def InvalidateProjectionMatrix (c : CameraComponent) : CameraComponent :=
  { c with m_projectionMatrixUpdated := false }

/-- The function `UpdateViewport`: the target region is scaled by the size of the target, the
aspect ratio is compared with the stored one and, when it differs, stored, the projection matrix
being invalidated for a perspective projection; the viewport is stored and marked as updated. -/
def UpdateViewport (c : CameraComponent) : Option CameraComponent :=
  match c.m_target with
  | none => none
  | some target =>
    let targetWidth := target.width
    let targetHeight := max target.height 1
    let fViewport : Rectf :=
      { x := c.m_targetRegion.x * targetWidth
        y := c.m_targetRegion.y * targetHeight
        width := c.m_targetRegion.width * targetWidth
        height := c.m_targetRegion.height * targetHeight }
    let aspectRatio := fViewport.width / fViewport.height
    let c1 :=
      if !Nz.NumberEquals c.m_aspectRatio aspectRatio (1 / 1000) then
        let c2 := { c with m_aspectRatio := aspectRatio }
        if c.m_projectionType = ProjectionType.Perspective then c2.InvalidateProjectionMatrix
        else c2
      else c
    some { c1 with
      m_viewport := ⟨toInt fViewport.x, toInt fViewport.y, toInt fViewport.width,
        toInt fViewport.height⟩
      m_viewportUpdated := true }

/-- Modelled from the spec: `EnsureViewportUpdate` (CameraComponent.inl is not among the sources)
recomputes the viewport when it is dirty. -/
def EnsureViewportUpdate (c : CameraComponent) : Option CameraComponent :=
  if !c.m_viewportUpdated then c.UpdateViewport else some c

/-- The function `UpdateProjectionMatrix`: an orthogonal projection is built from `m_size`, or
from the viewport, ensured first, when a component of `m_size` is not positive; a perspective
projection is built from the aspect ratio after the viewport is ensured; the matrix is marked as
updated. -/
def UpdateProjectionMatrix (c : CameraComponent) : Option CameraComponent :=
  (match c.m_projectionType with
    | ProjectionType.Orthogonal =>
      if c.m_size.1 ≤ 0 ∨ c.m_size.2 ≤ 0 then
        c.EnsureViewportUpdate.map fun (c1 : CameraComponent) =>
          { c1 with m_projectionMatrix :=
              ProjectionMatrix.ortho c1.m_viewport.width c1.m_viewport.height }
      else some { c with m_projectionMatrix := ProjectionMatrix.ortho c.m_size.1 c.m_size.2 }
    | ProjectionType.Perspective =>
      c.EnsureViewportUpdate.map fun (c1 : CameraComponent) =>
        { c1 with m_projectionMatrix := ProjectionMatrix.perspective c1.m_aspectRatio }).map
    fun (c2 : CameraComponent) => { c2 with m_projectionMatrixUpdated := true }

/-- The function `UpdateViewMatrix`, which asserts the node component. -/
def UpdateViewMatrix (c : CameraComponent) : Option CameraComponent :=
  match c.m_node with
  | none => none
  | some transform =>
    some { c with m_viewMatrix := ViewMatrix.ofNode transform, m_viewMatrixUpdated := true }

/-- Modelled from the spec: `EnsureProjectionMatrixUpdate` recomputes the projection matrix when
it is dirty. -/
def EnsureProjectionMatrixUpdate (c : CameraComponent) : Option CameraComponent :=
  if !c.m_projectionMatrixUpdated then c.UpdateProjectionMatrix else some c

/-- Modelled from the spec: `EnsureViewMatrixUpdate` recomputes the view matrix when it is
dirty. -/
def EnsureViewMatrixUpdate (c : CameraComponent) : Option CameraComponent :=
  if !c.m_viewMatrixUpdated then c.UpdateViewMatrix else some c

/-- The function `ApplyView`, which asserts the target: the projection matrix, the view matrix and
the viewport are ensured, in this order, and handed to the renderer with the target. The result
is the camera after the call and the calls made to the renderer. -/
def ApplyView (c : CameraComponent) : Option (CameraComponent × List ViewCall) :=
  match c.m_target with
  | none => none
  | some _ =>
    c.EnsureProjectionMatrixUpdate.bind fun c1 =>
      c1.EnsureViewMatrixUpdate.bind fun c2 =>
        c2.EnsureViewportUpdate.bind fun c3 =>
          match c3.m_target with
          | none => none
          | some target =>
            some (c3,
              [ViewCall.SetProjectionMatrix c3.m_projectionMatrix,
               ViewCall.SetViewMatrix c3.m_viewMatrix,
               ViewCall.SetTarget target,
               ViewCall.SetViewport c3.m_viewport])

/-- A camera for evaluating: a perspective projection built for the aspect ratio 1, a target of
800 by 600 that the whole region covers, and the viewport dirty, as after the target has been
resized. -/
def resizedCamera : CameraComponent :=
  { m_projectionType := ProjectionType.Perspective
    m_target := some ⟨800, 600⟩
    m_targetRegion := ⟨0, 0, 1, 1⟩
    m_size := (0, 0)
    m_aspectRatio := 1
    m_viewport := ⟨0, 0, 600, 600⟩
    m_projectionMatrix := ProjectionMatrix.perspective 1
    m_viewMatrix := ViewMatrix.ofNode 0
    m_node := some 0
    m_projectionMatrixUpdated := true
    m_viewMatrixUpdated := true
    m_viewportUpdated := false }

end CameraComponent

/-- An element of the render queue: the renderables of a graphics component, or the light of a
light component. -/
inductive QueueEntry where
  | renderable (drawable : EntityId)
  | light (light : EntityId)
deriving DecidableEq

/-- Modelled from the spec: what `RenderSystem::OnUpdate` acts on outside the system (the render
technique, its render queue and the graphics and light components are not among the sources).
`m_renderQueue` is the queue of the render technique, which `Clear` empties and to which
`AddToRenderQueue` of a component adds its element; `draws` records each `Draw` of the technique,
with the viewer of its scene data and the queue it renders; `invalidatedTransforms` records the
calls of `InvalidateTransformMatrix` and `appliedViews` those of `ApplyView` that have returned, by
entity. `cameraComponents` holds the camera component of the entities that have one, which
`ApplyView` updates, and `viewCalls` records the calls that `ApplyView` makes to the renderer. -/
structure RenderOutput where
  m_renderQueue : List QueueEntry
  draws : List (EntityId × List QueueEntry)
  invalidatedTransforms : List EntityId
  appliedViews : List EntityId
  cameraComponents : EntityId → Option CameraComponent
  viewCalls : List ViewCall

namespace RenderSystem

/-- The call `camComponent.ApplyView()` of `OnUpdate` on the camera component of an entity: the
function `CameraComponent::ApplyView` runs on the component, which is stored back as the call
leaves it, and the calls it makes to the renderer are recorded. There is no result when the entity
has no camera component or when `ApplyView` fails an assertion (no target, or a dirty view matrix
on an entity without node component). -/
def applyViewOf (camera : EntityId) (o : RenderOutput) : Option RenderOutput :=
  (o.cameraComponents camera).bind fun camComponent =>
    camComponent.ApplyView.map fun applied =>
      { o with
        cameraComponents := fun x => if x = camera then some applied.1 else o.cameraComponents x
        viewCalls := o.viewCalls ++ applied.2
        appliedViews := o.appliedViews ++ [camera] }

/-- The update of the render system: the transform of every drawable is invalidated when the
coordinate system has changed, then for every camera the view is applied, the queue is cleared and
filled by the drawables and the lights, and the technique draws. -/
def OnUpdate (idx : ComponentIndices) (world : Entities) (rs : RenderSystem) (out : RenderOutput) :
    Option (RenderSystem × RenderOutput) :=
  let invalidation : Option (RenderSystem × RenderOutput) :=
    if rs.m_coordinateSystemInvalidated then
      (forEach (fun drawable o =>
          (getComponentOf world drawable idx.graphics).map fun _ =>
            { o with invalidatedTransforms := o.invalidatedTransforms ++ [drawable] })
        rs.m_drawables out).map fun o => ({ rs with m_coordinateSystemInvalidated := false }, o)
    else some (rs, out)
  invalidation.bind fun state =>
    let rs1 := state.1
    (forEach (fun camera o =>
        (getComponentOf world camera idx.camera).bind fun _ =>
          (applyViewOf camera o).bind fun o1 =>
            let o2 := { o1 with m_renderQueue := [] }
            (forEach (fun drawable q =>
                (getComponentOf world drawable idx.graphics).bind fun _ =>
                  (getComponentOf world drawable idx.node).map fun _ =>
                    { q with
                      m_renderQueue := q.m_renderQueue ++ [QueueEntry.renderable drawable] })
              rs1.m_drawables o2).bind fun o3 =>
              (forEach (fun light q =>
                  (getComponentOf world light idx.light).bind fun _ =>
                    (getComponentOf world light idx.node).map fun _ =>
                      { q with m_renderQueue := q.m_renderQueue ++ [QueueEntry.light light] })
                rs1.m_lights o3).map fun o4 =>
                { o4 with draws := o4.draws ++ [(camera, o4.m_renderQueue)] })
      rs1.m_cameras state.2).map fun o => (rs1, o)

end RenderSystem

/-- The modules of the engine that `Sdk` initialises. -/
inductive Module where
  | Lua
  | Noise
  | Physics
  | Utility
  | Audio
  | Graphics
deriving DecidableEq

/-- The components that `Sdk::Initialize` registers. -/
inductive SdkComponent where
  | CollisionComponent
  | NodeComponent
  | PhysicsComponent
  | VelocityComponent
  | CameraComponent
  | LightComponent
  | ListenerComponent
  | GraphicsComponent
deriving DecidableEq

/-- The systems that `Sdk::Initialize` registers. -/
inductive SdkSystem where
  | PhysicsSystem
  | VelocitySystem
  | ListenerSystem
  | RenderSystem
deriving DecidableEq

/-- The calls that `Sdk::Initialize` and `Sdk::Uninitialize` make. -/
inductive SdkCall where
  | moduleInitialize (m : Module)
  | moduleUninitialize (m : Module)
  | baseComponentInitialize
  | initializeComponent (c : SdkComponent)
  | baseSystemInitialize
  | initializeSystem (s : SdkSystem)
deriving DecidableEq

/-- The static state of `Sdk`: its reference counter, an `unsigned int`, and the record of the
calls that it has made and that have returned. -/
structure Sdk where
  s_referenceCounter : Nat
  calls : List SdkCall
deriving DecidableEq

namespace Sdk

/-- The SDK before any call: `s_referenceCounter = 0`. -/
def start : Sdk := { s_referenceCounter := 0, calls := [] }

/-- The body of the `try` block of `Initialize`, in the order of the source; `server` tells whether
`NDK_SERVER` is defined, which leaves the client parts out. -/
def initializeCalls (server : Bool) : List SdkCall :=
  [SdkCall.moduleInitialize Module.Lua, SdkCall.moduleInitialize Module.Noise,
   SdkCall.moduleInitialize Module.Physics, SdkCall.moduleInitialize Module.Utility] ++
  (if server then []
   else [SdkCall.moduleInitialize Module.Audio, SdkCall.moduleInitialize Module.Graphics]) ++
  [SdkCall.baseComponentInitialize,
   SdkCall.initializeComponent SdkComponent.CollisionComponent,
   SdkCall.initializeComponent SdkComponent.NodeComponent,
   SdkCall.initializeComponent SdkComponent.PhysicsComponent,
   SdkCall.initializeComponent SdkComponent.VelocityComponent] ++
  (if server then []
   else [SdkCall.initializeComponent SdkComponent.CameraComponent,
         SdkCall.initializeComponent SdkComponent.LightComponent,
         SdkCall.initializeComponent SdkComponent.ListenerComponent,
         SdkCall.initializeComponent SdkComponent.GraphicsComponent]) ++
  [SdkCall.baseSystemInitialize,
   SdkCall.initializeSystem SdkSystem.PhysicsSystem,
   SdkCall.initializeSystem SdkSystem.VelocitySystem] ++
  (if server then []
   else [SdkCall.initializeSystem SdkSystem.ListenerSystem,
         SdkCall.initializeSystem SdkSystem.RenderSystem])

/-- Runs the calls of a `try` block in order; `throws call` tells whether the call throws, which
ends the block. The result tells whether the block ran to its end, with the record of the calls
that have returned. -/
def tryCalls (throws : SdkCall → Bool) : List SdkCall → List SdkCall → Bool × List SdkCall
  | [], done => (true, done)
  | call :: rest, done =>
    if throws call then (false, done) else tryCalls throws rest (done ++ [call])

/-- Takes a reference (`s_referenceCounter++`); the first one runs the initialisation inside
`try`, and the `catch` clause returns `false`. The result is the returned value and the new
state. -/
def Initialize (server : Bool) (throws : SdkCall → Bool) (sdk : Sdk) : Bool × Sdk :=
  let sdk1 : Sdk := { sdk with s_referenceCounter := u32 (sdk.s_referenceCounter + 1) }
  if sdk.s_referenceCounter > 0 then (true, sdk1)
  else
    let block := tryCalls throws (initializeCalls server) sdk1.calls
    if block.1 then (true, { sdk1 with calls := block.2 })
    else (false, { sdk1 with calls := block.2 })

/-- The calls of the release of the engine, in the order of the source. -/
def uninitializeCalls (server : Bool) : List SdkCall :=
  (if server then []
   else [SdkCall.moduleUninitialize Module.Audio, SdkCall.moduleUninitialize Module.Graphics]) ++
  [SdkCall.moduleUninitialize Module.Lua, SdkCall.moduleUninitialize Module.Noise,
   SdkCall.moduleUninitialize Module.Physics, SdkCall.moduleUninitialize Module.Utility]

/-- Gives a reference back; the last one uninitialises the engine. -/
def Uninitialize (server : Bool) (sdk : Sdk) : Sdk :=
  if sdk.s_referenceCounter ≠ 1 then
    if sdk.s_referenceCounter > 1 then
      { sdk with s_referenceCounter := u32 (sdk.s_referenceCounter - 1) }
    else sdk
  else
    { s_referenceCounter := 0, calls := sdk.calls ++ uninitializeCalls server }

/-- The modules that a record of calls initialises, in order. -/
def initialized (calls : List SdkCall) : List Module :=
  calls.filterMap fun call =>
    match call with
    | SdkCall.moduleInitialize m => some m
    | _ => none

/-- The modules that a record of calls uninitialises, in order. -/
def uninitialized (calls : List SdkCall) : List Module :=
  calls.filterMap fun call =>
    match call with
    | SdkCall.moduleUninitialize m => some m
    | _ => none

/-- Whether the module is one of the client-only modules, those inside `#ifndef NDK_SERVER`. -/
def clientOnly (m : Module) : Bool :=
  match m with
  | Module.Audio => true
  | Module.Graphics => true
  | _ => false

end Sdk

/-- The entities of the destruction scenario: entity 1 registered to the systems 0 and 1, entity 2
to the systems 1 and 2, entity 3 to the system 1. -/
def trackedEntities : Entities :=
  fun x =>
    if x = 1 then some (Entity.mk 1 Bitset.empty (Bitset.mk [3] 2) true true [])
    else if x = 2 then some (Entity.mk 2 Bitset.empty (Bitset.mk [6] 3) true true [])
    else if x = 3 then some (Entity.mk 3 Bitset.empty (Bitset.mk [2] 2) true true [])
    else none

/-- The system of the destruction scenario: the system of index 1, tracking the entities 1
and 2. -/
def trackingSystem : BaseSystem :=
  BaseSystem.mk Bitset.empty Bitset.empty Bitset.empty Bitset.empty [1, 2] 1

/-- The entities of the update scenario: the cameras 11 and 12, the drawable 20 (a graphics and a
node component) and the light 5 of the light scenario. -/
def updateScenarioEntities : Entities :=
  fun x =>
    if x = 11 then some (cameraEntity 11)
    else if x = 12 then some (cameraEntity 12)
    else if x = 20 then some (Entity.mk 20 (Bitset.mk [10] 4) Bitset.empty true true [])
    else if x = 5 then some scenarioEntity
    else none

/-- The render system of the update scenario, its coordinate system just changed. -/
def updateScenarioSystem : RenderSystem :=
  { m_cameras := [11, 12], m_drawables := [20], m_lights := [5],
    m_coordinateSystemInvalidated := true }

/-- A camera component of the update scenario: an orthogonal projection of 800 by 600 on a target
of 800 by 600; the viewport and the projection matrix are clean, the view matrix is clean or
dirty as asked, and the entity has a node component. -/
def scenarioCamera (viewMatrixUpdated : Bool) : CameraComponent :=
  { m_projectionType := ProjectionType.Orthogonal
    m_target := some ⟨800, 600⟩
    m_targetRegion := ⟨0, 0, 1, 1⟩
    m_size := (800, 600)
    m_aspectRatio := 4 / 3
    m_viewport := ⟨0, 0, 800, 600⟩
    m_projectionMatrix := ProjectionMatrix.ortho 800 600
    m_viewMatrix := ViewMatrix.initial
    m_node := some 7
    m_projectionMatrixUpdated := true
    m_viewMatrixUpdated := viewMatrixUpdated
    m_viewportUpdated := true }

/-- The surroundings of the update scenario: a render queue that still holds a light from an
earlier frame, no call recorded yet, the camera 11 with a clean view matrix and the camera 12 with
a dirty one. -/
def updateScenarioOutput : RenderOutput :=
  { m_renderQueue := [QueueEntry.light 99], draws := [], invalidatedTransforms := [],
    appliedViews := []
    cameraComponents := fun x =>
      if x = 11 then some (scenarioCamera true)
      else if x = 12 then some (scenarioCamera false)
      else none
    viewCalls := [] }

/-- The surroundings of the update scenario when the target of the camera 12 has been released:
the camera component has no target any more. -/
def releasedTargetOutput : RenderOutput :=
  { updateScenarioOutput with
    cameraComponents := fun x =>
      if x = 11 then some (scenarioCamera true)
      else if x = 12 then some { scenarioCamera false with m_target := none }
      else none }

/-- The camera layers after the entity 2 of the light scenario has lost its camera component:
layer 3 for entity 1, and no camera component on the other entities. -/
def lostCameraLayer : EntityId → Option Nat :=
  fun entity => if entity = 1 then some 3 else none

/-- The entity 2 of the light scenario after it has lost its camera component: a graphics and a
node component only. It is still in the camera bucket of the scenario. -/
def lostCameraEntity : Entity :=
  { m_id := 2, m_componentBits := Bitset.mk [10] 4, m_systemBits := Bitset.empty,
    m_enabled := true, m_valid := false, m_handles := [] }

/-- The failure scenario of `Sdk::Initialize`: `Nz::Graphics::Initialize()` throws, every other
call returns. -/
def graphicsThrows : SdkCall → Bool :=
  fun call => decide (call = SdkCall.moduleInitialize Module.Graphics)

/-- Every call of `Sdk::Initialize` returns. -/
def nothingThrows : SdkCall → Bool := fun _ => false

end Ndk

namespace Nz
namespace Bitset

theorem GetBitIndex_eq (bit : Nat) : GetBitIndex bit = bit % 32 :=
  Nat.and_pow_two_sub_one_eq_mod bit 5

theorem GetBlockIndex_eq (bit : Nat) : GetBlockIndex bit = bit / 32 := rfl

theorem ComputeBlockCount_eq (n : Nat) :
    ComputeBlockCount n = n / 32 + (if n % 32 ≠ 0 then 1 else 0) := by
  unfold ComputeBlockCount
  rw [GetBitIndex_eq, GetBlockIndex_eq]

theorem ComputeBlockCount_mono {m n : Nat} (h : m ≤ n) : ComputeBlockCount m ≤ ComputeBlockCount n := by
  rw [ComputeBlockCount_eq, ComputeBlockCount_eq]
  split <;> split <;> omega

theorem lt_ComputeBlockCount {i n : Nat} (h : i < n) : i / 32 < ComputeBlockCount n := by
  rw [ComputeBlockCount_eq]
  split <;> omega

theorem u32_one_shiftLeft {k : Nat} (hk : k < 32) : u32 (1 <<< k) = 2 ^ k := by
  unfold u32
  rw [Nat.one_shiftLeft]
  apply Nat.mod_eq_of_lt
  exact Nat.pow_lt_pow_right (by decide) hk

theorem GetLastBlockMask_eq (s : Bitset) : s.GetLastBlockMask = 2 ^ (s.m_bitCount % 32) - 1 := by
  unfold GetLastBlockMask
  rw [GetBitIndex_eq, u32_one_shiftLeft (Nat.mod_lt _ (by decide))]

theorem mask_ne_zero_iff (k : Nat) : 2 ^ k - 1 ≠ 0 ↔ k ≠ 0 := by
  constructor
  · intro h hk
    subst hk
    exact h rfl
  · intro hk
    have : 2 ^ 1 ≤ 2 ^ k := Nat.pow_le_pow_right (by decide) (Nat.pos_of_ne_zero hk)
    omega

theorem blockAt_of_lt {s : Bitset} {j : Nat} (h : j < s.m_blocks.length) :
    s.m_blocks[j]? = some (s.blockAt j) := by
  unfold blockAt
  rw [List.getElem?_eq_getElem h]
  rfl

theorem blockAt_of_ge {s : Bitset} {j : Nat} (h : s.m_blocks.length ≤ j) : s.blockAt j = 0 := by
  unfold blockAt
  rw [List.getElem?_eq_none h]
  rfl

theorem writeBlock_spec {s : Bitset} {i : Nat} (v : Nat) (h : i < s.m_blocks.length) :
    ∃ r, s.writeBlock i v = some r ∧ r.m_bitCount = s.m_bitCount ∧
      r.m_blocks.length = s.m_blocks.length ∧
      ∀ j, r.blockAt j = if j = i then v else s.blockAt j := by
  refine ⟨{ s with m_blocks := s.m_blocks.set i v }, ?_, rfl, ?_, ?_⟩
  · unfold writeBlock
    rw [if_pos h]
  · simp
  · intro j
    unfold blockAt
    simp only [List.getElem?_set]
    by_cases hj : j = i
    · subst hj
      simp [h]
    · have : ¬ i = j := fun e => hj e.symm
      simp [hj, this]

theorem ResetExtraBits_spec (s : Bitset) (hlen : s.m_blocks.length = ComputeBlockCount s.m_bitCount) :
    ∃ r, s.ResetExtraBits = some r ∧ r.m_bitCount = s.m_bitCount ∧
      r.m_blocks.length = s.m_blocks.length ∧
      ∀ j, r.blockAt j =
        if j + 1 = s.m_blocks.length ∧ s.m_bitCount % 32 ≠ 0
        then s.blockAt j &&& (2 ^ (s.m_bitCount % 32) - 1) else s.blockAt j := by
  unfold ResetExtraBits
  simp only [GetLastBlockMask_eq]
  by_cases hk : s.m_bitCount % 32 = 0
  · refine ⟨s, ?_, rfl, rfl, ?_⟩
    · simp [hk]
    · intro j
      simp [hk]
  · have hpos : 0 < s.m_blocks.length := by
      rw [hlen, ComputeBlockCount_eq, if_pos hk]
      omega
    have hlast : s.m_blocks.length - 1 < s.m_blocks.length := by omega
    rw [if_pos ((mask_ne_zero_iff _).2 hk), blockAt_of_lt hlast]
    obtain ⟨r, hr, hbc, hl, hb⟩ :=
      writeBlock_spec (s.blockAt (s.m_blocks.length - 1) &&& (2 ^ (s.m_bitCount % 32) - 1)) hlast
    refine ⟨r, hr, hbc, hl, ?_⟩
    intro j
    rw [hb j]
    by_cases hj : j = s.m_blocks.length - 1
    · have : j + 1 = s.m_blocks.length := by omega
      rw [if_pos hj, if_pos ⟨this, hk⟩, hj]
    · have : ¬ (j + 1 = s.m_blocks.length) := by omega
      rw [if_neg hj, if_neg (fun h => this h.1)]

theorem blockAt_lt_of_mem {s : Bitset} (h : ∀ x ∈ s.m_blocks, x < 4294967296) (j : Nat) :
    s.blockAt j < 4294967296 := by
  by_cases hj : j < s.m_blocks.length
  · have := blockAt_of_lt hj
    exact h _ (List.getElem?_mem this)
  · rw [blockAt_of_ge (Nat.le_of_not_lt hj)]
    decide

theorem mem_lt_of_blockAt {s : Bitset} (h : ∀ j, s.blockAt j < 4294967296) :
    ∀ x ∈ s.m_blocks, x < 4294967296 := by
  intro x hx
  obtain ⟨j, hj, rfl⟩ := List.getElem_of_mem hx
  have := h j
  unfold blockAt at this
  rw [List.getElem?_eq_getElem hj] at this
  exact this

theorem and_two_pow_ne_zero_iff (x k : Nat) : (x &&& 2 ^ k ≠ 0) ↔ x.testBit k = true := by
  constructor
  · intro h
    by_contra hb
    apply h
    apply Nat.eq_of_testBit_eq
    intro i
    rw [Nat.testBit_and, Nat.testBit_two_pow, Nat.zero_testBit]
    by_cases hki : k = i
    · subst hki
      simp [hb]
    · simp [hki]
  · intro hb h
    have := Nat.testBit_and x (2 ^ k) k
    rw [h, Nat.zero_testBit, hb, Nat.testBit_two_pow] at this
    simp at this

theorem bitAt_of_ge_length {s : Bitset} {i : Nat} (h : s.m_blocks.length ≤ i / 32) :
    s.bitAt i = false := by
  unfold bitAt
  rw [blockAt_of_ge h, Nat.zero_testBit]

theorem wellFormed_iff (s : Bitset) :
    WellFormed s ↔
      s.m_blocks.length = ComputeBlockCount s.m_bitCount ∧
      (∀ j, s.blockAt j < 4294967296) ∧
      ∀ i, s.m_bitCount ≤ i → s.bitAt i = false := by
  unfold WellFormed
  rw [GetBitIndex_eq]
  constructor
  · rintro ⟨hlen, hlt, hlast⟩
    refine ⟨hlen, blockAt_lt_of_mem hlt, ?_⟩
    intro i hi
    by_cases hj : s.m_blocks.length ≤ i / 32
    · exact bitAt_of_ge_length hj
    · have hj2 : i / 32 < s.m_blocks.length := Nat.lt_of_not_le hj
      rw [hlen, ComputeBlockCount_eq] at hj2
      by_cases hk : s.m_bitCount % 32 = 0
      · rw [if_neg (by simpa using hk)] at hj2
        omega
      · rw [if_pos hk] at hj2
        have hidx : i / 32 = s.m_blocks.length - 1 := by
          rw [hlen, ComputeBlockCount_eq, if_pos hk]
          omega
        have hb := hlast hk
        unfold bitAt blockAt
        rw [hidx]
        apply Nat.testBit_lt_two_pow
        apply Nat.lt_of_lt_of_le hb
        apply Nat.pow_le_pow_right (by decide)
        omega
  · rintro ⟨hlen, hlt, hz⟩
    refine ⟨hlen, mem_lt_of_blockAt hlt, ?_⟩
    intro hk
    apply Nat.lt_pow_two_of_testBit
    intro j hj
    by_cases hj32 : j < 32
    · have := hz (32 * (s.m_blocks.length - 1) + j) (by
        rw [hlen, ComputeBlockCount_eq, if_pos hk]
        omega)
      unfold bitAt blockAt at this
      have e1 : (32 * (s.m_blocks.length - 1) + j) / 32 = s.m_blocks.length - 1 := by omega
      have e2 : (32 * (s.m_blocks.length - 1) + j) % 32 = j := by omega
      rw [e1, e2] at this
      exact this
    · have hb := hlt (s.m_blocks.length - 1)
      unfold blockAt at hb
      apply Nat.testBit_lt_two_pow
      apply Nat.lt_of_lt_of_le hb
      have : (4294967296 : Nat) = 2 ^ 32 := by norm_num
      rw [this]
      apply Nat.pow_le_pow_right (by decide)
      omega

theorem WellFormed.length_eq {s : Bitset} (h : WellFormed s) :
    s.m_blocks.length = ComputeBlockCount s.m_bitCount := h.1

theorem WellFormed.blockAt_lt {s : Bitset} (h : WellFormed s) (j : Nat) :
    s.blockAt j < 4294967296 := ((wellFormed_iff s).1 h).2.1 j

theorem WellFormed.bitAt_of_ge {s : Bitset} (h : WellFormed s) {i : Nat} (hi : s.m_bitCount ≤ i) :
    s.bitAt i = false := ((wellFormed_iff s).1 h).2.2 i hi

theorem Test_eq_bitAt {s : Bitset} (hlen : s.m_blocks.length = ComputeBlockCount s.m_bitCount)
    {i : Nat} (hi : i < s.m_bitCount) : s.Test i = some (s.bitAt i) := by
  unfold Test
  have hj : i / 32 < s.m_blocks.length := by
    rw [hlen]
    exact lt_ComputeBlockCount hi
  rw [if_pos hi, GetBlockIndex_eq, blockAt_of_lt hj, GetBitIndex_eq,
    u32_one_shiftLeft (Nat.mod_lt _ (by decide))]
  simp only [Option.some.injEq]
  unfold bitAt
  by_cases hb : (s.blockAt (i / 32)).testBit (i % 32) = true
  · rw [hb]
    exact decide_eq_true ((and_two_pow_ne_zero_iff _ _).2 hb)
  · have hb2 : (s.blockAt (i / 32)).testBit (i % 32) = false := by simpa using hb
    rw [hb2]
    exact decide_eq_false (fun h => hb ((and_two_pow_ne_zero_iff _ _).1 h))

theorem UnboundedTest_eq_bitAt {s : Bitset} (h : WellFormed s) (i : Nat) :
    s.UnboundedTest i = some (s.bitAt i) := by
  unfold UnboundedTest
  by_cases hi : i < s.m_bitCount
  · rw [if_pos hi, Test_eq_bitAt h.length_eq hi]
  · rw [if_neg hi, h.bitAt_of_ge (Nat.le_of_not_lt hi)]

theorem ResetExtraBits_bits (s : Bitset) (hlen : s.m_blocks.length = ComputeBlockCount s.m_bitCount) :
    ∃ r, s.ResetExtraBits = some r ∧ r.m_bitCount = s.m_bitCount ∧
      r.m_blocks.length = s.m_blocks.length ∧ (∀ j, r.blockAt j ≤ s.blockAt j) ∧
      ∀ i, r.bitAt i = (s.bitAt i && decide (i < s.m_bitCount)) := by
  obtain ⟨r, hr, hbc, hl, hb⟩ := ResetExtraBits_spec s hlen
  refine ⟨r, hr, hbc, hl, ?_, ?_⟩
  · intro j
    rw [hb j]
    split
    · exact Nat.and_le_left
    · exact Nat.le_refl _
  · intro i
    by_cases hj : s.m_blocks.length ≤ i / 32
    · rw [bitAt_of_ge_length hj, bitAt_of_ge_length (hl ▸ hj)]
      rfl
    · have hj2 : i / 32 < s.m_blocks.length := Nat.lt_of_not_le hj
      unfold bitAt
      rw [hb (i / 32)]
      rw [hlen, ComputeBlockCount_eq] at hj2
      by_cases hk : s.m_bitCount % 32 = 0
      · have hlt : i < s.m_bitCount := by
          rw [if_neg (by simpa using hk)] at hj2
          omega
        rw [if_neg (fun h => h.2 hk)]
        simp [hlt]
      · rw [if_pos hk] at hj2
        by_cases hlast : i / 32 + 1 = s.m_blocks.length
        · rw [if_pos ⟨hlast, hk⟩, Nat.testBit_and, Nat.testBit_two_pow_sub_one]
          have : (i % 32 < s.m_bitCount % 32) ↔ i < s.m_bitCount := by
            rw [hlen, ComputeBlockCount_eq, if_pos hk] at hlast
            omega
          simp only [this]
        · rw [if_neg (fun h => hlast h.1)]
          have hlt : i < s.m_bitCount := by
            rw [hlen, ComputeBlockCount_eq, if_pos hk] at hlast
            omega
          simp [hlt]

/-- Extra bits are cleared by `ResetExtraBits` on every bitset that holds exactly the blocks its
size needs, blocks fitting the block type. -/
theorem ResetExtraBits_wellFormed {s r : Bitset}
    (hlen : s.m_blocks.length = ComputeBlockCount s.m_bitCount)
    (hlt : ∀ j, s.blockAt j < 4294967296) (hr : s.ResetExtraBits = some r) : WellFormed r := by
  obtain ⟨r', hr', hbc, hl, hle, hbit⟩ := ResetExtraBits_bits s hlen
  rw [hr] at hr'
  cases hr'
  rw [wellFormed_iff]
  refine ⟨by rw [hl, hbc, hlen], fun j => Nat.lt_of_le_of_lt (hle j) (hlt j), ?_⟩
  intro i hi
  rw [hbit i]
  have : ¬ i < s.m_bitCount := by omega
  simp [this]

theorem vecResize_length (l : List Nat) (n v : Nat) : (vecResize l n v).length = n := by
  unfold vecResize
  rw [List.length_append, List.length_take, List.length_replicate]
  omega

theorem vecResize_getElem? (l : List Nat) (n v j : Nat) :
    (vecResize l n v)[j]? = if j < n then some ((l[j]?).getD v) else none := by
  unfold vecResize
  rw [List.getElem?_append, List.length_take, List.getElem?_take, List.getElem?_replicate]
  by_cases hjn : j < n
  · by_cases hjl : j < l.length
    · have h1 : j < min n l.length := by omega
      rw [if_pos h1, if_pos hjn, if_pos hjn, List.getElem?_eq_getElem hjl]
      rfl
    · have h1 : ¬ j < min n l.length := by omega
      have h2 : j - min n l.length < n - l.length := by omega
      rw [if_neg h1, if_pos h2, if_pos hjn, List.getElem?_eq_none (Nat.le_of_not_lt hjl)]
      rfl
  · have h1 : ¬ j < min n l.length := by omega
    have h2 : ¬ j - min n l.length < n - l.length := by omega
    rw [if_neg h1, if_neg h2, if_neg hjn]

theorem forLoop_write (body : Nat → Bitset → Option Bitset) (g : Nat → Nat) :
    ∀ (n lo : Nat) (s : Bitset),
      (∀ i t, lo ≤ i → i < lo + n → body i t = t.writeBlock i (g i)) →
      lo + n ≤ s.m_blocks.length →
      ∃ r, forLoop body lo n s = some r ∧ r.m_bitCount = s.m_bitCount ∧
        r.m_blocks.length = s.m_blocks.length ∧
        ∀ j, r.blockAt j = if lo ≤ j ∧ j < lo + n then g j else s.blockAt j := by
  intro n
  induction n with
  | zero =>
    intro lo s _ _
    refine ⟨s, rfl, rfl, rfl, ?_⟩
    intro j
    rw [if_neg (by omega)]
  | succ n ih =>
    intro lo s hbody hlen
    obtain ⟨s1, hs1, hbc1, hl1, hb1⟩ := writeBlock_spec (s := s) (i := lo) (g lo) (by omega)
    obtain ⟨r, hr, hbc, hl, hb⟩ := ih (lo + 1) s1
      (fun i t h1 h2 => hbody i t (by omega) (by omega)) (by omega)
    refine ⟨r, ?_, hbc.trans hbc1, hl.trans hl1, ?_⟩
    · simp only [forLoop]
      rw [hbody lo s (Nat.le_refl _) (by omega), hs1]
      exact hr
    · intro j
      rw [hb j, hb1 j]
      by_cases h1 : lo + 1 ≤ j ∧ j < lo + 1 + n
      · rw [if_pos h1, if_pos (by omega)]
      · rw [if_neg h1]
        by_cases h2 : j = lo
        · rw [if_pos h2, if_pos (by omega), h2]
        · rw [if_neg h2, if_neg (by omega)]

theorem GetBlock_of_lt {s : Bitset} {j : Nat} (h : j < s.m_blocks.length) :
    s.GetBlock j = some (s.blockAt j) := blockAt_of_lt h

theorem bitAt_ext_block {s t : Bitset} {i : Nat} (h : s.blockAt (i / 32) = t.blockAt (i / 32)) :
    s.bitAt i = t.bitAt i := by
  unfold bitAt
  rw [h]

theorem blockAt_zeros (n c j : Nat) : (Bitset.mk (vecResize [] n 0) c).blockAt j = 0 := by
  unfold blockAt
  simp only [vecResize_getElem?]
  split <;> simp

/-- What `PerformsAND` computes on operands, other than the object, that hold exactly the blocks
their sizes need. -/
theorem PerformsAND_spec (self a b : Bitset)
    (ha : a.m_blocks.length = ComputeBlockCount a.m_bitCount)
    (hb : b.m_blocks.length = ComputeBlockCount b.m_bitCount) :
    ∃ r, PerformsAND self (Ref.other a) (Ref.other b) = some r ∧
      r.m_bitCount = max a.m_bitCount b.m_bitCount ∧
      r.m_blocks.length = ComputeBlockCount (max a.m_bitCount b.m_bitCount) ∧
      (∀ j, r.blockAt j ≤ a.blockAt j &&& b.blockAt j) ∧
      ∀ i, r.bitAt i = ((a.bitAt i && b.bitAt i) && decide (i < max a.m_bitCount b.m_bitCount)) := by
  have hunf : PerformsAND self (Ref.other a) (Ref.other b) =
      (forLoop (fun i s => (a.GetBlock i).bind fun x => (b.GetBlock i).bind fun y =>
          s.writeBlock i (x &&& y)) 0 (min a.m_blocks.length b.m_blocks.length)
        (Bitset.mk (vecResize [] (max a.m_blocks.length b.m_blocks.length) 0)
          (max a.m_bitCount b.m_bitCount))).bind ResetExtraBits := rfl
  rw [hunf]
  obtain ⟨r0, hr0, hbc0, hl0, hb0⟩ := forLoop_write
    (fun i s => (a.GetBlock i).bind fun x => (b.GetBlock i).bind fun y => s.writeBlock i (x &&& y))
    (fun j => a.blockAt j &&& b.blockAt j) (min a.m_blocks.length b.m_blocks.length) 0
    (Bitset.mk (vecResize [] (max a.m_blocks.length b.m_blocks.length) 0)
      (max a.m_bitCount b.m_bitCount))
    (by
      intro i t _ hi
      have h1 : i < a.m_blocks.length := by omega
      have h2 : i < b.m_blocks.length := by omega
      simp only [GetBlock_of_lt h1, GetBlock_of_lt h2, Option.some_bind])
    (by
      simp only [vecResize_length]
      omega)
  simp only [vecResize_length] at hl0
  have hcbc : max a.m_blocks.length b.m_blocks.length =
      ComputeBlockCount (max a.m_bitCount b.m_bitCount) := by
    rw [ha, hb]
    rcases Nat.le_total a.m_bitCount b.m_bitCount with h | h
    · rw [Nat.max_eq_right h, Nat.max_eq_right (ComputeBlockCount_mono h)]
    · rw [Nat.max_eq_left h, Nat.max_eq_left (ComputeBlockCount_mono h)]
  have hblock : ∀ j, r0.blockAt j = a.blockAt j &&& b.blockAt j := by
    intro j
    rw [hb0 j]
    by_cases hj : j < min a.m_blocks.length b.m_blocks.length
    · rw [if_pos ⟨Nat.zero_le _, by omega⟩]
    · rw [if_neg (by omega)]
      have hz := blockAt_zeros (max a.m_blocks.length b.m_blocks.length) (max a.m_bitCount b.m_bitCount) j
      rw [hz]
      by_cases hja : j < a.m_blocks.length
      · have hjb : b.m_blocks.length ≤ j := by omega
        rw [blockAt_of_ge hjb, Nat.and_zero]
      · rw [blockAt_of_ge (Nat.le_of_not_lt hja), Nat.zero_and]
  obtain ⟨r, hr, hbc, hl, hle, hbit⟩ := ResetExtraBits_bits r0 (by rw [hl0, hbc0, hcbc])
  refine ⟨r, ?_, hbc.trans hbc0, by rw [hl, hl0, hcbc], ?_, ?_⟩
  · rw [hr0]
    exact hr
  · intro j
    rw [← hblock j]
    exact hle j
  · intro i
    rw [hbit i, hbc0]
    unfold bitAt
    rw [hblock, Nat.testBit_and]

theorem PerformsOR_eq (self : Bitset) (a b : Ref) :
    PerformsOR self a b = performsWith (fun x y => x ||| y) self a b := rfl

theorem PerformsXOR_eq (self : Bitset) (a b : Ref) :
    PerformsXOR self a b = performsWith (fun x y => x ^^^ y) self a b := rfl

theorem blockAt_mk_of_ge (l : List Nat) (c : Nat) {j : Nat} (h : l.length ≤ j) :
    (Bitset.mk l c).blockAt j = 0 := blockAt_of_ge (s := Bitset.mk l c) h

theorem performsWith_spec (op : Nat → Nat → Nat) (h0r : ∀ x, op x 0 = x) (h0l : ∀ x, op 0 x = x)
    (self a b : Bitset)
    (ha : a.m_blocks.length = ComputeBlockCount a.m_bitCount)
    (hb : b.m_blocks.length = ComputeBlockCount b.m_bitCount) :
    ∃ r, performsWith op self (Ref.other a) (Ref.other b) = some r ∧ r.m_bitCount = (greaterOf a b).m_bitCount ∧
      r.m_blocks.length = ComputeBlockCount (greaterOf a b).m_bitCount ∧
      (∀ j, r.blockAt j ≤ op (a.blockAt j) (b.blockAt j)) ∧
      ∀ i, r.bitAt i = ((op (a.blockAt (i / 32)) (b.blockAt (i / 32))).testBit (i % 32) &&
        decide (i < (greaterOf a b).m_bitCount)) := by
  -- the facts about the greater and the lesser operand that the proof uses
  obtain ⟨g, l, hg, hl, hlen, hmin, hle, hgblock⟩ :
      ∃ g l : Bitset, g = greaterOf a b ∧
        l = (if a.GetBlockCount > b.GetBlockCount then b else a) ∧
        g.m_blocks.length = ComputeBlockCount g.m_bitCount ∧
        l.m_blocks.length = min a.m_blocks.length b.m_blocks.length ∧
        l.m_blocks.length ≤ g.m_blocks.length ∧
        (∀ j, l.m_blocks.length ≤ j → g.blockAt j = op (a.blockAt j) (b.blockAt j)) := by
    refine ⟨_, _, rfl, rfl, ?_⟩
    unfold greaterOf
    simp only [GetBlockCount]
    by_cases h : a.m_blocks.length > b.m_blocks.length
    · simp only [if_pos h]
      refine ⟨ha, by omega, by omega, ?_⟩
      intro j hj
      rw [blockAt_of_ge (s := b) hj, h0r]
    · simp only [if_neg h]
      refine ⟨hb, by omega, by omega, ?_⟩
      intro j hj
      rw [blockAt_of_ge (s := a) hj, h0l]
  have hunf : performsWith op self (Ref.other a) (Ref.other b) =
      ((forLoop (fun i s => (a.GetBlock i).bind fun x => (b.GetBlock i).bind fun y =>
          s.writeBlock i (op x y)) 0 l.m_blocks.length
          (Bitset.mk (vecResize self.m_blocks g.m_blocks.length 0) g.m_bitCount)).bind fun s2 =>
        forLoop (fun i s => (g.GetBlock i).bind fun x => s.writeBlock i x)
          l.m_blocks.length (g.m_blocks.length - l.m_blocks.length) s2).bind ResetExtraBits := by
    rw [hg, hl]
    unfold greaterOf performsWith
    simp only [GetBlockCount, Ref.get]
    by_cases h : a.m_blocks.length > b.m_blocks.length
    · simp only [if_pos h]
      rfl
    · simp only [if_neg h]
      rfl
  rw [hunf, ← hg]
  obtain ⟨r1, hr1, hbc1, hl1, hb1⟩ := forLoop_write
    (fun i s => (a.GetBlock i).bind fun x => (b.GetBlock i).bind fun y => s.writeBlock i (op x y))
    (fun j => op (a.blockAt j) (b.blockAt j)) l.m_blocks.length 0
    (Bitset.mk (vecResize self.m_blocks g.m_blocks.length 0) g.m_bitCount)
    (by
      intro i t _ hi
      have h1 : i < a.m_blocks.length := by omega
      have h2 : i < b.m_blocks.length := by omega
      simp only [GetBlock_of_lt h1, GetBlock_of_lt h2, Option.some_bind])
    (by
      simp only [vecResize_length]
      omega)
  simp only [vecResize_length] at hl1
  obtain ⟨r2, hr2, hbc2, hl2, hb2⟩ := forLoop_write
    (fun i s => (g.GetBlock i).bind fun x => s.writeBlock i x)
    (fun j => g.blockAt j) (g.m_blocks.length - l.m_blocks.length) l.m_blocks.length r1
    (by
      intro i t _ hi
      have h1 : i < g.m_blocks.length := by omega
      simp only [GetBlock_of_lt h1, Option.some_bind])
    (by omega)
  have hblock : ∀ j, r2.blockAt j = op (a.blockAt j) (b.blockAt j) := by
    intro j
    rw [hb2 j]
    by_cases hj : l.m_blocks.length ≤ j ∧ j < l.m_blocks.length + (g.m_blocks.length - l.m_blocks.length)
    · rw [if_pos hj]
      exact hgblock j hj.1
    · rw [if_neg hj, hb1 j]
      by_cases hj1 : j < l.m_blocks.length
      · rw [if_pos ⟨Nat.zero_le _, by omega⟩]
      · rw [if_neg (by omega), blockAt_mk_of_ge _ _ (by rw [vecResize_length]; omega),
          ← hgblock j (by omega), blockAt_of_ge (by omega)]
  obtain ⟨r, hr, hbc, hlr, hler, hbit⟩ := ResetExtraBits_bits r2 (by
    rw [hl2, hl1, hbc2, hbc1]
    exact hlen)
  refine ⟨r, ?_, ?_, ?_, ?_, ?_⟩
  · rw [hr1]
    simp only [Option.some_bind]
    rw [hr2]
    exact hr
  · rw [hbc, hbc2, hbc1]
  · rw [hlr, hl2, hl1]
    exact hlen
  · intro j
    rw [← hblock j]
    exact hler j
  · intro i
    rw [hbit i, hbc2, hbc1]
    unfold bitAt
    rw [hblock]

/-- What `PerformsOR` computes on operands that hold exactly the blocks their sizes need. -/
theorem PerformsOR_spec (self a b : Bitset)
    (ha : a.m_blocks.length = ComputeBlockCount a.m_bitCount)
    (hb : b.m_blocks.length = ComputeBlockCount b.m_bitCount) :
    ∃ r, PerformsOR self (Ref.other a) (Ref.other b) = some r ∧ r.m_bitCount = (greaterOf a b).m_bitCount ∧
      r.m_blocks.length = ComputeBlockCount (greaterOf a b).m_bitCount ∧
      (∀ j, r.blockAt j ≤ a.blockAt j ||| b.blockAt j) ∧
      ∀ i, r.bitAt i = ((a.bitAt i || b.bitAt i) && decide (i < (greaterOf a b).m_bitCount)) := by
  obtain ⟨r, hr, hbc, hl, hle, hbit⟩ := performsWith_spec (fun x y => x ||| y)
    (fun x => Nat.or_zero x) (fun x => Nat.zero_or x) self a b ha hb
  refine ⟨r, by rw [PerformsOR_eq]; exact hr, hbc, hl, hle, ?_⟩
  intro i
  rw [hbit i]
  unfold bitAt
  simp only [Nat.testBit_or]

/-- What `PerformsXOR` computes on operands that hold exactly the blocks their sizes need. -/
theorem PerformsXOR_spec (self a b : Bitset)
    (ha : a.m_blocks.length = ComputeBlockCount a.m_bitCount)
    (hb : b.m_blocks.length = ComputeBlockCount b.m_bitCount) :
    ∃ r, PerformsXOR self (Ref.other a) (Ref.other b) = some r ∧ r.m_bitCount = (greaterOf a b).m_bitCount ∧
      r.m_blocks.length = ComputeBlockCount (greaterOf a b).m_bitCount ∧
      (∀ j, r.blockAt j ≤ a.blockAt j ^^^ b.blockAt j) ∧
      ∀ i, r.bitAt i = ((a.bitAt i ^^ b.bitAt i) && decide (i < (greaterOf a b).m_bitCount)) := by
  obtain ⟨r, hr, hbc, hl, hle, hbit⟩ := performsWith_spec (fun x y => x ^^^ y)
    (fun x => Nat.xor_zero x) (fun x => Nat.zero_xor x) self a b ha hb
  refine ⟨r, by rw [PerformsXOR_eq]; exact hr, hbc, hl, hle, ?_⟩
  intro i
  rw [hbit i]
  unfold bitAt
  simp only [Nat.testBit_xor]

theorem wellFormed_of_parts {r : Bitset} (hl : r.m_blocks.length = ComputeBlockCount r.m_bitCount)
    (hlt : ∀ j, r.blockAt j < 4294967296)
    (hbit : ∀ i, r.m_bitCount ≤ i → r.bitAt i = false) : WellFormed r :=
  (wellFormed_iff r).2 ⟨hl, hlt, hbit⟩

theorem lt_two_pow_32 : (4294967296 : Nat) = 2 ^ 32 := by norm_num

theorem PerformsAND_wellFormed {self a b r : Bitset} (ha : WellFormed a) (hb : WellFormed b)
    (h : PerformsAND self (Ref.other a) (Ref.other b) = some r) : WellFormed r := by
  obtain ⟨r', hr', hbc, hl, hle, hbit⟩ := PerformsAND_spec self a b ha.length_eq hb.length_eq
  rw [h] at hr'
  cases hr'
  refine wellFormed_of_parts (by rw [hl, hbc]) ?_ ?_
  · intro j
    exact Nat.lt_of_le_of_lt (Nat.le_trans (hle j) Nat.and_le_left) (ha.blockAt_lt j)
  · intro i hi
    rw [hbit i]
    have : ¬ i < max a.m_bitCount b.m_bitCount := by omega
    simp [this]

theorem PerformsOR_wellFormed {self a b r : Bitset} (ha : WellFormed a) (hb : WellFormed b)
    (h : PerformsOR self (Ref.other a) (Ref.other b) = some r) : WellFormed r := by
  obtain ⟨r', hr', hbc, hl, hle, hbit⟩ := PerformsOR_spec self a b ha.length_eq hb.length_eq
  rw [h] at hr'
  cases hr'
  refine wellFormed_of_parts (by rw [hl, hbc]) ?_ ?_
  · intro j
    apply Nat.lt_of_le_of_lt (hle j)
    rw [lt_two_pow_32]
    exact Nat.or_lt_two_pow (lt_two_pow_32 ▸ ha.blockAt_lt j) (lt_two_pow_32 ▸ hb.blockAt_lt j)
  · intro i hi
    rw [hbit i]
    have : ¬ i < (greaterOf a b).m_bitCount := by omega
    simp [this]

theorem PerformsXOR_wellFormed {self a b r : Bitset} (ha : WellFormed a) (hb : WellFormed b)
    (h : PerformsXOR self (Ref.other a) (Ref.other b) = some r) : WellFormed r := by
  obtain ⟨r', hr', hbc, hl, hle, hbit⟩ := PerformsXOR_spec self a b ha.length_eq hb.length_eq
  rw [h] at hr'
  cases hr'
  refine wellFormed_of_parts (by rw [hl, hbc]) ?_ ?_
  · intro j
    apply Nat.lt_of_le_of_lt (hle j)
    rw [lt_two_pow_32]
    exact Nat.xor_lt_two_pow (lt_two_pow_32 ▸ ha.blockAt_lt j) (lt_two_pow_32 ▸ hb.blockAt_lt j)
  · intro i hi
    rw [hbit i]
    have : ¬ i < (greaterOf a b).m_bitCount := by omega
    simp [this]

theorem scanLoop_spec {ρ : Type} (body : Nat → Option (Option ρ)) (p : Nat → Prop) (r : ρ) :
    ∀ (n lo : Nat),
      (∀ i, lo ≤ i → i < lo + n →
        (p i ∧ body i = some (some r)) ∨ (¬ p i ∧ body i = some none)) →
      (scanLoop body lo n = some (some r) ∧ ∃ i, lo ≤ i ∧ i < lo + n ∧ p i) ∨
      (scanLoop body lo n = some none ∧ ∀ i, lo ≤ i → i < lo + n → ¬ p i) := by
  intro n
  induction n with
  | zero =>
    intro lo _
    right
    exact ⟨rfl, fun i h1 h2 => by omega⟩
  | succ n ih =>
    intro lo hbody
    rcases hbody lo (Nat.le_refl _) (by omega) with ⟨hp, hb⟩ | ⟨hp, hb⟩
    · left
      refine ⟨?_, lo, Nat.le_refl _, by omega, hp⟩
      simp only [scanLoop, hb]
    · rcases ih (lo + 1) (fun i h1 h2 => hbody i (by omega) (by omega)) with ⟨hs, i, h1, h2, h3⟩ | ⟨hs, hall⟩
      · left
        refine ⟨?_, i, by omega, by omega, h3⟩
        simp only [scanLoop, hb]
        exact hs
      · right
        refine ⟨?_, ?_⟩
        · simp only [scanLoop, hb]
          exact hs
        · intro i h1 h2
          by_cases hi : i = lo
          · rw [hi]
            exact hp
          · exact hall i (by omega) (by omega)

/-- The result of `operator==`, for all bitsets: the blocks agree, blocks one operand lacks
counting as zero. -/
theorem opEq_spec (lhs rhs : Bitset) :
    ∃ r, opEq lhs rhs = some r ∧ (r = true ↔ ∀ j, lhs.blockAt j = rhs.blockAt j) := by
  obtain ⟨g, l, hg, hl, hmin, hle, hgl, hlz⟩ :
      ∃ g l : Bitset, g = (if lhs.GetBlockCount > rhs.GetBlockCount then lhs else rhs) ∧
        l = (if lhs.GetBlockCount > rhs.GetBlockCount then rhs else lhs) ∧
        l.m_blocks.length = min lhs.m_blocks.length rhs.m_blocks.length ∧
        l.m_blocks.length ≤ g.m_blocks.length ∧
        (∀ j, l.m_blocks.length ≤ j → (g.blockAt j = 0 ↔ lhs.blockAt j = rhs.blockAt j)) ∧
        (∀ j, g.m_blocks.length ≤ j → lhs.blockAt j = rhs.blockAt j) := by
    refine ⟨_, _, rfl, rfl, ?_⟩
    simp only [GetBlockCount]
    by_cases h : lhs.m_blocks.length > rhs.m_blocks.length
    · simp only [if_pos h]
      refine ⟨by omega, by omega, ?_, ?_⟩
      · intro j hj
        rw [blockAt_of_ge (s := rhs) hj]
      · intro j hj
        rw [blockAt_of_ge (s := rhs) (by omega), blockAt_of_ge (s := lhs) hj]
    · simp only [if_neg h]
      refine ⟨by omega, by omega, ?_, ?_⟩
      · intro j hj
        rw [blockAt_of_ge (s := lhs) hj]
        exact eq_comm
      · intro j hj
        rw [blockAt_of_ge (s := lhs) (by omega), blockAt_of_ge (s := rhs) hj]
  have hunf : opEq lhs rhs =
      afterLoop
        (scanLoop (fun i => (lhs.GetBlock i).bind fun x => (rhs.GetBlock i).map fun y =>
            if x ≠ y then some false else none) 0 l.m_blocks.length)
        (afterLoop
          (scanLoop (fun i => (g.GetBlock i).map fun x => if x ≠ 0 then some false else none)
            l.m_blocks.length (g.m_blocks.length - l.m_blocks.length))
          (some true)) := by
    rw [hg, hl]
    rfl
  rw [hunf]
  have h1 := scanLoop_spec
    (fun i => (lhs.GetBlock i).bind fun x => (rhs.GetBlock i).map fun y =>
      if x ≠ y then some false else none)
    (fun j => lhs.blockAt j ≠ rhs.blockAt j) false l.m_blocks.length 0
    (by
      intro i _ hi
      have e1 : i < lhs.m_blocks.length := by omega
      have e2 : i < rhs.m_blocks.length := by omega
      simp only [GetBlock_of_lt e1, GetBlock_of_lt e2, Option.some_bind, Option.map_some']
      by_cases hne : lhs.blockAt i = rhs.blockAt i
      · right
        exact ⟨fun h => h hne, by rw [if_neg (fun h => h hne)]⟩
      · left
        exact ⟨hne, by rw [if_pos hne]⟩)
  have h2 := scanLoop_spec
    (fun i => (g.GetBlock i).map fun x => if x ≠ 0 then some false else none)
    (fun j => g.blockAt j ≠ 0) false (g.m_blocks.length - l.m_blocks.length) l.m_blocks.length
    (by
      intro i _ hi
      have e1 : i < g.m_blocks.length := by omega
      simp only [GetBlock_of_lt e1, Option.map_some']
      by_cases hne : g.blockAt i = 0
      · right
        exact ⟨fun h => h hne, by rw [if_neg (fun h => h hne)]⟩
      · left
        exact ⟨hne, by rw [if_pos hne]⟩)
  rcases h1 with ⟨hs1, i, _, hi, hp⟩ | ⟨hs1, hall1⟩
  · refine ⟨false, by rw [hs1]; rfl, ?_⟩
    constructor
    · intro h
      cases h
    · intro h
      exact absurd (h i) hp
  · rcases h2 with ⟨hs2, i, hi1, hi2, hp⟩ | ⟨hs2, hall2⟩
    · refine ⟨false, by rw [hs1, hs2]; rfl, ?_⟩
      constructor
      · intro h
        cases h
      · intro h
        exact absurd ((hgl i hi1).2 (h i)) hp
    · refine ⟨true, by rw [hs1, hs2]; rfl, ?_⟩
      constructor
      · intro _ j
        by_cases hj1 : j < l.m_blocks.length
        · exact Classical.not_not.1 (hall1 j (Nat.zero_le _) (by omega))
        · by_cases hj2 : j < g.m_blocks.length
          · exact (hgl j (by omega)).1 (Classical.not_not.1 (hall2 j (by omega) (by omega)))
          · exact hlz j (by omega)
      · intro _
        rfl

theorem testBit_eq_false_of_ge_32 {x k : Nat} (hx : x < 4294967296) (hk : 32 ≤ k) :
    x.testBit k = false := by
  apply Nat.testBit_lt_two_pow
  apply Nat.lt_of_lt_of_le hx
  rw [lt_two_pow_32]
  exact Nat.pow_le_pow_right (by decide) hk

theorem blockAt_testBit (s : Bitset) (j k : Nat) (hk : k < 32) :
    (s.blockAt j).testBit k = s.bitAt (32 * j + k) := by
  unfold bitAt
  have e1 : (32 * j + k) / 32 = j := by omega
  have e2 : (32 * j + k) % 32 = k := by omega
  rw [e1, e2]

/-- Two bitsets whose blocks fit the block type have equal blocks exactly when they have equal bits. -/
theorem blocks_eq_iff_bits_eq {s t : Bitset} (hs : ∀ j, s.blockAt j < 4294967296)
    (ht : ∀ j, t.blockAt j < 4294967296) :
    (∀ j, s.blockAt j = t.blockAt j) ↔ ∀ i, s.bitAt i = t.bitAt i := by
  constructor
  · intro h i
    exact bitAt_ext_block (h _)
  · intro h j
    apply Nat.eq_of_testBit_eq
    intro k
    by_cases hk : k < 32
    · rw [blockAt_testBit s j k hk, blockAt_testBit t j k hk]
      exact h _
    · rw [testBit_eq_false_of_ge_32 (hs j) (by omega), testBit_eq_false_of_ge_32 (ht j) (by omega)]

theorem block_ne_zero_iff {s : Bitset} (hs : ∀ j, s.blockAt j < 4294967296) (j : Nat) :
    s.blockAt j ≠ 0 ↔ ∃ k, k < 32 ∧ s.bitAt (32 * j + k) = true := by
  constructor
  · intro h
    obtain ⟨k, hk⟩ := Nat.ne_zero_implies_bit_true h
    have hk32 : k < 32 := by
      by_contra hge
      rw [testBit_eq_false_of_ge_32 (hs j) (by omega)] at hk
      cases hk
    exact ⟨k, hk32, by rw [← blockAt_testBit s j k hk32]; exact hk⟩
  · rintro ⟨k, hk32, hk⟩ h0
    rw [← blockAt_testBit s j k hk32, h0, Nat.zero_testBit] at hk
    cases hk

/-- The result of `TestAny`, for all bitsets: some block is not zero. -/
theorem TestAny_spec (s : Bitset) :
    ∃ r, s.TestAny = some r ∧ (r = true ↔ ∃ j, s.blockAt j ≠ 0) := by
  unfold TestAny
  by_cases he : s.m_blocks.isEmpty = true
  · rw [if_pos he]
    refine ⟨false, rfl, ?_⟩
    constructor
    · intro h
      cases h
    · rintro ⟨j, hj⟩
      have hnil : s.m_blocks = [] := List.isEmpty_iff.1 he
      exact absurd (blockAt_of_ge (s := s) (j := j) (by rw [hnil]; exact Nat.zero_le _)) hj
  · rw [if_neg he]
    have h1 := scanLoop_spec
      (fun i => (s.m_blocks[i]?).map fun block => if block ≠ 0 then some true else none)
      (fun j => s.blockAt j ≠ 0) true s.m_blocks.length 0
      (by
        intro i _ hi
        have e1 : i < s.m_blocks.length := by omega
        simp only [blockAt_of_lt e1, Option.map_some']
        by_cases hne : s.blockAt i = 0
        · right
          exact ⟨fun h => h hne, by rw [if_neg (fun h => h hne)]⟩
        · left
          exact ⟨hne, by rw [if_pos hne]⟩)
    rcases h1 with ⟨hs1, i, _, _, hp⟩ | ⟨hs1, hall1⟩
    · exact ⟨true, by rw [hs1]; rfl, fun _ => ⟨i, hp⟩, fun _ => rfl⟩
    · refine ⟨false, by rw [hs1]; rfl, ?_⟩
      constructor
      · intro h
        cases h
      · rintro ⟨j, hj⟩
        by_cases hjl : j < s.m_blocks.length
        · exact absurd hj (hall1 j (Nat.zero_le _) (by omega))
        · exact absurd (blockAt_of_ge (Nat.le_of_not_lt hjl)) hj

/-- The result of `Intersects`, for all bitsets: some common block has a shared set bit. -/
theorem Intersects_spec (s t : Bitset) :
    ∃ r, s.Intersects t = some r ∧ (r = true ↔ ∃ j, s.blockAt j &&& t.blockAt j ≠ 0) := by
  unfold Intersects
  simp only [GetBlockCount]
  have h1 := scanLoop_spec
    (fun i => (s.GetBlock i).bind fun a => (t.GetBlock i).map fun b =>
        if (a &&& b) ≠ 0 then some true else none)
    (fun j => s.blockAt j &&& t.blockAt j ≠ 0) true (min s.m_blocks.length t.m_blocks.length) 0
    (by
      intro i _ hi
      have e1 : i < s.m_blocks.length := by omega
      have e2 : i < t.m_blocks.length := by omega
      simp only [GetBlock_of_lt e1, GetBlock_of_lt e2, Option.some_bind, Option.map_some']
      by_cases hne : s.blockAt i &&& t.blockAt i = 0
      · right
        exact ⟨fun h => h hne, by rw [if_neg (fun h => h hne)]⟩
      · left
        exact ⟨hne, by rw [if_pos hne]⟩)
  rcases h1 with ⟨hs1, i, _, _, hp⟩ | ⟨hs1, hall1⟩
  · exact ⟨true, by rw [hs1]; rfl, fun _ => ⟨i, hp⟩, fun _ => rfl⟩
  · refine ⟨false, by rw [hs1]; rfl, ?_⟩
    constructor
    · intro h
      cases h
    · rintro ⟨j, hj⟩
      by_cases hjl : j < min s.m_blocks.length t.m_blocks.length
      · exact absurd hj (hall1 j (Nat.zero_le _) (by omega))
      · exfalso
        apply hj
        by_cases hjs : j < s.m_blocks.length
        · rw [blockAt_of_ge (s := t) (by omega), Nat.and_zero]
        · rw [blockAt_of_ge (s := s) (by omega), Nat.zero_and]
theorem opEq_bits {a b : Bitset} (ha : WellFormed a) (hb : WellFormed b) :
    ∃ r, opEq a b = some r ∧ (r = true ↔ ∀ i, a.bitAt i = b.bitAt i) := by
  obtain ⟨r, hr, hiff⟩ := opEq_spec a b
  exact ⟨r, hr, hiff.trans (blocks_eq_iff_bits_eq ha.blockAt_lt hb.blockAt_lt)⟩

theorem greaterOf_size_le_max (a b : Bitset) :
    (greaterOf a b).m_bitCount ≤ max a.m_bitCount b.m_bitCount := by
  unfold greaterOf
  split <;> omega

theorem ComputeBlockCount_max (m n : Nat) :
    ComputeBlockCount (max m n) = max (ComputeBlockCount m) (ComputeBlockCount n) := by
  rcases Nat.le_total m n with h | h
  · rw [Nat.max_eq_right h, Nat.max_eq_right (ComputeBlockCount_mono h)]
  · rw [Nat.max_eq_left h, Nat.max_eq_left (ComputeBlockCount_mono h)]

theorem greaterOf_length {a b : Bitset} (ha : a.m_blocks.length = ComputeBlockCount a.m_bitCount)
    (hb : b.m_blocks.length = ComputeBlockCount b.m_bitCount) :
    ComputeBlockCount (greaterOf a b).m_bitCount =
      ComputeBlockCount (max a.m_bitCount b.m_bitCount) := by
  rw [ComputeBlockCount_max, ← ha, ← hb]
  unfold greaterOf
  simp only [GetBlockCount]
  split
  · rw [ha]
    omega
  · rw [hb]
    omega

/-- C2: for all well-formed bitsets `a` and `b`, of any sizes, the four operator calls of
`(a & b) | (a ^ b) == a | b` succeed and the comparison yields `true`. -/
theorem and_or_xor_eq_or (a b : Bitset) (ha : WellFormed a) (hb : WellFormed b) :
    ∃ x y l r, opAnd a b = some x ∧ opXor a b = some y ∧ opOr x y = some l ∧
      opOr a b = some r ∧ opEq l r = some true := by
  obtain ⟨x, hx, hxc, hxl, _, hxb⟩ := PerformsAND_spec empty a b ha.length_eq hb.length_eq
  obtain ⟨y, hy, hyc, hyl, _, hyb⟩ := PerformsXOR_spec empty a b ha.length_eq hb.length_eq
  obtain ⟨r, hr, hrc, _, _, hrb⟩ := PerformsOR_spec empty a b ha.length_eq hb.length_eq
  have hxw : WellFormed x := PerformsAND_wellFormed ha hb hx
  have hyw : WellFormed y := PerformsXOR_wellFormed ha hb hy
  have hrw : WellFormed r := PerformsOR_wellFormed ha hb hr
  obtain ⟨l, hl, hlc, _, _, hlb⟩ := PerformsOR_spec empty x y hxw.length_eq hyw.length_eq
  have hlw : WellFormed l := PerformsOR_wellFormed hxw hyw hl
  have hg : greaterOf x y = y := by
    unfold greaterOf
    simp only [GetBlockCount]
    rw [if_neg]
    rw [hxl, hyl, greaterOf_length ha.length_eq hb.length_eq]
    omega
  rw [hg] at hlc hlb
  refine ⟨x, y, l, r, hx, hy, hl, hr, ?_⟩
  obtain ⟨e, he, hiff⟩ := opEq_bits hlw hrw
  have : e = true := by
    rw [hiff]
    intro i
    rw [hlb i, hrb i, hxb i, hyb i, hyc]
    have hle := greaterOf_size_le_max a b
    by_cases h1 : i < (greaterOf a b).m_bitCount
    · have h2 : i < max a.m_bitCount b.m_bitCount := by omega
      simp only [h1, h2, decide_True, Bool.and_true]
      cases a.bitAt i <;> cases b.bitAt i <;> rfl
    · simp only [h1, decide_False, Bool.and_false]
  rw [he, this]

/-- A concrete instance of `and_or_xor_eq_or`: `a = "10000"` and `b = "000"`, bitsets of different sizes. -/
theorem and_or_xor_eq_or_witness :
    WellFormed (Bitset.mk [16] 5) ∧ WellFormed (Bitset.mk [0] 3) ∧
    ∃ x y l r, opAnd (Bitset.mk [16] 5) (Bitset.mk [0] 3) = some x ∧
      opXor (Bitset.mk [16] 5) (Bitset.mk [0] 3) = some y ∧ opOr x y = some l ∧
      opOr (Bitset.mk [16] 5) (Bitset.mk [0] 3) = some r ∧ opEq l r = some true :=
  ⟨by decide, by decide, and_or_xor_eq_or (Bitset.mk [16] 5) (Bitset.mk [0] 3) (by decide) (by decide)⟩

/-- C9: for well-formed bitsets `operator==` always answers, and answers `true` exactly when
`UnboundedTest` agrees on every index, whatever the sizes; the comparison is reflexive, symmetric
and transitive. -/
theorem opEq_iff_same_bits (a b c : Bitset) (ha : WellFormed a) (hb : WellFormed b)
    (hc : WellFormed c) :
    (∃ r, opEq a b = some r ∧ (r = true ↔ ∀ i, a.UnboundedTest i = b.UnboundedTest i)) ∧
    opEq a a = some true ∧
    opEq a b = opEq b a ∧
    (opEq a b = some true → opEq b c = some true → opEq a c = some true) := by
  have key : ∀ {s t : Bitset}, WellFormed s → WellFormed t →
      (opEq s t = some true ↔ ∀ i, s.bitAt i = t.bitAt i) := by
    intro s t hs ht
    obtain ⟨r, hr, hiff⟩ := opEq_bits hs ht
    rw [hr]
    constructor
    · intro h
      cases h
      exact hiff.1 rfl
    · intro h
      rw [hiff.2 h]
  refine ⟨?_, ?_, ?_, ?_⟩
  · obtain ⟨r, hr, hiff⟩ := opEq_bits ha hb
    refine ⟨r, hr, hiff.trans ?_⟩
    simp only [UnboundedTest_eq_bitAt ha, UnboundedTest_eq_bitAt hb, Option.some.injEq]
  · exact (key ha ha).2 (fun _ => rfl)
  · obtain ⟨r1, hr1, h1⟩ := opEq_bits ha hb
    obtain ⟨r2, hr2, h2⟩ := opEq_bits hb ha
    rw [hr1, hr2]
    congr 1
    have : (r1 = true ↔ r2 = true) := by
      rw [h1, h2]
      exact ⟨fun h i => (h i).symm, fun h i => (h i).symm⟩
    cases r1 <;> cases r2 <;> simp_all
  · intro h1 h2
    exact (key ha hc).2 (fun i => ((key ha hb).1 h1 i).trans ((key hb hc).1 h2 i))

/-- A concrete instance of `opEq_iff_same_bits`: the 3-bit `"101"`, the 40-bit bitset with the same
three low bits and zeros above, and the 3-bit `"101"` again. -/
theorem opEq_iff_same_bits_witness :
    opEq (Bitset.mk [5] 3) (Bitset.mk [5, 0] 40) = some true ∧
    ((∃ r, opEq (Bitset.mk [5] 3) (Bitset.mk [5, 0] 40) = some r ∧
        (r = true ↔ ∀ i, (Bitset.mk [5] 3).UnboundedTest i = (Bitset.mk [5, 0] 40).UnboundedTest i)) ∧
      opEq (Bitset.mk [5] 3) (Bitset.mk [5] 3) = some true ∧
      opEq (Bitset.mk [5] 3) (Bitset.mk [5, 0] 40) = opEq (Bitset.mk [5, 0] 40) (Bitset.mk [5] 3) ∧
      (opEq (Bitset.mk [5] 3) (Bitset.mk [5, 0] 40) = some true →
        opEq (Bitset.mk [5, 0] 40) (Bitset.mk [5] 3) = some true →
        opEq (Bitset.mk [5] 3) (Bitset.mk [5] 3) = some true)) :=
  ⟨by decide, opEq_iff_same_bits (Bitset.mk [5] 3) (Bitset.mk [5, 0] 40) (Bitset.mk [5] 3)
    (by decide) (by decide) (by decide)⟩
theorem forLoop_inv {σ : Type} (body : Nat → σ → Option σ) (Inv : Nat → σ → Prop) :
    ∀ (n lo : Nat) (s : σ), Inv lo s →
      (∀ i t, lo ≤ i → i < lo + n → Inv i t → ∃ t', body i t = some t' ∧ Inv (i + 1) t') →
      ∃ r, forLoop body lo n s = some r ∧ Inv (lo + n) r := by
  intro n
  induction n with
  | zero =>
    intro lo s hs _
    exact ⟨s, rfl, hs⟩
  | succ n ih =>
    intro lo s hs hstep
    obtain ⟨s1, hb, hs1⟩ := hstep lo s (Nat.le_refl _) (by omega) hs
    obtain ⟨r, hr, hinv⟩ := ih (lo + 1) s1 hs1 (fun i t h1 h2 => hstep i t (by omega) (by omega))
    refine ⟨r, ?_, ?_⟩
    · simp only [forLoop, hb, Option.some_bind]
      exact hr
    · have : lo + (n + 1) = lo + 1 + n := by omega
      rw [this]
      exact hinv

theorem fullBitMask_eq : fullBitMask = 2 ^ 32 - 1 := by
  unfold fullBitMask
  norm_num

theorem setBlock_testBit (x m k : Nat) (val : Bool) (hm : m < 32) (hk : k < 32) :
    ((x &&& (2 ^ m ^^^ fullBitMask)) ||| ((if val then fullBitMask else 0) &&& 2 ^ m)).testBit k =
      if k = m then val else x.testBit k := by
  rw [Nat.testBit_or, Nat.testBit_and, Nat.testBit_and, Nat.testBit_xor, Nat.testBit_two_pow,
    fullBitMask_eq, Nat.testBit_two_pow_sub_one]
  have hV : (if val = true then 2 ^ 32 - 1 else 0).testBit k = val := by
    cases val
    · rw [if_neg (by decide), Nat.zero_testBit]
    · rw [if_pos rfl, Nat.testBit_two_pow_sub_one]
      exact decide_eq_true hk
  rw [hV]
  by_cases hkm : k = m
  · subst hkm
    simp [hk]
  · have : ¬ m = k := fun e => hkm e.symm
    simp [hk, hkm, this]

theorem setBlock_lt (x m : Nat) (val : Bool) (hm : m < 32) :
    (x &&& (2 ^ m ^^^ fullBitMask)) ||| ((if val then fullBitMask else 0) &&& 2 ^ m) < 4294967296 := by
  rw [lt_two_pow_32]
  have h2m : 2 ^ m < 2 ^ 32 := Nat.pow_lt_pow_right (by decide) hm
  apply Nat.or_lt_two_pow
  · apply Nat.and_lt_two_pow
    apply Nat.xor_lt_two_pow h2m
    rw [fullBitMask_eq]
    norm_num
  · exact Nat.and_lt_two_pow _ h2m

/-- What `Set(bit, val)` does on a bitset that holds exactly the blocks its size needs. -/
theorem Set_spec {s : Bitset} (hlen : s.m_blocks.length = ComputeBlockCount s.m_bitCount)
    {bit : Nat} (hbit : bit < s.m_bitCount) (val : Bool) :
    ∃ r, s.Set bit val = some r ∧ r.m_bitCount = s.m_bitCount ∧
      r.m_blocks.length = s.m_blocks.length ∧
      ((∀ j, s.blockAt j < 4294967296) → ∀ j, r.blockAt j < 4294967296) ∧
      ∀ k, r.bitAt k = if k = bit then val else s.bitAt k := by
  have hj : bit / 32 < s.m_blocks.length := by
    rw [hlen]
    exact lt_ComputeBlockCount hbit
  have hm : bit % 32 < 32 := Nat.mod_lt _ (by decide)
  obtain ⟨r, hr, hbc, hl, hb⟩ := writeBlock_spec (s := s) (i := bit / 32)
    ((s.blockAt (bit / 32) &&& (2 ^ (bit % 32) ^^^ fullBitMask)) |||
      ((if val then fullBitMask else 0) &&& 2 ^ (bit % 32))) hj
  refine ⟨r, ?_, hbc, hl, ?_, ?_⟩
  · unfold Set
    rw [if_pos hbit, GetBlockIndex_eq, blockAt_of_lt hj, GetBitIndex_eq, u32_one_shiftLeft hm]
    exact hr
  · intro hlt j
    rw [hb j]
    split
    · exact setBlock_lt _ _ _ hm
    · exact hlt j
  · intro k
    unfold bitAt
    rw [hb (k / 32)]
    by_cases hkj : k / 32 = bit / 32
    · rw [if_pos hkj, setBlock_testBit _ _ _ _ hm (Nat.mod_lt _ (by decide)), hkj]
      by_cases hkb : k = bit
      · rw [if_pos hkb, if_pos (by rw [hkb])]
      · rw [if_neg hkb, if_neg (by omega)]
    · rw [if_neg hkj, if_neg (by intro h; exact hkj (by rw [h]))]

theorem Set_wellFormed {s r : Bitset} (hs : WellFormed s) {bit : Nat} {val : Bool}
    (h : s.Set bit val = some r) : WellFormed r := by
  by_cases hbit : bit < s.m_bitCount
  · obtain ⟨r', hr', hbc, hl, hlt, hb⟩ := Set_spec hs.length_eq hbit val
    rw [h] at hr'
    cases hr'
    refine wellFormed_of_parts (by rw [hl, hbc]; exact hs.length_eq) (hlt hs.blockAt_lt) ?_
    intro i hi
    rw [hb i, if_neg (by omega)]
    exact hs.bitAt_of_ge (by omega)
  · unfold Set at h
    rw [if_neg hbit] at h
    cases h

theorem wellFormed_zeros (n : Nat) :
    WellFormed (Bitset.mk (vecResize [] (ComputeBlockCount n) 0) n) := by
  refine wellFormed_of_parts (vecResize_length _ _ _) ?_ ?_
  · intro j
    rw [blockAt_zeros]
    decide
  · intro i _
    unfold bitAt
    rw [blockAt_zeros, Nat.zero_testBit]

/-- What the constructor from a text of zeros and ones builds. -/
theorem ofString_spec (bits : List Char) (hbits : ∀ c ∈ bits, c = '0' ∨ c = '1') :
    ∃ r, ofString bits = some r ∧ WellFormed r ∧ r.m_bitCount = bits.length ∧
      ∀ k, r.bitAt k = decide (k < bits.length ∧ bits[bits.length - 1 - k]? = some '1') := by
  unfold ofString ofChars
  obtain ⟨r, hr, hw, hbc, hb⟩ := forLoop_inv
    (fun i s =>
      match bits[i]? with
      | some c =>
        if c = '1' then s.Set (s.m_bitCount - i - 1) true
        else if c = '0' then some s
        else none
      | none => none)
    (fun i s => WellFormed s ∧ s.m_bitCount = bits.length ∧
      ∀ k, s.bitAt k = decide (k < bits.length ∧ bits.length - 1 - k < i ∧
        bits[bits.length - 1 - k]? = some '1'))
    bits.length 0 (Bitset.mk (vecResize [] (ComputeBlockCount bits.length) 0) bits.length)
    (by
      refine ⟨wellFormed_zeros _, rfl, ?_⟩
      intro k
      unfold bitAt
      rw [blockAt_zeros, Nat.zero_testBit]
      simp)
    (by
      intro i t _ hi ⟨hw, hbc, hb⟩
      have hi' : i < bits.length := by omega
      have hc : bits[i]? = some bits[i] := List.getElem?_eq_getElem hi'
      simp only [hc]
      rcases hbits _ (List.getElem_mem hi') with h0 | h1
      · refine ⟨t, ?_, hw, hbc, ?_⟩
        · rw [h0]
          simp
        · intro k
          rw [hb k]
          by_cases hk : bits.length - 1 - k = i
          · have hne : ¬ bits[bits.length - 1 - k]? = some '1' := by
              rw [hk, hc, h0]
              simp
            simp [hne]
          · have : (bits.length - 1 - k < i + 1) ↔ (bits.length - 1 - k < i) := by omega
            simp only [this]
      · have hlt : t.m_bitCount - i - 1 < t.m_bitCount := by omega
        obtain ⟨t', ht', hbc', _, _, hb'⟩ := Set_spec hw.length_eq hlt true
        refine ⟨t', ?_, Set_wellFormed hw ht', hbc'.trans hbc, ?_⟩
        · rw [h1]
          simpa using ht'
        · intro k
          rw [hb' k, hbc]
          by_cases hk : k = bits.length - i - 1
          · rw [if_pos hk]
            have e : bits.length - 1 - k = i := by omega
            have hk2 : k < bits.length := by omega
            symm
            rw [decide_eq_true_iff, e, hc, h1]
            exact ⟨hk2, by omega, rfl⟩
          · rw [if_neg hk, hb k]
            by_cases hk2 : k < bits.length
            · have : (bits.length - 1 - k < i + 1) ↔ (bits.length - 1 - k < i) := by omega
              simp only [this]
            · simp [hk2])
  refine ⟨r, hr, hw, hbc, ?_⟩
  intro k
  rw [hb k]
  by_cases hk : k < bits.length
  · have : bits.length - 1 - k < 0 + bits.length := by omega
    simp only [hk, this, true_and]
  · simp [hk]

/-- What `ToString` yields on a bitset that holds exactly the blocks its size needs. -/
theorem ToString_spec (s : Bitset) (hlen : s.m_blocks.length = ComputeBlockCount s.m_bitCount) :
    ∃ str, s.ToString = some str ∧ str.length = s.m_bitCount ∧
      ∀ j, j < s.m_bitCount →
        str[j]? = some (if s.bitAt (s.m_bitCount - 1 - j) = true then '1' else '0') := by
  unfold ToString
  obtain ⟨str, hstr, hl, hc⟩ := forLoop_inv
    (fun i str =>
      (s.Test i).bind fun t =>
        if t then
          (if s.m_bitCount - i - 1 < str.length then some (str.set (s.m_bitCount - i - 1) '1') else none)
        else some str)
    (fun i str => str.length = s.m_bitCount ∧ ∀ j, j < s.m_bitCount →
      str[j]? = some (if s.m_bitCount - 1 - j < i ∧ s.bitAt (s.m_bitCount - 1 - j) = true
        then '1' else '0'))
    s.m_bitCount 0 (List.replicate s.m_bitCount '0')
    (by
      refine ⟨List.length_replicate _ _, ?_⟩
      intro j hj
      rw [List.getElem?_replicate, if_pos hj, if_neg (by omega)])
    (by
      intro i str _ hi ⟨hl, hc⟩
      have hi' : i < s.m_bitCount := by omega
      simp only [Test_eq_bitAt hlen hi', Option.some_bind]
      by_cases hb : s.bitAt i = true
      · rw [if_pos hb, if_pos (by omega)]
        refine ⟨_, rfl, by rw [List.length_set]; exact hl, ?_⟩
        intro j hj
        rw [List.getElem?_set]
        by_cases hji : s.m_bitCount - i - 1 = j
        · have e : s.m_bitCount - 1 - j = i := by omega
          rw [if_pos hji, if_pos (by omega), e, if_pos ⟨by omega, hb⟩]
        · rw [if_neg hji, hc j hj]
          have : (s.m_bitCount - 1 - j < i + 1) ↔ (s.m_bitCount - 1 - j < i) := by omega
          simp only [this]
      · rw [if_neg hb]
        refine ⟨_, rfl, hl, ?_⟩
        intro j hj
        rw [hc j hj]
        by_cases hji : s.m_bitCount - 1 - j = i
        · rw [hji, if_neg (by omega), if_neg (fun h => hb h.2)]
        · have : (s.m_bitCount - 1 - j < i + 1) ↔ (s.m_bitCount - 1 - j < i) := by omega
          simp only [this])
  refine ⟨str, hstr, hl, ?_⟩
  intro j hj
  rw [hc j hj]
  have : s.m_bitCount - 1 - j < 0 + s.m_bitCount := by omega
  simp only [this, true_and]
/-- C6: for well-formed bitsets `a` and `b` of any sizes `a & b` succeeds and its bit at every
index is the conjunction of the operands' bits (read through `UnboundedTest`); and for two texts
of zeros and ones of the same length, the text of `Bitset(s) & Bitset(t)` is the character-wise
conjunction of `s` and `t`. -/
theorem and_is_bitwise (a b : Bitset) (ha : WellFormed a) (hb : WellFormed b)
    (s t : List Char) (hs : ∀ c ∈ s, c = '0' ∨ c = '1') (ht : ∀ c ∈ t, c = '0' ∨ c = '1')
    (hlen : s.length = t.length) :
    (∃ r, opAnd a b = some r ∧ ∀ i, ∃ x y, a.UnboundedTest i = some x ∧
        b.UnboundedTest i = some y ∧ r.UnboundedTest i = some (x && y)) ∧
    (∃ p q r, ofString s = some p ∧ ofString t = some q ∧ opAnd p q = some r ∧
        r.ToString = some (List.zipWith andChar s t)) := by
  constructor
  · obtain ⟨r, hr, _, _, _, hbit⟩ := PerformsAND_spec empty a b ha.length_eq hb.length_eq
    have hrw : WellFormed r := PerformsAND_wellFormed ha hb hr
    refine ⟨r, hr, fun i => ⟨a.bitAt i, b.bitAt i, UnboundedTest_eq_bitAt ha i,
      UnboundedTest_eq_bitAt hb i, ?_⟩⟩
    rw [UnboundedTest_eq_bitAt hrw i, hbit i]
    by_cases hi : i < max a.m_bitCount b.m_bitCount
    · simp [hi]
    · rw [ha.bitAt_of_ge (by omega)]
      simp
  · obtain ⟨p, hp, hpw, hpc, hpb⟩ := ofString_spec s hs
    obtain ⟨q, hq, hqw, hqc, hqb⟩ := ofString_spec t ht
    obtain ⟨r, hr, hrc, hrl, _, hrb⟩ := PerformsAND_spec empty p q hpw.length_eq hqw.length_eq
    obtain ⟨str, hstr, hsl, hsc⟩ := ToString_spec r (by rw [hrl, hrc])
    refine ⟨p, q, r, hp, hq, hr, ?_⟩
    rw [hstr]
    congr 1
    have hn : r.m_bitCount = s.length := by
      rw [hrc, hpc, hqc]
      omega
    rw [hn] at hsl hsc
    apply List.ext_getElem?
    intro j
    rw [List.getElem?_zipWith]
    by_cases hj : j < s.length
    · have hjt : j < t.length := by omega
      rw [hsc j hj, List.getElem?_eq_getElem hj, List.getElem?_eq_getElem hjt]
      simp only [Option.some.injEq]
      rw [hrb, hpb, hqb, hpc, hqc, ← hlen]
      have e : s.length - 1 - (s.length - 1 - j) = j := by omega
      have h1 : s.length - 1 - j < s.length := by omega
      have h2 : s.length - 1 - j < max s.length s.length := by omega
      rw [e, List.getElem?_eq_getElem hj, List.getElem?_eq_getElem hjt]
      unfold andChar
      simp only [h1, h2, true_and, decide_True, Bool.and_true, Option.some.injEq,
        Bool.and_eq_true, decide_eq_true_eq]
    · rw [List.getElem?_eq_none (by omega), List.getElem?_eq_none (Nat.le_of_not_lt hj)]

/-- The instance of `and_is_bitwise` named by the specification: `"1010"` and `"1100"` give `"1000"`. -/
theorem and_is_bitwise_witness :
    WellFormed (Bitset.mk [10] 4) ∧ WellFormed (Bitset.mk [12] 4) ∧
    List.zipWith andChar ['1', '0', '1', '0'] ['1', '1', '0', '0'] = ['1', '0', '0', '0'] ∧
    ((∃ r, opAnd (Bitset.mk [10] 4) (Bitset.mk [12] 4) = some r ∧
        ∀ i, ∃ x y, (Bitset.mk [10] 4).UnboundedTest i = some x ∧
          (Bitset.mk [12] 4).UnboundedTest i = some y ∧ r.UnboundedTest i = some (x && y)) ∧
      (∃ p q r, ofString ['1', '0', '1', '0'] = some p ∧ ofString ['1', '1', '0', '0'] = some q ∧
        opAnd p q = some r ∧
        r.ToString = some (List.zipWith andChar ['1', '0', '1', '0'] ['1', '1', '0', '0']))) :=
  ⟨by decide, by decide, by decide,
    and_is_bitwise (Bitset.mk [10] 4) (Bitset.mk [12] 4) (by decide) (by decide)
      ['1', '0', '1', '0'] ['1', '1', '0', '0'] (by decide) (by decide) (by decide)⟩

/-- C7, the code at a failing input: with `a = "10000"` (5 bits) and `b = "000"` (3 bits), both of
one block, `a | b` and `a ^ b` take the size of `b` and lose bit 4, which is set in `a`. -/
theorem or_xor_lose_high_bit :
    ∃ a b r x, ofString ['1', '0', '0', '0', '0'] = some a ∧ ofString ['0', '0', '0'] = some b ∧
      opOr a b = some r ∧ opXor a b = some x ∧
      a.UnboundedTest 4 = some true ∧ b.UnboundedTest 4 = some false ∧
      r.UnboundedTest 4 = some false ∧ x.UnboundedTest 4 = some false :=
  ⟨Bitset.mk [16] 5, Bitset.mk [0] 3, Bitset.mk [0] 3, Bitset.mk [0] 3,
    by decide, by decide, by decide, by decide, by decide, by decide, by decide, by decide⟩

/-- C8, the code at a failing input: with `a` of 5 bits and `b` of 3 bits, `PerformsAND` gives a
bitset of `max 5 3 = 5` bits, while `PerformsOR` and `PerformsXOR` give one of 3 bits. -/
theorem or_xor_size_not_max :
    ∃ a b, ofSize 5 true = some a ∧ ofSize 3 false = some b ∧
      (PerformsAND empty (Ref.other a) (Ref.other b)).map GetSize = some 5 ∧
      (PerformsOR empty (Ref.other a) (Ref.other b)).map GetSize = some 3 ∧
      (PerformsXOR empty (Ref.other a) (Ref.other b)).map GetSize = some 3 ∧
      max a.GetSize b.GetSize = 5 :=
  ⟨Bitset.mk [31] 5, Bitset.mk [0] 3, by decide, by decide, by decide, by decide, by decide,
    by decide⟩

/-- C10, the code at failing inputs: for the 64-bit bitsets `a` (blocks 0 and 2, the number
`2 ^ 33`) and `b` (blocks 1 and 1, the number `2 ^ 32 + 1`), `a < b` and `b < a` both answer `true`
although `b` is the smaller number; and with operands of different block counts `operator<` reads
the block after the last one of the longer operand and fails. -/
theorem opLt_not_numeric_order :
    WellFormed (Bitset.mk [0, 2] 64) ∧ WellFormed (Bitset.mk [1, 1] 64) ∧
    toNat (Bitset.mk [1, 1] 64) < toNat (Bitset.mk [0, 2] 64) ∧
    opLt (Bitset.mk [0, 2] 64) (Bitset.mk [1, 1] 64) = some true ∧
    opLt (Bitset.mk [1, 1] 64) (Bitset.mk [0, 2] 64) = some true ∧
    WellFormed (Bitset.mk [1] 32) ∧
    opLt (Bitset.mk [1] 32) (Bitset.mk [0, 2] 64) = none ∧
    opLt (Bitset.mk [0, 2] 64) (Bitset.mk [1] 32) = none :=
  ⟨by decide, by decide, by decide, by decide, by decide, by decide, by decide, by decide⟩

theorem forLoop_preserves {σ : Type} (body : Nat → σ → Option σ) (Inv : σ → Prop) :
    ∀ (n lo : Nat) (s r : σ), Inv s →
      (∀ i t t', Inv t → body i t = some t' → Inv t') →
      forLoop body lo n s = some r → Inv r := by
  intro n
  induction n with
  | zero =>
    intro lo s r hs _ h
    simp only [forLoop, Option.some.injEq] at h
    rw [← h]
    exact hs
  | succ n ih =>
    intro lo s r hs hstep h
    simp only [forLoop] at h
    cases hb : body lo s with
    | none =>
      rw [hb] at h
      cases h
    | some s1 =>
      rw [hb, Option.some_bind] at h
      exact ih (lo + 1) s1 r (hstep lo s s1 hs hb) hstep h

theorem Shaped.wellFormed_of_reset {len size : Nat} {s r : Bitset} (hs : Shaped len size s)
    (hlen : len = ComputeBlockCount size) (hr : s.ResetExtraBits = some r) : WellFormed r :=
  ResetExtraBits_wellFormed (by rw [hs.1, hs.2.1, hlen]) hs.2.2 hr

theorem Shaped.writeBlock {len size : Nat} {s r : Bitset} (hs : Shaped len size s) {i v : Nat}
    (hv : v < 4294967296) (hr : s.writeBlock i v = some r) : Shaped len size r := by
  by_cases hi : i < s.m_blocks.length
  · obtain ⟨r', hr', hbc, hl, hb⟩ := writeBlock_spec (s := s) v hi
    rw [hr] at hr'
    cases hr'
    refine ⟨hl.trans hs.1, hbc.trans hs.2.1, ?_⟩
    intro j
    rw [hb j]
    split
    · exact hv
    · exact hs.2.2 j
  · unfold Bitset.writeBlock at hr
    rw [if_neg hi] at hr
    cases hr

theorem GetBlock_lt {s : Bitset} (hs : ∀ j, s.blockAt j < 4294967296) {i x : Nat}
    (h : s.GetBlock i = some x) : x < 4294967296 := by
  have := hs i
  unfold blockAt at this
  unfold GetBlock at h
  rw [h] at this
  exact this

theorem RefOk.get_wellFormed {a : Ref} (ha : RefOk a) {s : Bitset} (hs : WellFormed s) :
    WellFormed (a.get s) := by
  cases a with
  | self => exact hs
  | other x => exact ha x rfl

theorem RefOk.get_blockAt_lt {a : Ref} (ha : RefOk a) {s : Bitset}
    (hs : ∀ j, s.blockAt j < 4294967296) : ∀ j, (a.get s).blockAt j < 4294967296 := by
  cases a with
  | self => exact hs
  | other x => exact (ha x rfl).blockAt_lt

theorem Ref.get_bitCount (a : Ref) (s : Bitset) (l : List Nat) :
    (a.get (Bitset.mk l s.m_bitCount)).m_bitCount = (a.get s).m_bitCount := by
  cases a <;> rfl

theorem xor_fullBitMask_lt {x : Nat} (hx : x < 4294967296) : x ^^^ fullBitMask < 4294967296 := by
  rw [lt_two_pow_32] at *
  apply Nat.xor_lt_two_pow hx
  rw [fullBitMask_eq]
  norm_num

/-- Loops that write, block by block, a combination of blocks of usable operands keep the shape. -/
theorem binaryLoop_shaped (op : Nat → Nat → Nat)
    (hop : ∀ x y, x < 4294967296 → y < 4294967296 → op x y < 4294967296)
    {a b : Ref} (ha : RefOk a) (hb : RefOk b) {len size : Nat} (n lo : Nat) {s r : Bitset}
    (hs : Shaped len size s)
    (h : forLoop (fun i t => ((a.get t).GetBlock i).bind fun x => ((b.get t).GetBlock i).bind fun y =>
        t.writeBlock i (op x y)) lo n s = some r) : Shaped len size r := by
  refine forLoop_preserves _ (Shaped len size) n lo s r hs ?_ h
  intro i t t' ht hbody
  cases hx : (a.get t).GetBlock i with
  | none =>
    rw [hx] at hbody
    cases hbody
  | some x =>
    cases hy : (b.get t).GetBlock i with
    | none =>
      rw [hx, hy] at hbody
      cases hbody
    | some y =>
      rw [hx, hy] at hbody
      exact ht.writeBlock (hop x y (GetBlock_lt (ha.get_blockAt_lt ht.2.2) hx)
        (GetBlock_lt (hb.get_blockAt_lt ht.2.2) hy)) hbody

theorem unaryLoop_shaped (f : Nat → Nat) (hf : ∀ x, x < 4294967296 → f x < 4294967296)
    {a : Ref} (ha : RefOk a) {len size : Nat} (n lo : Nat) {s r : Bitset}
    (hs : Shaped len size s)
    (h : forLoop (fun i t => ((a.get t).GetBlock i).bind fun x => t.writeBlock i (f x)) lo n s
      = some r) : Shaped len size r := by
  refine forLoop_preserves _ (Shaped len size) n lo s r hs ?_ h
  intro i t t' ht hbody
  cases hx : (a.get t).GetBlock i with
  | none =>
    rw [hx] at hbody
    cases hbody
  | some x =>
    rw [hx] at hbody
    exact ht.writeBlock (hf x (GetBlock_lt (ha.get_blockAt_lt ht.2.2) hx)) hbody

theorem shaped_vecResize {s : Bitset} (hs : ∀ j, s.blockAt j < 4294967296) (n v size : Nat)
    (hv : v < 4294967296) : Shaped n size (Bitset.mk (vecResize s.m_blocks n v) size) := by
  refine ⟨vecResize_length _ _ _, rfl, ?_⟩
  intro j
  unfold blockAt
  simp only [vecResize_getElem?]
  split
  · by_cases hj : j < s.m_blocks.length
    · have := hs j
      unfold blockAt at this
      rw [List.getElem?_eq_getElem hj] at this ⊢
      exact this
    · rw [List.getElem?_eq_none (Nat.le_of_not_lt hj)]
      exact hv
  · decide

/-- A successful `PerformsAND` on a well-formed object with usable operands, aliased or not, leaves
a well-formed bitset. -/
theorem PerformsAND_preserves {s r : Bitset} {a b : Ref} (hs : WellFormed s) (ha : RefOk a)
    (hb : RefOk b) (h : s.PerformsAND a b = some r) : WellFormed r := by
  unfold PerformsAND at h
  simp only [GetBlockCount, GetSize] at h
  cases hloop : forLoop (fun i t => ((a.get t).GetBlock i).bind fun x =>
      ((b.get t).GetBlock i).bind fun y => t.writeBlock i (x &&& y)) 0
      (min (a.get s).m_blocks.length (b.get s).m_blocks.length)
      (Bitset.mk (vecResize [] (max (a.get s).m_blocks.length (b.get s).m_blocks.length) 0)
        (max (a.get (Bitset.mk (vecResize []
            (max (a.get s).m_blocks.length (b.get s).m_blocks.length) 0) s.m_bitCount)).m_bitCount
          (b.get (Bitset.mk (vecResize []
            (max (a.get s).m_blocks.length (b.get s).m_blocks.length) 0) s.m_bitCount)).m_bitCount))
    with
  | none =>
    rw [hloop] at h
    cases h
  | some r0 =>
    rw [hloop, Option.some_bind] at h
    rw [Ref.get_bitCount a, Ref.get_bitCount b] at hloop
    have hshape := binaryLoop_shaped (fun x y => x &&& y)
      (fun x y hx _ => Nat.lt_of_le_of_lt Nat.and_le_left hx) ha hb _ _
      (shaped_vecResize (s := Bitset.mk [] 0) (fun j => by rw [blockAt_mk_of_ge _ _ (Nat.zero_le _)]; decide)
        (max (a.get s).m_blocks.length (b.get s).m_blocks.length) 0
        (max (a.get s).m_bitCount (b.get s).m_bitCount) (by decide)) hloop
    refine hshape.wellFormed_of_reset ?_ h
    rw [ComputeBlockCount_max, (ha.get_wellFormed hs).length_eq, (hb.get_wellFormed hs).length_eq]

/-- A successful `PerformsOR` or `PerformsXOR` on a well-formed object with usable operands,
aliased or not, leaves a well-formed bitset. -/
theorem performsWith_preserves (op : Nat → Nat → Nat)
    (hop : ∀ x y, x < 4294967296 → y < 4294967296 → op x y < 4294967296)
    {s r : Bitset} {a b : Ref} (hs : WellFormed s) (ha : RefOk a)
    (hb : RefOk b) (h : performsWith op s a b = some r) : WellFormed r := by
  obtain ⟨g, l, hg, hgl⟩ : ∃ g l : Ref, RefOk g ∧
      performsWith op s a b =
        ((forLoop (fun i t => ((a.get t).GetBlock i).bind fun x =>
            ((b.get t).GetBlock i).bind fun y => t.writeBlock i (op x y)) 0
            (l.get s).m_blocks.length
            (Bitset.mk (vecResize s.m_blocks (g.get s).m_blocks.length 0)
              (g.get (Bitset.mk (vecResize s.m_blocks (g.get s).m_blocks.length 0)
                s.m_bitCount)).m_bitCount)).bind fun s3 =>
          forLoop (fun i t => ((g.get t).GetBlock i).bind fun x => t.writeBlock i x)
            (l.get s).m_blocks.length ((g.get s).m_blocks.length - (l.get s).m_blocks.length)
            s3).bind ResetExtraBits := by
    by_cases hc : (a.get s).GetBlockCount > (b.get s).GetBlockCount
    · refine ⟨a, b, ha, ?_⟩
      unfold performsWith
      simp only [if_pos hc]
      rfl
    · refine ⟨b, a, hb, ?_⟩
      unfold performsWith
      simp only [if_neg hc]
      rfl
  rw [hgl, Ref.get_bitCount g] at h
  cases h1 : forLoop (fun i t => ((a.get t).GetBlock i).bind fun x =>
      ((b.get t).GetBlock i).bind fun y => t.writeBlock i (op x y)) 0 (l.get s).m_blocks.length
      (Bitset.mk (vecResize s.m_blocks (g.get s).m_blocks.length 0) (g.get s).m_bitCount) with
  | none =>
    rw [h1] at h
    cases h
  | some s3 =>
    rw [h1, Option.some_bind] at h
    cases h2 : forLoop (fun i t => ((g.get t).GetBlock i).bind fun x => t.writeBlock i x)
        (l.get s).m_blocks.length ((g.get s).m_blocks.length - (l.get s).m_blocks.length) s3 with
    | none =>
      rw [h2] at h
      cases h
    | some s4 =>
      rw [h2, Option.some_bind] at h
      have hsh3 := binaryLoop_shaped op hop ha hb _ _
        (shaped_vecResize hs.blockAt_lt (g.get s).m_blocks.length 0 (g.get s).m_bitCount
          (by decide)) h1
      have hsh4 := unaryLoop_shaped (fun x => x) (fun x hx => hx) hg _ _ hsh3 h2
      exact hsh4.wellFormed_of_reset (hg.get_wellFormed hs).length_eq h

theorem PerformsOR_preserves {s r : Bitset} {a b : Ref} (hs : WellFormed s) (ha : RefOk a)
    (hb : RefOk b) (h : s.PerformsOR a b = some r) : WellFormed r := by
  rw [PerformsOR_eq] at h
  refine performsWith_preserves (fun x y => x ||| y) ?_ hs ha hb h
  intro x y hx hy
  rw [lt_two_pow_32] at *
  exact Nat.or_lt_two_pow hx hy

theorem PerformsXOR_preserves {s r : Bitset} {a b : Ref} (hs : WellFormed s) (ha : RefOk a)
    (hb : RefOk b) (h : s.PerformsXOR a b = some r) : WellFormed r := by
  rw [PerformsXOR_eq] at h
  refine performsWith_preserves (fun x y => x ^^^ y) ?_ hs ha hb h
  intro x y hx hy
  rw [lt_two_pow_32] at *
  exact Nat.xor_lt_two_pow hx hy

theorem PerformsNOT_preserves {s r : Bitset} {a : Ref} (hs : WellFormed s) (ha : RefOk a)
    (h : s.PerformsNOT a = some r) : WellFormed r := by
  unfold PerformsNOT at h
  simp only [GetBlockCount, GetSize, vecResize_length] at h
  rw [Ref.get_bitCount a] at h
  cases h1 : forLoop (fun i t => ((a.get t).GetBlock i).bind fun x =>
      t.writeBlock i (x ^^^ fullBitMask)) 0 (a.get s).m_blocks.length
      (Bitset.mk (vecResize s.m_blocks (a.get s).m_blocks.length 0) (a.get s).m_bitCount) with
  | none =>
    rw [h1] at h
    cases h
  | some s3 =>
    rw [h1, Option.some_bind] at h
    have hsh := unaryLoop_shaped (fun x => x ^^^ fullBitMask) (fun x hx => xor_fullBitMask_lt hx)
      ha _ _ (shaped_vecResize hs.blockAt_lt (a.get s).m_blocks.length 0 (a.get s).m_bitCount
        (by decide)) h1
    exact hsh.wellFormed_of_reset (ha.get_wellFormed hs).length_eq h

theorem blockAt_map (s : Bitset) (f : Nat → Nat) (c j : Nat) :
    (Bitset.mk (s.m_blocks.map f) c).blockAt j =
      if j < s.m_blocks.length then f (s.blockAt j) else 0 := by
  unfold blockAt
  simp only [List.getElem?_map]
  by_cases hj : j < s.m_blocks.length
  · rw [if_pos hj, List.getElem?_eq_getElem hj]
    rfl
  · rw [if_neg hj, List.getElem?_eq_none (Nat.le_of_not_lt hj)]
    rfl

theorem shaped_map {s : Bitset} (hs : ∀ j, s.blockAt j < 4294967296) (f : Nat → Nat)
    (hf : ∀ x, x < 4294967296 → f x < 4294967296) :
    Shaped s.m_blocks.length s.m_bitCount (Bitset.mk (s.m_blocks.map f) s.m_bitCount) := by
  refine ⟨List.length_map _ _, rfl, ?_⟩
  intro j
  rw [blockAt_map]
  split
  · exact hf _ (hs j)
  · decide

theorem SetAll_preserves {s r : Bitset} (hs : WellFormed s) {val : Bool}
    (h : s.SetAll val = some r) : WellFormed r := by
  unfold SetAll at h
  have hsh := shaped_map hs.blockAt_lt (fun _ => if val = true then fullBitMask else 0)
    (fun _ _ => by
      show (if val = true then fullBitMask else 0) < 4294967296
      split <;> decide)
  cases val with
  | true =>
    simp only [if_true] at h hsh
    exact hsh.wellFormed_of_reset hs.length_eq h
  | false =>
    simp only [Bool.false_eq_true, if_false, Option.some.injEq] at h hsh
    rw [← h]
    refine wellFormed_of_parts (hsh.1.trans hs.length_eq) hsh.2.2 ?_
    intro i _
    unfold bitAt
    rw [blockAt_map]
    split <;> exact Nat.zero_testBit _

theorem Flip_preserves {s r : Bitset} (hs : WellFormed s) (h : s.Flip = some r) :
    WellFormed r := by
  unfold Flip at h
  exact (shaped_map hs.blockAt_lt (fun x => x ^^^ fullBitMask)
    (fun x hx => xor_fullBitMask_lt hx)).wellFormed_of_reset hs.length_eq h

theorem u32_lt (x : Nat) : u32 x < 4294967296 := Nat.mod_lt _ (by decide)

theorem Resize_preserves {s r : Bitset} (hs : WellFormed s) {bitCount : Nat} {defaultVal : Bool}
    (h : s.Resize bitCount defaultVal = some r) : WellFormed r := by
  unfold Resize at h
  have hsh1 : Shaped (ComputeBlockCount bitCount) s.m_bitCount
      (Bitset.mk (vecResize s.m_blocks (ComputeBlockCount bitCount)
        (if defaultVal = true then fullBitMask else 0)) s.m_bitCount) :=
    shaped_vecResize hs.blockAt_lt _ _ _ (by split <;> decide)
  have key : ∀ s3 : Bitset, Shaped (ComputeBlockCount bitCount) s.m_bitCount s3 →
      ResetExtraBits { s3 with m_bitCount := bitCount } = some r → WellFormed r := by
    intro s3 hs3 hr
    have hsh : Shaped (ComputeBlockCount bitCount) bitCount (Bitset.mk s3.m_blocks bitCount) :=
      ⟨hs3.1, rfl, hs3.2.2⟩
    exact hsh.wellFormed_of_reset rfl hr
  by_cases hc : bitCount > s.m_bitCount ∧ GetBitIndex s.m_bitCount > 0 ∧ defaultVal = true
  · simp only [if_pos hc] at h
    cases hlast : (vecResize s.m_blocks (ComputeBlockCount bitCount)
        (if defaultVal = true then fullBitMask else 0))[u32 (s.m_blocks.length + 4294967295)]? with
    | none =>
      simp only [hlast] at h
      cases h
    | some block =>
      simp only [hlast] at h
      cases hw : Bitset.writeBlock
          (Bitset.mk (vecResize s.m_blocks (ComputeBlockCount bitCount)
            (if defaultVal = true then fullBitMask else 0)) s.m_bitCount)
          (u32 (s.m_blocks.length + 4294967295))
          (block ||| u32 (fullBitMask <<< GetBitIndex s.m_bitCount)) with
      | none =>
        rw [hw] at h
        cases h
      | some s3 =>
        rw [hw, Option.some_bind] at h
        refine key s3 (hsh1.writeBlock ?_ hw) h
        have hb : block < 4294967296 := GetBlock_lt hsh1.2.2 hlast
        rw [lt_two_pow_32] at hb ⊢
        exact Nat.or_lt_two_pow hb (lt_two_pow_32 ▸ u32_lt _)
  · simp only [if_neg hc, Option.some_bind] at h
    exact key _ hsh1 h

theorem SetBlock_preserves {s r : Bitset} (hs : WellFormed s) {i block : Nat}
    (hblock : block < 4294967296) (h : s.SetBlock i block = some r) : WellFormed r := by
  unfold SetBlock at h
  by_cases hi : i < s.m_blocks.length
  · obtain ⟨s1, hs1, hbc, hl, hb⟩ := writeBlock_spec (s := s) block hi
    have hsh : Shaped s.m_blocks.length s.m_bitCount s1 :=
      Shaped.writeBlock ⟨rfl, rfl, hs.blockAt_lt⟩ hblock hs1
    rw [hs1, Option.some_bind] at h
    by_cases hlast : i = s1.m_blocks.length - 1
    · rw [if_pos hlast] at h
      exact hsh.wellFormed_of_reset hs.length_eq h
    · rw [if_neg hlast, Option.some.injEq] at h
      rw [← h]
      refine wellFormed_of_parts (by rw [hl, hbc]; exact hs.length_eq) hsh.2.2 ?_
      intro k hk
      by_cases hkl : s.m_blocks.length ≤ k / 32
      · exact bitAt_of_ge_length (by rw [hl]; exact hkl)
      · have hne : k / 32 ≠ i := by
          have h1 := hs.length_eq
          rw [ComputeBlockCount_eq] at h1
          rw [hl] at hlast
          rw [hbc] at hk
          split at h1 <;> omega
        unfold bitAt
        rw [hb (k / 32), if_neg hne]
        exact hs.bitAt_of_ge (by rw [← hbc]; exact hk)
  · unfold Bitset.writeBlock at h
    rw [if_neg hi] at h
    cases h

theorem UnboundedSet_preserves {s r : Bitset} (hs : WellFormed s) {bit : Nat} {val : Bool}
    (h : s.UnboundedSet bit val = some r) : WellFormed r := by
  unfold UnboundedSet at h
  by_cases hb : bit < s.m_bitCount
  · rw [if_pos hb] at h
    exact Set_wellFormed hs h
  · rw [if_neg hb] at h
    cases val with
    | true =>
      simp only [if_true] at h
      cases hr : s.Resize (u32 (bit + 1)) false with
      | none =>
        rw [hr] at h
        cases h
      | some s1 =>
        rw [hr, Option.some_bind] at h
        exact Set_wellFormed (Resize_preserves hs hr) h
    | false =>
      simp only [Bool.false_eq_true, if_false, Option.some.injEq] at h
      rw [← h]
      exact hs

theorem wellFormed_empty : WellFormed empty := by decide

theorem ofChars_preserves {bits : List Char} {bitCount : Nat} {r : Bitset}
    (h : ofChars bits bitCount = some r) : WellFormed r := by
  unfold ofChars at h
  refine forLoop_preserves _ WellFormed bitCount 0 _ r (wellFormed_zeros bitCount) ?_ h
  intro i t t' ht hbody
  cases hc : bits[i]? with
  | none =>
    simp only [hc] at hbody
    cases hbody
  | some c =>
    simp only [hc] at hbody
    by_cases h1 : c = '1'
    · rw [if_pos h1] at hbody
      exact Set_wellFormed ht hbody
    · rw [if_neg h1] at hbody
      by_cases h0 : c = '0'
      · rw [if_pos h0, Option.some.injEq] at hbody
        rw [← hbody]
        exact ht
      · rw [if_neg h0] at hbody
        cases hbody

/-- Every bitset a program can hold satisfies the class invariant. -/
theorem Reachable.wellFormed {b : Bitset} (h : Reachable b) : WellFormed b := by
  induction h with
  | default => exact wellFormed_empty
  | ofSize bitCount val h => exact Resize_preserves wellFormed_empty h
  | ofChars bits bitCount h => exact ofChars_preserves h
  | set bit val _ h ih => exact Set_wellFormed ih h
  | setAll val _ h ih => exact SetAll_preserves ih h
  | resetAll _ h ih => exact SetAll_preserves ih h
  | reset bit _ h ih => exact Set_wellFormed ih h
  | flip _ h ih => exact Flip_preserves ih h
  | resize bitCount defaultVal _ h ih => exact Resize_preserves ih h
  | setBlock i block _ hblock h ih => exact SetBlock_preserves ih hblock h
  | unboundedSet bit val _ h ih => exact UnboundedSet_preserves ih h
  | unboundedReset bit _ h ih => exact UnboundedSet_preserves ih h
  | performsAND a b _ _ _ h ih iha ihb => exact PerformsAND_preserves ih iha ihb h
  | performsOR a b _ _ _ h ih iha ihb => exact PerformsOR_preserves ih iha ihb h
  | performsXOR a b _ _ _ h ih iha ihb => exact PerformsXOR_preserves ih iha ihb h
  | performsNOT a _ _ h ih iha => exact PerformsNOT_preserves ih iha h

theorem ResetExtraBits_total {s : Bitset}
    (hlen : s.m_blocks.length = ComputeBlockCount s.m_bitCount) :
    ∃ r, s.ResetExtraBits = some r ∧ r.m_bitCount = s.m_bitCount := by
  obtain ⟨r, hr, hbc, _⟩ := ResetExtraBits_spec s hlen
  exact ⟨r, hr, hbc⟩

theorem SetAll_total {s : Bitset} (hs : WellFormed s) (val : Bool) :
    ∃ r, s.SetAll val = some r := by
  unfold SetAll
  cases val with
  | true =>
    obtain ⟨r, hr, _⟩ := ResetExtraBits_total
      (s := Bitset.mk (s.m_blocks.map fun _ => fullBitMask) s.m_bitCount)
      (by rw [List.length_map]; exact hs.length_eq)
    exact ⟨r, hr⟩
  | false => exact ⟨_, rfl⟩

theorem Flip_total {s : Bitset} (hs : WellFormed s) : ∃ r, s.Flip = some r := by
  unfold Flip
  obtain ⟨r, hr, _⟩ := ResetExtraBits_total
    (s := Bitset.mk (s.m_blocks.map fun block => block ^^^ fullBitMask) s.m_bitCount)
    (by rw [List.length_map]; exact hs.length_eq)
  exact ⟨r, hr⟩

theorem Resize_total {s : Bitset} (hs : WellFormed s) (hsize : s.m_bitCount < 4294967296)
    (bitCount : Nat) (defaultVal : Bool) :
    ∃ r, s.Resize bitCount defaultVal = some r ∧ r.m_bitCount = bitCount := by
  unfold Resize
  have key : ∀ s3 : Bitset, s3.m_blocks.length = ComputeBlockCount bitCount →
      ∃ r, ResetExtraBits { s3 with m_bitCount := bitCount } = some r ∧ r.m_bitCount = bitCount :=
    fun s3 h3 => ResetExtraBits_total (s := Bitset.mk s3.m_blocks bitCount) h3
  by_cases hc : bitCount > s.m_bitCount ∧ GetBitIndex s.m_bitCount > 0 ∧ defaultVal = true
  · simp only [if_pos hc]
    have hlen := hs.length_eq
    rw [ComputeBlockCount_eq] at hlen
    have hrem : s.m_bitCount % 32 ≠ 0 := by
      have := hc.2.1
      rw [GetBitIndex_eq] at this
      omega
    rw [if_pos hrem] at hlen
    have hidx : u32 (s.m_blocks.length + 4294967295) = s.m_blocks.length - 1 := by
      unfold u32
      omega
    have hmono := ComputeBlockCount_mono (Nat.le_of_lt hc.1)
    rw [← hs.length_eq] at hmono
    have hin : s.m_blocks.length - 1 <
        (vecResize s.m_blocks (ComputeBlockCount bitCount)
          (if defaultVal = true then fullBitMask else 0)).length := by
      rw [vecResize_length]
      omega
    rw [hidx, List.getElem?_eq_getElem hin]
    simp only []
    obtain ⟨s3, hs3, _, hl3, _⟩ := writeBlock_spec
      (s := Bitset.mk (vecResize s.m_blocks (ComputeBlockCount bitCount)
        (if defaultVal = true then fullBitMask else 0)) s.m_bitCount)
      (i := s.m_blocks.length - 1)
      ((vecResize s.m_blocks (ComputeBlockCount bitCount)
          (if defaultVal = true then fullBitMask else 0))[s.m_blocks.length - 1] |||
        u32 (fullBitMask <<< GetBitIndex s.m_bitCount)) hin
    rw [hs3, Option.some_bind]
    exact key s3 (by rw [hl3]; exact vecResize_length _ _ _)
  · simp only [if_neg hc, Option.some_bind]
    exact key (Bitset.mk (vecResize s.m_blocks (ComputeBlockCount bitCount)
      (if defaultVal = true then fullBitMask else 0)) s.m_bitCount) (vecResize_length _ _ _)

theorem SetBlock_total {s : Bitset} (hs : WellFormed s) {i : Nat} (hi : i < s.m_blocks.length)
    (block : Nat) : ∃ r, s.SetBlock i block = some r := by
  unfold SetBlock
  obtain ⟨s1, hs1, hbc, hl, _⟩ := writeBlock_spec (s := s) block hi
  rw [hs1, Option.some_bind]
  by_cases hlast : i = s1.m_blocks.length - 1
  · rw [if_pos hlast]
    obtain ⟨r, hr, _⟩ := ResetExtraBits_total (s := s1) (by rw [hl, hbc]; exact hs.length_eq)
    exact ⟨r, hr⟩
  · rw [if_neg hlast]
    exact ⟨s1, rfl⟩

theorem UnboundedSet_total {s : Bitset} (hs : WellFormed s) (hsize : s.m_bitCount < 4294967296)
    {bit : Nat} (hbit : bit + 1 < 4294967296) (val : Bool) :
    ∃ r, s.UnboundedSet bit val = some r := by
  unfold UnboundedSet
  by_cases hb : bit < s.m_bitCount
  · rw [if_pos hb]
    obtain ⟨r, hr, _⟩ := Set_spec hs.length_eq hb val
    exact ⟨r, hr⟩
  · rw [if_neg hb]
    cases val with
    | true =>
      simp only [if_true]
      have hu : u32 (bit + 1) = bit + 1 := Nat.mod_eq_of_lt hbit
      rw [hu]
      obtain ⟨s1, hs1, hbc1⟩ := Resize_total hs hsize (bit + 1) false
      rw [hs1, Option.some_bind]
      obtain ⟨r, hr, _⟩ := Set_spec (Resize_preserves hs hs1).length_eq
        (show bit < s1.m_bitCount by rw [hbc1]; omega) true
      exact ⟨r, hr⟩
    | false => exact ⟨s, rfl⟩

/-- A block-writing loop over blocks that every operand has runs to its end. -/
theorem binaryLoop_total (op : Nat → Nat → Nat) {a b : Ref} (len size n lo : Nat) {s : Bitset}
    (hs : s.m_blocks.length = len ∧ s.m_bitCount = size) (hlen : lo + n ≤ len)
    (ha : ∀ x, a = Ref.other x → lo + n ≤ x.m_blocks.length)
    (hb : ∀ x, b = Ref.other x → lo + n ≤ x.m_blocks.length) :
    ∃ r, forLoop (fun i t => ((a.get t).GetBlock i).bind fun x =>
        ((b.get t).GetBlock i).bind fun y => t.writeBlock i (op x y)) lo n s = some r ∧
      r.m_blocks.length = len ∧ r.m_bitCount = size := by
  refine forLoop_inv _ (fun _ t => t.m_blocks.length = len ∧ t.m_bitCount = size) n lo s hs ?_
  intro i t _ hi ht
  have hia : i < (a.get t).m_blocks.length := by
    cases a with
    | self => exact Nat.lt_of_lt_of_le hi (ht.1 ▸ hlen)
    | other x => exact Nat.lt_of_lt_of_le hi (ha x rfl)
  have hib : i < (b.get t).m_blocks.length := by
    cases b with
    | self => exact Nat.lt_of_lt_of_le hi (ht.1 ▸ hlen)
    | other x => exact Nat.lt_of_lt_of_le hi (hb x rfl)
  obtain ⟨t', ht', hbc, hl, _⟩ := writeBlock_spec (s := t) (i := i)
    (op ((a.get t).blockAt i) ((b.get t).blockAt i)) (by rw [ht.1]; omega)
  refine ⟨t', ?_, hl.trans ht.1, hbc.trans ht.2⟩
  simp only [GetBlock_of_lt hia, GetBlock_of_lt hib, Option.some_bind]
  exact ht'

theorem unaryLoop_total (f : Nat → Nat) {a : Ref} (len size n lo : Nat) {s : Bitset}
    (hs : s.m_blocks.length = len ∧ s.m_bitCount = size) (hlen : lo + n ≤ len)
    (ha : ∀ x, a = Ref.other x → lo + n ≤ x.m_blocks.length) :
    ∃ r, forLoop (fun i t => ((a.get t).GetBlock i).bind fun x => t.writeBlock i (f x)) lo n s
        = some r ∧
      r.m_blocks.length = len ∧ r.m_bitCount = size := by
  refine forLoop_inv _ (fun _ t => t.m_blocks.length = len ∧ t.m_bitCount = size) n lo s hs ?_
  intro i t _ hi ht
  have hia : i < (a.get t).m_blocks.length := by
    cases a with
    | self => exact Nat.lt_of_lt_of_le hi (ht.1 ▸ hlen)
    | other x => exact Nat.lt_of_lt_of_le hi (ha x rfl)
  obtain ⟨t', ht', hbc, hl, _⟩ := writeBlock_spec (s := t) (i := i)
    (f ((a.get t).blockAt i)) (by rw [ht.1]; omega)
  refine ⟨t', ?_, hl.trans ht.1, hbc.trans ht.2⟩
  simp only [GetBlock_of_lt hia, Option.some_bind]
  exact ht'

theorem Ref.get_other_length {a : Ref} {s x : Bitset} (h : a = Ref.other x) :
    (a.get s).m_blocks.length = x.m_blocks.length := by
  rw [h]
  rfl

/-- The call of `PerformsAND` returns on a well-formed object with usable operands, aliased or not. -/
theorem PerformsAND_total {s : Bitset} {a b : Ref} (hs : WellFormed s) (ha : RefOk a)
    (hb : RefOk b) : ∃ r, s.PerformsAND a b = some r := by
  unfold PerformsAND
  simp only [GetBlockCount, GetSize]
  rw [Ref.get_bitCount a, Ref.get_bitCount b]
  obtain ⟨r0, hr0, hl0, hbc0⟩ := binaryLoop_total (fun x y => x &&& y) (a := a) (b := b)
    (max (a.get s).m_blocks.length (b.get s).m_blocks.length)
    (max (a.get s).m_bitCount (b.get s).m_bitCount)
    (min (a.get s).m_blocks.length (b.get s).m_blocks.length) 0
    (s := Bitset.mk (vecResize [] (max (a.get s).m_blocks.length (b.get s).m_blocks.length) 0)
      (max (a.get s).m_bitCount (b.get s).m_bitCount))
    ⟨vecResize_length _ _ _, rfl⟩ (by omega)
    (fun x hx => by rw [← Ref.get_other_length (s := s) hx]; omega)
    (fun x hx => by rw [← Ref.get_other_length (s := s) hx]; omega)
  rw [hr0, Option.some_bind]
  obtain ⟨r, hr, _⟩ := ResetExtraBits_total (s := r0) (by
    rw [hl0, hbc0, ComputeBlockCount_max, (ha.get_wellFormed hs).length_eq,
      (hb.get_wellFormed hs).length_eq])
  exact ⟨r, hr⟩

/-- The calls of `PerformsOR` and `PerformsXOR` return on a well-formed object with usable operands, aliased
or not. -/
theorem performsWith_total (op : Nat → Nat → Nat) {s : Bitset} {a b : Ref} (hs : WellFormed s)
    (ha : RefOk a) (hb : RefOk b) : ∃ r, performsWith op s a b = some r := by
  obtain ⟨g, l, hg, hle, hla, hlb, hgl⟩ : ∃ g l : Ref, RefOk g ∧
      (l.get s).m_blocks.length ≤ (g.get s).m_blocks.length ∧
      (l.get s).m_blocks.length ≤ (a.get s).m_blocks.length ∧
      (l.get s).m_blocks.length ≤ (b.get s).m_blocks.length ∧
      performsWith op s a b =
        ((forLoop (fun i t => ((a.get t).GetBlock i).bind fun x =>
            ((b.get t).GetBlock i).bind fun y => t.writeBlock i (op x y)) 0
            (l.get s).m_blocks.length
            (Bitset.mk (vecResize s.m_blocks (g.get s).m_blocks.length 0)
              (g.get (Bitset.mk (vecResize s.m_blocks (g.get s).m_blocks.length 0)
                s.m_bitCount)).m_bitCount)).bind fun s3 =>
          forLoop (fun i t => ((g.get t).GetBlock i).bind fun x => t.writeBlock i x)
            (l.get s).m_blocks.length ((g.get s).m_blocks.length - (l.get s).m_blocks.length)
            s3).bind ResetExtraBits := by
    by_cases hc : (a.get s).GetBlockCount > (b.get s).GetBlockCount
    · have hc' : (a.get s).m_blocks.length > (b.get s).m_blocks.length := hc
      refine ⟨a, b, ha, by omega, by omega, Nat.le_refl _, ?_⟩
      unfold performsWith
      simp only [if_pos hc]
      rfl
    · have hc' : ¬ (a.get s).m_blocks.length > (b.get s).m_blocks.length := hc
      refine ⟨b, a, hb, by omega, Nat.le_refl _, by omega, ?_⟩
      unfold performsWith
      simp only [if_neg hc]
      rfl
  rw [hgl, Ref.get_bitCount g]
  obtain ⟨s3, hs3, hl3, hbc3⟩ := binaryLoop_total op (a := a) (b := b)
    (g.get s).m_blocks.length (g.get s).m_bitCount (l.get s).m_blocks.length 0
    (s := Bitset.mk (vecResize s.m_blocks (g.get s).m_blocks.length 0) (g.get s).m_bitCount)
    ⟨vecResize_length _ _ _, rfl⟩ (by omega)
    (fun x hx => by rw [← Ref.get_other_length (s := s) hx]; omega)
    (fun x hx => by rw [← Ref.get_other_length (s := s) hx]; omega)
  rw [hs3, Option.some_bind]
  obtain ⟨s4, hs4, hl4, hbc4⟩ := unaryLoop_total (fun x => x) (a := g)
    (g.get s).m_blocks.length (g.get s).m_bitCount
    ((g.get s).m_blocks.length - (l.get s).m_blocks.length) (l.get s).m_blocks.length
    (s := s3) ⟨hl3, hbc3⟩ (by omega)
    (fun x hx => by rw [← Ref.get_other_length (s := s) hx]; omega)
  rw [hs4, Option.some_bind]
  obtain ⟨r, hr, _⟩ := ResetExtraBits_total (s := s4) (by
    rw [hl4, hbc4]
    exact (hg.get_wellFormed hs).length_eq)
  exact ⟨r, hr⟩

theorem PerformsNOT_total {s : Bitset} {a : Ref} (hs : WellFormed s) (ha : RefOk a) :
    ∃ r, s.PerformsNOT a = some r := by
  unfold PerformsNOT
  simp only [GetBlockCount, GetSize, vecResize_length]
  rw [Ref.get_bitCount a]
  obtain ⟨s3, hs3, hl3, hbc3⟩ := unaryLoop_total (fun x => x ^^^ fullBitMask) (a := a)
    (a.get s).m_blocks.length (a.get s).m_bitCount (a.get s).m_blocks.length 0
    (s := Bitset.mk (vecResize s.m_blocks (a.get s).m_blocks.length 0) (a.get s).m_bitCount)
    ⟨vecResize_length _ _ _, rfl⟩ (by omega)
    (fun x hx => by rw [← Ref.get_other_length (s := s) hx]; omega)
  rw [hs3, Option.some_bind]
  obtain ⟨r, hr, _⟩ := ResetExtraBits_total (s := s3) (by
    rw [hl3, hbc3]
    exact (ha.get_wellFormed hs).length_eq)
  exact ⟨r, hr⟩

/-- C3: a bitset built by a constructor and changed by any sequence of successful calls of `Set`,
`Reset`, `Flip`, `Resize`, `SetBlock`, `UnboundedSet`, `UnboundedReset`, `PerformsAND`, `PerformsOR`,
`PerformsXOR` and `PerformsNOT` has every stored bit at a position at or beyond `GetSize()` equal
to zero and holds exactly the blocks its size needs; and on such a bitset, its size fitting the
32-bit counter, each of these operations returns when its index is in range. -/
theorem extra_bits_zero_of_reachable (b : Bitset) (h : Reachable b) :
    ((∀ i, b.GetSize ≤ i → b.bitAt i = false) ∧
      b.GetBlockCount = ComputeBlockCount b.GetSize) ∧
    (b.GetSize < 4294967296 →
      (∀ bit val, bit < b.GetSize → ∃ r, b.Set bit val = some r) ∧
      (∀ val, ∃ r, b.SetAll val = some r) ∧
      (∃ r, b.Flip = some r) ∧
      (∀ bitCount defaultVal, ∃ r, b.Resize bitCount defaultVal = some r) ∧
      (∀ i block, i < b.GetBlockCount → ∃ r, b.SetBlock i block = some r) ∧
      (∀ bit val, bit + 1 < 4294967296 → ∃ r, b.UnboundedSet bit val = some r) ∧
      (∀ a c : Ref, (∀ x, a = Ref.other x → Reachable x) → (∀ x, c = Ref.other x → Reachable x) →
        (∃ r, b.PerformsAND a c = some r) ∧ (∃ r, b.PerformsOR a c = some r) ∧
        (∃ r, b.PerformsXOR a c = some r) ∧ (∃ r, b.PerformsNOT a = some r))) := by
  have hw := h.wellFormed
  refine ⟨⟨fun _ hi => hw.bitAt_of_ge hi, hw.length_eq⟩, ?_⟩
  intro hsize
  refine ⟨?_, fun val => SetAll_total hw val, Flip_total hw, ?_, ?_, ?_, ?_⟩
  · intro bit val hbit
    obtain ⟨r, hr, _⟩ := Set_spec hw.length_eq hbit val
    exact ⟨r, hr⟩
  · intro bitCount defaultVal
    obtain ⟨r, hr, _⟩ := Resize_total hw hsize bitCount defaultVal
    exact ⟨r, hr⟩
  · intro i block hi
    exact SetBlock_total hw hi block
  · intro bit val hbit
    exact UnboundedSet_total hw hsize hbit val
  · intro a c ha hc
    have ha' : RefOk a := fun x hx => (ha x hx).wellFormed
    have hc' : RefOk c := fun x hx => (hc x hx).wellFormed
    refine ⟨PerformsAND_total hw ha' hc', ?_, ?_, PerformsNOT_total hw ha'⟩
    · rw [PerformsOR_eq]
      exact performsWith_total _ hw ha' hc'
    · rw [PerformsXOR_eq]
      exact performsWith_total _ hw ha' hc'

/-- An instance of `extra_bits_zero_of_reachable`: a bitset built by `Bitset(40, true)` and changed by
one call of each mutating operation, with aliased and other operands. -/
theorem extra_bits_zero_of_reachable_witness :
    Reachable (Bitset.mk [10, 4294967264, 63] 71) ∧
    ((∀ i, (Bitset.mk [10, 4294967264, 63] 71).GetSize ≤ i →
        (Bitset.mk [10, 4294967264, 63] 71).bitAt i = false) ∧
      (Bitset.mk [10, 4294967264, 63] 71).GetBlockCount =
        ComputeBlockCount (Bitset.mk [10, 4294967264, 63] 71).GetSize) ∧
    ((Bitset.mk [10, 4294967264, 63] 71).GetSize < 4294967296 →
      (∀ bit val, bit < (Bitset.mk [10, 4294967264, 63] 71).GetSize →
        ∃ r, (Bitset.mk [10, 4294967264, 63] 71).Set bit val = some r) ∧
      (∀ val, ∃ r, (Bitset.mk [10, 4294967264, 63] 71).SetAll val = some r) ∧
      (∃ r, (Bitset.mk [10, 4294967264, 63] 71).Flip = some r) ∧
      (∀ bitCount defaultVal,
        ∃ r, (Bitset.mk [10, 4294967264, 63] 71).Resize bitCount defaultVal = some r) ∧
      (∀ i block, i < (Bitset.mk [10, 4294967264, 63] 71).GetBlockCount →
        ∃ r, (Bitset.mk [10, 4294967264, 63] 71).SetBlock i block = some r) ∧
      (∀ bit val, bit + 1 < 4294967296 →
        ∃ r, (Bitset.mk [10, 4294967264, 63] 71).UnboundedSet bit val = some r) ∧
      (∀ a c : Ref, (∀ x, a = Ref.other x → Reachable x) → (∀ x, c = Ref.other x → Reachable x) →
        (∃ r, (Bitset.mk [10, 4294967264, 63] 71).PerformsAND a c = some r) ∧
        (∃ r, (Bitset.mk [10, 4294967264, 63] 71).PerformsOR a c = some r) ∧
        (∃ r, (Bitset.mk [10, 4294967264, 63] 71).PerformsXOR a c = some r) ∧
        (∃ r, (Bitset.mk [10, 4294967264, 63] 71).PerformsNOT a = some r))) :=
  have h1 : Reachable (Bitset.mk [4294967295, 255] 40) := Reachable.ofSize 40 true (by decide)
  have h2 : Reachable (Bitset.mk [0, 0] 40) := Reachable.flip h1 (by decide)
  have h3 : Reachable (Bitset.mk [0, 2] 40) := Reachable.set 33 true h2 (by decide)
  have h4 : Reachable (Bitset.mk [4294967295, 255] 40) := Reachable.setAll true h3 (by decide)
  have h5 : Reachable (Bitset.mk [4294967294, 255] 40) := Reachable.reset 0 h4 (by decide)
  have h6 : Reachable (Bitset.mk [4294967294, 31] 37) := Reachable.resize 37 true h5 (by decide)
  have h7 : Reachable (Bitset.mk [4294967294, 31] 37) :=
    Reachable.setBlock 1 4294967295 h6 (by decide) (by decide)
  have h8 : Reachable (Bitset.mk [4294967294, 31, 64] 71) :=
    Reachable.unboundedSet 70 true h7 (by decide)
  have h9 : Reachable (Bitset.mk [4294967292, 31, 64] 71) :=
    Reachable.unboundedReset 1 h8 (by decide)
  have hc : Reachable (Bitset.mk [11] 4) := Reachable.ofChars ['1', '0', '1', '1'] 4 (by decide)
  have hco : ∀ x, Ref.other (Bitset.mk [11] 4) = Ref.other x → Reachable x :=
    fun x hx => by
      cases hx
      exact hc
  have h8o : ∀ x, Ref.other (Bitset.mk [4294967294, 31, 64] 71) = Ref.other x → Reachable x :=
    fun x hx => by
      cases hx
      exact h8
  have hself : ∀ x, Ref.self = Ref.other x → Reachable x := fun x hx => by cases hx
  have h10 : Reachable (Bitset.mk [0, 0, 0] 71) :=
    Reachable.performsAND Ref.self (Ref.other (Bitset.mk [11] 4)) h9 hself hco (by decide)
  have h11 : Reachable (Bitset.mk [0, 0, 0] 71) := Reachable.resetAll h10 (by decide)
  have h12 : Reachable (Bitset.mk [11, 0, 0] 71) :=
    Reachable.performsOR (Ref.other (Bitset.mk [11] 4)) Ref.self h11 hco hself (by decide)
  have h13 : Reachable (Bitset.mk [4294967285, 31, 64] 71) :=
    Reachable.performsXOR (Ref.other (Bitset.mk [4294967294, 31, 64] 71))
      (Ref.other (Bitset.mk [11] 4)) h12 h8o hco (by decide)
  have h14 : Reachable (Bitset.mk [10, 4294967264, 63] 71) :=
    Reachable.performsNOT Ref.self h13 hself (by decide)
  ⟨h14, extra_bits_zero_of_reachable (Bitset.mk [10, 4294967264, 63] 71) h14⟩

/-- C14: on a bitset of size `n`, `Set(i, v)`, `Reset(i)` and `Test(i)` fail exactly when `i >= n`;
for `i < n`, `Set(i, v)` returns a bitset of the same size in which `Test(i)` is `v` and `Test(j)`
is as before for every other `j < n`. -/
theorem Set_Reset_Test_in_range (s : Bitset) (hs : WellFormed s) (i : Nat) (v : Bool) :
    (s.Set i v = none ↔ s.GetSize ≤ i) ∧ (s.Reset i = none ↔ s.GetSize ≤ i) ∧
    (s.Test i = none ↔ s.GetSize ≤ i) ∧
    (i < s.GetSize → ∃ r, s.Set i v = some r ∧ r.GetSize = s.GetSize ∧ r.Test i = some v ∧
      ∀ j, j < s.GetSize → j ≠ i → r.Test j = s.Test j) := by
  have hfail : ∀ w, s.GetSize ≤ i → s.Set i w = none := by
    intro w hi
    have hn : ¬ i < s.m_bitCount := Nat.not_lt.2 hi
    unfold Set
    rw [if_neg hn]
  have hok : ∀ w, i < s.GetSize → ∃ r, s.Set i w = some r := by
    intro w hi
    obtain ⟨r, hr, _⟩ := Set_spec hs.length_eq hi w
    exact ⟨r, hr⟩
  have hiff : ∀ w, s.Set i w = none ↔ s.GetSize ≤ i := by
    intro w
    constructor
    · intro h
      by_contra hi
      obtain ⟨r, hr⟩ := hok w (Nat.lt_of_not_le hi)
      rw [hr] at h
      cases h
    · exact hfail w
  refine ⟨hiff v, hiff false, ?_, ?_⟩
  · constructor
    · intro h
      by_contra hi
      rw [Test_eq_bitAt hs.length_eq (Nat.lt_of_not_le hi)] at h
      cases h
    · intro hi
      have hn : ¬ i < s.m_bitCount := Nat.not_lt.2 hi
      unfold Test
      rw [if_neg hn]
  · intro hi
    obtain ⟨r, hr, hbc, hl, _, hb⟩ := Set_spec hs.length_eq hi v
    have hrl : r.m_blocks.length = ComputeBlockCount r.m_bitCount := by
      rw [hl, hbc]
      exact hs.length_eq
    refine ⟨r, hr, hbc, ?_, ?_⟩
    · rw [Test_eq_bitAt hrl (by rw [hbc]; exact hi), hb i, if_pos rfl]
    · intro j hj hne
      rw [Test_eq_bitAt hrl (by rw [hbc]; exact hj), Test_eq_bitAt hs.length_eq hj, hb j,
        if_neg hne]

/-- An instance of `Set_Reset_Test_in_range`: the 4-bit bitset `"1000"` and index 1. -/
theorem Set_Reset_Test_in_range_witness :
    WellFormed (Bitset.mk [8] 4) ∧
    (Bitset.mk [8] 4).Set 1 true = some (Bitset.mk [10] 4) ∧
    (Bitset.mk [8] 4).Set 4 true = none ∧
    (((Bitset.mk [8] 4).Set 1 true = none ↔ (Bitset.mk [8] 4).GetSize ≤ 1) ∧
      ((Bitset.mk [8] 4).Reset 1 = none ↔ (Bitset.mk [8] 4).GetSize ≤ 1) ∧
      ((Bitset.mk [8] 4).Test 1 = none ↔ (Bitset.mk [8] 4).GetSize ≤ 1) ∧
      (1 < (Bitset.mk [8] 4).GetSize → ∃ r, (Bitset.mk [8] 4).Set 1 true = some r ∧
        r.GetSize = (Bitset.mk [8] 4).GetSize ∧ r.Test 1 = some true ∧
        ∀ j, j < (Bitset.mk [8] 4).GetSize → j ≠ 1 → r.Test j = (Bitset.mk [8] 4).Test j)) :=
  ⟨by decide, by decide, by decide,
    Set_Reset_Test_in_range (Bitset.mk [8] 4) (by decide) 1 true⟩

theorem blockAt_vecResize_zero {s : Bitset} {n : Nat} (hn : s.m_blocks.length ≤ n) (c j : Nat) :
    (Bitset.mk (vecResize s.m_blocks n 0) c).blockAt j = s.blockAt j := by
  unfold blockAt
  simp only [vecResize_getElem?]
  by_cases hj : j < n
  · rw [if_pos hj]
    rfl
  · rw [if_neg hj, List.getElem?_eq_none (by omega)]

/-- Growing with `Resize(n, false)` keeps every bit. -/
theorem Resize_grow_false {s : Bitset} (hs : WellFormed s) {n : Nat} (hn : s.m_bitCount ≤ n) :
    ∃ r, s.Resize n false = some r ∧ WellFormed r ∧ r.m_bitCount = n ∧
      ∀ j, r.bitAt j = s.bitAt j := by
  have hlen : s.m_blocks.length ≤ ComputeBlockCount n := by
    rw [hs.length_eq]
    exact ComputeBlockCount_mono hn
  have hunf : s.Resize n false =
      ResetExtraBits (Bitset.mk (vecResize s.m_blocks (ComputeBlockCount n) 0) n) := by
    unfold Resize
    simp only [Bool.false_eq_true, and_false, if_false, Option.some_bind]
  obtain ⟨r, hr, hbc, _, _, hbit⟩ := ResetExtraBits_bits
    (Bitset.mk (vecResize s.m_blocks (ComputeBlockCount n) 0) n) (vecResize_length _ _ _)
  have hr' : s.Resize n false = some r := by rw [hunf]; exact hr
  refine ⟨r, hr', Resize_preserves hs hr', hbc, ?_⟩
  intro j
  rw [hbit j]
  have hsame : (Bitset.mk (vecResize s.m_blocks (ComputeBlockCount n) 0) n).bitAt j = s.bitAt j :=
    bitAt_ext_block (blockAt_vecResize_zero hlen n _)
  rw [hsame]
  by_cases hj : j < n
  · simp [hj]
  · rw [hs.bitAt_of_ge (by omega)]
    rfl

/-- C15 as the code has it: `UnboundedTest(i)` is `Test(i)` below the size and `false` from the
size on; for an index `i` whose successor fits the 32-bit counter, `UnboundedSet(i, true)` returns a
bitset of size `max(n, i + 1)` whose bit `j` is set exactly when `j = i` or the bit was set before;
`UnboundedSet(i, false)` with `i >= n` returns the bitset unchanged. -/
theorem UnboundedSet_grows (s : Bitset) (hs : WellFormed s) (i : Nat) :
    (s.UnboundedTest i = if i < s.GetSize then s.Test i else some false) ∧
    (i + 1 < 4294967296 → ∃ r, s.UnboundedSet i true = some r ∧
      r.GetSize = max s.GetSize (i + 1) ∧
      ∀ j, (r.UnboundedTest j = some true ↔ j = i ∨ s.UnboundedTest j = some true)) ∧
    (s.GetSize ≤ i → s.UnboundedSet i false = some s) := by
  refine ⟨rfl, ?_, ?_⟩
  · intro hi
    have key : ∀ t : Bitset, WellFormed t → (∀ j, t.bitAt j = s.bitAt j) → i < t.m_bitCount →
        ∀ r, t.Set i true = some r →
          ∀ j, (r.UnboundedTest j = some true ↔ j = i ∨ s.UnboundedTest j = some true) := by
      intro t ht hsame hlt r hr j
      obtain ⟨r', hr', _, _, _, hb⟩ := Set_spec ht.length_eq hlt true
      rw [hr] at hr'
      cases hr'
      rw [UnboundedTest_eq_bitAt (Set_wellFormed ht hr) j, UnboundedTest_eq_bitAt hs j, hb j,
        hsame j]
      by_cases hj : j = i
      · simp [hj]
      · simp [hj]
    unfold UnboundedSet
    by_cases hb : i < s.m_bitCount
    · rw [if_pos hb]
      obtain ⟨r, hr, hbc, _⟩ := Set_spec hs.length_eq hb true
      refine ⟨r, hr, ?_, key s hs (fun _ => rfl) hb r hr⟩
      show r.m_bitCount = max s.m_bitCount (i + 1)
      rw [hbc]
      omega
    · rw [if_neg hb]
      simp only [if_true]
      have hu : u32 (i + 1) = i + 1 := Nat.mod_eq_of_lt hi
      rw [hu]
      obtain ⟨t, ht, htw, htc, hsame⟩ := Resize_grow_false hs (n := i + 1) (by omega)
      rw [ht, Option.some_bind]
      obtain ⟨r, hr, hbc, _⟩ := Set_spec htw.length_eq (show i < t.m_bitCount by omega) true
      refine ⟨r, hr, ?_, key t htw hsame (by omega) r hr⟩
      show r.m_bitCount = max s.m_bitCount (i + 1)
      rw [hbc, htc]
      omega
  · intro hi
    have hn : ¬ i < s.m_bitCount := Nat.not_lt.2 hi
    unfold UnboundedSet
    rw [if_neg hn]
    rfl

/-- An instance of `UnboundedSet_grows`: the 3-bit bitset `"101"` and index 40. -/
theorem UnboundedSet_grows_witness :
    WellFormed (Bitset.mk [5] 3) ∧
    (Bitset.mk [5] 3).UnboundedSet 40 true = some (Bitset.mk [5, 256] 41) ∧
    (((Bitset.mk [5] 3).UnboundedTest 40 =
        if 40 < (Bitset.mk [5] 3).GetSize then (Bitset.mk [5] 3).Test 40 else some false) ∧
      (40 + 1 < 4294967296 → ∃ r, (Bitset.mk [5] 3).UnboundedSet 40 true = some r ∧
        r.GetSize = max (Bitset.mk [5] 3).GetSize (40 + 1) ∧
        ∀ j, (r.UnboundedTest j = some true ↔
          j = 40 ∨ (Bitset.mk [5] 3).UnboundedTest j = some true)) ∧
      ((Bitset.mk [5] 3).GetSize ≤ 40 →
        (Bitset.mk [5] 3).UnboundedSet 40 false = some (Bitset.mk [5] 3))) :=
  ⟨by decide, by decide, UnboundedSet_grows (Bitset.mk [5] 3) (by decide) 40⟩

/-- C15 fails as stated at the largest index: `UnboundedSet(4294967295, true)` on the 3-bit bitset
`"101"` computes the new size `4294967295 + 1` in 32 bits, which is 0, empties the bitset with
`Resize(0)` and then fails in `Set`, instead of yielding a bitset of `4294967296` bits. -/
theorem UnboundedSet_wraps_at_max :
    WellFormed (Bitset.mk [5] 3) ∧
    u32 (4294967295 + 1) = 0 ∧
    (Bitset.mk [5] 3).Resize (u32 (4294967295 + 1)) false = some (Bitset.mk [] 0) ∧
    (Bitset.mk [5] 3).UnboundedSet 4294967295 true = none ∧
    ¬ ∃ r, (Bitset.mk [5] 3).UnboundedSet 4294967295 true = some r ∧
      r.GetSize = max (Bitset.mk [5] 3).GetSize (4294967295 + 1) :=
  ⟨by decide, by decide, by decide, by decide, fun ⟨_, h, _⟩ => by
    have hnone : (Bitset.mk [5] 3).UnboundedSet 4294967295 true = none := by decide
    rw [hnone] at h
    cases h⟩

/-- Every number other than zero is an odd multiple of a power of two. -/
theorem exists_lowbit {x : Nat} (hx : x ≠ 0) : ∃ k m, x = 2 ^ (k + 1) * m + 2 ^ k := by
  induction x using Nat.strong_induction_on with
  | _ x ih =>
    rcases Nat.mod_two_eq_zero_or_one x with h0 | h1
    · have hy : x / 2 ≠ 0 := by omega
      obtain ⟨k, m, hkm⟩ := ih (x / 2) (by omega) hy
      refine ⟨k + 1, m, ?_⟩
      have hx2 : x = 2 * (x / 2) := by omega
      rw [hx2, hkm]
      ring
    · refine ⟨0, x / 2, ?_⟩
      simp only [Nat.zero_add, Nat.pow_one, Nat.pow_zero]
      omega

theorem two_pow_lt_succ (k : Nat) : 2 ^ k < 2 ^ (k + 1) :=
  Nat.pow_lt_pow_right (by decide) (Nat.lt_succ_self k)

theorem testBit_lowbit (k m j : Nat) :
    (2 ^ (k + 1) * m + 2 ^ k).testBit j =
      if j < k + 1 then decide (k = j) else m.testBit (j - (k + 1)) := by
  rw [Nat.testBit_mul_pow_two_add m (two_pow_lt_succ k) j, Nat.testBit_two_pow]

theorem testBit_lowbit_pred (k m j : Nat) :
    (2 ^ (k + 1) * m + 2 ^ k - 1).testBit j =
      if j < k + 1 then decide (j < k) else m.testBit (j - (k + 1)) := by
  have hpos : 0 < 2 ^ k := Nat.pow_pos (by decide)
  have hlt : 2 ^ k - 1 < 2 ^ (k + 1) := by
    have := two_pow_lt_succ k
    omega
  have e : 2 ^ (k + 1) * m + 2 ^ k - 1 = 2 ^ (k + 1) * m + (2 ^ k - 1) := by omega
  rw [e, Nat.testBit_mul_pow_two_add m hlt j, Nat.testBit_two_pow_sub_one]

/-- One round of the loop of `CountBits` clears the lowest set bit. -/
theorem and_pred_lowbit (k m : Nat) :
    (2 ^ (k + 1) * m + 2 ^ k) &&& (2 ^ (k + 1) * m + 2 ^ k - 1) = 2 ^ (k + 1) * m := by
  apply Nat.eq_of_testBit_eq
  intro j
  have hz : (2 ^ (k + 1) * m).testBit j = if j < k + 1 then false else m.testBit (j - (k + 1)) := by
    have := Nat.testBit_mul_pow_two_add m (Nat.pow_pos (n := k + 1) (by decide : 0 < 2)) j
    rw [Nat.add_zero, Nat.zero_testBit] at this
    exact this
  rw [Nat.testBit_and, testBit_lowbit, testBit_lowbit_pred, hz]
  by_cases hj : j < k + 1
  · simp only [hj, if_true]
    by_cases hkj : k = j
    · have : ¬ j < k := by omega
      simp [this]
    · simp [hkj]
  · simp only [hj, if_false, Bool.and_self]

theorem lowbit_lt_32 {k m : Nat} (h : 2 ^ (k + 1) * m + 2 ^ k < 4294967296) : k < 32 := by
  by_contra hk
  have h1 : 2 ^ 32 ≤ 2 ^ k := Nat.pow_le_pow_right (by decide) (Nat.le_of_not_lt hk)
  have h2 : (2 : Nat) ^ 32 = 4294967296 := by norm_num
  omega

/-- The conjunction of a block with its 32-bit negation is the lowest set bit of the block. -/
theorem and_neg_lowbit {k m : Nat} (h : 2 ^ (k + 1) * m + 2 ^ k < 4294967296) :
    (2 ^ (k + 1) * m + 2 ^ k) &&& u32 (4294967296 - (2 ^ (k + 1) * m + 2 ^ k)) = 2 ^ k := by
  have hpos : 0 < 2 ^ k := Nat.pow_pos (by decide)
  have hk := lowbit_lt_32 h
  have hu : u32 (4294967296 - (2 ^ (k + 1) * m + 2 ^ k)) =
      2 ^ 32 - ((2 ^ (k + 1) * m + 2 ^ k - 1) + 1) := by
    unfold u32
    have h2 : (2 : Nat) ^ 32 = 4294967296 := by norm_num
    rw [h2]
    omega
  rw [hu]
  apply Nat.eq_of_testBit_eq
  intro j
  have hlt : 2 ^ (k + 1) * m + 2 ^ k - 1 < 2 ^ 32 := by
    have h2 : (2 : Nat) ^ 32 = 4294967296 := by norm_num
    omega
  rw [Nat.testBit_and, Nat.testBit_two_pow_sub_succ hlt, testBit_lowbit, testBit_lowbit_pred,
    Nat.testBit_two_pow]
  by_cases hj : j < k + 1
  · simp only [hj, if_true]
    by_cases hkj : k = j
    · have h1 : ¬ j < k := by omega
      have h2 : j < 32 := by omega
      simp [hkj, h2]
    · simp [hkj]
  · have hkj : ¬ k = j := by omega
    simp only [hj, if_false, hkj, decide_False]
    cases m.testBit (j - (k + 1)) <;> simp

theorem IntegralLog2Pot_two_pow : ∀ k, k < 32 → IntegralLog2Pot (2 ^ k) = k := by
  decide

theorem countP_flip_one (p q : Nat → Bool) (k : Nat) :
    ∀ l : List Nat, l.Nodup → k ∈ l → p k = true → q k = false →
      (∀ j, j ≠ k → p j = q j) → l.countP p = l.countP q + 1 := by
  intro l
  induction l with
  | nil =>
    intro _ hk
    cases hk
  | cons a l ih =>
    intro hnd hk hp hq hsame
    rw [List.nodup_cons] at hnd
    by_cases hak : a = k
    · subst hak
      have hrest : l.countP p = l.countP q := by
        apply List.countP_congr
        intro x hx
        have hxa : x ≠ a := fun e => hnd.1 (e ▸ hx)
        rw [hsame x hxa]
      rw [List.countP_cons_of_pos p l hp, List.countP_cons_of_neg q l (by simp [hq]), hrest]
    · have hk' : k ∈ l := by
        rcases List.mem_cons.1 hk with e | h
        · exact absurd e.symm hak
        · exact h
      rw [List.countP_cons, List.countP_cons, hsame a hak, ih hnd.2 hk' hp hq hsame]
      omega

theorem onesOf_zero : onesOf 0 = 0 := by decide

theorem onesOf_lowbit {k m : Nat} (h : 2 ^ (k + 1) * m + 2 ^ k < 4294967296) :
    onesOf (2 ^ (k + 1) * m + 2 ^ k) = onesOf (2 ^ (k + 1) * m) + 1 := by
  unfold onesOf
  apply countP_flip_one _ _ k _ (List.nodup_range 32) (List.mem_range.2 (lowbit_lt_32 h))
  · rw [testBit_lowbit, if_pos (Nat.lt_succ_self k)]
    exact decide_eq_true rfl
  · have := Nat.testBit_mul_pow_two_add m (Nat.pow_pos (n := k + 1) (by decide : 0 < 2)) k
    rw [Nat.add_zero, Nat.zero_testBit, if_pos (Nat.lt_succ_self k)] at this
    exact this
  · intro j hj
    have hz := Nat.testBit_mul_pow_two_add m (Nat.pow_pos (n := k + 1) (by decide : 0 < 2)) j
    rw [Nat.add_zero, Nat.zero_testBit] at hz
    rw [testBit_lowbit, hz]
    by_cases hjk : j < k + 1
    · rw [if_pos hjk, if_pos hjk]
      exact decide_eq_false (fun e => hj e.symm)
    · rw [if_neg hjk, if_neg hjk]

/-- The loop of `CountBits` ends, with the number of one bits added to the counter. -/
theorem CountBitsLoop_spec : ∀ (fuel x count : Nat), x ≤ fuel → x < 4294967296 →
    CountBitsLoop fuel x count = some (count + onesOf x) := by
  intro fuel
  induction fuel with
  | zero =>
    intro x count hx _
    have h0 : x = 0 := by omega
    subst h0
    simp only [CountBitsLoop, if_true, onesOf_zero, Nat.add_zero]
  | succ fuel ih =>
    intro x count hx hlt
    by_cases h0 : x = 0
    · subst h0
      simp only [CountBitsLoop, if_true, onesOf_zero, Nat.add_zero]
    · obtain ⟨k, m, hkm⟩ := exists_lowbit h0
      have hpos : 0 < 2 ^ k := Nat.pow_pos (by decide)
      simp only [CountBitsLoop, if_neg h0]
      rw [hkm, and_pred_lowbit, ih _ _ (by omega) (by omega), onesOf_lowbit (hkm ▸ hlt)]
      congr 1
      omega

theorem CountBits_spec {x : Nat} (hx : x < 4294967296) : CountBits x = some (onesOf x) := by
  unfold CountBits
  rw [CountBitsLoop_spec x x 0 (Nat.le_refl _) hx, Nat.zero_add]

theorem setBitsBelow_add_block (s : Bitset) (j : Nat) :
    setBitsBelow s (32 * j + 32) = setBitsBelow s (32 * j) + onesOf (s.blockAt j) := by
  unfold setBitsBelow onesOf
  rw [List.range_add, List.countP_append, List.countP_map]
  congr 1
  apply List.countP_congr
  intro k hk
  have hk32 : k < 32 := List.mem_range.1 hk
  show s.bitAt (32 * j + k) = true ↔ _
  rw [blockAt_testBit s j k hk32]

theorem setBitsBelow_mono (s : Bitset) {m n : Nat} (h : m ≤ n) :
    setBitsBelow s m ≤ setBitsBelow s n :=
  List.Sublist.countP_le _ (List.range_sublist.2 h)

theorem setBitsBelow_le (s : Bitset) (n : Nat) : setBitsBelow s n ≤ n := by
  unfold setBitsBelow
  have := List.countP_le_length (fun i => s.bitAt i) (l := List.range n)
  rw [List.length_range] at this
  exact this

theorem setBitsBelow_of_ge {s : Bitset} (hs : WellFormed s) {n : Nat} (h : s.m_bitCount ≤ n) :
    setBitsBelow s n = setBitsBelow s s.m_bitCount := by
  obtain ⟨d, rfl⟩ := Nat.exists_eq_add_of_le h
  unfold setBitsBelow
  rw [List.range_add, List.countP_append]
  have : List.countP (fun i => s.bitAt i) (List.map (fun x => s.m_bitCount + x) (List.range d))
      = 0 := by
    rw [List.countP_eq_zero]
    intro a ha
    obtain ⟨x, _, rfl⟩ := List.mem_map.1 ha
    rw [hs.bitAt_of_ge (Nat.le_add_right _ _)]
    exact Bool.false_ne_true
  rw [this, Nat.add_zero]

theorem size_le_blocks {s : Bitset} (hs : WellFormed s) : s.m_bitCount ≤ 32 * s.m_blocks.length := by
  have h := hs.length_eq
  rw [ComputeBlockCount_eq] at h
  split at h <;> omega

/-- What `Count` returns on a well-formed bitset whose size fits the 32-bit counter. -/
theorem Count_spec {s : Bitset} (hs : WellFormed s) (hsize : s.m_bitCount < 4294967296) :
    s.Count = some (setBitsBelow s s.m_bitCount) := by
  have hbound : ∀ i, i ≤ s.m_blocks.length → setBitsBelow s (32 * i) < 4294967296 := by
    intro i hi
    have h1 : setBitsBelow s (32 * i) ≤ setBitsBelow s (32 * s.m_blocks.length) :=
      setBitsBelow_mono s (by omega)
    rw [setBitsBelow_of_ge hs (size_le_blocks hs)] at h1
    have h2 := setBitsBelow_le s s.m_bitCount
    omega
  obtain ⟨r, hr, hinv⟩ := forLoop_inv
    (fun i count => (s.m_blocks[i]?).bind fun block =>
        (CountBits block).map fun bits => u32 (count + bits))
    (fun i count => count = setBitsBelow s (32 * i)) s.m_blocks.length 0 0 rfl
    (by
      intro i t _ hi ht
      have hi' : i < s.m_blocks.length := by omega
      refine ⟨setBitsBelow s (32 * (i + 1)), ?_, rfl⟩
      simp only [blockAt_of_lt hi', Option.some_bind, CountBits_spec (hs.blockAt_lt i),
        Option.map_some', Option.some.injEq]
      have e : 32 * (i + 1) = 32 * i + 32 := by omega
      rw [ht, ← setBitsBelow_add_block, ← e]
      exact Nat.mod_eq_of_lt (hbound (i + 1) (by omega)))
  rw [Nat.zero_add, setBitsBelow_of_ge hs (size_le_blocks hs)] at hinv
  unfold Count
  by_cases he : s.m_blocks.isEmpty = true
  · rw [if_pos he]
    have hnil : s.m_blocks = [] := List.isEmpty_iff.1 he
    rw [hnil] at hr
    simp only [List.length_nil, forLoop, Option.some.injEq] at hr
    rw [← hinv, ← hr]
  · rw [if_neg he, hr, hinv]

/-- C11: on a well-formed bitset whose size fits the 32-bit counter, `Count()` returns the number
of indices `i < GetSize()` for which `Test(i)` is true; and `CountBits(v)` returns the number of one
bits of a block `v`. -/
theorem Count_eq_number_of_set_bits (s : Bitset) (hs : WellFormed s)
    (hsize : s.GetSize < 4294967296) :
    s.Count = some ((List.range s.GetSize).countP fun i => decide (s.Test i = some true)) ∧
    ∀ v, v < 4294967296 →
      CountBits v = some ((List.range 32).countP fun k => v.testBit k) := by
  refine ⟨?_, fun v hv => CountBits_spec hv⟩
  rw [Count_spec hs hsize]
  congr 1
  unfold setBitsBelow
  apply List.countP_congr
  intro i hi
  have hlt : i < s.m_bitCount := List.mem_range.1 hi
  rw [Test_eq_bitAt hs.length_eq hlt]
  simp

/-- The instance of `Count_eq_number_of_set_bits` named by the specification: the 4-bit bitset
`"1000"` has one set bit. -/
theorem Count_eq_number_of_set_bits_witness :
    WellFormed (Bitset.mk [8] 4) ∧ ofString ['1', '0', '0', '0'] = some (Bitset.mk [8] 4) ∧
    (Bitset.mk [8] 4).Count = some 1 ∧
    ((Bitset.mk [8] 4).Count = some ((List.range (Bitset.mk [8] 4).GetSize).countP
        fun i => decide ((Bitset.mk [8] 4).Test i = some true)) ∧
      ∀ v, v < 4294967296 →
        CountBits v = some ((List.range 32).countP fun k => v.testBit k)) :=
  ⟨by decide, by decide, by decide,
    Count_eq_number_of_set_bits (Bitset.mk [8] 4) (by decide) (by decide)⟩

theorem scanLoop_find (body : Nat → Option (Option Nat)) (p : Nat → Prop) :
    ∀ (n lo : Nat),
      (∀ i, lo ≤ i → i < lo + n →
        (p i ∧ body i = some (some i)) ∨ (¬ p i ∧ body i = some none)) →
      (∃ i, lo ≤ i ∧ i < lo + n ∧ p i ∧ (∀ j, lo ≤ j → j < i → ¬ p j) ∧
        scanLoop body lo n = some (some i)) ∨
      (scanLoop body lo n = some none ∧ ∀ i, lo ≤ i → i < lo + n → ¬ p i) := by
  intro n
  induction n with
  | zero =>
    intro lo _
    right
    exact ⟨rfl, fun i h1 h2 => by omega⟩
  | succ n ih =>
    intro lo hbody
    rcases hbody lo (Nat.le_refl _) (by omega) with ⟨hp, hb⟩ | ⟨hp, hb⟩
    · left
      refine ⟨lo, Nat.le_refl _, by omega, hp, fun j h1 h2 => by omega, ?_⟩
      simp only [scanLoop, hb]
    · rcases ih (lo + 1) (fun i h1 h2 => hbody i (by omega) (by omega)) with
        ⟨i, h1, h2, h3, h4, hs⟩ | ⟨hs, hall⟩
      · left
        refine ⟨i, by omega, by omega, h3, ?_, ?_⟩
        · intro j hj1 hj2
          by_cases hj : j = lo
          · rw [hj]
            exact hp
          · exact h4 j (by omega) hj2
        · simp only [scanLoop, hb]
          exact hs
      · right
        refine ⟨?_, ?_⟩
        · simp only [scanLoop, hb]
          exact hs
        · intro i h1 h2
          by_cases hi : i = lo
          · rw [hi]
            exact hp
          · exact hall i (by omega) (by omega)

theorem bitAt_eq_testBit (s : Bitset) (i : Nat) :
    s.bitAt i = (s.blockAt (i / 32)).testBit (i % 32) := rfl

theorem bitAt_of_block_zero {s : Bitset} {i : Nat} (h : s.blockAt (i / 32) = 0) :
    s.bitAt i = false := by
  rw [bitAt_eq_testBit, h, Nat.zero_testBit]

/-- What `FindFirstFrom` returns on a bitset whose blocks fit the block type and whose bit
positions fit the 32-bit counter. -/
theorem FindFirstFrom_spec {s : Bitset} (hlt : ∀ j, s.blockAt j < 4294967296)
    (hlen : 32 * s.m_blocks.length ≤ 4294967296) (b : Nat) :
    ∃ r, s.FindFirstFrom b = some r ∧ IsFirstSetFrom s (32 * b) r := by
  unfold FindFirstFrom
  by_cases hb : b ≥ s.m_blocks.length
  · rw [if_pos hb]
    refine ⟨npos, rfl, Or.inl ⟨rfl, ?_⟩⟩
    intro j hj
    exact bitAt_of_ge_length (by omega)
  · rw [if_neg hb]
    have hscan := scanLoop_find
      (fun i => (s.m_blocks[i]?).map fun block => if block ≠ 0 then some i else none)
      (fun i => s.blockAt i ≠ 0) (s.m_blocks.length - b) b
      (by
        intro i _ hi
        have hi' : i < s.m_blocks.length := by omega
        simp only [blockAt_of_lt hi', Option.map_some']
        by_cases hz : s.blockAt i = 0
        · right
          exact ⟨fun h => h hz, by rw [if_neg (fun h => h hz)]⟩
        · left
          exact ⟨hz, by rw [if_pos hz]⟩)
    rcases hscan with ⟨i, hbi, hi, hpi, hbefore, hs⟩ | ⟨hs, hall⟩
    · have hi' : i < s.m_blocks.length := by omega
      obtain ⟨k, m, hkm⟩ := exists_lowbit hpi
      have hx : 2 ^ (k + 1) * m + 2 ^ k < 4294967296 := hkm ▸ hlt i
      have hk := lowbit_lt_32 hx
      have hval : u32 (IntegralLog2Pot (s.blockAt i &&& u32 (4294967296 - s.blockAt i)) +
          i * bitsPerBlock) = 32 * i + k := by
        rw [hkm, and_neg_lowbit hx, IntegralLog2Pot_two_pow k hk]
        unfold u32 bitsPerBlock
        omega
      refine ⟨32 * i + k, ?_, Or.inr ⟨by omega, ?_, ?_⟩⟩
      · rw [hs]
        simp only [blockAt_of_lt hi', Option.map_some', hval]
      · rw [← blockAt_testBit s i k hk, hkm, testBit_lowbit, if_pos (Nat.lt_succ_self k)]
        exact decide_eq_true rfl
      · intro j hj1 hj2
        by_cases hji : j / 32 < i
        · exact bitAt_of_block_zero (Classical.not_not.1 (hbefore (j / 32) (by omega) hji))
        · have e1 : j / 32 = i := by omega
          have e2 : j % 32 < k := by omega
          rw [bitAt_eq_testBit, e1, hkm, testBit_lowbit, if_pos (by omega)]
          exact decide_eq_false (by omega)
    · refine ⟨npos, by rw [hs], Or.inl ⟨rfl, ?_⟩⟩
      intro j hj
      by_cases hjl : j / 32 < s.m_blocks.length
      · exact bitAt_of_block_zero (Classical.not_not.1 (hall (j / 32) (by omega) (by omega)))
      · exact bitAt_of_ge_length (by omega)

theorem blocks_fit_counter {s : Bitset} (hs : WellFormed s) (hsize : s.m_bitCount < 4294967296) :
    32 * s.m_blocks.length ≤ 4294967296 := by
  have h := hs.length_eq
  rw [ComputeBlockCount_eq] at h
  split at h <;> omega

theorem WellFormed.lt_of_bitAt {s : Bitset} (hs : WellFormed s) {i : Nat}
    (hi : s.bitAt i = true) : i < s.m_bitCount := by
  by_contra hge
  rw [hs.bitAt_of_ge (Nat.le_of_not_lt hge)] at hi
  cases hi

theorem npos_eq : npos = 4294967295 := rfl

/-- C12: on a well-formed bitset whose size fits the 32-bit counter, `FindFirst()` returns the
smallest index whose `Test` is true, and returns `npos` exactly when no bit is set. -/
theorem FindFirst_smallest_set_bit (s : Bitset) (hs : WellFormed s)
    (hsize : s.GetSize < 4294967296) :
    ∃ r, s.FindFirst = some r ∧
      ((r = npos ∧ ∀ i, i < s.GetSize → s.Test i = some false) ∨
        (r < s.GetSize ∧ s.Test r = some true ∧ ∀ j, j < r → s.Test j = some false)) ∧
      (r = npos ↔ ∀ i, i < s.GetSize → s.Test i = some false) := by
  obtain ⟨r, hr, hfirst⟩ := FindFirstFrom_spec hs.blockAt_lt (blocks_fit_counter hs hsize) 0
  have hsz : s.m_bitCount < 4294967296 := hsize
  refine ⟨r, hr, ?_, ?_⟩
  · rcases hfirst with ⟨hn, hall⟩ | ⟨_, hset, hbefore⟩
    · left
      refine ⟨hn, fun i hi => ?_⟩
      rw [Test_eq_bitAt hs.length_eq hi, hall i (Nat.zero_le _)]
    · right
      have hlt := hs.lt_of_bitAt hset
      refine ⟨hlt, ?_, fun j hj => ?_⟩
      · rw [Test_eq_bitAt hs.length_eq hlt, hset]
      · rw [Test_eq_bitAt hs.length_eq (show j < s.m_bitCount by omega),
          hbefore j (Nat.zero_le _) hj]
  · rcases hfirst with ⟨hn, hall⟩ | ⟨_, hset, _⟩
    · refine ⟨fun _ i hi => ?_, fun _ => hn⟩
      rw [Test_eq_bitAt hs.length_eq hi, hall i (Nat.zero_le _)]
    · have hlt := hs.lt_of_bitAt hset
      constructor
      · intro hn
        rw [hn, npos_eq] at hlt
        omega
      · intro hall
        have := hall r hlt
        rw [Test_eq_bitAt hs.length_eq hlt, hset] at this
        cases this

/-- The instance of `FindFirst_smallest_set_bit` named by the specification: on the 4-bit bitset
`"1000"`, `FindFirst()` is 3. -/
theorem FindFirst_smallest_set_bit_witness :
    WellFormed (Bitset.mk [8] 4) ∧ (Bitset.mk [8] 4).FindFirst = some 3 ∧
    ∃ r, (Bitset.mk [8] 4).FindFirst = some r ∧
      ((r = npos ∧ ∀ i, i < (Bitset.mk [8] 4).GetSize → (Bitset.mk [8] 4).Test i = some false) ∨
        (r < (Bitset.mk [8] 4).GetSize ∧ (Bitset.mk [8] 4).Test r = some true ∧
          ∀ j, j < r → (Bitset.mk [8] 4).Test j = some false)) ∧
      (r = npos ↔ ∀ i, i < (Bitset.mk [8] 4).GetSize → (Bitset.mk [8] 4).Test i = some false) :=
  ⟨by decide, by decide,
    FindFirst_smallest_set_bit (Bitset.mk [8] 4) (by decide) (by decide)⟩

theorem IsFirstSetFrom.extend {s : Bitset} {lo hi r : Nat} (hle : lo ≤ hi)
    (hz : ∀ j, lo ≤ j → j < hi → s.bitAt j = false) (h : IsFirstSetFrom s hi r) :
    IsFirstSetFrom s lo r := by
  rcases h with ⟨hn, hall⟩ | ⟨h1, h2, h3⟩
  · left
    refine ⟨hn, fun j hj => ?_⟩
    by_cases hjh : j < hi
    · exact hz j hj hjh
    · exact hall j (by omega)
  · right
    refine ⟨by omega, h2, fun j hj1 hj2 => ?_⟩
    by_cases hjh : j < hi
    · exact hz j hj1 hjh
    · exact h3 j (by omega) hj2

theorem bitAt_add_of_lt {s : Bitset} {a d : Nat} (h : a % 32 + d < 32) :
    s.bitAt (a + d) = (s.blockAt (a / 32) >>> (a % 32)).testBit d := by
  rw [Nat.testBit_shiftRight, bitAt_eq_testBit]
  have e1 : (a + d) / 32 = a / 32 := by omega
  have e2 : (a + d) % 32 = a % 32 + d := by omega
  rw [e1, e2]

/-- What `FindNext` returns on a well-formed bitset whose size fits the 32-bit counter. -/
theorem FindNext_spec {s : Bitset} (hs : WellFormed s) (hsize : s.m_bitCount < 4294967296)
    {bit : Nat} (hbit : bit < s.m_bitCount) :
    ∃ r, s.FindNext bit = some r ∧ IsFirstSetFrom s (bit + 1) r := by
  unfold FindNext
  rw [if_pos hbit]
  have hu : u32 (bit + 1) = bit + 1 := by
    unfold u32
    omega
  simp only [hu, GetBlockIndex_eq, GetBitIndex_eq]
  by_cases h1 : bit + 1 ≥ s.m_bitCount
  · rw [if_pos h1]
    exact ⟨npos, rfl, Or.inl ⟨rfl, fun j hj => hs.bitAt_of_ge (by omega)⟩⟩
  · rw [if_neg h1]
    have hblk : (bit + 1) / 32 < s.m_blocks.length := by
      have := size_le_blocks hs
      omega
    simp only [blockAt_of_lt hblk]
    by_cases hz : s.blockAt ((bit + 1) / 32) >>> ((bit + 1) % 32) = 0
    · rw [if_neg (fun h => h hz)]
      obtain ⟨r, hr, hfirst⟩ :=
        FindFirstFrom_spec hs.blockAt_lt (blocks_fit_counter hs hsize) ((bit + 1) / 32 + 1)
      refine ⟨r, hr, IsFirstSetFrom.extend (by omega) ?_ hfirst⟩
      intro j hj1 hj2
      have e : j = (bit + 1) + (j - (bit + 1)) := by omega
      rw [e, bitAt_add_of_lt (by omega), hz, Nat.zero_testBit]
    · rw [if_pos hz]
      obtain ⟨k, m, hkm⟩ := exists_lowbit hz
      have hx : 2 ^ (k + 1) * m + 2 ^ k < 4294967296 :=
        by
        rw [← hkm, Nat.shiftRight_eq_div_pow]
        exact Nat.lt_of_le_of_lt (Nat.div_le_self _ _) (hs.blockAt_lt _)
      have hk := lowbit_lt_32 hx
      have hbitk : (s.blockAt ((bit + 1) / 32)).testBit ((bit + 1) % 32 + k) = true := by
        rw [← Nat.testBit_shiftRight, hkm, testBit_lowbit, if_pos (Nat.lt_succ_self k)]
        exact decide_eq_true rfl
      have hfit : (bit + 1) % 32 + k < 32 := by
        by_contra hge
        rw [testBit_eq_false_of_ge_32 (hs.blockAt_lt _) (Nat.le_of_not_lt hge)] at hbitk
        cases hbitk
      have hset : s.bitAt (bit + 1 + k) = true := by
        rw [bitAt_add_of_lt hfit, Nat.testBit_shiftRight]
        exact hbitk
      have hlt := hs.lt_of_bitAt hset
      refine ⟨bit + 1 + k, ?_, Or.inr ⟨by omega, hset, ?_⟩⟩
      · rw [hkm, and_neg_lowbit hx, IntegralLog2Pot_two_pow k hk]
        unfold u32
        congr 1
        omega
      · intro j hj1 hj2
        have e : j = (bit + 1) + (j - (bit + 1)) := by omega
        rw [e, bitAt_add_of_lt (by omega), hkm, testBit_lowbit, if_pos (by omega)]
        exact decide_eq_false (by omega)

theorem filter_range_first (p : Nat → Bool) (cur : Nat) (hp : p cur = true)
    (hbefore : ∀ j, j < cur → p j = false) :
    ∀ n, cur < n →
      (List.range n).filter p = cur :: (List.range n).filter fun i => decide (cur < i) && p i := by
  intro n
  induction n with
  | zero =>
    intro h
    omega
  | succ n ih =>
    intro hn
    rw [List.range_succ, List.filter_append, List.filter_append]
    by_cases hc : cur < n
    · rw [ih hc]
      have e : decide (cur < n) = true := decide_eq_true hc
      simp only [List.filter_cons, List.filter_nil, e, Bool.true_and, List.cons_append]
    · have e : cur = n := by omega
      subst e
      have e1 : (List.range cur).filter p = [] := by
        rw [List.filter_eq_nil_iff]
        intro a ha
        rw [hbefore a (List.mem_range.1 ha)]
        exact Bool.false_ne_true
      have e2 : ((List.range cur).filter fun i => decide (cur < i) && p i) = [] := by
        rw [List.filter_eq_nil_iff]
        intro a ha
        have : ¬ cur < a := by
          have := List.mem_range.1 ha
          omega
        rw [decide_eq_false this]
        exact Bool.false_ne_true
      rw [e1, e2]
      simp only [List.filter_cons, List.filter_nil, hp, if_true, List.nil_append,
        Nat.lt_irrefl, decide_False, Bool.false_and, Bool.false_eq_true, if_false]

/-- What the visiting loop `for (i = FindFirst(); i != npos; i = FindNext(i))` collects when it
is entered with `cur`, the first set bit at or above `lo`. -/
theorem visitFrom_spec {s : Bitset} (hs : WellFormed s) (hsize : s.m_bitCount < 4294967296) :
    ∀ (fuel lo cur : Nat), lo ≤ s.m_bitCount → s.m_bitCount - lo < fuel →
      IsFirstSetFrom s lo cur →
      visitFrom s fuel cur =
        some ((List.range s.m_bitCount).filter fun i => decide (lo ≤ i) && s.bitAt i) := by
  intro fuel
  induction fuel with
  | zero =>
    intro lo cur _ h
    omega
  | succ fuel ih =>
    intro lo cur hlo hfuel hfirst
    unfold visitFrom
    rcases hfirst with ⟨hn, hall⟩ | ⟨hle, hset, hbefore⟩
    · rw [if_pos hn]
      congr 1
      symm
      rw [List.filter_eq_nil_iff]
      intro a _
      by_cases hla : lo ≤ a
      · rw [hall a hla, Bool.and_false]
        exact Bool.false_ne_true
      · rw [decide_eq_false hla, Bool.false_and]
        exact Bool.false_ne_true
    · have hlt := hs.lt_of_bitAt hset
      have hne : cur ≠ npos := by
        rw [npos_eq]
        omega
      rw [if_neg hne]
      obtain ⟨next, hnext, hfirst'⟩ := FindNext_spec hs hsize hlt
      rw [hnext, Option.some_bind, ih (cur + 1) next (by omega) (by omega) hfirst',
        Option.map_some']
      congr 1
      rw [filter_range_first (fun i => decide (lo ≤ i) && s.bitAt i) cur
        (by simp only [decide_eq_true hle, hset, Bool.and_self])
        (fun j hj => by
          by_cases hlj : lo ≤ j
          · simp only [hbefore j hlj hj, Bool.and_false]
          · simp only [decide_eq_false hlj, Bool.false_and])
        s.m_bitCount hlt]
      congr 1
      apply List.filter_congr
      intro a _
      by_cases hca : cur < a
      · have h1 : cur + 1 ≤ a := hca
        have h2 : lo ≤ a := by omega
        simp only [decide_eq_true hca, decide_eq_true h1, decide_eq_true h2, Bool.true_and]
      · have h1 : ¬ cur + 1 ≤ a := hca
        simp only [decide_eq_false hca, decide_eq_false h1, Bool.false_and]

/-- C13: on a well-formed bitset whose size fits the 32-bit counter, `FindNext(bit)` for
`bit < GetSize()` returns the smallest set index strictly greater than `bit`, or `npos` when
there is none; and starting from `FindFirst()` and calling `FindNext` until `npos` visits every
set bit exactly once, in increasing order. -/
theorem FindNext_smallest_set_bit_after (s : Bitset) (hs : WellFormed s)
    (hsize : s.GetSize < 4294967296) (bit : Nat) (hbit : bit < s.GetSize) :
    (∃ r, s.FindNext bit = some r ∧
      ((r = npos ∧ ∀ j, bit < j → j < s.GetSize → s.Test j = some false) ∨
        (bit < r ∧ r < s.GetSize ∧ s.Test r = some true ∧
          ∀ j, bit < j → j < r → s.Test j = some false))) ∧
    s.visitSetBits =
      some ((List.range s.GetSize).filter fun i => decide (s.Test i = some true)) := by
  have hsz : s.m_bitCount < 4294967296 := hsize
  constructor
  · obtain ⟨r, hr, hfirst⟩ := FindNext_spec hs hsz hbit
    refine ⟨r, hr, ?_⟩
    rcases hfirst with ⟨hn, hall⟩ | ⟨hle, hset, hbefore⟩
    · left
      refine ⟨hn, fun j hj1 hj2 => ?_⟩
      rw [Test_eq_bitAt hs.length_eq hj2, hall j hj1]
    · right
      have hlt := hs.lt_of_bitAt hset
      refine ⟨hle, hlt, ?_, fun j hj1 hj2 => ?_⟩
      · rw [Test_eq_bitAt hs.length_eq hlt, hset]
      · rw [Test_eq_bitAt hs.length_eq (show j < s.m_bitCount by omega), hbefore j hj1 hj2]
  · obtain ⟨r, hr, hfirst⟩ := FindFirstFrom_spec hs.blockAt_lt (blocks_fit_counter hs hsz) 0
    unfold visitSetBits FindFirst
    rw [hr, Option.some_bind,
      visitFrom_spec hs hsz (s.m_bitCount + 1) 0 r (Nat.zero_le _) (by omega) hfirst]
    congr 1
    apply List.filter_congr
    intro a ha
    have hlt : a < s.m_bitCount := List.mem_range.1 ha
    rw [Test_eq_bitAt hs.length_eq hlt, decide_eq_true (Nat.zero_le a), Bool.true_and]
    cases s.bitAt a <;> rfl

/-- An instance of `FindNext_smallest_set_bit_after`: on the 70-bit bitset with bits 0, 64, 66
and 69 set, `FindNext(0)` is 64 and the visiting loop yields 0, 64, 66, 69. -/
theorem FindNext_smallest_set_bit_after_witness :
    WellFormed (Bitset.mk [1, 0, 37] 70) ∧
    (Bitset.mk [1, 0, 37] 70).FindNext 0 = some 64 ∧
    (Bitset.mk [1, 0, 37] 70).visitSetBits = some [0, 64, 66, 69] ∧
    ((∃ r, (Bitset.mk [1, 0, 37] 70).FindNext 0 = some r ∧
      ((r = npos ∧ ∀ j, 0 < j → j < (Bitset.mk [1, 0, 37] 70).GetSize →
          (Bitset.mk [1, 0, 37] 70).Test j = some false) ∨
        (0 < r ∧ r < (Bitset.mk [1, 0, 37] 70).GetSize ∧
          (Bitset.mk [1, 0, 37] 70).Test r = some true ∧
          ∀ j, 0 < j → j < r → (Bitset.mk [1, 0, 37] 70).Test j = some false))) ∧
    (Bitset.mk [1, 0, 37] 70).visitSetBits =
      some ((List.range (Bitset.mk [1, 0, 37] 70).GetSize).filter
        fun i => decide ((Bitset.mk [1, 0, 37] 70).Test i = some true))) :=
  ⟨by decide, by decide, by decide,
    FindNext_smallest_set_bit_after (Bitset.mk [1, 0, 37] 70) (by decide) (by decide) 0
      (by decide)⟩

end Bitset

end Nz

namespace Ndk

open Nz Nz.Bitset

theorem and_block_ne_zero_iff {s t : Bitset} (hs : ∀ j, s.blockAt j < 4294967296) (j : Nat) :
    s.blockAt j &&& t.blockAt j ≠ 0 ↔
      ∃ k, k < 32 ∧ s.bitAt (32 * j + k) = true ∧ t.bitAt (32 * j + k) = true := by
  constructor
  · intro h
    obtain ⟨k, hk⟩ := Nat.ne_zero_implies_bit_true h
    rw [Nat.testBit_and, Bool.and_eq_true] at hk
    have hk32 : k < 32 := by
      by_contra hge
      rw [testBit_eq_false_of_ge_32 (hs j) (by omega)] at hk
      cases hk.1
    exact ⟨k, hk32, by rw [← blockAt_testBit s j k hk32]; exact hk.1,
      by rw [← blockAt_testBit t j k hk32]; exact hk.2⟩
  · rintro ⟨k, hk32, h1, h2⟩ h0
    have := Nat.testBit_and (s.blockAt j) (t.blockAt j) k
    rw [h0, Nat.zero_testBit, blockAt_testBit s j k hk32, blockAt_testBit t j k hk32, h1, h2] at this
    cases this

theorem TestAny_bits {s : Bitset} (hs : WellFormed s) :
    ∃ r, s.TestAny = some r ∧ (r = true ↔ ∃ i, s.bitAt i = true) := by
  obtain ⟨r, hr, hiff⟩ := TestAny_spec s
  refine ⟨r, hr, hiff.trans ?_⟩
  constructor
  · rintro ⟨j, hj⟩
    obtain ⟨k, _, hk⟩ := (block_ne_zero_iff hs.blockAt_lt j).1 hj
    exact ⟨_, hk⟩
  · rintro ⟨i, hi⟩
    refine ⟨i / 32, (block_ne_zero_iff hs.blockAt_lt (i / 32)).2 ⟨i % 32, Nat.mod_lt _ (by decide), ?_⟩⟩
    rw [Nat.div_add_mod]
    exact hi

theorem Intersects_bits {s t : Bitset} (hs : WellFormed s) :
    ∃ r, s.Intersects t = some r ∧ (r = true ↔ ∃ i, s.bitAt i = true ∧ t.bitAt i = true) := by
  obtain ⟨r, hr, hiff⟩ := Intersects_spec s t
  refine ⟨r, hr, hiff.trans ?_⟩
  constructor
  · rintro ⟨j, hj⟩
    obtain ⟨k, _, hk⟩ := (and_block_ne_zero_iff hs.blockAt_lt j).1 hj
    exact ⟨_, hk⟩
  · rintro ⟨i, hi⟩
    refine ⟨i / 32, (and_block_ne_zero_iff hs.blockAt_lt (i / 32)).2
      ⟨i % 32, Nat.mod_lt _ (by decide), ?_⟩⟩
    rw [Nat.div_add_mod]
    exact hi

/-- The bits of `a & b` for well-formed operands. -/
theorem PerformsAND_bits (self : Bitset) {a b : Bitset} (ha : WellFormed a) (hb : WellFormed b) :
    ∃ r, self.PerformsAND (Ref.other a) (Ref.other b) = some r ∧ WellFormed r ∧
      r.m_bitCount = max a.m_bitCount b.m_bitCount ∧
      ∀ i, r.bitAt i = (a.bitAt i && b.bitAt i) := by
  obtain ⟨r, hr, hc, _, _, hbit⟩ := PerformsAND_spec self a b ha.length_eq hb.length_eq
  refine ⟨r, hr, PerformsAND_wellFormed ha hb hr, hc, ?_⟩
  intro i
  rw [hbit i]
  by_cases hi : i < max a.m_bitCount b.m_bitCount
  · simp [hi]
  · rw [ha.bitAt_of_ge (by omega)]
    simp

/-- The result of `Filters` on a non-null entity in terms of stored bits. -/
theorem Filters_bits (sys : BaseSystem) (e : Entity)
    (hreq : WellFormed sys.m_requiredComponents) (hexc : WellFormed sys.m_excludedComponents)
    (hany : WellFormed sys.m_requiredAnyComponents) (hcomp : WellFormed e.m_componentBits) :
    ∃ r sys', sys.Filters (some e) = some (r, sys') ∧
      (r = true ↔
        (∀ i, sys.m_requiredComponents.bitAt i = true → e.m_componentBits.bitAt i = true) ∧
        (∀ i, sys.m_excludedComponents.bitAt i = true → e.m_componentBits.bitAt i ≠ true) ∧
        ((∀ i, sys.m_requiredAnyComponents.bitAt i ≠ true) ∨
          ∃ i, sys.m_requiredAnyComponents.bitAt i = true ∧ e.m_componentBits.bitAt i = true)) := by
  obtain ⟨fr1, h1, hw1, _, hb1⟩ := PerformsAND_bits sys.m_filterResult hreq hcomp
  obtain ⟨eq1, he1, hiff1⟩ := opEq_bits hw1 hreq
  obtain ⟨fr2, h2, hw2, _, hb2⟩ := PerformsAND_bits fr1 hexc hcomp
  obtain ⟨t2, ht2, hiff2⟩ := TestAny_bits hw2
  obtain ⟨t3, ht3, hiff3⟩ := TestAny_bits hany
  obtain ⟨x3, hx3, hiffx⟩ := Intersects_bits (t := e.m_componentBits) hany
  have hP1 : eq1 = true ↔
      ∀ i, sys.m_requiredComponents.bitAt i = true → e.m_componentBits.bitAt i = true := by
    rw [hiff1]
    constructor
    · intro h i hi
      have := h i
      rw [hb1 i, hi] at this
      simpa using this
    · intro h i
      rw [hb1 i]
      by_cases hi : sys.m_requiredComponents.bitAt i = true
      · rw [hi, h i hi]
        rfl
      · have hf : sys.m_requiredComponents.bitAt i = false := by simpa using hi
        rw [hf]
        rfl
  have hP2 : t2 = true ↔
      ∃ i, sys.m_excludedComponents.bitAt i = true ∧ e.m_componentBits.bitAt i = true := by
    rw [hiff2]
    constructor
    · rintro ⟨i, hi⟩
      rw [hb2 i, Bool.and_eq_true] at hi
      exact ⟨i, hi⟩
    · rintro ⟨i, hi⟩
      exact ⟨i, by rw [hb2 i, Bool.and_eq_true]; exact hi⟩
  simp only [BaseSystem.Filters, Entity.GetComponentBits, h1, Option.some_bind, opNe, he1, Option.map_some',
    h2, ht2, ht3, hx3]
  cases eq1
  · refine ⟨false, _, rfl, ?_⟩
    constructor
    · intro h
      cases h
    · intro h
      have := hP1.2 h.1
      cases this
  · have hreq' := hP1.1 rfl
    cases t2
    · have hexc' : ∀ i, sys.m_excludedComponents.bitAt i = true → e.m_componentBits.bitAt i ≠ true := by
        intro i hi hc
        have := hP2.2 ⟨i, hi, hc⟩
        cases this
      cases t3
      · refine ⟨true, _, rfl, ?_⟩
        constructor
        · intro _
          refine ⟨hreq', hexc', Or.inl ?_⟩
          intro i hi
          have := hiff3.2 ⟨i, hi⟩
          cases this
        · intro _
          rfl
      · obtain ⟨i0, hi0⟩ := hiff3.1 rfl
        cases x3
        · refine ⟨false, _, rfl, ?_⟩
          constructor
          · intro h
            cases h
          · rintro ⟨_, _, h | h⟩
            · exact absurd hi0 (h i0)
            · have := hiffx.2 h
              cases this
        · refine ⟨true, _, rfl, ?_⟩
          constructor
          · intro _
            exact ⟨hreq', hexc', Or.inr (hiffx.1 rfl)⟩
          · intro _
            rfl
    · refine ⟨false, _, rfl, ?_⟩
      constructor
      · intro h
        cases h
      · rintro ⟨_, h, _⟩
        obtain ⟨i, hi1, hi2⟩ := hP2.1 rfl
        exact absurd hi2 (h i hi1)

/-- C1: for a non-null entity and well-formed filter and component bitsets of any sizes, `Filters`
answers, and answers `true` exactly when (i) every index set in the required bitset is set in the
entity's component bits, (ii) no index set in the excluded bitset is set there, and (iii) the
required-any bitset has no bit set or shares a set index with the component bits. -/
theorem BaseSystem.Filters_iff (sys : BaseSystem) (e : Entity)
    (hreq : WellFormed sys.m_requiredComponents) (hexc : WellFormed sys.m_excludedComponents)
    (hany : WellFormed sys.m_requiredAnyComponents) (hcomp : WellFormed e.m_componentBits) :
    ∃ r sys', sys.Filters (some e) = some (r, sys') ∧
      (r = true ↔
        (∀ i, sys.m_requiredComponents.UnboundedTest i = some true →
            e.GetComponentBits.UnboundedTest i = some true) ∧
        (∀ i, sys.m_excludedComponents.UnboundedTest i = some true →
            e.GetComponentBits.UnboundedTest i ≠ some true) ∧
        ((∀ i, sys.m_requiredAnyComponents.UnboundedTest i ≠ some true) ∨
          ∃ i, sys.m_requiredAnyComponents.UnboundedTest i = some true ∧
            e.GetComponentBits.UnboundedTest i = some true)) := by
  obtain ⟨r, sys', hr, hiff⟩ := Filters_bits sys e hreq hexc hany hcomp
  refine ⟨r, sys', hr, ?_⟩
  rw [hiff]
  simp only [Entity.GetComponentBits, UnboundedTest_eq_bitAt hreq, UnboundedTest_eq_bitAt hexc,
    UnboundedTest_eq_bitAt hany, UnboundedTest_eq_bitAt hcomp, Option.some.injEq, ne_eq]

/-- A concrete instance of `BaseSystem.Filters_iff`: required `"101"`, excluded bit 32 (a bitset of
33 bits), no required-any component, and an entity with the components 0, 1 and 2. -/
theorem BaseSystem.Filters_iff_witness :
    (BaseSystem.Filters
        (BaseSystem.mk (Bitset.mk [5] 3) (Bitset.mk [0, 1] 33) Bitset.empty Bitset.empty [] 0)
        (some (Entity.mk 7 (Bitset.mk [7] 3) Bitset.empty true true []))).map Prod.fst = some true ∧
    ∃ r sys',
      BaseSystem.Filters
        (BaseSystem.mk (Bitset.mk [5] 3) (Bitset.mk [0, 1] 33) Bitset.empty Bitset.empty [] 0)
        (some (Entity.mk 7 (Bitset.mk [7] 3) Bitset.empty true true [])) = some (r, sys') ∧
      (r = true ↔
        (∀ i, (Bitset.mk [5] 3).UnboundedTest i = some true →
            (Entity.mk 7 (Bitset.mk [7] 3) Bitset.empty true true []).GetComponentBits.UnboundedTest i
              = some true) ∧
        (∀ i, (Bitset.mk [0, 1] 33).UnboundedTest i = some true →
            (Entity.mk 7 (Bitset.mk [7] 3) Bitset.empty true true []).GetComponentBits.UnboundedTest i
              ≠ some true) ∧
        ((∀ i, Bitset.empty.UnboundedTest i ≠ some true) ∨
          ∃ i, Bitset.empty.UnboundedTest i = some true ∧
            (Entity.mk 7 (Bitset.mk [7] 3) Bitset.empty true true []).GetComponentBits.UnboundedTest i
              = some true)) :=
  ⟨by decide,
    BaseSystem.Filters_iff
      (BaseSystem.mk (Bitset.mk [5] 3) (Bitset.mk [0, 1] 33) Bitset.empty Bitset.empty [] 0)
      (Entity.mk 7 (Bitset.mk [7] 3) Bitset.empty true true [])
      (by decide) (by decide) (by decide) (by decide)⟩

/-- C5 as the code has it: `HasComponent(i)` is `GetComponentBits().UnboundedTest(i)`; it agrees
with `GetComponentBits().Test(i)` for every index below the size of the component bitset, and for
an index at or beyond that size it answers `false` while `Test(i)` fails its range assertion. -/
theorem Entity.HasComponent_eq_UnboundedTest (e : Entity) (i : ComponentIndex) :
    e.HasComponent i = e.GetComponentBits.UnboundedTest i ∧
    (i < e.GetComponentBits.GetSize → e.HasComponent i = e.GetComponentBits.Test i) ∧
    (e.GetComponentBits.GetSize ≤ i →
      e.HasComponent i = some false ∧ e.GetComponentBits.Test i = none) := by
  refine ⟨rfl, ?_, ?_⟩
  · intro hi
    have hlt : i < e.m_componentBits.m_bitCount := hi
    unfold Entity.HasComponent Entity.GetComponentBits UnboundedTest
    rw [if_pos hlt]
  · intro hi
    have hn : ¬ i < e.m_componentBits.m_bitCount := Nat.not_lt.2 hi
    unfold Entity.HasComponent Entity.GetComponentBits UnboundedTest Test
    rw [if_neg hn, if_neg hn]
    exact ⟨rfl, rfl⟩

/-- C5 fails as stated: on an entity to which no component has been added, `HasComponent(0)`
answers `false` while `GetComponentBits().Test(0)` fails, so the two do not return the same value. -/
theorem Entity.HasComponent_ne_Test :
    WellFormed (Entity.mk 0 Bitset.empty Bitset.empty true true []).GetComponentBits ∧
    (Entity.mk 0 Bitset.empty Bitset.empty true true []).HasComponent 0 = some false ∧
    (Entity.mk 0 Bitset.empty Bitset.empty true true []).GetComponentBits.Test 0 = none ∧
    (Entity.mk 0 Bitset.empty Bitset.empty true true []).HasComponent 0 ≠
      (Entity.mk 0 Bitset.empty Bitset.empty true true []).GetComponentBits.Test 0 :=
  ⟨by decide, by decide, by decide, by decide⟩

theorem EntityList.mem_Insert (l : EntityList) (entity x : EntityId) :
    x ∈ EntityList.Insert l entity ↔ x = entity ∨ x ∈ l := by
  unfold EntityList.Insert EntityList.Has
  by_cases h : entity ∈ l
  · rw [if_pos (decide_eq_true h)]
    constructor
    · exact Or.inr
    · rintro (rfl | hx)
      · exact h
      · exact hx
  · rw [if_neg (by simpa using h), List.mem_append, List.mem_singleton]
    exact Or.comm

theorem EntityList.nodup_Insert {l : EntityList} (hl : l.Nodup) (entity : EntityId) :
    (EntityList.Insert l entity).Nodup := by
  unfold EntityList.Insert EntityList.Has
  by_cases h : entity ∈ l
  · rw [if_pos (decide_eq_true h)]
    exact hl
  · rw [if_neg (by simpa using h)]
    refine List.Nodup.append hl (List.nodup_singleton _) ?_
    intro x hx hx2
    rw [List.mem_singleton] at hx2
    exact h (hx2 ▸ hx)

theorem EntityList.mem_Remove {l : EntityList} (hl : l.Nodup) (entity x : EntityId) :
    x ∈ EntityList.Remove l entity ↔ x ≠ entity ∧ x ∈ l :=
  hl.mem_erase_iff

theorem EntityList.nodup_Remove {l : EntityList} (hl : l.Nodup) (entity : EntityId) :
    (EntityList.Remove l entity).Nodup :=
  hl.erase entity

/-- What one bucket looks like after its update: `f` is the sort of the camera bucket, or nothing. -/
theorem bucket_update {l : EntityList} (hl : l.Nodup) (entity : EntityId) (c : Bool)
    (f : List EntityId → List EntityId) (hf : ∀ l', (f l').Perm l') :
    (entity ∈ (if c = true then f (EntityList.Insert l entity) else EntityList.Remove l entity)
        ↔ c = true) ∧
    (if c = true then f (EntityList.Insert l entity) else EntityList.Remove l entity).Nodup ∧
    ∀ x, x ≠ entity →
      (x ∈ (if c = true then f (EntityList.Insert l entity) else EntityList.Remove l entity)
        ↔ x ∈ l) := by
  cases c with
  | true =>
    refine ⟨?_, ?_, ?_⟩
    · rw [if_pos rfl, (hf _).mem_iff, EntityList.mem_Insert]
      exact ⟨fun _ => rfl, fun _ => Or.inl rfl⟩
    · rw [if_pos rfl, (hf _).nodup_iff]
      exact EntityList.nodup_Insert hl entity
    · intro x hx
      rw [if_pos rfl, (hf _).mem_iff, EntityList.mem_Insert]
      exact ⟨fun h => h.resolve_left hx, Or.inr⟩
  | false =>
    refine ⟨?_, ?_, ?_⟩
    · rw [if_neg Bool.false_ne_true, EntityList.mem_Remove hl]
      exact ⟨fun h => absurd rfl h.1, fun h => by cases h⟩
    · rw [if_neg Bool.false_ne_true]
      exact EntityList.nodup_Remove hl entity
    · intro x hx
      rw [if_neg Bool.false_ne_true, EntityList.mem_Remove hl]
      exact ⟨fun h => h.2, fun h => ⟨hx, h⟩⟩

theorem andAlso_some (a b : Bool) : andAlso (some a) (some b) = some (a && b) := by
  cases a <;> rfl

/-- C4: after `OnEntityValidation(e, justAdded)`, on buckets without repetition and an entity with
a well-formed component bitset, the call returns and `e` is in the camera bucket exactly when it
has a camera and a node component, in the drawable bucket exactly when it has a graphics and a
node component, in the light bucket exactly when it has a light and a node component; no bucket
holds an entity twice, and the membership of every other entity is as before. Only when `e` has a
camera and a node component, the case in which the camera bucket is sorted by layer, the handles
of the camera bucket are asked to hold a camera component; an entity of the bucket that has lost
its camera component is taken out of it. -/
theorem RenderSystem.OnEntityValidation_buckets (srt : StdSort) (idx : ComponentIndices)
    (layer : EntityId → Option Nat) (rs : RenderSystem) (e : Entity) (justAdded : Bool)
    (hbits : WellFormed e.m_componentBits)
    (hlayers : e.HasComponent idx.camera = some true → e.HasComponent idx.node = some true →
      ∀ x ∈ rs.m_cameras, (layer x).isSome = true)
    (hlayer : e.HasComponent idx.camera = some true → (layer e.m_id).isSome = true)
    (hc : rs.m_cameras.Nodup) (hd : rs.m_drawables.Nodup) (hl : rs.m_lights.Nodup) :
    ∃ rs' camera graphics light node,
      RenderSystem.OnEntityValidation srt idx layer rs e justAdded = some rs' ∧
      e.HasComponent idx.camera = some camera ∧ e.HasComponent idx.graphics = some graphics ∧
      e.HasComponent idx.light = some light ∧ e.HasComponent idx.node = some node ∧
      (e.m_id ∈ rs'.m_cameras ↔ camera = true ∧ node = true) ∧
      (e.m_id ∈ rs'.m_drawables ↔ graphics = true ∧ node = true) ∧
      (e.m_id ∈ rs'.m_lights ↔ light = true ∧ node = true) ∧
      rs'.m_cameras.Nodup ∧ rs'.m_drawables.Nodup ∧ rs'.m_lights.Nodup ∧
      ∀ x, x ≠ e.m_id →
        (x ∈ rs'.m_cameras ↔ x ∈ rs.m_cameras) ∧ (x ∈ rs'.m_drawables ↔ x ∈ rs.m_drawables) ∧
        (x ∈ rs'.m_lights ↔ x ∈ rs.m_lights) := by
  have hcam : e.HasComponent idx.camera = some (e.m_componentBits.bitAt idx.camera) :=
    UnboundedTest_eq_bitAt hbits _
  have hgfx : e.HasComponent idx.graphics = some (e.m_componentBits.bitAt idx.graphics) :=
    UnboundedTest_eq_bitAt hbits _
  have hlight : e.HasComponent idx.light = some (e.m_componentBits.bitAt idx.light) :=
    UnboundedTest_eq_bitAt hbits _
  have hnode : e.HasComponent idx.node = some (e.m_componentBits.bitAt idx.node) :=
    UnboundedTest_eq_bitAt hbits _
  obtain ⟨c1, c2, c3⟩ := bucket_update hc e.m_id
    (e.m_componentBits.bitAt idx.camera && e.m_componentBits.bitAt idx.node)
    (srt.sort (fun handle1 handle2 => decide ((layer handle1).getD 0 < (layer handle2).getD 0)))
    (srt.perm _)
  obtain ⟨d1, d2, d3⟩ := bucket_update hd e.m_id
    (e.m_componentBits.bitAt idx.graphics && e.m_componentBits.bitAt idx.node)
    (fun l' => l') (fun l' => List.Perm.refl l')
  obtain ⟨l1, l2, l3⟩ := bucket_update hl e.m_id
    (e.m_componentBits.bitAt idx.light && e.m_componentBits.bitAt idx.node)
    (fun l' => l') (fun l' => List.Perm.refl l')
  have hall : (e.m_componentBits.bitAt idx.camera && e.m_componentBits.bitAt idx.node) = true →
      (EntityList.Insert rs.m_cameras e.m_id).all (fun handle => (layer handle).isSome) = true := by
    intro hC
    rw [Bool.and_eq_true] at hC
    rw [List.all_eq_true]
    intro x hx
    rcases (EntityList.mem_Insert _ _ _).1 hx with rfl | hx'
    · exact hlayer (by rw [hcam, hC.1])
    · exact hlayers (by rw [hcam, hC.1]) (by rw [hnode, hC.2]) x hx'
  refine ⟨
    { m_cameras :=
        if (e.m_componentBits.bitAt idx.camera && e.m_componentBits.bitAt idx.node) = true then
          srt.sort (fun handle1 handle2 => decide ((layer handle1).getD 0 < (layer handle2).getD 0))
            (EntityList.Insert rs.m_cameras e.m_id)
        else EntityList.Remove rs.m_cameras e.m_id
      m_drawables :=
        if (e.m_componentBits.bitAt idx.graphics && e.m_componentBits.bitAt idx.node) = true then
          EntityList.Insert rs.m_drawables e.m_id
        else EntityList.Remove rs.m_drawables e.m_id
      m_lights :=
        if (e.m_componentBits.bitAt idx.light && e.m_componentBits.bitAt idx.node) = true then
          EntityList.Insert rs.m_lights e.m_id
        else EntityList.Remove rs.m_lights e.m_id
      m_coordinateSystemInvalidated := rs.m_coordinateSystemInvalidated },
    _, _, _, _, ?_, hcam, hgfx, hlight, hnode,
    c1.trans (by rw [Bool.and_eq_true]), d1.trans (by rw [Bool.and_eq_true]),
    l1.trans (by rw [Bool.and_eq_true]), c2, d2, l2, fun x hx => ⟨c3 x hx, d3 x hx, l3 x hx⟩⟩
  simp only [RenderSystem.OnEntityValidation, hcam, hgfx, hlight, hnode, andAlso_some,
    Option.some_bind]
  cases hC : (e.m_componentBits.bitAt idx.camera && e.m_componentBits.bitAt idx.node)
  · simp only [Bool.false_eq_true, if_false, Option.some_bind]
    cases (e.m_componentBits.bitAt idx.graphics && e.m_componentBits.bitAt idx.node) <;>
    cases (e.m_componentBits.bitAt idx.light && e.m_componentBits.bitAt idx.node) <;>
    rfl
  · simp only [if_true, hall hC, Option.some_bind]
    cases (e.m_componentBits.bitAt idx.graphics && e.m_componentBits.bitAt idx.node) <;>
    cases (e.m_componentBits.bitAt idx.light && e.m_componentBits.bitAt idx.node) <;>
    rfl

/-- The light scenario, and `RenderSystem.OnEntityValidation_buckets` at an entity of the camera
bucket that has lost its camera component. In the light scenario the entity with a light and a
node component only enters the light bucket and no other, and once its node component is removed
the next validation takes it out of the light bucket. The entity 2, in the camera and the drawable
bucket and left with a graphics and a node component, has no layer any more; its validation
returns, takes it out of the camera bucket and keeps it in the drawable bucket. -/
theorem RenderSystem.OnEntityValidation_buckets_witness :
    (∃ rs1 e1 rs2,
      RenderSystem.OnEntityValidation insertionStdSort scenarioIndices scenarioLayer scenarioSystem
        scenarioEntity true = some rs1 ∧
      5 ∈ rs1.m_lights ∧ 5 ∉ rs1.m_drawables ∧ 5 ∉ rs1.m_cameras ∧
      scenarioEntity.RemoveComponent scenarioIndices.node = some e1 ∧
      RenderSystem.OnEntityValidation insertionStdSort scenarioIndices scenarioLayer rs1 e1 false
        = some rs2 ∧
      5 ∉ rs2.m_lights ∧ 5 ∉ rs2.m_drawables ∧ 5 ∉ rs2.m_cameras) ∧
    lostCameraLayer lostCameraEntity.m_id = none ∧
    lostCameraEntity.m_id ∈ scenarioSystem.m_cameras ∧
    RenderSystem.OnEntityValidation insertionStdSort scenarioIndices lostCameraLayer scenarioSystem
        lostCameraEntity false =
      some { m_cameras := [1], m_drawables := [2], m_lights := [],
             m_coordinateSystemInvalidated := true } ∧
    ∃ rs' camera graphics light node,
      RenderSystem.OnEntityValidation insertionStdSort scenarioIndices lostCameraLayer
        scenarioSystem lostCameraEntity false = some rs' ∧
      lostCameraEntity.HasComponent scenarioIndices.camera = some camera ∧
      lostCameraEntity.HasComponent scenarioIndices.graphics = some graphics ∧
      lostCameraEntity.HasComponent scenarioIndices.light = some light ∧
      lostCameraEntity.HasComponent scenarioIndices.node = some node ∧
      (lostCameraEntity.m_id ∈ rs'.m_cameras ↔ camera = true ∧ node = true) ∧
      (lostCameraEntity.m_id ∈ rs'.m_drawables ↔ graphics = true ∧ node = true) ∧
      (lostCameraEntity.m_id ∈ rs'.m_lights ↔ light = true ∧ node = true) ∧
      rs'.m_cameras.Nodup ∧ rs'.m_drawables.Nodup ∧ rs'.m_lights.Nodup ∧
      ∀ x, x ≠ lostCameraEntity.m_id →
        (x ∈ rs'.m_cameras ↔ x ∈ scenarioSystem.m_cameras) ∧
        (x ∈ rs'.m_drawables ↔ x ∈ scenarioSystem.m_drawables) ∧
        (x ∈ rs'.m_lights ↔ x ∈ scenarioSystem.m_lights) :=
  ⟨⟨{ m_cameras := [1, 2], m_drawables := [2], m_lights := [5],
       m_coordinateSystemInvalidated := true },
     { m_id := 5, m_componentBits := Bitset.mk [4] 4, m_systemBits := Bitset.empty,
       m_enabled := true, m_valid := false, m_handles := [] },
     { m_cameras := [1, 2], m_drawables := [2], m_lights := [],
       m_coordinateSystemInvalidated := true },
     by decide, by decide, by decide, by decide, by decide, by decide, by decide, by decide,
     by decide⟩,
    by decide, by decide, by decide,
    RenderSystem.OnEntityValidation_buckets insertionStdSort scenarioIndices lostCameraLayer
      scenarioSystem lostCameraEntity false (by decide) (by decide) (by decide) (by decide)
      (by decide) (by decide)⟩

/-- C17: `Enable(v)` on an entity whose flag is `v` already returns the entity as it is and asks
for no invalidation; on an entity whose flag differs it sets the flag and asks for the
invalidation of the entity once; in both cases the flag is `v` afterwards and the component
bits, system bits, identity, validity and handles are as before. -/
theorem Entity.Enable_effect (e : Entity) (v : Bool) (invalidated : List EntityId) :
    (e.m_enabled = v → e.Enable v invalidated = (e, invalidated)) ∧
    (e.m_enabled ≠ v →
      e.Enable v invalidated = ({ e with m_enabled := v }, invalidated ++ [e.m_id])) ∧
    (e.Enable v invalidated).1.IsEnabled = v ∧
    (e.Enable v invalidated).1.m_componentBits = e.m_componentBits ∧
    (e.Enable v invalidated).1.m_systemBits = e.m_systemBits ∧
    (e.Enable v invalidated).1.m_id = e.m_id ∧
    (e.Enable v invalidated).1.m_valid = e.m_valid ∧
    (e.Enable v invalidated).1.m_handles = e.m_handles := by
  by_cases h : e.m_enabled = v
  · have heq : e.Enable v invalidated = (e, invalidated) := by
      unfold Entity.Enable
      rw [if_neg (fun hne => hne h)]
    rw [heq]
    exact ⟨fun _ => rfl, fun hne => absurd h hne, h, rfl, rfl, rfl, rfl, rfl⟩
  · have heq : e.Enable v invalidated = ({ e with m_enabled := v }, invalidated ++ [e.m_id]) := by
      unfold Entity.Enable
      rw [if_pos h]
      rfl
    rw [heq]
    exact ⟨fun he => absurd he h, fun _ => rfl, rfl, rfl, rfl, rfl, rfl, rfl⟩

theorem count_swap_last (l : List Nat) (i a b : Nat) (ha : l[i]? = some a)
    (hb : l[l.length - 1]? = some b) (x : Nat) :
    ((l.set i b).set (l.length - 1) a).count x = l.count x := by
  obtain ⟨hi, hai⟩ := List.getElem?_eq_some.1 ha
  obtain ⟨hlast, _⟩ := List.getElem?_eq_some.1 hb
  have hlen1 : l.length - 1 < (l.set i b).length := by
    rw [List.length_set]
    exact hlast
  have hget : (l.set i b)[l.length - 1]? = some b := by
    rw [List.getElem?_set]
    by_cases hil : i = l.length - 1
    · rw [if_pos hil, if_pos hi]
    · rw [if_neg hil]
      exact hb
  obtain ⟨_, hget2⟩ := List.getElem?_eq_some.1 hget
  rw [List.count_set _ _ _ _ hlen1, List.count_set _ _ _ _ hi, hget2, hai]
  have h1 : 0 < l.count a := List.count_pos_iff.2 (List.getElem?_mem ha)
  by_cases hax : a = x
  · by_cases hbx : b = x
    · simp only [hax, hbx, beq_self_eq_true, if_true]
      rw [hax] at h1
      omega
    · have hbx2 : (b == x) = false := by simpa using hbx
      simp only [hax, hbx2, beq_self_eq_true, if_true, Bool.false_eq_true, if_false]
      rw [hax] at h1
      omega
  · have hax2 : (a == x) = false := by simpa using hax
    by_cases hbx : b = x
    · simp only [hax2, hbx, beq_self_eq_true, if_true, Bool.false_eq_true, if_false]
      omega
    · have hbx2 : (b == x) = false := by simpa using hbx
      simp only [hax2, hbx2, Bool.false_eq_true, if_false]
      omega

/-- C18: on an entity whose handle list holds `h` exactly once, `UnregisterHandle(h)` returns; the
list is one shorter, holds `h` no more and every other handle as often as before, and differs from
the old list only at the position of `h`, which now holds the former last handle; the other parts
of the entity are as before. And `RegisterHandle(h)` followed by `UnregisterHandle(h)`, for a
handle that was not registered, gives the entity back. -/
theorem Entity.UnregisterHandle_swap_pop (e : Entity) (h : Nat)
    (hcount : e.m_handles.count h = 1) :
    (∃ r, e.UnregisterHandle h = some r ∧
      r.m_handles.length + 1 = e.m_handles.length ∧
      (∀ x, r.m_handles.count x = if x = h then 0 else e.m_handles.count x) ∧
      (∀ j, j < r.m_handles.length →
        r.m_handles[j]? =
          if j = e.m_handles.indexOf h then e.m_handles[e.m_handles.length - 1]?
          else e.m_handles[j]?) ∧
      r = { e with m_handles := r.m_handles }) ∧
    (∀ e2 : Entity, h ∉ e2.m_handles → (e2.RegisterHandle h).UnregisterHandle h = some e2) := by
  constructor
  · have hmem : h ∈ e.m_handles := List.count_pos_iff.1 (by omega)
    have hfound : e.m_handles[e.m_handles.indexOf h]? = some h := List.getElem?_indexOf hmem
    obtain ⟨hit, _⟩ := List.getElem?_eq_some.1 hfound
    have hlast : e.m_handles.length - 1 < e.m_handles.length := by omega
    obtain ⟨back, hback⟩ : ∃ back, e.m_handles[e.m_handles.length - 1]? = some back :=
      ⟨_, List.getElem?_eq_getElem hlast⟩
    have hswapLen : ((e.m_handles.set (e.m_handles.indexOf h) back).set
        (e.m_handles.length - 1) h).length = e.m_handles.length := by
      rw [List.length_set, List.length_set]
    have hswapLast : ((e.m_handles.set (e.m_handles.indexOf h) back).set
        (e.m_handles.length - 1) h).getLast? = some h := by
      rw [List.getLast?_eq_getElem?, hswapLen, List.getElem?_set, if_pos rfl, List.length_set,
        if_pos hlast]
    have hsplit := List.dropLast_append_getLast? h hswapLast
    refine ⟨{ e with m_handles := ((e.m_handles.set (e.m_handles.indexOf h) back).set
        (e.m_handles.length - 1) h).dropLast }, ?_, ?_, ?_, ?_, rfl⟩
    · unfold Entity.UnregisterHandle
      simp only [hfound, hback]
    · show (((e.m_handles.set (e.m_handles.indexOf h) back).set
        (e.m_handles.length - 1) h).dropLast).length + 1 = e.m_handles.length
      rw [List.length_dropLast, hswapLen]
      omega
    · intro x
      show (((e.m_handles.set (e.m_handles.indexOf h) back).set
        (e.m_handles.length - 1) h).dropLast).count x = _
      have hc := count_swap_last e.m_handles (e.m_handles.indexOf h) h back hfound hback x
      rw [← hsplit, List.count_append] at hc
      by_cases hx : x = h
      · rw [if_pos hx]
        rw [hx] at hc ⊢
        rw [hcount] at hc
        simp only [List.count_singleton_self] at hc
        omega
      · rw [if_neg hx]
        have : List.count x [h] = 0 := by
          rw [List.count_eq_zero]
          intro hmem2
          exact hx (List.mem_singleton.1 hmem2)
        omega
    · intro j hj
      show (((e.m_handles.set (e.m_handles.indexOf h) back).set
        (e.m_handles.length - 1) h).dropLast)[j]? = _
      have hj2 : j < e.m_handles.length - 1 := by
        have hj1 : j < (((e.m_handles.set (e.m_handles.indexOf h) back).set
            (e.m_handles.length - 1) h).dropLast).length := hj
        rw [List.length_dropLast, hswapLen] at hj1
        exact hj1
      rw [List.getElem?_dropLast, hswapLen, if_pos hj2, List.getElem?_set,
        if_neg (by omega), List.getElem?_set]
      by_cases hji : e.m_handles.indexOf h = j
      · rw [if_pos hji, if_pos hit, if_pos hji.symm, hback]
      · rw [if_neg hji, if_neg (fun hh => hji hh.symm)]
  · intro e2 hnot
    have hidx : (e2.m_handles ++ [h]).indexOf h = e2.m_handles.length := by
      rw [List.indexOf_append_of_not_mem hnot]
      simp
    unfold Entity.UnregisterHandle Entity.RegisterHandle
    simp only [hidx, List.length_append, List.length_singleton, Nat.add_sub_cancel]
    have hget : (e2.m_handles ++ [h])[e2.m_handles.length]? = some h := by
      rw [List.getElem?_append, if_neg (Nat.lt_irrefl _), Nat.sub_self]
      rfl
    simp only [hget]
    have hset : (e2.m_handles ++ [h]).set e2.m_handles.length h = e2.m_handles ++ [h] := by
      rw [List.set_append_right _ _ (Nat.le_refl _), Nat.sub_self]
      rfl
    rw [hset, hset, List.dropLast_concat]

/-- An instance of `Entity.UnregisterHandle_swap_pop`: the handles 4, 5, 6, 7 and the handle 5. -/
theorem Entity.UnregisterHandle_swap_pop_witness :
    (Entity.mk 1 Bitset.empty Bitset.empty true true [4, 5, 6, 7]).m_handles.count 5 = 1 ∧
    ((Entity.mk 1 Bitset.empty Bitset.empty true true [4, 5, 6, 7]).UnregisterHandle 5).map
      (fun r => r.m_handles) = some [4, 7, 6] ∧
    ((∃ r, (Entity.mk 1 Bitset.empty Bitset.empty true true [4, 5, 6, 7]).UnregisterHandle 5
        = some r ∧
      r.m_handles.length + 1 =
        (Entity.mk 1 Bitset.empty Bitset.empty true true [4, 5, 6, 7]).m_handles.length ∧
      (∀ x, r.m_handles.count x = if x = 5 then 0
        else (Entity.mk 1 Bitset.empty Bitset.empty true true [4, 5, 6, 7]).m_handles.count x) ∧
      (∀ j, j < r.m_handles.length →
        r.m_handles[j]? =
          if j = (Entity.mk 1 Bitset.empty Bitset.empty true true [4, 5, 6, 7]).m_handles.indexOf 5
          then (Entity.mk 1 Bitset.empty Bitset.empty true true [4, 5, 6, 7]).m_handles[
            (Entity.mk 1 Bitset.empty Bitset.empty true true [4, 5, 6, 7]).m_handles.length - 1]?
          else (Entity.mk 1 Bitset.empty Bitset.empty true true [4, 5, 6, 7]).m_handles[j]?) ∧
      r = { Entity.mk 1 Bitset.empty Bitset.empty true true [4, 5, 6, 7] with
            m_handles := r.m_handles }) ∧
    (∀ e2 : Entity, 5 ∉ e2.m_handles → (e2.RegisterHandle 5).UnregisterHandle 5 = some e2)) :=
  ⟨by decide, by decide,
    Entity.UnregisterHandle_swap_pop (Entity.mk 1 Bitset.empty Bitset.empty true true [4, 5, 6, 7])
      5 (by decide)⟩

/-- The camera bucket after the validation of an entity with a camera and a node component: the
sorted list of the bucket with the entity inserted. -/
theorem OnEntityValidation_cameras (srt : StdSort) (idx : ComponentIndices)
    (layer : EntityId → Option Nat) (rs : RenderSystem) (e : Entity) (justAdded : Bool)
    (hbits : WellFormed e.m_componentBits)
    (hlayers : ∀ x ∈ rs.m_cameras, (layer x).isSome = true)
    (hlayer : (layer e.m_id).isSome = true)
    (hcam : e.HasComponent idx.camera = some true) (hnode : e.HasComponent idx.node = some true) :
    ∃ rs', RenderSystem.OnEntityValidation srt idx layer rs e justAdded = some rs' ∧
      rs'.m_cameras =
        srt.sort (fun handle1 handle2 => decide ((layer handle1).getD 0 < (layer handle2).getD 0))
          (EntityList.Insert rs.m_cameras e.m_id) := by
  have hgfx : e.HasComponent idx.graphics = some (e.m_componentBits.bitAt idx.graphics) :=
    UnboundedTest_eq_bitAt hbits _
  have hlight : e.HasComponent idx.light = some (e.m_componentBits.bitAt idx.light) :=
    UnboundedTest_eq_bitAt hbits _
  have hall : (EntityList.Insert rs.m_cameras e.m_id).all (fun handle => (layer handle).isSome)
      = true := by
    rw [List.all_eq_true]
    intro x hx
    rcases (EntityList.mem_Insert _ _ _).1 hx with rfl | hx'
    · exact hlayer
    · exact hlayers x hx'
  simp only [RenderSystem.OnEntityValidation, hcam, hnode, hgfx, hlight, andAlso_some,
    Option.some_bind, Bool.and_self, if_true, hall, Bool.and_true]
  cases e.m_componentBits.bitAt idx.graphics <;> cases e.m_componentBits.bitAt idx.light <;>
  exact ⟨_, rfl, rfl⟩

/-- C19: after `OnEntityValidation` of an entity that has a camera and a node component, whatever
the order of the camera bucket was before, the call returns (every camera of the bucket holding a
camera component) and the camera bucket is in ascending order of layer; it holds the cameras of
before and the entity. -/
theorem RenderSystem.cameras_sorted_after_validation (srt : StdSort) (idx : ComponentIndices)
    (layer : EntityId → Option Nat) (rs : RenderSystem) (e : Entity) (justAdded : Bool)
    (hbits : WellFormed e.m_componentBits)
    (hlayers : ∀ x ∈ rs.m_cameras, (layer x).isSome = true)
    (hlayer : (layer e.m_id).isSome = true)
    (hcam : e.HasComponent idx.camera = some true) (hnode : e.HasComponent idx.node = some true) :
    ∃ rs', RenderSystem.OnEntityValidation srt idx layer rs e justAdded = some rs' ∧
      rs'.m_cameras.Pairwise (fun x y => (layer x).getD 0 ≤ (layer y).getD 0) ∧
      (∀ x ∈ rs'.m_cameras, (layer x).isSome = true) ∧
      (∀ x, x ∈ rs'.m_cameras ↔ x = e.m_id ∨ x ∈ rs.m_cameras) := by
  obtain ⟨rs', hrs, hcams⟩ :=
    OnEntityValidation_cameras srt idx layer rs e justAdded hbits hlayers hlayer hcam hnode
  have hmem : ∀ x, x ∈ rs'.m_cameras ↔ x = e.m_id ∨ x ∈ rs.m_cameras := by
    intro x
    rw [hcams, (srt.perm _ _).mem_iff, EntityList.mem_Insert]
  refine ⟨rs', hrs, ?_, ?_, hmem⟩
  · rw [hcams]
    exact srt.sorted (fun handle => (layer handle).getD 0) _
  · intro x hx
    rcases (hmem x).1 hx with rfl | hx'
    · exact hlayer
    · exact hlayers x hx'

/-- The sorting scenario, and `RenderSystem.cameras_sorted_after_validation` at its last step:
cameras with the layers 3, 1 and 2 (the entities 10, 11 and 12) are validated in that order on an
empty render system; the camera bucket ends as 11, 12, 10, the layers 1, 2, 3. -/
theorem RenderSystem.cameras_sorted_after_validation_witness :
    (∃ rs1 rs2 rs3,
      RenderSystem.OnEntityValidation insertionStdSort scenarioIndices sortScenarioLayer
        emptyRenderSystem (cameraEntity 10) true = some rs1 ∧
      RenderSystem.OnEntityValidation insertionStdSort scenarioIndices sortScenarioLayer
        rs1 (cameraEntity 11) true = some rs2 ∧
      RenderSystem.OnEntityValidation insertionStdSort scenarioIndices sortScenarioLayer
        rs2 (cameraEntity 12) true = some rs3 ∧
      rs2.m_cameras = [11, 10] ∧ rs3.m_cameras = [11, 12, 10] ∧
      rs3.m_cameras.map sortScenarioLayer = [some 1, some 2, some 3]) ∧
    ∃ rs', RenderSystem.OnEntityValidation insertionStdSort scenarioIndices sortScenarioLayer
        { m_cameras := [11, 10], m_drawables := [], m_lights := [],
          m_coordinateSystemInvalidated := true } (cameraEntity 12) true = some rs' ∧
      rs'.m_cameras.Pairwise
        (fun x y => (sortScenarioLayer x).getD 0 ≤ (sortScenarioLayer y).getD 0) ∧
      (∀ x ∈ rs'.m_cameras, (sortScenarioLayer x).isSome = true) ∧
      (∀ x, x ∈ rs'.m_cameras ↔ x = (cameraEntity 12).m_id ∨
        x ∈ ({ m_cameras := [11, 10], m_drawables := [], m_lights := [],
               m_coordinateSystemInvalidated := true } : RenderSystem).m_cameras) :=
  ⟨⟨{ m_cameras := [10], m_drawables := [], m_lights := [],
       m_coordinateSystemInvalidated := true },
     { m_cameras := [11, 10], m_drawables := [], m_lights := [],
       m_coordinateSystemInvalidated := true },
     { m_cameras := [11, 12, 10], m_drawables := [], m_lights := [],
       m_coordinateSystemInvalidated := true },
     by decide, by decide, by decide, by decide, by decide, by decide⟩,
    RenderSystem.cameras_sorted_after_validation insertionStdSort scenarioIndices
      sortScenarioLayer
      { m_cameras := [11, 10], m_drawables := [], m_lights := [],
        m_coordinateSystemInvalidated := true } (cameraEntity 12) true
      (by decide) (by decide) (by decide) (by decide) (by decide)⟩

/-- C20 as the code has it: after `OnEntityValidation` of an entity that has a camera and a node
component, a camera of the bucket with a smaller layer stands before every camera with a greater
layer; on the order of two cameras with equal layers the call promises nothing. -/
theorem RenderSystem.cameras_order_by_layer (srt : StdSort) (idx : ComponentIndices)
    (layer : EntityId → Option Nat) (rs : RenderSystem) (e : Entity) (justAdded : Bool)
    (hbits : WellFormed e.m_componentBits)
    (hlayers : ∀ x ∈ rs.m_cameras, (layer x).isSome = true)
    (hlayer : (layer e.m_id).isSome = true)
    (hcam : e.HasComponent idx.camera = some true) (hnode : e.HasComponent idx.node = some true) :
    ∃ rs', RenderSystem.OnEntityValidation srt idx layer rs e justAdded = some rs' ∧
      ∀ (i j : Nat) (x y : EntityId), rs'.m_cameras[i]? = some x → rs'.m_cameras[j]? = some y →
        (layer x).getD 0 < (layer y).getD 0 → i < j := by
  obtain ⟨rs', hrs, hcams⟩ :=
    OnEntityValidation_cameras srt idx layer rs e justAdded hbits hlayers hlayer hcam hnode
  refine ⟨rs', hrs, ?_⟩
  have hsorted : rs'.m_cameras.Pairwise (fun x y => (layer x).getD 0 ≤ (layer y).getD 0) := by
    rw [hcams]
    exact srt.sorted (fun handle => (layer handle).getD 0) _
  intro i j x y hx hy hlt
  obtain ⟨hi, hxi⟩ := List.getElem?_eq_some.1 hx
  obtain ⟨hj, hyj⟩ := List.getElem?_eq_some.1 hy
  by_contra hij
  rcases Nat.lt_or_eq_of_le (Nat.le_of_not_lt hij) with hji | hji
  · have := List.pairwise_iff_getElem.1 hsorted j i hj hi hji
    rw [hxi, hyj] at this
    omega
  · subst hji
    rw [hxi] at hyj
    rw [hyj] at hlt
    omega

/-- An instance of `RenderSystem.cameras_order_by_layer`: the last step of the sorting scenario. -/
theorem RenderSystem.cameras_order_by_layer_witness :
    WellFormed (cameraEntity 12).m_componentBits ∧
    ∃ rs', RenderSystem.OnEntityValidation insertionStdSort scenarioIndices sortScenarioLayer
        { m_cameras := [11, 10], m_drawables := [], m_lights := [],
          m_coordinateSystemInvalidated := true } (cameraEntity 12) true = some rs' ∧
      ∀ (i j : Nat) (x y : EntityId), rs'.m_cameras[i]? = some x → rs'.m_cameras[j]? = some y →
        (sortScenarioLayer x).getD 0 < (sortScenarioLayer y).getD 0 → i < j :=
  ⟨by decide,
    RenderSystem.cameras_order_by_layer insertionStdSort scenarioIndices sortScenarioLayer
      { m_cameras := [11, 10], m_drawables := [], m_lights := [],
        m_coordinateSystemInvalidated := true } (cameraEntity 12) true
      (by decide) (by decide) (by decide) (by decide) (by decide)⟩

/-- C20 fails as stated: with a sort that meets the contract of `std::sort` and with the cameras 1
and 2 on the same layer, 1 standing before 2, the validation of the camera 3 leaves the bucket as
3, 2, 1: the camera 1, inserted before the camera 2, now stands after it. -/
theorem RenderSystem.camera_sort_not_stable :
    tieScenarioLayer 1 = tieScenarioLayer 2 ∧
    ({ m_cameras := [1, 2], m_drawables := [], m_lights := [],
       m_coordinateSystemInvalidated := true } : RenderSystem).m_cameras.indexOf 1 <
      ({ m_cameras := [1, 2], m_drawables := [], m_lights := [],
         m_coordinateSystemInvalidated := true } : RenderSystem).m_cameras.indexOf 2 ∧
    ∃ rs', RenderSystem.OnEntityValidation reverseTieStdSort scenarioIndices tieScenarioLayer
        { m_cameras := [1, 2], m_drawables := [], m_lights := [],
          m_coordinateSystemInvalidated := true } (cameraEntity 3) false = some rs' ∧
      rs'.m_cameras = [3, 2, 1] ∧ rs'.m_cameras.indexOf 2 < rs'.m_cameras.indexOf 1 :=
  ⟨by decide, by decide,
    { m_cameras := [3, 2, 1], m_drawables := [], m_lights := [],
      m_coordinateSystemInvalidated := true },
    by decide, by decide, by decide⟩

end Ndk

namespace Nz

namespace Bitset

open Ndk

/-- C16: for well-formed bitsets `a` and `b`, `a.Intersects(b)` returns, and returns `true` exactly
when some index below both sizes has `Test` true in `a` and in `b`; this is the answer of
`(a & b).TestAny()`, and of `b.Intersects(a)`. -/
theorem Intersects_iff_common_bit (a b : Bitset) (ha : WellFormed a) (hb : WellFormed b) :
    ∃ r x, a.Intersects b = some r ∧
      (r = true ↔ ∃ i, i < min a.GetSize b.GetSize ∧ a.Test i = some true ∧
        b.Test i = some true) ∧
      opAnd a b = some x ∧ x.TestAny = some r ∧ b.Intersects a = some r := by
  obtain ⟨r, hr, hiff⟩ := Intersects_bits (t := b) ha
  obtain ⟨r2, hr2, hiff2⟩ := Intersects_bits (t := a) hb
  obtain ⟨x, hx, hxw, _, hxb⟩ := PerformsAND_bits empty ha hb
  obtain ⟨t, ht, hifft⟩ := TestAny_bits hxw
  have hlt : ∀ {s : Bitset}, WellFormed s → ∀ {i : Nat}, s.bitAt i = true → i < s.m_bitCount := by
    intro s hs i hi
    by_contra hge
    rw [hs.bitAt_of_ge (Nat.le_of_not_lt hge)] at hi
    cases hi
  have hrt : t = r := by
    rw [Bool.eq_iff_iff, hifft, hiff]
    constructor
    · rintro ⟨i, hi⟩
      rw [hxb i, Bool.and_eq_true] at hi
      exact ⟨i, hi⟩
    · rintro ⟨i, hi⟩
      exact ⟨i, by rw [hxb i, Bool.and_eq_true]; exact hi⟩
  have hr2r : r2 = r := by
    rw [Bool.eq_iff_iff, hiff2, hiff]
    exact ⟨fun ⟨i, h1, h2⟩ => ⟨i, h2, h1⟩, fun ⟨i, h1, h2⟩ => ⟨i, h2, h1⟩⟩
  refine ⟨r, x, hr, ?_, hx, by rw [ht, hrt], by rw [hr2, hr2r]⟩
  rw [hiff]
  constructor
  · rintro ⟨i, h1, h2⟩
    have hia := hlt ha h1
    have hib := hlt hb h2
    refine ⟨i, Nat.lt_min.2 ⟨hia, hib⟩, ?_, ?_⟩
    · rw [Test_eq_bitAt ha.length_eq hia, h1]
    · rw [Test_eq_bitAt hb.length_eq hib, h2]
  · rintro ⟨i, hi, h1, h2⟩
    have hia : i < a.m_bitCount := (Nat.lt_min.1 hi).1
    have hib : i < b.m_bitCount := (Nat.lt_min.1 hi).2
    rw [Test_eq_bitAt ha.length_eq hia] at h1
    rw [Test_eq_bitAt hb.length_eq hib] at h2
    exact ⟨i, Option.some.inj h1, Option.some.inj h2⟩

/-- An instance of `Intersects_iff_common_bit`: `"1010"` and the 40-bit bitset with the bits 1, 2
and 33 set, which share the bit 1. -/
theorem Intersects_iff_common_bit_witness :
    WellFormed (Bitset.mk [10] 4) ∧ WellFormed (Bitset.mk [6, 2] 40) ∧
    (Bitset.mk [10] 4).Intersects (Bitset.mk [6, 2] 40) = some true ∧
    ∃ r x, (Bitset.mk [10] 4).Intersects (Bitset.mk [6, 2] 40) = some r ∧
      (r = true ↔ ∃ i, i < min (Bitset.mk [10] 4).GetSize (Bitset.mk [6, 2] 40).GetSize ∧
        (Bitset.mk [10] 4).Test i = some true ∧ (Bitset.mk [6, 2] 40).Test i = some true) ∧
      opAnd (Bitset.mk [10] 4) (Bitset.mk [6, 2] 40) = some x ∧ x.TestAny = some r ∧
      (Bitset.mk [6, 2] 40).Intersects (Bitset.mk [10] 4) = some r :=
  ⟨by decide, by decide, by decide,
    Intersects_iff_common_bit (Bitset.mk [10] 4) (Bitset.mk [6, 2] 40) (by decide) (by decide)⟩

end Bitset

end Nz

namespace Nz

theorem Core.Initialize_counter (c : Core) :
    (Core.Initialize c).2.s_moduleReferenceCounter = u32 (c.s_moduleReferenceCounter + 1) := by
  unfold Core.Initialize
  split <;> rfl

/-- The reference counter after `n` calls of `Initialize`, in 32 bits. -/
theorem Core.iterate_Initialize_counter (c : Core) (n : Nat) :
    ((fun s => (Core.Initialize s).2)^[n] c).s_moduleReferenceCounter =
      u32 (c.s_moduleReferenceCounter + n) ∨
    (n = 0 ∧ ((fun s => (Core.Initialize s).2)^[n] c) = c) := by
  induction n with
  | zero => exact Or.inr ⟨rfl, rfl⟩
  | succ n ih =>
    left
    rw [Function.iterate_succ_apply', Core.Initialize_counter]
    rcases ih with h | ⟨h0, h⟩
    · rw [h]
      unfold u32
      omega
    · rw [h, h0]

/-- The state after `n` calls of `Initialize` on the module before any call, as long as the
counter holds `n`. -/
theorem Core.iterate_Initialize_start (n : Nat) (hn : 1 ≤ n) (hn32 : n < 4294967296) :
    (fun s => (Core.Initialize s).2)^[n] Core.start =
      { s_moduleReferenceCounter := n, calls := [CoreCall.LogInitialize] } := by
  induction n with
  | zero => omega
  | succ n ih =>
    rw [Function.iterate_succ_apply']
    by_cases h0 : n = 0
    · subst h0
      rfl
    · rw [ih (by omega) (by omega)]
      have hpos : n > 0 := by omega
      simp only [Core.Initialize, hpos, if_true, u32]
      congr 1
      omega

/-- The state after `k` calls of `Uninitialize` on a module that holds `n` references. -/
theorem Core.iterate_Uninitialize (calls : List CoreCall) (n : Nat) (hn : 1 ≤ n)
    (hn32 : n < 4294967296) :
    ∀ k, k ≤ n →
      Core.Uninitialize^[k] { s_moduleReferenceCounter := n, calls := calls } =
        if k = n then { s_moduleReferenceCounter := 0, calls := calls ++ Core.teardown }
        else { s_moduleReferenceCounter := n - k, calls := calls } := by
  intro k
  induction k with
  | zero =>
    intro _
    rw [if_neg (by omega)]
    rfl
  | succ k ih =>
    intro hk
    rw [Function.iterate_succ_apply', ih (by omega), if_neg (by omega)]
    by_cases hlast : k + 1 = n
    · rw [if_pos hlast]
      have h1 : n - k = 1 := by omega
      simp only [Core.Uninitialize, h1, ne_eq, not_true_eq_false, if_false]
    · rw [if_neg hlast]
      have h1 : n - k ≠ 1 := by omega
      have h2 : n - k > 1 := by omega
      simp only [Core.Uninitialize, ne_eq, h1, not_false_eq_true, if_true, h2, u32]
      congr 1
      omega

/-- C26 as the code has it: starting from an uninitialised `Core` module, after `n` calls of
`Initialize`, `n` being at least 1 and within the range of the 32-bit reference counter, and then
`k <= n` calls of `Uninitialize`, the counter is `n - k` and `IsInitialized()` is true exactly
when `k < n`; the log has been initialised once, and the release of the module has run not at all
while `k < n` and exactly once when `k = n`, that is during the `n`-th `Uninitialize`; and
`Uninitialize` on a module that is not initialised changes nothing. -/
theorem Core.reference_counted (n k : Nat) (hn : 1 ≤ n) (hn32 : n < 4294967296) (hk : k ≤ n) :
    (Core.afterCalls n k Core.start).s_moduleReferenceCounter = n - k ∧
    ((Core.afterCalls n k Core.start).IsInitialized = true ↔ k < n) ∧
    (Core.afterCalls n k Core.start).calls =
      [CoreCall.LogInitialize] ++ (if k = n then Core.teardown else []) ∧
    ∀ c : Core, c.IsInitialized = false → c.Uninitialize = c := by
  have hstate : Core.afterCalls n k Core.start =
      if k = n then { s_moduleReferenceCounter := 0,
                      calls := [CoreCall.LogInitialize] ++ Core.teardown }
      else { s_moduleReferenceCounter := n - k, calls := [CoreCall.LogInitialize] } := by
    unfold Core.afterCalls
    rw [Core.iterate_Initialize_start n hn hn32,
      Core.iterate_Uninitialize [CoreCall.LogInitialize] n hn hn32 k hk]
  refine ⟨?_, ?_, ?_, ?_⟩
  · rw [hstate]
    by_cases hkn : k = n
    · rw [if_pos hkn]
      show 0 = n - k
      omega
    · rw [if_neg hkn]
  · rw [hstate]
    by_cases hkn : k = n
    · rw [if_pos hkn]
      simp only [Core.IsInitialized, ne_eq, not_true_eq_false, decide_False, Bool.false_eq_true,
        false_iff]
      omega
    · rw [if_neg hkn]
      have h1 : n - k ≠ 0 := by omega
      simp only [Core.IsInitialized, ne_eq, h1, not_false_eq_true, decide_True, true_iff]
      omega
  · rw [hstate]
    by_cases hkn : k = n
    · rw [if_pos hkn, if_pos hkn]
    · rw [if_neg hkn, if_neg hkn, List.append_nil]
  · intro c hc
    have h0 : c.s_moduleReferenceCounter = 0 := by
      simpa [Core.IsInitialized] using hc
    simp only [Core.Uninitialize, h0, ne_eq, Nat.zero_ne_one, not_false_eq_true, if_true,
      gt_iff_lt, Nat.not_lt_zero, if_false]

/-- An instance of `Core.reference_counted`: three calls of `Initialize` and then three of
`Uninitialize`; the module is still initialised after the second `Uninitialize`, and the third
one releases it. -/
theorem Core.reference_counted_witness :
    (Core.afterCalls 3 2 Core.start).IsInitialized = true ∧
    (Core.afterCalls 3 2 Core.start).calls = [CoreCall.LogInitialize] ∧
    (Core.afterCalls 3 3 Core.start).IsInitialized = false ∧
    ((Core.afterCalls 3 3 Core.start).s_moduleReferenceCounter = 3 - 3 ∧
    ((Core.afterCalls 3 3 Core.start).IsInitialized = true ↔ 3 < 3) ∧
    (Core.afterCalls 3 3 Core.start).calls =
      [CoreCall.LogInitialize] ++ (if 3 = 3 then Core.teardown else []) ∧
    ∀ c : Core, c.IsInitialized = false → c.Uninitialize = c) :=
  ⟨by decide, by decide, by decide,
    Core.reference_counted 3 3 (by decide) (by decide) (by decide)⟩

/-- C26 fails as stated when the calls outnumber the 32-bit reference counter: after 4294967296
calls of `Initialize` and no `Uninitialize`, the counter has wrapped to 0 and `IsInitialized()` is
false, although `0 < 4294967296`. -/
theorem Core.reference_counter_wraps :
    (Core.afterCalls 4294967296 0 Core.start).s_moduleReferenceCounter = 0 ∧
    (Core.afterCalls 4294967296 0 Core.start).IsInitialized = false ∧
    ¬ ((Core.afterCalls 4294967296 0 Core.start).IsInitialized = true ↔ 0 < 4294967296) := by
  have hc : (Core.afterCalls 4294967296 0 Core.start).s_moduleReferenceCounter = 0 := by
    unfold Core.afterCalls
    rw [Function.iterate_zero_apply]
    rcases Core.iterate_Initialize_counter Core.start 4294967296 with h | ⟨h, _⟩
    · rw [h]
      rfl
    · exact absurd h (by decide)
  have hi : (Core.afterCalls 4294967296 0 Core.start).IsInitialized = false := by
    simp only [Core.IsInitialized, hc, ne_eq, not_true_eq_false, decide_False]
  refine ⟨hc, hi, ?_⟩
  rw [hi]
  intro h
  exact absurd (h.2 (by decide)) (by decide)

theorem u32_shiftLeft_two_pow {j : Nat} (hj : j < 31) : u32 (2 ^ j <<< 1) = 2 ^ (j + 1) := by
  have h1 : 2 ^ (j + 1) ≤ 2 ^ 31 := Nat.pow_le_pow_right (by decide) hj
  have h2 : (2 : Nat) ^ 31 = 2147483648 := by norm_num
  rw [Nat.shiftLeft_eq, ← Nat.pow_succ]
  exact Nat.mod_eq_of_lt (by omega)

/-- The loop of `GetNearestPowerOfTwo`, entered with a power of two not above the result, ends
within the rounds that remain between the two exponents. -/
theorem GetNearestPowerOfTwoLoop_spec (number k : Nat) (hk : k ≤ 31) (hle : number ≤ 2 ^ k)
    (hmin : ∀ m, m < k → 2 ^ m < number) :
    ∀ fuel j, j ≤ k → k - j ≤ fuel → GetNearestPowerOfTwoLoop fuel (2 ^ j) number = some (2 ^ k) := by
  intro fuel
  induction fuel with
  | zero =>
    intro j hj hfuel
    have hjk : j = k := by omega
    subst hjk
    simp only [GetNearestPowerOfTwoLoop, if_neg (Nat.not_lt.2 hle)]
  | succ fuel ih =>
    intro j hj hfuel
    by_cases hjk : j = k
    · subst hjk
      simp only [GetNearestPowerOfTwoLoop, if_neg (Nat.not_lt.2 hle)]
    · have hlt : j < k := by omega
      have hj31 : j < 31 := by omega
      simp only [GetNearestPowerOfTwoLoop, if_pos (hmin j hlt), u32_shiftLeft_two_pow hj31]
      exact ih (j + 1) (by omega) (by omega)

/-- The loop of `GetNearestPowerOfTwo` on a number above `2 ^ 31`: entered with 0 or with a power
of two of the type, it does not end, whatever the number of rounds. -/
theorem GetNearestPowerOfTwoLoop_diverges (number : Nat) (hbig : 2147483648 < number) :
    ∀ fuel x, (x = 0 ∨ ∃ j, j ≤ 31 ∧ x = 2 ^ j) →
      GetNearestPowerOfTwoLoop fuel x number = none := by
  have h31 : (2 : Nat) ^ 31 = 2147483648 := by norm_num
  have hlt : ∀ x, (x = 0 ∨ ∃ j, j ≤ 31 ∧ x = 2 ^ j) → x < number := by
    intro x hx
    rcases hx with h0 | ⟨j, hj, hx⟩
    · omega
    · have : 2 ^ j ≤ 2 ^ 31 := Nat.pow_le_pow_right (by decide) hj
      omega
  intro fuel
  induction fuel with
  | zero =>
    intro x hx
    simp only [GetNearestPowerOfTwoLoop, if_pos (hlt x hx)]
  | succ fuel ih =>
    intro x hx
    simp only [GetNearestPowerOfTwoLoop, if_pos (hlt x hx)]
    apply ih
    rcases hx with h0 | ⟨j, hj, hx⟩
    · left
      rw [h0]
      rfl
    · by_cases hj31 : j = 31
      · left
        rw [hx, hj31]
        rfl
      · right
        have hj30 : j < 31 := by omega
        exact ⟨j + 1, by omega, by rw [hx, u32_shiftLeft_two_pow hj30]⟩

/-- C30 as the code has it: for every number `n` up to `2 ^ 31`, `GetNearestPowerOfTwo(n)` on a
32-bit unsigned type ends, within as many rounds of its loop as the exponent of its result, and
returns the smallest power of two that is greater than or equal to `n`, which is 1 for
`n = 0`. -/
theorem GetNearestPowerOfTwo_smallest (number : Nat) (h : number ≤ 2147483648) :
    ∃ k, k ≤ 31 ∧ (∀ fuel, k ≤ fuel → GetNearestPowerOfTwo fuel number = some (2 ^ k)) ∧
      number ≤ 2 ^ k ∧ (∀ m, number ≤ 2 ^ m → 2 ^ k ≤ 2 ^ m) ∧ (number = 0 → 2 ^ k = 1) := by
  have h31 : (2 : Nat) ^ 31 = 2147483648 := by norm_num
  have hex : ∃ k, number ≤ 2 ^ k := ⟨31, by omega⟩
  have hk31 : Nat.find hex ≤ 31 := Nat.find_le (by omega)
  have hle : number ≤ 2 ^ Nat.find hex := Nat.find_spec hex
  have hmin : ∀ m, m < Nat.find hex → 2 ^ m < number := fun m hm =>
    Nat.lt_of_not_le (Nat.find_min hex hm)
  refine ⟨Nat.find hex, hk31, ?_, hle, ?_, ?_⟩
  · intro fuel hfuel
    have := GetNearestPowerOfTwoLoop_spec number (Nat.find hex) hk31 hle hmin fuel 0
      (Nat.zero_le _) (by omega)
    rw [Nat.pow_zero] at this
    exact this
  · intro m hm
    exact Nat.pow_le_pow_right (by decide) (Nat.find_le hm)
  · intro h0
    have hz : Nat.find hex = 0 := Nat.le_zero.1 (Nat.find_le (by rw [h0]; exact Nat.zero_le _))
    rw [hz, Nat.pow_zero]

/-- An instance of `GetNearestPowerOfTwo_smallest`: `GetNearestPowerOfTwo(5)` is 8, the result for
0 is 1 and the result for `2 ^ 31` is `2 ^ 31`. -/
theorem GetNearestPowerOfTwo_smallest_witness :
    GetNearestPowerOfTwo 3 5 = some 8 ∧ GetNearestPowerOfTwo 0 0 = some 1 ∧
    GetNearestPowerOfTwo 31 2147483648 = some 2147483648 ∧
    ∃ k, k ≤ 31 ∧ (∀ fuel, k ≤ fuel → GetNearestPowerOfTwo fuel 5 = some (2 ^ k)) ∧
      5 ≤ 2 ^ k ∧ (∀ m, 5 ≤ 2 ^ m → 2 ^ k ≤ 2 ^ m) ∧ (5 = 0 → 2 ^ k = 1) :=
  ⟨by decide, by decide, by decide, GetNearestPowerOfTwo_smallest 5 (by decide)⟩

/-- C30 fails as stated above `2 ^ 31`: on `2147483649` the variable of the loop goes through the
powers of two up to `2 ^ 31`, the next shift gives 0 in 32 bits, and from then on `x < number`
holds for ever: no number of rounds makes the call return. -/
theorem GetNearestPowerOfTwo_does_not_end :
    GetNearestPowerOfTwoLoop 0 (u32 (2147483648 <<< 1)) 2147483649 = none ∧
    u32 (2147483648 <<< 1) = 0 ∧
    ¬ ∃ fuel r, GetNearestPowerOfTwo fuel 2147483649 = some r := by
  refine ⟨by decide, by decide, ?_⟩
  rintro ⟨fuel, r, h⟩
  have hnone := GetNearestPowerOfTwoLoop_diverges 2147483649 (by decide) fuel 1
    (Or.inr ⟨0, by decide, rfl⟩)
  unfold GetNearestPowerOfTwo at h
  rw [hnone] at h
  cases h

theorem SampleType.bounds {T : SampleType} (h1 : 1 ≤ T.bits) (h32 : T.bits ≤ 32) :
    -2147483648 ≤ T.minValue ∧ T.minValue ≤ 0 ∧ 0 ≤ T.maxValue ∧ T.maxValue ≤ 4294967295 ∧
      (T.isSigned = true → T.maxValue ≤ 2147483647) ∧ (T.isSigned = false → 0 ≤ T.minValue) := by
  have hN1 : 2 ^ (T.bits - 1) ≤ 2 ^ 31 := Nat.pow_le_pow_right (by decide) (by omega)
  have hN2 : 2 ^ T.bits ≤ 2 ^ 32 := Nat.pow_le_pow_right (by decide) h32
  have hP1 : 0 < 2 ^ (T.bits - 1) := Nat.pow_pos (by decide)
  have hP2 : 0 < 2 ^ T.bits := Nat.pow_pos (by decide)
  have hI1 : (2 : Int) ^ (T.bits - 1) ≤ 2147483648 := by exact_mod_cast hN1
  have hI2 : (2 : Int) ^ T.bits ≤ 4294967296 := by exact_mod_cast hN2
  have hQ1 : (0 : Int) < 2 ^ (T.bits - 1) := by exact_mod_cast hP1
  have hQ2 : (0 : Int) < 2 ^ T.bits := by exact_mod_cast hP2
  unfold SampleType.minValue SampleType.maxValue
  refine ⟨?_, ?_, ?_, ?_, ?_, ?_⟩
  · split <;> omega
  · split <;> omega
  · split <;> omega
  · split <;> omega
  · intro hs
    rw [if_pos hs]
    omega
  · intro hs
    rw [if_neg (by rw [hs]; exact Bool.false_ne_true)]

theorem SampleType.cast_of_holds {T : SampleType} (h1 : 1 ≤ T.bits) {v : Int} (hv : T.holds v) :
    T.cast v = v := by
  have hpow : (2 : Int) ^ T.bits = 2 * 2 ^ (T.bits - 1) := by
    have : T.bits = (T.bits - 1) + 1 := by omega
    rw [this, pow_succ]
    simp only [Nat.add_sub_cancel]
    ring
  unfold SampleType.holds SampleType.minValue SampleType.maxValue at hv
  unfold SampleType.cast
  cases hs : T.isSigned
  · rw [hs] at hv
    simp only [Bool.false_eq_true, if_false] at hv ⊢
    exact Int.emod_eq_of_lt hv.1 (by omega)
  · rw [hs] at hv
    simp only [if_true] at hv ⊢
    rw [Int.emod_eq_of_lt (by omega) (by omega)]
    omega

/-- The truncating quotient of a sum of `c` numbers between `lo` and `hi` is between `lo` and
`hi`. -/
theorem tdiv_bounds (S lo hi : Int) (c : Nat) (hc : 0 < c) (h1 : c * lo ≤ S) (h2 : S ≤ c * hi)
    (hlo : lo ≤ 0) (hhi : 0 ≤ hi) : lo ≤ Int.tdiv S c ∧ Int.tdiv S c ≤ hi := by
  have hcI : (0 : Int) < c := by exact_mod_cast hc
  rcases Int.le_total 0 S with hS | hS
  · rw [Int.tdiv_eq_ediv hS (Int.le_of_lt hcI)]
    constructor
    · exact Int.le_trans hlo (Int.ediv_nonneg hS (Int.le_of_lt hcI))
    · apply Int.ediv_le_of_le_mul hcI
      rw [Int.mul_comm]
      exact h2
  · have hneg : Int.tdiv S c = -((-S) / c) := by
      have h := Int.tdiv_eq_ediv (a := -S) (b := c) (by omega) (Int.le_of_lt hcI)
      rw [Int.neg_tdiv] at h
      omega
    rw [hneg]
    have hq1 : 0 ≤ (-S) / (c : Int) := Int.ediv_nonneg (by omega) (Int.le_of_lt hcI)
    have hq2 : (-S) / (c : Int) ≤ -lo := by
      apply Int.ediv_le_of_le_mul hcI
      have : -lo * (c : Int) = -(c * lo) := by ring
      rw [this]
      omega
    constructor <;> omega

theorem sum_range_succ_map (f : Nat → Int) (j : Nat) :
    ((List.range (j + 1)).map f).sum = ((List.range j).map f).sum + f j := by
  rw [List.range_succ, List.map_append, List.sum_append, List.map_singleton, List.sum_singleton]

/-- The inner loop of `MixToMono` on samples of a type of at most 32 bits: the accumulator ends
with the exact sum of the samples. -/
theorem accumulate_loop (T : SampleType) (h1 : 1 ≤ T.bits) (h32 : T.bits ≤ 32) (f : Nat → Int)
    (c : Nat) (hc : c ≤ 4294967296) (hf : ∀ j, j < c → T.holds (f j))
    (body : Nat → Int → Option Int)
    (hbody : ∀ j acc, j < c → body j acc = T.accumulate acc (f j)) :
    forLoop body 0 c 0 = some ((List.range c).map f).sum ∧
      (c : Int) * T.minValue ≤ ((List.range c).map f).sum ∧
      ((List.range c).map f).sum ≤ (c : Int) * T.maxValue := by
  obtain ⟨hb1, hb2, hb3, hb4, hb5, hb6⟩ := SampleType.bounds h1 h32
  obtain ⟨r, hr, hinv⟩ := Bitset.forLoop_inv body
    (fun j acc => acc = ((List.range j).map f).sum ∧ (j : Int) * T.minValue ≤ acc ∧
      acc ≤ (j : Int) * T.maxValue)
    c 0 0 ⟨rfl, by simp, by simp⟩
    (by
      intro j acc _ hj hInv
      obtain ⟨hacc, hlo, hhi⟩ := hInv
      have hjc : j < c := by omega
      obtain ⟨hv1, hv2⟩ := hf j hjc
      have e1 : ((j + 1 : Nat) : Int) * T.minValue = j * T.minValue + T.minValue := by
        push_cast
        ring
      have e2 : ((j + 1 : Nat) : Int) * T.maxValue = j * T.maxValue + T.maxValue := by
        push_cast
        ring
      refine ⟨acc + f j, ?_, ?_, ?_, ?_⟩
      · rw [hbody j acc hjc]
        unfold SampleType.accumulate
        have hjI : (0 : Int) ≤ j := Int.ofNat_nonneg j
        have n1 : (j : Int) * (-2147483648) ≤ j * T.minValue :=
          Int.mul_le_mul_of_nonneg_left hb1 hjI
        have n2 : (j : Int) * T.maxValue ≤ j * 4294967295 :=
          Int.mul_le_mul_of_nonneg_left hb4 hjI
        cases hs : T.isSigned
        · simp only [Bool.false_eq_true, if_false]
          have hmin0 : T.minValue = 0 := by
            have := hb6 hs
            omega
          have hacc0 : 0 ≤ acc := by
            rw [hmin0, Int.mul_zero] at hlo
            exact hlo
          have hv0 : 0 ≤ f j := by
            rw [hmin0] at hv1
            exact hv1
          congr 1
          apply Int.emod_eq_of_lt <;> omega
        · simp only [if_true]
          have n3 : (j : Int) * T.maxValue ≤ j * 2147483647 :=
            Int.mul_le_mul_of_nonneg_left (hb5 hs) hjI
          have hm := hb5 hs
          rw [if_pos ⟨by omega, by omega⟩]
      · rw [hacc, sum_range_succ_map]
      · rw [e1]
        omega
      · rw [e2]
        omega)
  simp only [Nat.zero_add] at hinv
  obtain ⟨hsum, hlo, hhi⟩ := hinv
  rw [hsum] at hr hlo hhi
  exact ⟨hr, hlo, hhi⟩

/-- What `MixToMono` does on samples of a type of at most 32 bits, with the index as the code
computes it, when no frame reads a sample that an earlier frame has overwritten. -/
theorem MixToMono_spec (T : SampleType) (h1 : 1 ≤ T.bits) (h32 : T.bits ≤ 32)
    (input output c frameCount : Nat) (mem : Samples) (hc : 1 ≤ c) (hc32 : c ≤ 4294967296)
    (hsamples : ∀ i j, i < frameCount → j < c →
      T.holds (mem (input + u32 (u32 (i * c) + j))))
    (hsafe : ∀ i j, i < frameCount → j < c →
      input + u32 (u32 (i * c) + j) < output ∨ output + i ≤ input + u32 (u32 (i * c) + j)) :
    ∃ mem', MixToMono T input output c frameCount mem = some mem' ∧
      (∀ i, i < frameCount → mem' (output + i) =
        Int.tdiv ((List.range c).map fun j => mem (input + u32 (u32 (i * c) + j))).sum c) ∧
      ∀ a, (a < output ∨ output + frameCount ≤ a) → mem' a = mem a := by
  obtain ⟨hb1, hb2, hb3, hb4, hb5, hb6⟩ := SampleType.bounds h1 h32
  have hc0 : c ≠ 0 := by omega
  obtain ⟨r, hr, hinv⟩ := Bitset.forLoop_inv
    (fun i m =>
      (forLoop (fun j acc => T.accumulate acc (m (input + u32 (u32 (i * c) + j))))
        0 c 0).bind fun acc =>
        (T.divide acc c).map fun mean =>
          fun a => if a = output + i then T.cast mean else m a)
    (fun i m =>
      (∀ k, k < i → m (output + k) =
        Int.tdiv ((List.range c).map fun j => mem (input + u32 (u32 (k * c) + j))).sum c) ∧
      ∀ a, (a < output ∨ output + i ≤ a) → m a = mem a)
    frameCount 0 mem ⟨fun k hk => absurd hk (Nat.not_lt_zero k), fun a _ => rfl⟩
    (by
      intro i m _ hi hInv
      obtain ⟨hdone, hrest⟩ := hInv
      have hif : i < frameCount := by omega
      obtain ⟨hinner, hlo, hhi⟩ := accumulate_loop T h1 h32
        (fun j => mem (input + u32 (u32 (i * c) + j))) c hc32 (fun j hj => hsamples i j hif hj)
        (fun j acc => T.accumulate acc (m (input + u32 (u32 (i * c) + j))))
        (fun j acc hj => by
          show T.accumulate acc (m (input + u32 (u32 (i * c) + j))) =
            T.accumulate acc (mem (input + u32 (u32 (i * c) + j)))
          rw [hrest _ (hsafe i j hif hj)])
      obtain ⟨hm1, hm2⟩ := tdiv_bounds _ T.minValue T.maxValue c (by omega) hlo hhi hb2 hb3
      have hcast := SampleType.cast_of_holds h1 (show T.holds _ from ⟨hm1, hm2⟩)
      refine ⟨fun a => if a = output + i then
          Int.tdiv ((List.range c).map fun j => mem (input + u32 (u32 (i * c) + j))).sum c
        else m a, ?_, ?_, ?_⟩
      · simp only [hinner, Option.some_bind, SampleType.divide, if_neg hc0, Option.map_some',
          hcast]
      · intro k hk
        beta_reduce
        by_cases hki : k = i
        · rw [hki, if_pos rfl]
        · rw [if_neg (by omega)]
          exact hdone k (by omega)
      · intro a ha
        beta_reduce
        rw [if_neg (by omega)]
        exact hrest a (by omega))
  simp only [Nat.zero_add] at hinv
  exact ⟨r, hr, hinv.1, hinv.2⟩

theorem frame_index {c frameCount i j : Nat} (hidx : frameCount * c ≤ 4294967296)
    (hi : i < frameCount) (hj : j < c) :
    u32 (u32 (i * c) + j) = i * c + j ∧ i * c + j < frameCount * c := by
  have h1 : (i + 1) * c ≤ frameCount * c := Nat.mul_le_mul_right c hi
  rw [Nat.succ_mul] at h1
  unfold u32
  omega

/-- What `MixToMono` does on samples of a type of at most 32 bits when the index
`i*channelCount + j` stays within `unsigned int` and the output buffer starts where the input
buffer starts, or before it, or after its end: `output[i]` is the exact sum of frame `i` divided by
`channelCount`, truncated toward zero, and the memory outside the output buffer is as before. -/
theorem MixToMono_mean (T : SampleType) (h1 : 1 ≤ T.bits) (h32 : T.bits ≤ 32)
    (input output c frameCount : Nat) (mem : Samples) (hc : 1 ≤ c)
    (hidx : frameCount * c ≤ 4294967296)
    (hsamples : ∀ a, input ≤ a → a < input + frameCount * c → T.holds (mem a))
    (hsep : output ≤ input ∨ input + frameCount * c ≤ output) :
    ∃ mem', MixToMono T input output c frameCount mem = some mem' ∧
      (∀ i, i < frameCount → mem' (output + i) = monoMean mem input c i) ∧
      ∀ a, (a < output ∨ output + frameCount ≤ a) → mem' a = mem a := by
  by_cases hf0 : frameCount = 0
  · subst hf0
    exact ⟨mem, rfl, fun i hi => absurd hi (Nat.not_lt_zero i), fun a _ => rfl⟩
  have hc32 : c ≤ 4294967296 := by
    have : 1 * c ≤ frameCount * c := Nat.mul_le_mul_right c (by omega)
    omega
  obtain ⟨mem', hrun, hout, hrest⟩ := MixToMono_spec T h1 h32 input output c frameCount mem hc hc32
    (fun i j hi hj => by
      obtain ⟨e, hlt⟩ := frame_index hidx hi hj
      rw [e]
      exact hsamples _ (by omega) (by omega))
    (fun i j hi hj => by
      obtain ⟨e, hlt⟩ := frame_index hidx hi hj
      rw [e]
      have hic : i ≤ i * c := Nat.le_mul_of_pos_right i (by omega)
      omega)
  refine ⟨mem', hrun, ?_, hrest⟩
  intro i hi
  rw [hout i hi]
  unfold monoMean frameSum
  congr 2
  apply List.map_congr_left
  intro j hj
  rw [(frame_index hidx hi (List.mem_range.1 hj)).1]

/-- C29 as the code has it: for every integer sample type `T` of at most 32 bits, every
`channelCount >= 1` and every `frameCount` such that the index `i*channelCount + j` stays within
`unsigned int` (`frameCount * channelCount <= 2 ^ 32`), `MixToMono` on an input buffer of samples
of `T` returns, and writes to `output[i]`, for every `i < frameCount`, the exact sum of
`input[i*channelCount + j]` over `j < channelCount` divided by `channelCount`, the division
truncating toward zero; and the in-place call, with the output buffer at the input buffer, gives in
its first `frameCount` samples the samples that the call with a separate output buffer gives. -/
theorem MixToMono_mean_in_place (T : SampleType) (h1 : 1 ≤ T.bits) (h32 : T.bits ≤ 32)
    (input output channelCount frameCount : Nat) (mem : Samples) (hc : 1 ≤ channelCount)
    (hidx : frameCount * channelCount ≤ 4294967296)
    (hsamples : ∀ a, input ≤ a → a < input + frameCount * channelCount → T.holds (mem a))
    (hsep : output + frameCount ≤ input ∨ input + frameCount * channelCount ≤ output) :
    ∃ separate inPlace,
      MixToMono T input output channelCount frameCount mem = some separate ∧
      MixToMono T input input channelCount frameCount mem = some inPlace ∧
      (∀ i, i < frameCount → separate (output + i) = monoMean mem input channelCount i) ∧
      (∀ i, i < frameCount → inPlace (input + i) = monoMean mem input channelCount i) ∧
      ∀ i, i < frameCount → inPlace (input + i) = separate (output + i) := by
  obtain ⟨separate, hs, hsout, _⟩ := MixToMono_mean T h1 h32 input output channelCount frameCount
    mem hc hidx hsamples (by omega)
  obtain ⟨inPlace, hp, hpout, _⟩ := MixToMono_mean T h1 h32 input input channelCount frameCount
    mem hc hidx hsamples (Or.inl (Nat.le_refl input))
  refine ⟨separate, inPlace, hs, hp, hsout, hpout, ?_⟩
  intro i hi
  rw [hsout i hi, hpout i hi]

/-- An instance of `MixToMono_mean_in_place`: two stereo frames of 16-bit signed samples, `-3, -4`
and `5, 6`, are mixed to `-3` (the sum `-7` halved toward zero) and `5`, in place as well as into
a buffer at the address 10. -/
theorem MixToMono_mean_in_place_witness :
    (MixToMono int16 0 0 2 2 stereoSamples).map (fun m => [m 0, m 1]) = some [-3, 5] ∧
    (MixToMono int16 0 10 2 2 stereoSamples).map (fun m => [m 10, m 11]) = some [-3, 5] ∧
    ∃ separate inPlace,
      MixToMono int16 0 10 2 2 stereoSamples = some separate ∧
      MixToMono int16 0 0 2 2 stereoSamples = some inPlace ∧
      (∀ i, i < 2 → separate (10 + i) = monoMean stereoSamples 0 2 i) ∧
      (∀ i, i < 2 → inPlace (0 + i) = monoMean stereoSamples 0 2 i) ∧
      ∀ i, i < 2 → inPlace (0 + i) = separate (10 + i) :=
  ⟨by decide, by decide,
    MixToMono_mean_in_place int16 (by decide) (by decide) 0 10 2 2 stereoSamples (by decide)
      (by decide)
      (fun a _ ha => by
        have h4 : a < 4 := ha
        match a, h4 with
        | 0, _ => decide
        | 1, _ => decide
        | 2, _ => decide
        | 3, _ => decide)
      (Or.inr (by decide))⟩

theorem sum_range_const (f : Nat → Int) (v : Int) :
    ∀ n, (∀ j, j < n → f j = v) → ((List.range n).map f).sum = n * v := by
  intro n
  induction n with
  | zero =>
    intro _
    simp only [List.range_zero, List.map_nil, List.sum_nil, Nat.cast_zero, Int.zero_mul]
  | succ n ih =>
    intro h
    rw [sum_range_succ_map, ih (fun j hj => h j (by omega)), h n (by omega)]
    push_cast
    ring

/-- C29 fails as stated for a 64-bit sample type and for buffers beyond the range of
`unsigned int`. One stereo frame of the 64-bit unsigned type holding `2 ^ 63` twice is mixed to 0,
the sum having wrapped in the 64-bit accumulator, where the exact mean is `2 ^ 63`. And with
`2 ^ 31` channels the index of frame 2, `2 * 2 ^ 31 + j`, wraps to `j`: on a memory holding 0
below the address `2 ^ 32` and 1 from there on, `output[2]` receives 0, the mean of frame 0,
where the exact mean of frame 2 is 1. -/
theorem MixToMono_wraps :
    (∀ a, uint64.holds (wideSamples a)) ∧
    (MixToMono uint64 0 10 2 1 wideSamples).map (fun m => m 10) = some 0 ∧
    monoMean wideSamples 0 2 0 = 9223372036854775808 ∧
    (∀ a, int16.holds (longSamples a)) ∧
    (∃ m, MixToMono int16 0 8589934592 2147483648 3 longSamples = some m ∧
      m (8589934592 + 2) = 0) ∧
    monoMean longSamples 0 2147483648 2 = 1 := by
  have hlong : ∀ a, int16.holds (longSamples a) := by
    intro a
    unfold longSamples
    split <;> decide
  refine ⟨?_, by decide, by decide, hlong, ?_, ?_⟩
  · intro a
    unfold wideSamples
    split <;> decide
  · obtain ⟨m, hm, hout, _⟩ := MixToMono_spec int16 (by decide) (by decide) 0 8589934592
      2147483648 3 longSamples (by decide) (by decide) (fun i j _ _ => hlong _)
      (fun i j _ _ => by
        left
        have : u32 (u32 (i * 2147483648) + j) < 4294967296 := Nat.mod_lt _ (by decide)
        omega)
    refine ⟨m, hm, ?_⟩
    rw [hout 2 (by decide), sum_range_const _ 0 2147483648, Int.mul_zero, Int.zero_tdiv]
    intro j hj
    have e : u32 (u32 (2 * 2147483648) + j) = j := by
      unfold u32
      omega
    rw [e]
    unfold longSamples
    rw [if_pos (by omega)]
  · unfold monoMean frameSum
    rw [sum_range_const _ 1 2147483648, Int.mul_one]
    · decide
    · intro j hj
      unfold longSamples
      rw [if_neg (by omega)]

end Nz

namespace Ndk

open Nz Nz.Bitset

/-- The call `PerformsAND(a, b)` with two operands other than the object does not read the object:
whatever the object holds, the outcome is the same. -/
theorem PerformsAND_other_ignores_self (x y a b : Bitset) :
    x.PerformsAND (Bitset.Ref.other a) (Bitset.Ref.other b) =
      y.PerformsAND (Bitset.Ref.other a) (Bitset.Ref.other b) := rfl

/-- The outcome of `Filters` is the same whatever the scratch bitset holds, up to the scratch
bitset of the system that a null entity leaves as it is. -/
theorem Filters_scratch (sys : BaseSystem) (scratch : Bitset) (entity : Option Entity) :
    (BaseSystem.Filters { sys with m_filterResult := scratch } entity).map Prod.fst =
      (sys.Filters entity).map Prod.fst := by
  cases entity with
  | none => rfl
  | some e => rfl

/-- The value of `Filters` is the same for two systems with the same three filter bitsets and two
entities (or two null pointers) with the same component bits. -/
theorem Filters_function_of_bits (sys sys2 : BaseSystem) (entity entity2 : Option Entity)
    (hreq : sys2.m_requiredComponents = sys.m_requiredComponents)
    (hexc : sys2.m_excludedComponents = sys.m_excludedComponents)
    (hany : sys2.m_requiredAnyComponents = sys.m_requiredAnyComponents)
    (hbits : entity2.map Entity.GetComponentBits = entity.map Entity.GetComponentBits) :
    (sys2.Filters entity2).map Prod.fst = (sys.Filters entity).map Prod.fst := by
  obtain ⟨req, exc, any, scratch, ents, index⟩ := sys
  obtain ⟨req2, exc2, any2, scratch2, ents2, index2⟩ := sys2
  simp only at hreq hexc hany
  subst hreq hexc hany
  cases entity with
  | none =>
    cases entity2 with
    | none => rfl
    | some e2 => cases hbits
  | some e =>
    cases entity2 with
    | none => cases hbits
    | some e2 =>
      obtain ⟨id, bits, sbits, en, va, hd⟩ := e
      obtain ⟨id2, bits2, sbits2, en2, va2, hd2⟩ := e2
      simp only [Option.map_some', Entity.GetComponentBits, Option.some.injEq] at hbits
      subst hbits
      simp only [BaseSystem.Filters, Entity.GetComponentBits]
      rw [PerformsAND_other_ignores_self scratch2 scratch req2 bits2]
      cases scratch.PerformsAND (Bitset.Ref.other req2) (Bitset.Ref.other bits2) with
      | none => rfl
      | some fr1 =>
        simp only [Option.some_bind]
        cases Bitset.opNe fr1 req2 with
        | none => rfl
        | some differs =>
          cases differs with
          | true => rfl
          | false =>
            simp only [Option.some_bind, Bool.false_eq_true, if_false]
            cases fr1.PerformsAND (Bitset.Ref.other exc2) (Bitset.Ref.other bits2) with
            | none => rfl
            | some fr2 =>
              simp only [Option.some_bind]
              cases fr2.TestAny with
              | none => rfl
              | some excluded =>
                cases excluded with
                | true => rfl
                | false =>
                  simp only [Option.some_bind, Bool.false_eq_true, if_false]
                  cases any2.TestAny with
                  | none => rfl
                  | some hasAny =>
                    cases hasAny with
                    | false => rfl
                    | true =>
                      simp only [Option.some_bind, if_true]
                      cases any2.Intersects bits2 with
                      | none => rfl
                      | some shared =>
                        cases shared <;> rfl

/-- The call `Filters` changes nothing of the system but the scratch bitset. -/
theorem Filters_frame (sys : BaseSystem) (entity : Option Entity) (r : Bool) (sys1 : BaseSystem)
    (h : sys.Filters entity = some (r, sys1)) :
    sys1 = { sys with m_filterResult := sys1.m_filterResult } := by
  cases entity with
  | none =>
    simp only [BaseSystem.Filters, Option.some.injEq, Prod.mk.injEq] at h
    rw [← h.2]
  | some e =>
    simp only [BaseSystem.Filters, Option.bind_eq_some] at h
    obtain ⟨fr1, _, differs, _, h⟩ := h
    split at h
    · simp only [Option.some.injEq, Prod.mk.injEq] at h
      rw [← h.2]
    · simp only [Option.bind_eq_some] at h
      obtain ⟨fr2, _, excluded, _, h⟩ := h
      split at h
      · simp only [Option.some.injEq, Prod.mk.injEq] at h
        rw [← h.2]
      · simp only [Option.bind_eq_some] at h
        obtain ⟨hasAny, _, h⟩ := h
        split at h
        · simp only [Option.bind_eq_some] at h
          obtain ⟨shared, _, h⟩ := h
          split at h
          · simp only [Option.some.injEq, Prod.mk.injEq] at h
            rw [← h.2]
          · simp only [Option.some.injEq, Prod.mk.injEq] at h
            rw [← h.2]
        · simp only [Option.some.injEq, Prod.mk.injEq] at h
          rw [← h.2]

/-- C21: the value that `Filters(e)` returns is determined by the component bits of `e` and the
three filter bitsets, whatever earlier calls have left in the scratch bitset `m_filterResult` (any
system with the same three filter bitsets gives the same value on any entity with the same
component bits); the call changes nothing of the system but that scratch bitset; and, for filter
and component bitsets that satisfy the class invariant, two consecutive calls on the same entity
both return, with the same value. -/
theorem BaseSystem.Filters_ignores_scratch (sys : BaseSystem) (entity : Option Entity)
    (hreq : WellFormed sys.m_requiredComponents) (hexc : WellFormed sys.m_excludedComponents)
    (hany : WellFormed sys.m_requiredAnyComponents)
    (hcomp : ∀ e, entity = some e → WellFormed e.m_componentBits) :
    (∀ (sys2 : BaseSystem) (entity2 : Option Entity),
      sys2.m_requiredComponents = sys.m_requiredComponents →
      sys2.m_excludedComponents = sys.m_excludedComponents →
      sys2.m_requiredAnyComponents = sys.m_requiredAnyComponents →
      entity2.map Entity.GetComponentBits = entity.map Entity.GetComponentBits →
      (sys2.Filters entity2).map Prod.fst = (sys.Filters entity).map Prod.fst) ∧
    (∀ r sys1, sys.Filters entity = some (r, sys1) →
      sys1.m_requiredComponents = sys.m_requiredComponents ∧
      sys1.m_excludedComponents = sys.m_excludedComponents ∧
      sys1.m_requiredAnyComponents = sys.m_requiredAnyComponents ∧
      sys1.m_entities = sys.m_entities ∧ sys1.m_systemIndex = sys.m_systemIndex) ∧
    ∃ r sys1 sys2, sys.Filters entity = some (r, sys1) ∧ sys1.Filters entity = some (r, sys2) := by
  have hfirst : ∃ r sys1, sys.Filters entity = some (r, sys1) := by
    cases entity with
    | none => exact ⟨false, sys, rfl⟩
    | some e =>
      obtain ⟨r, sys1, h, _⟩ := Filters_bits sys e hreq hexc hany (hcomp e rfl)
      exact ⟨r, sys1, h⟩
  refine ⟨fun sys2 entity2 h1 h2 h3 h4 =>
    Filters_function_of_bits sys sys2 entity entity2 h1 h2 h3 h4, ?_, ?_⟩
  · intro r sys1 h
    have hf := Filters_frame sys entity r sys1 h
    rw [hf]
    exact ⟨rfl, rfl, rfl, rfl, rfl⟩
  · obtain ⟨r, sys1, h⟩ := hfirst
    have hf := Filters_frame sys entity r sys1 h
    have hsame := Filters_scratch sys sys1.m_filterResult entity
    rw [← hf, h] at hsame
    cases h2 : sys1.Filters entity with
    | none =>
      rw [h2] at hsame
      cases hsame
    | some p =>
      rw [h2] at hsame
      simp only [Option.map_some', Option.some.injEq] at hsame
      refine ⟨r, sys1, p.2, h, ?_⟩
      rw [← hsame]
      exact h2

/-- An instance of `BaseSystem.Filters_ignores_scratch`: a system that requires the components 0
and 2, with a scratch bitset left over from another entity, filters an entity holding the
components 0, 1 and 2 twice in a row and answers `true` both times. -/
theorem BaseSystem.Filters_ignores_scratch_witness :
    (BaseSystem.Filters
        (BaseSystem.mk (Bitset.mk [5] 3) (Bitset.mk [0, 1] 33) Bitset.empty (Bitset.mk [1] 3) [] 0)
        (some (Entity.mk 7 (Bitset.mk [7] 3) Bitset.empty true true []))).map Prod.fst = some true ∧
    ((∀ (sys2 : BaseSystem) (entity2 : Option Entity),
      sys2.m_requiredComponents = Bitset.mk [5] 3 →
      sys2.m_excludedComponents = Bitset.mk [0, 1] 33 →
      sys2.m_requiredAnyComponents = Bitset.empty →
      entity2.map Entity.GetComponentBits =
        (some (Entity.mk 7 (Bitset.mk [7] 3) Bitset.empty true true [])).map
          Entity.GetComponentBits →
      (sys2.Filters entity2).map Prod.fst =
        (BaseSystem.Filters
          (BaseSystem.mk (Bitset.mk [5] 3) (Bitset.mk [0, 1] 33) Bitset.empty (Bitset.mk [1] 3) [] 0)
          (some (Entity.mk 7 (Bitset.mk [7] 3) Bitset.empty true true []))).map Prod.fst) ∧
    (∀ r sys1,
      BaseSystem.Filters
        (BaseSystem.mk (Bitset.mk [5] 3) (Bitset.mk [0, 1] 33) Bitset.empty (Bitset.mk [1] 3) [] 0)
        (some (Entity.mk 7 (Bitset.mk [7] 3) Bitset.empty true true [])) = some (r, sys1) →
      sys1.m_requiredComponents = Bitset.mk [5] 3 ∧
      sys1.m_excludedComponents = Bitset.mk [0, 1] 33 ∧
      sys1.m_requiredAnyComponents = Bitset.empty ∧
      sys1.m_entities = [] ∧ sys1.m_systemIndex = 0) ∧
    ∃ r sys1 sys2,
      BaseSystem.Filters
        (BaseSystem.mk (Bitset.mk [5] 3) (Bitset.mk [0, 1] 33) Bitset.empty (Bitset.mk [1] 3) [] 0)
        (some (Entity.mk 7 (Bitset.mk [7] 3) Bitset.empty true true [])) = some (r, sys1) ∧
      sys1.Filters (some (Entity.mk 7 (Bitset.mk [7] 3) Bitset.empty true true [])) =
        some (r, sys2)) :=
  ⟨by decide,
    BaseSystem.Filters_ignores_scratch
      (BaseSystem.mk (Bitset.mk [5] 3) (Bitset.mk [0, 1] 33) Bitset.empty (Bitset.mk [1] 3) [] 0)
      (some (Entity.mk 7 (Bitset.mk [7] 3) Bitset.empty true true []))
      (by decide) (by decide) (by decide)
      (fun e he => by
        cases he
        decide)⟩

/-- What `UnboundedReset` does on a bitset that satisfies the class invariant: it returns, the size
is kept, and the bit is cleared while every other bit is as before. -/
theorem UnboundedReset_spec {s : Bitset} (hs : WellFormed s) (i : Nat) :
    ∃ r, s.UnboundedReset i = some r ∧ WellFormed r ∧ r.m_bitCount = s.m_bitCount ∧
      ∀ k, r.bitAt k = if k = i then false else s.bitAt k := by
  unfold UnboundedReset UnboundedSet
  by_cases hb : i < s.m_bitCount
  · rw [if_pos hb]
    obtain ⟨r, hr, hbc, _, _, hbits⟩ := Set_spec hs.length_eq hb false
    exact ⟨r, hr, Set_wellFormed hs hr, hbc, hbits⟩
  · rw [if_neg hb]
    simp only [Bool.false_eq_true, if_false]
    refine ⟨s, rfl, hs, rfl, fun k => ?_⟩
    by_cases hk : k = i
    · rw [if_pos hk, hk]
      exact hs.bitAt_of_ge (by omega)
    · rw [if_neg hk]

/-- What `UnregisterSystem` does on an entity whose system bitset satisfies the class invariant. -/
theorem UnregisterSystem_spec (e : Entity) (index : SystemIndex)
    (hs : WellFormed e.m_systemBits) :
    ∃ e1, e.UnregisterSystem index = some e1 ∧
      e1 = { e with m_systemBits := e1.m_systemBits } ∧ WellFormed e1.m_systemBits ∧
      ∀ k, e1.m_systemBits.bitAt k = if k = index then false else e.m_systemBits.bitAt k := by
  obtain ⟨r, hr, hw, _, hbits⟩ := UnboundedReset_spec hs index
  refine ⟨{ e with m_systemBits := r }, ?_, rfl, hw, hbits⟩
  unfold Entity.UnregisterSystem
  rw [hr]
  rfl

/-- The loop of the destructor over a list of handles: it runs to its end when every handle
refers to an entity; the entities of the list lose the system bit and nothing else, the other
entities are as before. -/
theorem destroy_loop (index : SystemIndex) :
    ∀ (l : List EntityId) (w : Entities),
      (∀ x ∈ l, ∃ e, w x = some e ∧ WellFormed e.m_systemBits) →
      ∃ w', forEach (fun entity w =>
            (w entity).bind fun e =>
              (e.UnregisterSystem index).map fun e1 => Entities.update w entity e1) l w = some w' ∧
        (∀ x, x ∉ l → w' x = w x) ∧
        ∀ x ∈ l, ∃ e e', w x = some e ∧ w' x = some e' ∧
          e' = { e with m_systemBits := e'.m_systemBits } ∧ WellFormed e'.m_systemBits ∧
          ∀ k, e'.m_systemBits.bitAt k = if k = index then false else e.m_systemBits.bitAt k := by
  intro l
  induction l with
  | nil =>
    intro w _
    exact ⟨w, rfl, fun _ _ => rfl, fun x hx => absurd hx (List.not_mem_nil x)⟩
  | cons a t ih =>
    intro w hw
    obtain ⟨e, hwa, hwf⟩ := hw a (List.mem_cons_self a t)
    obtain ⟨e1, he1, hframe, hwf1, hbits1⟩ := UnregisterSystem_spec e index hwf
    have hw1 : ∀ x ∈ t, ∃ e2, Entities.update w a e1 x = some e2 ∧ WellFormed e2.m_systemBits := by
      intro x hx
      by_cases hxa : x = a
      · exact ⟨e1, by simp only [Entities.update, if_pos hxa], hwf1⟩
      · obtain ⟨e2, h2, h2w⟩ := hw x (List.mem_cons_of_mem a hx)
        exact ⟨e2, by simp only [Entities.update, if_neg hxa, h2], h2w⟩
    obtain ⟨w', hrun, hout, hin⟩ := ih (Entities.update w a e1) hw1
    refine ⟨w', ?_, ?_, ?_⟩
    · simp only [forEach, hwa, Option.some_bind, he1, Option.map_some']
      exact hrun
    · intro x hx
      have hxa : x ≠ a := fun h => hx (h ▸ List.mem_cons_self a t)
      have hxt : x ∉ t := fun h => hx (List.mem_cons_of_mem a h)
      rw [hout x hxt]
      simp only [Entities.update, if_neg hxa]
    · intro x hx
      by_cases hxt : x ∈ t
      · obtain ⟨e2, e', h2, h', hfr, hwf', hbits'⟩ := hin x hxt
        by_cases hxa : x = a
        · subst hxa
          simp only [Entities.update, if_true, Option.some.injEq] at h2
          subst h2
          refine ⟨e, e', hwa, h', ?_, hwf', ?_⟩
          · rw [hfr, hframe]
          · intro k
            rw [hbits' k, hbits1 k]
            by_cases hk : k = index
            · simp only [if_pos hk]
            · simp only [if_neg hk]
        · simp only [Entities.update, if_neg hxa] at h2
          exact ⟨e2, e', h2, h', hfr, hwf', hbits'⟩
      · have hxa : x = a := by
          rcases List.mem_cons.1 hx with h | h
          · exact h
          · exact absurd h hxt
        subst hxa
        refine ⟨e, e1, hwa, ?_, hframe, hwf1, hbits1⟩
        rw [hout x hxt]
        simp only [Entities.update, if_true]

/-- C24: the destructor of a `BaseSystem`, every handle of which refers to an entity (whose system
bitset satisfies the class invariant), runs to its end; afterwards every entity that the system
tracked has the bit of the system cleared, `GetSystemBits().UnboundedTest(index)` being `false`,
every other system bit and every other part of it as before; and the entities that the system did
not track are as before. -/
theorem BaseSystem.destroy_clears_system_bit (sys : BaseSystem) (world : Entities)
    (htracked : ∀ x ∈ sys.m_entities, ∃ e, world x = some e ∧ WellFormed e.m_systemBits) :
    ∃ world', sys.destroy world = some world' ∧
      (∀ x ∈ sys.m_entities, ∃ e e', world x = some e ∧ world' x = some e' ∧
        e'.GetSystemBits.UnboundedTest sys.m_systemIndex = some false ∧
        (∀ j, j ≠ sys.m_systemIndex →
          e'.GetSystemBits.UnboundedTest j = e.GetSystemBits.UnboundedTest j) ∧
        e' = { e with m_systemBits := e'.m_systemBits }) ∧
      ∀ x, x ∉ sys.m_entities → world' x = world x := by
  obtain ⟨w', hrun, hout, hin⟩ := destroy_loop sys.m_systemIndex sys.m_entities world htracked
  refine ⟨w', hrun, ?_, hout⟩
  intro x hx
  obtain ⟨e, e', h1, h2, hfr, hwf', hbits⟩ := hin x hx
  obtain ⟨e0, h0, hwf0⟩ := htracked x hx
  rw [h1] at h0
  cases h0
  refine ⟨e, e', h1, h2, ?_, ?_, hfr⟩
  · simp only [Entity.GetSystemBits]
    rw [UnboundedTest_eq_bitAt hwf', hbits, if_pos rfl]
  · intro j hj
    simp only [Entity.GetSystemBits]
    rw [UnboundedTest_eq_bitAt hwf', UnboundedTest_eq_bitAt hwf0, hbits, if_neg hj]

/-- An instance of `BaseSystem.destroy_clears_system_bit`: the system of index 1, tracking the
entities 1 and 2, is destroyed; entity 1 keeps the system 0 only, entity 2 the system 2 only, and
entity 3, which the system did not track, keeps its bit. -/
theorem BaseSystem.destroy_clears_system_bit_witness :
    (trackingSystem.destroy trackedEntities).bind (fun w => w 1) =
      some (Entity.mk 1 Bitset.empty (Bitset.mk [1] 2) true true []) ∧
    (trackingSystem.destroy trackedEntities).bind (fun w => w 2) =
      some (Entity.mk 2 Bitset.empty (Bitset.mk [4] 3) true true []) ∧
    (trackingSystem.destroy trackedEntities).bind (fun w => w 3) =
      some (Entity.mk 3 Bitset.empty (Bitset.mk [2] 2) true true []) ∧
    ∃ world', trackingSystem.destroy trackedEntities = some world' ∧
      (∀ x ∈ trackingSystem.m_entities, ∃ e e', trackedEntities x = some e ∧ world' x = some e' ∧
        e'.GetSystemBits.UnboundedTest trackingSystem.m_systemIndex = some false ∧
        (∀ j, j ≠ trackingSystem.m_systemIndex →
          e'.GetSystemBits.UnboundedTest j = e.GetSystemBits.UnboundedTest j) ∧
        e' = { e with m_systemBits := e'.m_systemBits }) ∧
      ∀ x, x ∉ trackingSystem.m_entities → world' x = trackedEntities x :=
  ⟨by decide, by decide, by decide,
    BaseSystem.destroy_clears_system_bit trackingSystem trackedEntities
      (fun x hx => by
        rcases List.mem_cons.1 hx with h | h
        · subst h
          exact ⟨_, rfl, by decide⟩
        · rcases List.mem_cons.1 h with h2 | h2
          · subst h2
            exact ⟨_, rfl, by decide⟩
          · exact absurd h2 (List.not_mem_nil x))⟩

/-- A loop over a container whose body succeeds on every element with the effect `step`. -/
theorem forEach_eq_foldl {α σ : Type} (body : α → σ → Option σ) (step : σ → α → σ) :
    ∀ (l : List α), (∀ x ∈ l, ∀ s, body x s = some (step s x)) →
      ∀ s, forEach body l s = some (l.foldl step s) := by
  intro l
  induction l with
  | nil =>
    intro _ s
    rfl
  | cons a t ih =>
    intro h s
    simp only [forEach, h a (List.mem_cons_self a t) s, Option.some_bind, List.foldl_cons]
    exact ih (fun x hx => h x (List.mem_cons_of_mem a hx)) _

/-- The call `handle->GetComponent<ComponentType>()` on a handle whose entity holds the
component. -/
theorem getComponentOf_of_has {world : Entities} {handle : EntityId} {index : ComponentIndex}
    {e : Entity} (hw : world handle = some e) (hc : e.HasComponent index = some true) :
    getComponentOf world handle index = some () := by
  simp only [getComponentOf, hw, Option.some_bind, Entity.GetComponent, hc, if_true]

theorem foldl_queue (f : EntityId → QueueEntry) :
    ∀ (l : List EntityId) (o : RenderOutput),
      l.foldl (fun q x => { q with m_renderQueue := q.m_renderQueue ++ [f x] }) o =
        { o with m_renderQueue := o.m_renderQueue ++ l.map f } := by
  intro l
  induction l with
  | nil =>
    intro o
    simp only [List.foldl_nil, List.map_nil, List.append_nil]
  | cons a t ih =>
    intro o
    simp only [List.foldl_cons, ih, List.map_cons, List.append_assoc, List.singleton_append]

theorem foldl_invalidated :
    ∀ (l : List EntityId) (o : RenderOutput),
      l.foldl (fun q x => { q with invalidatedTransforms := q.invalidatedTransforms ++ [x] }) o =
        { o with invalidatedTransforms := o.invalidatedTransforms ++ l } := by
  intro l
  induction l with
  | nil =>
    intro o
    simp only [List.foldl_nil, List.append_nil]
  | cons a t ih =>
    intro o
    simp only [List.foldl_cons, ih, List.append_assoc, List.singleton_append]

/-- The function `UpdateViewport` on a camera with a target: it returns, and leaves the target,
the node and the view-matrix flag as they are. -/
theorem UpdateViewport_keeps (c : CameraComponent) (ht : c.m_target.isSome = true) :
    ∃ c', c.UpdateViewport = some c' ∧ c'.m_target = c.m_target ∧ c'.m_node = c.m_node ∧
      c'.m_viewMatrixUpdated = c.m_viewMatrixUpdated := by
  obtain ⟨target, htarget⟩ := Option.isSome_iff_exists.1 ht
  unfold CameraComponent.UpdateViewport
  simp only [htarget]
  refine ⟨_, rfl, ?_, ?_, ?_⟩ <;>
  · simp only [CameraComponent.InvalidateProjectionMatrix]
    split <;> try split
    all_goals first | rfl | exact htarget

/-- The function `EnsureViewportUpdate` on a camera with a target. -/
theorem EnsureViewportUpdate_keeps (c : CameraComponent) (ht : c.m_target.isSome = true) :
    ∃ c', c.EnsureViewportUpdate = some c' ∧ c'.m_target = c.m_target ∧ c'.m_node = c.m_node ∧
      c'.m_viewMatrixUpdated = c.m_viewMatrixUpdated := by
  unfold CameraComponent.EnsureViewportUpdate
  split
  · exact UpdateViewport_keeps c ht
  · exact ⟨c, rfl, rfl, rfl, rfl⟩

/-- The function `EnsureProjectionMatrixUpdate` on a camera with a target. -/
theorem EnsureProjectionMatrixUpdate_keeps (c : CameraComponent)
    (ht : c.m_target.isSome = true) :
    ∃ c', c.EnsureProjectionMatrixUpdate = some c' ∧ c'.m_target = c.m_target ∧
      c'.m_node = c.m_node ∧ c'.m_viewMatrixUpdated = c.m_viewMatrixUpdated := by
  obtain ⟨c1, h1, h2, h3, h4⟩ := EnsureViewportUpdate_keeps c ht
  unfold CameraComponent.EnsureProjectionMatrixUpdate
  split
  · unfold CameraComponent.UpdateProjectionMatrix
    cases hp : c.m_projectionType
    · simp only
      split
      · rw [h1]
        exact ⟨_, rfl, h2, h3, h4⟩
      · exact ⟨_, rfl, rfl, rfl, rfl⟩
    · simp only
      rw [h1]
      exact ⟨_, rfl, h2, h3, h4⟩
  · exact ⟨c, rfl, rfl, rfl, rfl⟩

/-- The function `ApplyView` on a camera that has a target and whose view matrix is clean or can
be rebuilt from the node of the entity: it returns, with the target as before and the view matrix
clean. -/
theorem ApplyView_returns (c : CameraComponent) (ht : c.m_target.isSome = true)
    (hv : c.m_viewMatrixUpdated = true ∨ c.m_node.isSome = true) :
    ∃ c' calls, c.ApplyView = some (c', calls) ∧ c'.m_target = c.m_target ∧
      c'.m_viewMatrixUpdated = true := by
  obtain ⟨target, htarget⟩ := Option.isSome_iff_exists.1 ht
  obtain ⟨c1, h1, h1t, h1n, h1v⟩ := EnsureProjectionMatrixUpdate_keeps c ht
  have hview : ∃ c2, c1.EnsureViewMatrixUpdate = some c2 ∧ c2.m_target = c.m_target ∧
      c2.m_viewMatrixUpdated = true := by
    unfold CameraComponent.EnsureViewMatrixUpdate
    by_cases hclean : c1.m_viewMatrixUpdated = true
    · rw [if_neg (by simp [hclean])]
      exact ⟨c1, rfl, h1t, hclean⟩
    · rw [if_pos (by simpa using hclean)]
      have hnode : c1.m_node.isSome = true := by
        rw [h1n]
        rcases hv with hv | hv
        · rw [h1v] at hclean
          exact absurd hv hclean
        · exact hv
      obtain ⟨transform, htransform⟩ := Option.isSome_iff_exists.1 hnode
      unfold CameraComponent.UpdateViewMatrix
      simp only [htransform]
      exact ⟨_, rfl, h1t, rfl⟩
  obtain ⟨c2, h2, h2t, h2v⟩ := hview
  obtain ⟨c3, h3, h3t, _, h3v⟩ := EnsureViewportUpdate_keeps c2 (by rw [h2t]; exact ht)
  have h3target : c3.m_target = some target := by rw [h3t, h2t, htarget]
  refine ⟨c3,
    [ViewCall.SetProjectionMatrix c3.m_projectionMatrix, ViewCall.SetViewMatrix c3.m_viewMatrix,
     ViewCall.SetTarget target, ViewCall.SetViewport c3.m_viewport],
    ?_, by rw [h3t, h2t], by rw [h3v, h2v]⟩
  unfold CameraComponent.ApplyView
  simp only [htarget, h1, h2, h3, Option.some_bind, h3target]

/-- The call `camComponent.ApplyView()` of `OnUpdate` on a camera whose component has a target
and a view matrix that is clean or can be rebuilt: it returns; the queue, the draws and the
invalidated transforms are as before, the call is recorded, and every camera component that had
a target and such a view matrix still has them. -/
theorem applyViewOf_spec (camera : EntityId) (o : RenderOutput)
    (h : ∃ c, o.cameraComponents camera = some c ∧ c.m_target.isSome = true ∧
      (c.m_viewMatrixUpdated = true ∨ c.m_node.isSome = true)) :
    ∃ o1, RenderSystem.applyViewOf camera o = some o1 ∧
      o1.m_renderQueue = o.m_renderQueue ∧ o1.draws = o.draws ∧
      o1.invalidatedTransforms = o.invalidatedTransforms ∧
      o1.appliedViews = o.appliedViews ++ [camera] ∧
      ∀ x, (∃ c, o.cameraComponents x = some c ∧ c.m_target.isSome = true ∧
          (c.m_viewMatrixUpdated = true ∨ c.m_node.isSome = true)) →
        ∃ c, o1.cameraComponents x = some c ∧ c.m_target.isSome = true ∧
          (c.m_viewMatrixUpdated = true ∨ c.m_node.isSome = true) := by
  obtain ⟨c, hc, ht, hv⟩ := h
  obtain ⟨c', calls, happly, ht', hv'⟩ := ApplyView_returns c ht hv
  refine ⟨{ o with
      cameraComponents := fun x => if x = camera then some c' else o.cameraComponents x
      viewCalls := o.viewCalls ++ calls
      appliedViews := o.appliedViews ++ [camera] }, ?_, rfl, rfl, rfl, rfl, ?_⟩
  · unfold RenderSystem.applyViewOf
    rw [hc, Option.some_bind, happly, Option.map_some']
  · intro x hx
    show ∃ c0, (if x = camera then some c' else o.cameraComponents x) = some c0 ∧ _
    by_cases hxc : x = camera
    · rw [if_pos hxc]
      exact ⟨c', rfl, by rw [ht']; exact ht, Or.inl hv'⟩
    · rw [if_neg hxc]
      exact hx

/-- What `OnUpdate` does when every handle of the three buckets refers to an entity that holds
the components of its bucket and every camera component has a target and a view matrix that is
clean or can be rebuilt from the node of its entity. -/
theorem OnUpdate_spec (idx : ComponentIndices) (world : Entities) (rs : RenderSystem)
    (out : RenderOutput)
    (hcameras : ∀ x ∈ rs.m_cameras, ∃ e, world x = some e ∧ e.HasComponent idx.camera = some true)
    (hviews : ∀ x ∈ rs.m_cameras, ∃ c, out.cameraComponents x = some c ∧
      c.m_target.isSome = true ∧ (c.m_viewMatrixUpdated = true ∨ c.m_node.isSome = true))
    (hdrawables : ∀ x ∈ rs.m_drawables, ∃ e, world x = some e ∧
      e.HasComponent idx.graphics = some true ∧ e.HasComponent idx.node = some true)
    (hlights : ∀ x ∈ rs.m_lights, ∃ e, world x = some e ∧
      e.HasComponent idx.light = some true ∧ e.HasComponent idx.node = some true) :
    ∃ out', RenderSystem.OnUpdate idx world rs out =
        some ({ rs with m_coordinateSystemInvalidated := false }, out') ∧
      out'.draws = out.draws ++ rs.m_cameras.map (fun camera =>
        (camera, rs.m_drawables.map QueueEntry.renderable ++ rs.m_lights.map QueueEntry.light)) ∧
      out'.invalidatedTransforms = out.invalidatedTransforms ++
        (if rs.m_coordinateSystemInvalidated then rs.m_drawables else []) ∧
      out'.appliedViews = out.appliedViews ++ rs.m_cameras := by
  have hinv : ∀ o : RenderOutput,
      forEach (fun drawable o =>
          (getComponentOf world drawable idx.graphics).map fun _ =>
            { o with invalidatedTransforms := o.invalidatedTransforms ++ [drawable] })
        rs.m_drawables o =
      some { o with invalidatedTransforms := o.invalidatedTransforms ++ rs.m_drawables } := by
    intro o
    rw [forEach_eq_foldl _
      (fun q x => { q with invalidatedTransforms := q.invalidatedTransforms ++ [x] })
      rs.m_drawables _ o, foldl_invalidated]
    intro x hx s
    obtain ⟨e, hw, hg, _⟩ := hdrawables x hx
    rw [getComponentOf_of_has hw hg]
    rfl
  have hfillD : ∀ o : RenderOutput,
      forEach (fun drawable q =>
          (getComponentOf world drawable idx.graphics).bind fun _ =>
            (getComponentOf world drawable idx.node).map fun _ =>
              { q with m_renderQueue := q.m_renderQueue ++ [QueueEntry.renderable drawable] })
        rs.m_drawables o =
      some { o with
        m_renderQueue := o.m_renderQueue ++ rs.m_drawables.map QueueEntry.renderable } := by
    intro o
    rw [forEach_eq_foldl _
      (fun q x => { q with m_renderQueue := q.m_renderQueue ++ [QueueEntry.renderable x] })
      rs.m_drawables _ o, foldl_queue]
    intro x hx s
    obtain ⟨e, hw, hg, hn⟩ := hdrawables x hx
    rw [getComponentOf_of_has hw hg, getComponentOf_of_has hw hn]
    rfl
  have hfillL : ∀ o : RenderOutput,
      forEach (fun light q =>
          (getComponentOf world light idx.light).bind fun _ =>
            (getComponentOf world light idx.node).map fun _ =>
              { q with m_renderQueue := q.m_renderQueue ++ [QueueEntry.light light] })
        rs.m_lights o =
      some { o with m_renderQueue := o.m_renderQueue ++ rs.m_lights.map QueueEntry.light } := by
    intro o
    rw [forEach_eq_foldl _
      (fun q x => { q with m_renderQueue := q.m_renderQueue ++ [QueueEntry.light x] })
      rs.m_lights _ o, foldl_queue]
    intro x hx s
    obtain ⟨e, hw, hl, hn⟩ := hlights x hx
    rw [getComponentOf_of_has hw hl, getComponentOf_of_has hw hn]
    rfl
  have hbody : ∀ (camera : EntityId) (o o1 : RenderOutput),
      (∃ e, world camera = some e ∧ e.HasComponent idx.camera = some true) →
      RenderSystem.applyViewOf camera o = some o1 →
      ((getComponentOf world camera idx.camera).bind fun _ =>
          (RenderSystem.applyViewOf camera o).bind fun o1 =>
            let o2 := { o1 with m_renderQueue := [] }
            (forEach (fun drawable q =>
                (getComponentOf world drawable idx.graphics).bind fun _ =>
                  (getComponentOf world drawable idx.node).map fun _ =>
                    { q with
                      m_renderQueue := q.m_renderQueue ++ [QueueEntry.renderable drawable] })
              rs.m_drawables o2).bind fun o3 =>
              (forEach (fun light q =>
                  (getComponentOf world light idx.light).bind fun _ =>
                    (getComponentOf world light idx.node).map fun _ =>
                      { q with m_renderQueue := q.m_renderQueue ++ [QueueEntry.light light] })
                rs.m_lights o3).map fun o4 =>
                { o4 with draws := o4.draws ++ [(camera, o4.m_renderQueue)] }) =
        some { o1 with
          m_renderQueue :=
            rs.m_drawables.map QueueEntry.renderable ++ rs.m_lights.map QueueEntry.light
          draws := o1.draws ++ [(camera,
            rs.m_drawables.map QueueEntry.renderable ++ rs.m_lights.map QueueEntry.light)] } := by
    intro camera o o1 hcam happly
    obtain ⟨e, hw, hc⟩ := hcam
    simp only [getComponentOf_of_has hw hc, Option.some_bind, happly, hfillD, hfillL,
      Option.map_some', List.nil_append]
  have hloop : ∀ (l : List EntityId) (o : RenderOutput),
      (∀ x ∈ l, ∃ e, world x = some e ∧ e.HasComponent idx.camera = some true) →
      (∀ x ∈ l, ∃ c, o.cameraComponents x = some c ∧ c.m_target.isSome = true ∧
        (c.m_viewMatrixUpdated = true ∨ c.m_node.isSome = true)) →
      ∃ o', forEach (fun camera o =>
        (getComponentOf world camera idx.camera).bind fun _ =>
          (RenderSystem.applyViewOf camera o).bind fun o1 =>
            let o2 := { o1 with m_renderQueue := [] }
            (forEach (fun drawable q =>
                (getComponentOf world drawable idx.graphics).bind fun _ =>
                  (getComponentOf world drawable idx.node).map fun _ =>
                    { q with
                      m_renderQueue := q.m_renderQueue ++ [QueueEntry.renderable drawable] })
              rs.m_drawables o2).bind fun o3 =>
              (forEach (fun light q =>
                  (getComponentOf world light idx.light).bind fun _ =>
                    (getComponentOf world light idx.node).map fun _ =>
                      { q with m_renderQueue := q.m_renderQueue ++ [QueueEntry.light light] })
                rs.m_lights o3).map fun o4 =>
                { o4 with draws := o4.draws ++ [(camera, o4.m_renderQueue)] })
        l o = some o' ∧
        o'.draws = o.draws ++ l.map (fun camera =>
          (camera,
            rs.m_drawables.map QueueEntry.renderable ++ rs.m_lights.map QueueEntry.light)) ∧
        o'.invalidatedTransforms = o.invalidatedTransforms ∧
        o'.appliedViews = o.appliedViews ++ l := by
    intro l
    induction l with
    | nil =>
      intro o _ _
      exact ⟨o, rfl, by simp, rfl, by simp⟩
    | cons camera rest ih =>
      intro o hcams hgood
      obtain ⟨o1, happly, _, hd1, hi1, ha1, hkeep⟩ :=
        applyViewOf_spec camera o (hgood camera (List.mem_cons_self _ _))
      obtain ⟨o', hrun, hdraws, hinvs, hviews'⟩ := ih
        { o1 with
          m_renderQueue :=
            rs.m_drawables.map QueueEntry.renderable ++ rs.m_lights.map QueueEntry.light
          draws := o1.draws ++ [(camera,
            rs.m_drawables.map QueueEntry.renderable ++ rs.m_lights.map QueueEntry.light)] }
        (fun x hx => hcams x (List.mem_cons_of_mem _ hx))
        (fun x hx => hkeep x (hgood x (List.mem_cons_of_mem _ hx)))
      refine ⟨o', ?_, ?_, ?_, ?_⟩
      · rw [forEach, hbody camera o o1 (hcams camera (List.mem_cons_self _ _)) happly,
          Option.some_bind]
        exact hrun
      · rw [hdraws]
        simp only [hd1, List.map_cons, List.append_assoc, List.singleton_append]
      · rw [hinvs]
        exact hi1
      · rw [hviews']
        simp only [ha1, List.append_assoc, List.singleton_append]
  unfold RenderSystem.OnUpdate
  by_cases hflag : rs.m_coordinateSystemInvalidated = true
  · obtain ⟨o', hrun, hdraws, hinvs, happlied⟩ := hloop rs.m_cameras
      { out with invalidatedTransforms := out.invalidatedTransforms ++ rs.m_drawables }
      hcameras hviews
    simp only [hflag, if_true, hinv, Option.map_some', Option.some_bind, hrun]
    exact ⟨o', rfl, hdraws, hinvs, happlied⟩
  · have hf : rs.m_coordinateSystemInvalidated = false := by
      cases h : rs.m_coordinateSystemInvalidated
      · rfl
      · exact absurd h hflag
    obtain ⟨o', hrun, hdraws, hinvs, happlied⟩ := hloop rs.m_cameras out hcameras hviews
    simp only [hf, Bool.false_eq_true, if_false, Option.some_bind, hrun, Option.map_some']
    refine ⟨o', ?_, hdraws, by rw [hinvs, List.append_nil], happlied⟩
    congr 2
    rw [← hf]

theorem count_queue_renderable (drawables lights : List EntityId) (d : EntityId) :
    (drawables.map QueueEntry.renderable ++ lights.map QueueEntry.light).count
      (QueueEntry.renderable d) = drawables.count d := by
  rw [List.count_append,
    List.count_map_of_injective drawables QueueEntry.renderable
      (fun a b h => QueueEntry.renderable.inj h) d]
  have h0 : (lights.map QueueEntry.light).count (QueueEntry.renderable d) = 0 := by
    rw [List.count_eq_zero]
    intro hmem
    obtain ⟨l, _, hl⟩ := List.mem_map.1 hmem
    cases hl
  rw [h0, Nat.add_zero]

theorem count_queue_light (drawables lights : List EntityId) (l : EntityId) :
    (drawables.map QueueEntry.renderable ++ lights.map QueueEntry.light).count
      (QueueEntry.light l) = lights.count l := by
  rw [List.count_append,
    List.count_map_of_injective lights QueueEntry.light (fun a b h => QueueEntry.light.inj h) l]
  have h0 : (drawables.map QueueEntry.renderable).count (QueueEntry.light l) = 0 := by
    rw [List.count_eq_zero]
    intro hmem
    obtain ⟨d, _, hd⟩ := List.mem_map.1 hmem
    cases hd
  rw [h0, Nat.zero_add]

/-- C22: one `OnUpdate` on the cameras `[c1, ..., cn]`, every handle of the buckets referring to an
entity that holds the components of its bucket and every camera component having a target and a
view matrix that is clean or can be rebuilt from the node of its entity (what `ApplyView`
asserts), runs to its end and calls `Draw` exactly `n` times, once per camera in the order of the
list, with that camera as viewer; the queue that each `Draw` renders holds, whatever the queue
held before the update or for an earlier camera, the elements of the drawables in bucket order
followed by those of the lights in bucket order: every drawable and every light is in it as often
as it is in its bucket, and nothing else is. -/
theorem RenderSystem.OnUpdate_draws_once_per_camera (idx : ComponentIndices) (world : Entities)
    (rs : RenderSystem) (out : RenderOutput)
    (hcameras : ∀ x ∈ rs.m_cameras, ∃ e, world x = some e ∧ e.HasComponent idx.camera = some true)
    (hviews : ∀ x ∈ rs.m_cameras, ∃ c, out.cameraComponents x = some c ∧
      c.m_target.isSome = true ∧ (c.m_viewMatrixUpdated = true ∨ c.m_node.isSome = true))
    (hdrawables : ∀ x ∈ rs.m_drawables, ∃ e, world x = some e ∧
      e.HasComponent idx.graphics = some true ∧ e.HasComponent idx.node = some true)
    (hlights : ∀ x ∈ rs.m_lights, ∃ e, world x = some e ∧
      e.HasComponent idx.light = some true ∧ e.HasComponent idx.node = some true) :
    ∃ rs' out', RenderSystem.OnUpdate idx world rs out = some (rs', out') ∧
      out'.draws.length = out.draws.length + rs.m_cameras.length ∧
      out'.draws.take out.draws.length = out.draws ∧
      (out'.draws.drop out.draws.length).map Prod.fst = rs.m_cameras ∧
      ∀ queue ∈ (out'.draws.drop out.draws.length).map Prod.snd,
        queue = rs.m_drawables.map QueueEntry.renderable ++ rs.m_lights.map QueueEntry.light ∧
        queue.length = rs.m_drawables.length + rs.m_lights.length ∧
        (∀ d, queue.count (QueueEntry.renderable d) = rs.m_drawables.count d) ∧
        ∀ l, queue.count (QueueEntry.light l) = rs.m_lights.count l := by
  obtain ⟨out', hrun, hdraws, _, _⟩ := OnUpdate_spec idx world rs out hcameras hviews hdrawables hlights
  refine ⟨_, out', hrun, ?_, ?_, ?_, ?_⟩
  · rw [hdraws, List.length_append, List.length_map]
  · rw [hdraws, List.take_left']
    rfl
  · rw [hdraws, List.drop_left', List.map_map]
    · exact List.map_id _
    · rfl
  · intro queue hq
    rw [hdraws, List.drop_left' rfl, List.map_map] at hq
    obtain ⟨camera, _, hc⟩ := List.mem_map.1 hq
    have hqueue : queue =
        rs.m_drawables.map QueueEntry.renderable ++ rs.m_lights.map QueueEntry.light := hc.symm
    refine ⟨hqueue, ?_, ?_, ?_⟩
    · rw [hqueue, List.length_append, List.length_map, List.length_map]
    · intro d
      rw [hqueue]
      exact count_queue_renderable _ _ d
    · intro l
      rw [hqueue]
      exact count_queue_light _ _ l

theorem updateScenario_components :
    (∀ x ∈ updateScenarioSystem.m_cameras, ∃ e, updateScenarioEntities x = some e ∧
      e.HasComponent scenarioIndices.camera = some true) ∧
    (∀ x ∈ updateScenarioSystem.m_drawables, ∃ e, updateScenarioEntities x = some e ∧
      e.HasComponent scenarioIndices.graphics = some true ∧
      e.HasComponent scenarioIndices.node = some true) ∧
    (∀ x ∈ updateScenarioSystem.m_lights, ∃ e, updateScenarioEntities x = some e ∧
      e.HasComponent scenarioIndices.light = some true ∧
      e.HasComponent scenarioIndices.node = some true) := by
  refine ⟨?_, ?_, ?_⟩
  · intro x hx
    rcases List.mem_cons.1 hx with h | h
    · subst h
      exact ⟨_, rfl, by decide⟩
    · rcases List.mem_cons.1 h with h2 | h2
      · subst h2
        exact ⟨_, rfl, by decide⟩
      · exact absurd h2 (List.not_mem_nil x)
  · intro x hx
    rcases List.mem_cons.1 hx with h | h
    · subst h
      exact ⟨_, rfl, by decide, by decide⟩
    · exact absurd h (List.not_mem_nil x)
  · intro x hx
    rcases List.mem_cons.1 hx with h | h
    · subst h
      exact ⟨_, rfl, by decide, by decide⟩
    · exact absurd h (List.not_mem_nil x)

/-- The camera components of the update scenario have a target, and a view matrix that is clean
(camera 11) or can be rebuilt from the node (camera 12). -/
theorem updateScenario_views :
    ∀ x ∈ updateScenarioSystem.m_cameras, ∃ c, updateScenarioOutput.cameraComponents x = some c ∧
      c.m_target.isSome = true ∧ (c.m_viewMatrixUpdated = true ∨ c.m_node.isSome = true) := by
  intro x hx
  rcases List.mem_cons.1 hx with h | h
  · subst h
    exact ⟨_, rfl, rfl, Or.inl rfl⟩
  · rcases List.mem_cons.1 h with h2 | h2
    · subst h2
      exact ⟨_, rfl, rfl, Or.inr rfl⟩
    · exact absurd h2 (List.not_mem_nil x)

/-- An instance of `RenderSystem.OnUpdate_draws_once_per_camera`: the update scenario, in which the
queue still holds a light of an earlier frame; the technique draws for camera 11 and then for
camera 12, each time the drawable 20 and the light 5 and nothing else, after the view of each
camera has been applied. When the target of the camera 12 has been released, `ApplyView` fails
its assertion and the update does not run to its end. -/
theorem RenderSystem.OnUpdate_draws_once_per_camera_witness :
    (RenderSystem.OnUpdate scenarioIndices updateScenarioEntities updateScenarioSystem
        updateScenarioOutput).map (fun r => r.2.draws) =
      some [(11, [QueueEntry.renderable 20, QueueEntry.light 5]),
            (12, [QueueEntry.renderable 20, QueueEntry.light 5])] ∧
    (RenderSystem.OnUpdate scenarioIndices updateScenarioEntities updateScenarioSystem
        updateScenarioOutput).map (fun r => r.2.appliedViews) = some [11, 12] ∧
    (RenderSystem.OnUpdate scenarioIndices updateScenarioEntities updateScenarioSystem
        releasedTargetOutput).isSome = false ∧
    ∃ rs' out', RenderSystem.OnUpdate scenarioIndices updateScenarioEntities updateScenarioSystem
        updateScenarioOutput = some (rs', out') ∧
      out'.draws.length = updateScenarioOutput.draws.length + updateScenarioSystem.m_cameras.length ∧
      out'.draws.take updateScenarioOutput.draws.length = updateScenarioOutput.draws ∧
      (out'.draws.drop updateScenarioOutput.draws.length).map Prod.fst =
        updateScenarioSystem.m_cameras ∧
      ∀ queue ∈ (out'.draws.drop updateScenarioOutput.draws.length).map Prod.snd,
        queue = updateScenarioSystem.m_drawables.map QueueEntry.renderable ++
          updateScenarioSystem.m_lights.map QueueEntry.light ∧
        queue.length = updateScenarioSystem.m_drawables.length +
          updateScenarioSystem.m_lights.length ∧
        (∀ d, queue.count (QueueEntry.renderable d) = updateScenarioSystem.m_drawables.count d) ∧
        ∀ l, queue.count (QueueEntry.light l) = updateScenarioSystem.m_lights.count l :=
  ⟨by decide, by decide, by decide,
    RenderSystem.OnUpdate_draws_once_per_camera scenarioIndices updateScenarioEntities
      updateScenarioSystem updateScenarioOutput updateScenario_components.1
      updateScenario_views updateScenario_components.2.1 updateScenario_components.2.2⟩

/-- C23: an `OnUpdate`, every handle of the buckets referring to an entity that holds the
components of its bucket and every camera component having a target and a view matrix that is
clean or can be rebuilt from the node of its entity (what `ApplyView` asserts), runs to its end
with the flag clear and the buckets as before; when the coordinate-system flag was set at the
start, `InvalidateTransformMatrix` is called on the graphics component of the drawables, one call
per element of the bucket in bucket order, and on nothing else; when the flag was clear, no
transform is invalidated. -/
theorem RenderSystem.OnUpdate_invalidates_transforms (idx : ComponentIndices) (world : Entities)
    (rs : RenderSystem) (out : RenderOutput)
    (hcameras : ∀ x ∈ rs.m_cameras, ∃ e, world x = some e ∧ e.HasComponent idx.camera = some true)
    (hviews : ∀ x ∈ rs.m_cameras, ∃ c, out.cameraComponents x = some c ∧
      c.m_target.isSome = true ∧ (c.m_viewMatrixUpdated = true ∨ c.m_node.isSome = true))
    (hdrawables : ∀ x ∈ rs.m_drawables, ∃ e, world x = some e ∧
      e.HasComponent idx.graphics = some true ∧ e.HasComponent idx.node = some true)
    (hlights : ∀ x ∈ rs.m_lights, ∃ e, world x = some e ∧
      e.HasComponent idx.light = some true ∧ e.HasComponent idx.node = some true) :
    ∃ rs' out', RenderSystem.OnUpdate idx world rs out = some (rs', out') ∧
      rs'.m_coordinateSystemInvalidated = false ∧
      rs'.m_cameras = rs.m_cameras ∧ rs'.m_drawables = rs.m_drawables ∧
      rs'.m_lights = rs.m_lights ∧
      (rs.m_coordinateSystemInvalidated = true →
        out'.invalidatedTransforms = out.invalidatedTransforms ++ rs.m_drawables ∧
        ∀ d, out'.invalidatedTransforms.count d =
          out.invalidatedTransforms.count d + rs.m_drawables.count d) ∧
      (rs.m_coordinateSystemInvalidated = false →
        out'.invalidatedTransforms = out.invalidatedTransforms) := by
  obtain ⟨out', hrun, _, hinv, _⟩ := OnUpdate_spec idx world rs out hcameras hviews hdrawables hlights
  refine ⟨_, out', hrun, rfl, rfl, rfl, rfl, ?_, ?_⟩
  · intro hflag
    rw [hflag, if_pos rfl] at hinv
    refine ⟨hinv, fun d => ?_⟩
    rw [hinv, List.count_append]
  · intro hflag
    rw [hflag] at hinv
    simp only [Bool.false_eq_true, if_false, List.append_nil] at hinv
    exact hinv

/-- An instance of `RenderSystem.OnUpdate_invalidates_transforms`: in the update scenario the flag
is set, the transform of the drawable 20 is invalidated once and the flag is clear afterwards; a
second update invalidates nothing. -/
theorem RenderSystem.OnUpdate_invalidates_transforms_witness :
    (RenderSystem.OnUpdate scenarioIndices updateScenarioEntities updateScenarioSystem
        updateScenarioOutput).map
      (fun r => (r.1.m_coordinateSystemInvalidated, r.2.invalidatedTransforms)) =
      some (false, [20]) ∧
    ((RenderSystem.OnUpdate scenarioIndices updateScenarioEntities updateScenarioSystem
        updateScenarioOutput).bind fun r =>
      RenderSystem.OnUpdate scenarioIndices updateScenarioEntities r.1 r.2).map
      (fun r => (r.1.m_coordinateSystemInvalidated, r.2.invalidatedTransforms)) =
      some (false, [20]) ∧
    ∃ rs' out', RenderSystem.OnUpdate scenarioIndices updateScenarioEntities updateScenarioSystem
        updateScenarioOutput = some (rs', out') ∧
      rs'.m_coordinateSystemInvalidated = false ∧
      rs'.m_cameras = updateScenarioSystem.m_cameras ∧
      rs'.m_drawables = updateScenarioSystem.m_drawables ∧
      rs'.m_lights = updateScenarioSystem.m_lights ∧
      (updateScenarioSystem.m_coordinateSystemInvalidated = true →
        out'.invalidatedTransforms =
          updateScenarioOutput.invalidatedTransforms ++ updateScenarioSystem.m_drawables ∧
        ∀ d, out'.invalidatedTransforms.count d =
          updateScenarioOutput.invalidatedTransforms.count d +
            updateScenarioSystem.m_drawables.count d) ∧
      (updateScenarioSystem.m_coordinateSystemInvalidated = false →
        out'.invalidatedTransforms = updateScenarioOutput.invalidatedTransforms) :=
  ⟨by decide, by decide,
    RenderSystem.OnUpdate_invalidates_transforms scenarioIndices updateScenarioEntities
      updateScenarioSystem updateScenarioOutput updateScenario_components.1
      updateScenario_views updateScenario_components.2.1 updateScenario_components.2.2⟩

/-- A `try` block none of whose calls throws runs to its end and records its calls in order. -/
theorem tryCalls_nothingThrows :
    ∀ (calls done : List SdkCall), Sdk.tryCalls nothingThrows calls done = (true, done ++ calls) := by
  intro calls
  induction calls with
  | nil =>
    intro done
    simp only [Sdk.tryCalls, List.append_nil]
  | cons c rest ih =>
    intro done
    simp only [Sdk.tryCalls, nothingThrows, Bool.false_eq_true, if_false, ih, List.append_assoc,
      List.singleton_append]

/-- C27 as the code has it: a first `Sdk::Initialize` in which nothing throws returns true with
one reference and makes its calls in the order of the source, the shared modules Lua, Noise,
Physics, Utility before the client-only modules Audio, Graphics (which are left out when
`NDK_SERVER` is defined); the `Sdk::Uninitialize` that releases the last reference uninitialises
the client-only modules first and the shared modules after them, each of the two groups in the
order in which `Initialize` initialised it. -/
theorem Sdk.modules_in_group_order (server : Bool) (sdk : Sdk) (h0 : sdk.s_referenceCounter = 0) :
    Sdk.Initialize server nothingThrows sdk =
      (true, { s_referenceCounter := 1, calls := sdk.calls ++ Sdk.initializeCalls server }) ∧
    Sdk.initialized (Sdk.initializeCalls server) =
      [Module.Lua, Module.Noise, Module.Physics, Module.Utility] ++
        (if server then [] else [Module.Audio, Module.Graphics]) ∧
    (∀ (i j : Nat) (a b : Module),
      (Sdk.initialized (Sdk.initializeCalls server))[i]? = some a →
      (Sdk.initialized (Sdk.initializeCalls server))[j]? = some b →
      Sdk.clientOnly a = false → Sdk.clientOnly b = true → i < j) ∧
    (∀ sdk1 : Sdk, sdk1.s_referenceCounter = 1 →
      Sdk.Uninitialize server sdk1 =
        { s_referenceCounter := 0, calls := sdk1.calls ++ Sdk.uninitializeCalls server }) ∧
    Sdk.uninitialized (Sdk.uninitializeCalls server) =
      (Sdk.initialized (Sdk.initializeCalls server)).filter Sdk.clientOnly ++
        (Sdk.initialized (Sdk.initializeCalls server)).filter (fun m => !Sdk.clientOnly m) := by
  refine ⟨?_, ?_, ?_, ?_, ?_⟩
  · simp only [Sdk.Initialize, h0, gt_iff_lt, Nat.lt_irrefl, if_false, tryCalls_nothingThrows,
      if_true]
    rfl
  · cases server <;> rfl
  · intro i j a b hi hj ha hb
    have hlen : ∀ (k : Nat) (m : Module),
        (Sdk.initialized (Sdk.initializeCalls server))[k]? = some m →
        (k < 4 ∧ Sdk.clientOnly m = false) ∨ (4 ≤ k ∧ Sdk.clientOnly m = true) := by
      intro k m hk
      cases server
      · match k, hk with
        | 0, hk => cases hk; exact Or.inl ⟨by decide, rfl⟩
        | 1, hk => cases hk; exact Or.inl ⟨by decide, rfl⟩
        | 2, hk => cases hk; exact Or.inl ⟨by decide, rfl⟩
        | 3, hk => cases hk; exact Or.inl ⟨by decide, rfl⟩
        | 4, hk => cases hk; exact Or.inr ⟨by decide, rfl⟩
        | 5, hk => cases hk; exact Or.inr ⟨by decide, rfl⟩
        | k + 6, hk => cases hk
      · match k, hk with
        | 0, hk => cases hk; exact Or.inl ⟨by decide, rfl⟩
        | 1, hk => cases hk; exact Or.inl ⟨by decide, rfl⟩
        | 2, hk => cases hk; exact Or.inl ⟨by decide, rfl⟩
        | 3, hk => cases hk; exact Or.inl ⟨by decide, rfl⟩
        | k + 4, hk => cases hk
    rcases hlen i a hi with ⟨hi4, _⟩ | ⟨_, hca⟩
    · rcases hlen j b hj with ⟨_, hcb⟩ | ⟨hj4, _⟩
      · rw [hcb] at hb
        cases hb
      · omega
    · rw [hca] at ha
      cases ha
  · intro sdk1 h1
    simp only [Sdk.Uninitialize, h1, ne_eq, not_true_eq_false, if_false]
  · cases server <;> rfl

/-- An instance of `Sdk.modules_in_group_order`: the client build, from the SDK before any call;
the modules come up as Lua, Noise, Physics, Utility, Audio, Graphics and go down as Audio, Graphics,
Lua, Noise, Physics, Utility. -/
theorem Sdk.modules_in_group_order_witness :
    Sdk.initialized (Sdk.Initialize false nothingThrows Sdk.start).2.calls =
      [Module.Lua, Module.Noise, Module.Physics, Module.Utility, Module.Audio, Module.Graphics] ∧
    Sdk.uninitialized
        (Sdk.Uninitialize false (Sdk.Initialize false nothingThrows Sdk.start).2).calls =
      [Module.Audio, Module.Graphics, Module.Lua, Module.Noise, Module.Physics, Module.Utility] ∧
    (Sdk.Initialize false nothingThrows Sdk.start =
      (true, { s_referenceCounter := 1, calls := Sdk.start.calls ++ Sdk.initializeCalls false }) ∧
    Sdk.initialized (Sdk.initializeCalls false) =
      [Module.Lua, Module.Noise, Module.Physics, Module.Utility] ++
        (if false then [] else [Module.Audio, Module.Graphics]) ∧
    (∀ (i j : Nat) (a b : Module),
      (Sdk.initialized (Sdk.initializeCalls false))[i]? = some a →
      (Sdk.initialized (Sdk.initializeCalls false))[j]? = some b →
      Sdk.clientOnly a = false → Sdk.clientOnly b = true → i < j) ∧
    (∀ sdk1 : Sdk, sdk1.s_referenceCounter = 1 →
      Sdk.Uninitialize false sdk1 =
        { s_referenceCounter := 0, calls := sdk1.calls ++ Sdk.uninitializeCalls false }) ∧
    Sdk.uninitialized (Sdk.uninitializeCalls false) =
      (Sdk.initialized (Sdk.initializeCalls false)).filter Sdk.clientOnly ++
        (Sdk.initialized (Sdk.initializeCalls false)).filter (fun m => !Sdk.clientOnly m)) :=
  ⟨by decide, by decide, Sdk.modules_in_group_order false Sdk.start rfl⟩

/-- C27 fails as stated: the order in which the last `Sdk::Uninitialize` uninitialises the modules
is not the reverse of the order in which `Sdk::Initialize` initialised them, which would be
Graphics, Audio, Utility, Physics, Noise, Lua; neither in the client build nor in the server
build. -/
theorem Sdk.uninitialize_not_reverse :
    Sdk.uninitialized
        (Sdk.Uninitialize false (Sdk.Initialize false nothingThrows Sdk.start).2).calls =
      [Module.Audio, Module.Graphics, Module.Lua, Module.Noise, Module.Physics, Module.Utility] ∧
    (Sdk.initialized (Sdk.Initialize false nothingThrows Sdk.start).2.calls).reverse =
      [Module.Graphics, Module.Audio, Module.Utility, Module.Physics, Module.Noise, Module.Lua] ∧
    Sdk.uninitialized
        (Sdk.Uninitialize false (Sdk.Initialize false nothingThrows Sdk.start).2).calls ≠
      (Sdk.initialized (Sdk.Initialize false nothingThrows Sdk.start).2.calls).reverse ∧
    Sdk.uninitialized
        (Sdk.Uninitialize true (Sdk.Initialize true nothingThrows Sdk.start).2).calls ≠
      (Sdk.initialized (Sdk.Initialize true nothingThrows Sdk.start).2.calls).reverse := by
  refine ⟨by decide, by decide, by decide, by decide⟩

/-- C28 against the code: in a first `Sdk::Initialize` in which `Nz::Graphics::Initialize()`
throws, the call returns false, but the reference counter stays at 1 and the five modules already
initialised are not uninitialised; the next `Sdk::Initialize` finds the counter above 0 and returns
true without making any call. -/
theorem Sdk.failed_Initialize_keeps_reference :
    (Sdk.Initialize false graphicsThrows Sdk.start).1 = false ∧
    (Sdk.Initialize false graphicsThrows Sdk.start).2.s_referenceCounter = 1 ∧
    Sdk.initialized (Sdk.Initialize false graphicsThrows Sdk.start).2.calls =
      [Module.Lua, Module.Noise, Module.Physics, Module.Utility, Module.Audio] ∧
    Sdk.uninitialized (Sdk.Initialize false graphicsThrows Sdk.start).2.calls = [] ∧
    (Sdk.Initialize false nothingThrows (Sdk.Initialize false graphicsThrows Sdk.start).2).1 = true ∧
    (Sdk.Initialize false nothingThrows (Sdk.Initialize false graphicsThrows Sdk.start).2).2.calls =
      (Sdk.Initialize false graphicsThrows Sdk.start).2.calls ∧
    (Sdk.Initialize false nothingThrows
      (Sdk.Initialize false graphicsThrows Sdk.start).2).2.s_referenceCounter = 2 := by
  refine ⟨by decide, by decide, by decide, by decide, by decide, by decide, by decide⟩

end Ndk

namespace Nz

/-- The 64-bit overload of `IntegralLog2Pot` gives the exponent of every power of two below 2^64
but 2^32. -/
theorem IntegralLog2PotWide_two_pow :
    ∀ k, k < 64 → k ≠ 32 → IntegralLog2PotWide 8 (2 ^ k) = k := by
  decide

/-- C31, failing input: for the 64-bit type `IntegralLog2Pot(2^32)` is 0 and not 32. The upper
word of 2^32 is 1, whose logarithm 0 the loop takes for "no bit in this word", and the lower word
is 0; the neighbours 2^31 and 2^33 give 31 and 33, and the overload for at most 32 bits gives 31
at 2^31 and 0 at 0. -/
theorem IntegralLog2Pot_wide_misses_two_pow_32 :
    IntegralLog2PotWide 8 (2 ^ 32) = 0 ∧ IntegralLog2PotWide 8 (2 ^ 31) = 31 ∧
      IntegralLog2PotWide 8 (2 ^ 33) = 33 ∧ IntegralLog2PotWide 8 0 = 0 ∧
      IntegralLog2Pot (2 ^ 31) = 31 ∧ IntegralLog2Pot 0 = 0 := by
  decide

/-- C35, failing input: with `a` = 111 and `b` = 101 (three bits each), `a &= b` leaves `a` with
no bit set, while `a & b` is 101: `PerformsAND` clears the blocks of the object it is called on
before it reads its operands, and `a` is one of them. At the same operands `a |= b` and `a ^= b`
give what `a | b` and `a ^ b` give. -/
theorem Bitset.opAndAssign_loses_left_operand :
    Bitset.opAndAssign ⟨[7], 3⟩ ⟨[5], 3⟩ = some ⟨[0], 3⟩ ∧
      Bitset.opAnd ⟨[7], 3⟩ ⟨[5], 3⟩ = some ⟨[5], 3⟩ ∧
      Bitset.opOrAssign ⟨[7], 3⟩ ⟨[5], 3⟩ = Bitset.opOr ⟨[7], 3⟩ ⟨[5], 3⟩ ∧
      Bitset.opXorAssign ⟨[7], 3⟩ ⟨[5], 3⟩ = Bitset.opXor ⟨[7], 3⟩ ⟨[5], 3⟩ := by
  decide

/-- C36, failing input: the bitset 111 of three bits, every bit of which is set, gives
`TestAll() == false`, and the bitset 000 of three bits gives `true`: the loop returns `false` for
a block that is equal to its mask, where a block that differs from it is meant. Both bitsets
satisfy the extra-bits invariant. -/
theorem Bitset.TestAll_inverted :
    Bitset.WellFormed ⟨[7], 3⟩ ∧ Bitset.TestAll ⟨[7], 3⟩ = some false ∧
      (∀ i, i < 3 → Bitset.Test ⟨[7], 3⟩ i = some true) ∧
      Bitset.WellFormed ⟨[0], 3⟩ ∧ Bitset.TestAll ⟨[0], 3⟩ = some true ∧
      (∀ i, i < 3 → Bitset.Test ⟨[0], 3⟩ i = some false) := by
  decide

/-- C37, failing input: for the least `long long` the statement `number = -number` of
`NumberToString` overflows, so that the round trip gives no result; for the neighbour
-9223372036854775807 and for 255 in radix 16 the round trip gives the number back with `ok`
set. -/
theorem NumberToString_least_long_long :
    NumberToString longLongMin 10 = none ∧ numberRoundTrip longLongMin 10 = none ∧
      numberRoundTrip (longLongMin + 1) 10 = some (longLongMin + 1, true) ∧
      numberRoundTrip 255 16 = some (255, true) := by
  decide

/-- C38, failing input: on a freshly constructed system, which holds no particle, `KillParticle(0)`
outside the processing decrements the count from 0 to 4294967295, above the maximum, and then
copies from a slot outside the buffer. Also `CreateParticles(4294967295)` on a system of five
particles and at most eight returns the slot 5 and leaves the count 4: the sum that is compared
with the maximum has wrapped. -/
theorem ParticleSystem.KillParticle_on_empty :
    (ParticleSystem.create 10 0).GetParticleCount = 0 ∧
      (ParticleSystem.create 10 0).m_processing = false ∧
      (ParticleSystem.create 10 0).decrementCount.GetParticleCount = 4294967295 ∧
      ¬ ((ParticleSystem.create 10 0).decrementCount.GetParticleCount ≤
        (ParticleSystem.create 10 0).decrementCount.GetMaxParticleCount) ∧
      (ParticleSystem.create 10 0).KillParticle 0 = none ∧
      ParticleSystem.fiveParticles.CreateParticles 4294967295 =
        (some 5, { ParticleSystem.fiveParticles with m_particleCount := 4 }) := by
  decide

/-- C39, failing input: with the debug drawing of the light meshes enabled, one point light (1)
and one spot light (2), the stencil-marking draw and the colour draw of the spot light are issued
while `DebugSimple` is bound, the uniforms of the light having been sent to the point/spot
shader: the block that draws the meshes of the point lights binds `DebugSimple` and the point/spot
shader is not bound again. The draws of the point light come before that block and are issued with
the point/spot shader bound. -/
theorem DeferredPhongLightingPass.Process_debug_shader_stays_bound :
    ((DeferredPhongLightingPass.Process (debugScenario true) plainStates (some 0)
        plainRenderer).map fun p => shadersAtDraws none none p.2.calls) =
      some
        [⟨some LightShader.pointSpotLight, some 1, some LightShader.pointSpotLight, false,
            FaceFilling.Fill⟩,
         ⟨some LightShader.pointSpotLight, some 1, some LightShader.pointSpotLight, true,
            FaceFilling.Fill⟩,
         ⟨some LightShader.debugSimple, some 1, some LightShader.debugSimple, true,
            FaceFilling.Line⟩,
         ⟨some LightShader.debugSimple, some 2, some LightShader.pointSpotLight, false,
            FaceFilling.Fill⟩,
         ⟨some LightShader.debugSimple, some 2, some LightShader.pointSpotLight, true,
            FaceFilling.Fill⟩,
         ⟨some LightShader.debugSimple, some 2, some LightShader.debugSimple, true,
            FaceFilling.Line⟩] := by
  decide

set_option maxRecDepth 100000 in
/-- The signed overload of `GetNumberLength` on the values of `signed char`, by their distance
from -128. -/
theorem GetNumberLengthSigned_range :
    ∀ i : Nat, i < 256 →
      GetNumberLengthSigned ((i : Int) - 128) = (decimalRepresentation ((i : Int) - 128)).length := by
  decide

set_option maxRecDepth 100000 in
/-- The unsigned overload of `GetNumberLength` on the values of `unsigned char`. -/
theorem GetNumberLengthUnsigned_range :
    ∀ m, m < 256 → GetNumberLengthUnsigned m = (Nat.toDigits 10 m).length := by
  decide

/-- C33: for every value `n` of `signed char`, `GetNumberLength(n)` is the number of characters
of the base-10 representation of `n`, the `-` of a negative number included, and for every value
`m` of `unsigned char`, `GetNumberLength(m)` is the number of decimal digits of `m`. -/
theorem GetNumberLength_char (n : Int) (m : Nat) (hlo : -128 ≤ n) (hhi : n ≤ 127)
    (hm : m ≤ 255) :
    GetNumberLengthSigned n = (decimalRepresentation n).length ∧
      GetNumberLengthUnsigned m = (Nat.toDigits 10 m).length := by
  refine ⟨?_, GetNumberLengthUnsigned_range m (by omega)⟩
  have h := GetNumberLengthSigned_range (n + 128).toNat (by omega)
  have hcast : (((n + 128).toNat : Nat) : Int) - 128 = n := by omega
  rw [hcast] at h
  exact h

/-- C33 at -128 and 255: four characters and three digits. -/
theorem GetNumberLength_char_witness :
    GetNumberLengthSigned (-128) = (decimalRepresentation (-128)).length ∧
      GetNumberLengthUnsigned 255 = (Nat.toDigits 10 255).length :=
  GetNumberLength_char (-128) 255 (by decide) (by decide) (by decide)

/-- One round of the smearing: when the bit `j` of `x` tells whether `n` has a bit among the `w`
bits from `j` on, the bit `j` of `x | x >> w` tells it for the `2 * w` bits from `j` on. -/
theorem smear_step (n x w : Nat)
    (h : ∀ j, x.testBit j = true ↔ ∃ d, d < w ∧ n.testBit (j + d) = true) :
    ∀ j, (x ||| (x >>> w)).testBit j = true ↔ ∃ d, d < 2 * w ∧ n.testBit (j + d) = true := by
  intro j
  rw [Nat.testBit_or, Nat.testBit_shiftRight, Bool.or_eq_true, h, h]
  constructor
  · rintro (⟨d, hd, ht⟩ | ⟨d, hd, ht⟩)
    · exact ⟨d, by omega, ht⟩
    · exact ⟨w + d, by omega, by rwa [show j + (w + d) = w + j + d by omega]⟩
  · rintro ⟨d, hd, ht⟩
    by_cases hdw : d < w
    · exact Or.inl ⟨d, hdw, ht⟩
    · exact Or.inr ⟨d - w, by omega, by rwa [show w + j + (d - w) = j + d by omega]⟩

/-- The table `MultiplyDeBruijnBitPosition` at the smeared numbers: the number whose bits 0 to
`k` are set is mapped to `k`. -/
theorem MultiplyDeBruijnBitPosition_smeared :
    ∀ k, k < 32 →
      MultiplyDeBruijnBitPosition.getD (u32 ((2 ^ (k + 1) - 1) * 130329821) >>> 27) 0 = k := by
  decide

/-- The function `IntegralLog2` on a 32-bit number whose highest set bit is `k`. -/
theorem IntegralLog2_of_highest_bit (n k : Nat) (hk : k < 32) (hbit : n.testBit k = true)
    (habove : ∀ j, k < j → n.testBit j = false) : IntegralLog2 n = k := by
  have h0 : ∀ j, n.testBit j = true ↔ ∃ d, d < 1 ∧ n.testBit (j + d) = true := by
    intro j
    constructor
    · intro h
      exact ⟨0, by omega, h⟩
    · rintro ⟨d, hd, ht⟩
      have hd0 : d = 0 := by omega
      subst hd0
      exact ht
  have h1 := smear_step n _ 1 h0
  have h2 := smear_step n _ 2 h1
  have h3 := smear_step n _ 4 h2
  have h4 := smear_step n _ 8 h3
  have h5 := smear_step n _ 16 h4
  have hsmear : (let n1 := n ||| (n >>> 1)
      let n2 := n1 ||| (n1 >>> 2)
      let n3 := n2 ||| (n2 >>> 4)
      let n4 := n3 ||| (n3 >>> 8)
      n4 ||| (n4 >>> 16)) = 2 ^ (k + 1) - 1 := by
    apply Nat.eq_of_testBit_eq
    intro j
    rw [Nat.testBit_two_pow_sub_one, Bool.eq_iff_iff, decide_eq_true_iff]
    refine (h5 j).trans ⟨?_, ?_⟩
    · rintro ⟨d, _, ht⟩
      by_contra hj
      rw [habove (j + d) (by omega)] at ht
      exact Bool.false_ne_true ht
    · intro hj
      exact ⟨k - j, by omega, by rwa [show j + (k - j) = k by omega]⟩
  unfold IntegralLog2
  simp only at hsmear ⊢
  rw [hsmear]
  exact MultiplyDeBruijnBitPosition_smeared k hk

/-- C32: for every non-zero unsigned 32-bit number `n`, `IntegralLog2(n)` is the floor of the
logarithm of `n` in base 2, which is the index of the highest set bit of `n`; and
`IntegralLog2(0)` is 0. -/
theorem IntegralLog2_floor_log2 (n : Nat) (hn : n ≠ 0) (h32 : n < 2 ^ 32) :
    IntegralLog2 n = Nat.log 2 n ∧ n.testBit (IntegralLog2 n) = true ∧
      (∀ j, IntegralLog2 n < j → n.testBit j = false) ∧ IntegralLog2 0 = 0 := by
  obtain ⟨k, hbit, habove⟩ := Nat.exists_most_significant_bit hn
  have hle : 2 ^ k ≤ n := Nat.testBit_implies_ge hbit
  have hk : k < 32 := by
    by_contra hk
    have := Nat.pow_le_pow_right (show 0 < 2 by decide) (show 32 ≤ k by omega)
    omega
  have hlt : n < 2 ^ (k + 1) := Nat.lt_pow_two_of_testBit n fun i hi => habove i (by omega)
  have hlog := IntegralLog2_of_highest_bit n k hk hbit habove
  rw [hlog]
  exact ⟨(Nat.log_eq_of_pow_le_of_lt_pow hle hlt).symm, hbit, habove, by decide⟩

/-- C32 at 1000, whose highest set bit is the bit 9. -/
theorem IntegralLog2_floor_log2_witness :
    IntegralLog2 1000 = Nat.log 2 1000 ∧ (1000 : Nat).testBit (IntegralLog2 1000) = true ∧
      (∀ j, IntegralLog2 1000 < j → (1000 : Nat).testBit j = false) ∧ IntegralLog2 0 = 0 :=
  IntegralLog2_floor_log2 1000 (by decide) (by decide)

namespace ParticleSystem

/-- The indices that a list of calls of `KillParticle` during the processing leaves in the set
of dying particles. -/
theorem dyingInsert_mem (index x : Nat) (dying : List Nat) :
    x ∈ dyingInsert index dying ↔ x = index ∨ x ∈ dying := by
  induction dying with
  | nil => simp [dyingInsert]
  | cons y ys ih =>
    unfold dyingInsert
    split
    · simp
    · split
      · rename_i h1 h2
        subst h2
        simp
      · simp [ih]
        tauto

/-- The set of dying particles stays ordered from the greatest to the least. -/
theorem dyingInsert_sorted (index : Nat) (dying : List Nat)
    (h : dying.Pairwise fun a b => a > b) :
    (dyingInsert index dying).Pairwise fun a b => a > b := by
  induction dying with
  | nil => simp [dyingInsert]
  | cons y ys ih =>
    unfold dyingInsert
    rw [List.pairwise_cons] at h
    split
    · rename_i h1
      rw [List.pairwise_cons]
      refine ⟨?_, List.pairwise_cons.2 h⟩
      intro a ha
      rcases List.mem_cons.1 ha with rfl | ha
      · exact h1
      · have := h.1 a ha
        omega
    · split
      · exact List.pairwise_cons.2 h
      · rename_i h1 h2
        rw [List.pairwise_cons]
        refine ⟨?_, ih h.2⟩
        intro a ha
        rcases (dyingInsert_mem index a ys).1 ha with rfl | ha
        · omega
        · exact h.1 a ha

end ParticleSystem

namespace ParticleSystem

/-- During the processing `KillParticle` adds the index to the dying particles and changes
nothing else. -/
theorem KillParticle_processing (s : ParticleSystem) (index : Nat) (h : s.m_processing = true) :
    s.KillParticle index =
      some { s with m_dyingParticles := dyingInsert index s.m_dyingParticles } := by
  unfold KillParticle
  rw [if_pos h]

/-- A controller that runs during the processing adds its indices to the dying particles. -/
theorem applyController_processing (controller : Controller) (s : ParticleSystem)
    (h : s.m_processing = true) :
    applyController controller s =
      some { s with m_dyingParticles :=
        controller.foldl (fun dying index => dyingInsert index dying) s.m_dyingParticles } := by
  unfold applyController
  induction controller generalizing s with
  | nil => rfl
  | cons index rest ih =>
    rw [forEach, KillParticle_processing s index h, Option.some_bind,
      ih { s with m_dyingParticles := dyingInsert index s.m_dyingParticles } h]
    rfl

/-- The controllers that run during the processing add their indices to the dying particles. -/
theorem controllers_processing (controllers : List Controller) (s : ParticleSystem)
    (h : s.m_processing = true) :
    forEach applyController controllers s =
      some { s with
        m_dyingParticles :=
          (controllers.flatMap id).foldl (fun dying index => dyingInsert index dying)
            s.m_dyingParticles } := by
  induction controllers generalizing s with
  | nil => rfl
  | cons controller rest ih =>
    rw [forEach, applyController_processing controller s h, Option.some_bind,
      ih { s with m_dyingParticles :=
        controller.foldl (fun dying index => dyingInsert index dying) s.m_dyingParticles } h]
    simp [List.flatMap_cons, List.foldl_append]

/-- The dying particles after a list of insertions: ordered from the greatest to the least, and
holding the inserted indices and the ones that were there. -/
theorem foldl_dyingInsert (kills dying : List Nat) (h : dying.Pairwise fun a b => a > b) :
    (kills.foldl (fun dying index => dyingInsert index dying) dying).Pairwise (fun a b => a > b) ∧
      ∀ x, x ∈ kills.foldl (fun dying index => dyingInsert index dying) dying ↔
        x ∈ kills ∨ x ∈ dying := by
  induction kills generalizing dying with
  | nil => simp [h]
  | cons index rest ih =>
    obtain ⟨h1, h2⟩ := ih (dyingInsert index dying) (dyingInsert_sorted index dying h)
    refine ⟨h1, fun x => ?_⟩
    rw [List.foldl_cons, h2, dyingInsert_mem, List.mem_cons]
    tauto

/-- Removing one index from the indices that a filter rejects adds that index to the result. -/
theorem filter_add_one (p q : Nat → Bool) (d : Nat) (l : List Nat) (hl : l.Nodup) (hd : d ∈ l)
    (hq : q d = true) (hp : p d = false) (hpq : ∀ i, i ≠ d → p i = q i) :
    (l.filter q).Perm (d :: l.filter p) := by
  induction l with
  | nil => simp at hd
  | cons x xs ih =>
    rw [List.nodup_cons] at hl
    by_cases hx : x = d
    · subst hx
      rw [List.filter_cons_of_pos hq, List.filter_cons_of_neg (by simp [hp])]
      have : xs.filter q = xs.filter p := by
        apply List.filter_congr
        intro i hi
        exact (hpq i (fun h => hl.1 (h ▸ hi))).symm
      rw [this]
    · have hd2 : d ∈ xs := by
        rcases List.mem_cons.1 hd with h | h
        · exact absurd h.symm hx
        · exact h
      have ih2 := ih hl.2 hd2
      by_cases hpx : p x = true
      · rw [List.filter_cons_of_pos (by rw [← hpq x hx]; exact hpx), List.filter_cons_of_pos hpx]
        exact (List.Perm.cons x ih2).trans (List.Perm.swap d x _)
      · rw [List.filter_cons_of_neg (by rw [← hpq x hx]; exact hpx), List.filter_cons_of_neg hpx]
        exact ih2

/-- One kill of the loop of `ApplyControllers`: when the index `d` is killed among `c` living
particles and the indices still to kill are below `d`, the survivors among the `c - 1` particles of
the new buffer are the survivors of the old one, `d` counted among the dead. -/
theorem survivors_kill (b : List Nat) (m d : Nat) (rest : List Nat) (hd : d ≤ m)
    (hm : m < b.length) (hrest : ∀ r ∈ rest, r < d) :
    (survivors (b.set d (b.getD m 0)) m rest).Perm (survivors b (m + 1) (d :: rest)) := by
  unfold survivors
  have hlast : (List.range (m + 1)).filter (fun i => decide (i ∉ d :: rest)) =
      (List.range m).filter (fun i => decide (i ∉ d :: rest)) ++
        (if d = m then [] else [m]) := by
    rw [List.range_succ, List.filter_append]
    congr 1
    by_cases hdm : d = m
    · subst hdm
      simp
    · rw [if_neg hdm]
      have h1 : m ≠ d := Ne.symm hdm
      have h2 : m ∉ rest := by
        intro h
        have := hrest m h
        omega
      simp [h1, h2]
  rw [hlast, List.map_append]
  have hsame : ∀ i ∈ (List.range m).filter (fun i => decide (i ∉ d :: rest)),
      (b.set d (b.getD m 0)).getD i 0 = b.getD i 0 := by
    intro i hi
    have hne : i ≠ d := by
      intro h
      simp [h] at hi
    simp [List.getD_eq_getElem?_getD, List.getElem?_set, Ne.symm hne]
  by_cases hdm : d = m
  · subst hdm
    rw [if_pos rfl, List.map_nil, List.append_nil]
    have hfilter : (List.range d).filter (fun i => decide (i ∉ rest)) =
        (List.range d).filter (fun i => decide (i ∉ d :: rest)) := by
      apply List.filter_congr
      intro i hi
      have : i ≠ d := by
        have := List.mem_range.1 hi
        omega
      simp [this]
    rw [hfilter]
    exact List.Perm.of_eq (List.map_congr_left hsame)
  · rw [if_neg hdm]
    have hperm := filter_add_one (fun i => decide (i ∉ d :: rest)) (fun i => decide (i ∉ rest)) d
      (List.range m) (List.nodup_range m) (List.mem_range.2 (by omega))
      (by
        have : d ∉ rest := fun h => Nat.lt_irrefl d (hrest d h)
        simp [this])
      (by simp)
      (by
        intro i hi
        simp [hi])
    refine ((hperm.map _).trans ?_)
    rw [List.map_cons, List.map_congr_left hsame]
    have hval : (b.set d (b.getD m 0)).getD d 0 = b.getD m 0 := by
      have : d < b.length := by omega
      simp [List.getD_eq_getElem?_getD, List.getElem?_set, this]
    rw [hval, List.map_cons, List.map_nil]
    exact (List.perm_append_singleton _ _).symm

end ParticleSystem

namespace ParticleSystem

/-- The content of the first slots of a buffer, read slot by slot. -/
theorem map_getD_range (b : List Nat) (c : Nat) (hc : c ≤ b.length) :
    (List.range c).map (fun i => b.getD i 0) = b.take c := by
  induction c with
  | zero => simp
  | succ c ih =>
    have hlt : c < b.length := by omega
    rw [List.range_succ, List.map_append, ih (by omega), List.take_succ,
      List.getElem?_eq_getElem hlt]
    simp [List.getD_eq_getElem?_getD, List.getElem?_eq_getElem hlt]

/-- With no dead index the survivors are the living particles. -/
theorem survivors_nil (b : List Nat) (c : Nat) (hc : c ≤ b.length) :
    survivors b c [] = b.take c := by
  unfold survivors
  simp only [List.not_mem_nil, not_false_eq_true, decide_True, List.filter_true]
  exact map_getD_range b c hc

/-- The survivors depend on the dead indices as a set. -/
theorem survivors_congr (b : List Nat) (c : Nat) (dead dead2 : List Nat)
    (h : ∀ x, x ∈ dead ↔ x ∈ dead2) : survivors b c dead = survivors b c dead2 := by
  unfold survivors
  congr 1
  apply List.filter_congr
  intro i _
  simp [h i]

/-- When every index below the count is dead, nobody survives. -/
theorem survivors_all_dead (b : List Nat) (c : Nat) (dead : List Nat)
    (h : ∀ i, i < c → i ∈ dead) : survivors b c dead = [] := by
  unfold survivors
  rw [List.map_eq_nil_iff, List.filter_eq_nil_iff]
  intro i hi
  simp [h i (List.mem_range.1 hi)]

/-- Outside the processing, `KillParticle` on a living particle: the count goes down by one and
the last living particle takes the slot of the killed one. -/
theorem KillParticle_living (s : ParticleSystem) (d m : Nat) (hproc : s.m_processing = false)
    (hcount : s.m_particleCount = m + 1) (hd : d ≤ m) (hm : m < s.m_buffer.length)
    (hbuf : s.m_buffer.length < 4294967296) :
    s.KillParticle d =
      some { s with m_particleCount := m, m_buffer := s.m_buffer.set d (s.m_buffer.getD m 0) } := by
  have hdec : u32 (s.m_particleCount + 4294967295) = m := by
    unfold u32
    omega
  unfold KillParticle decrementCount
  rw [if_neg (by simp [hproc])]
  simp only [hdec]
  by_cases hm0 : m > 0
  · rw [if_pos hm0]
    unfold moveLast
    simp only [List.getElem?_eq_getElem hm]
    rw [if_pos (by omega)]
    simp [List.getD_eq_getElem?_getD, List.getElem?_eq_getElem hm]
  · rw [if_neg hm0]
    have hm1 : m = 0 := by omega
    have hd1 : d = 0 := by omega
    subst hm1 hd1
    cases hb : s.m_buffer with
    | nil => rw [hb] at hm; simp at hm
    | cons x xs => simp

/-- The loop of `ApplyControllers` over the dying particles, from the greatest index to the
least: every kill lowers the count by one, and the living particles at the end are the survivors
of the first buffer. -/
theorem kill_descending (dead : List Nat) (s : ParticleSystem) (hproc : s.m_processing = false)
    (hsorted : dead.Pairwise fun a b => a > b) (hlt : ∀ r ∈ dead, r < s.m_particleCount)
    (hcount : s.m_particleCount ≤ s.m_buffer.length) (hbuf : s.m_buffer.length < 4294967296) :
    ∃ s', forEach (fun index (t : ParticleSystem) => t.KillParticle index) dead s = some s' ∧
      s'.m_particleCount = s.m_particleCount - dead.length ∧
      s'.m_processing = false ∧ s'.m_dyingParticles = s.m_dyingParticles ∧
      s'.m_maxParticleCount = s.m_maxParticleCount ∧
      (living s').Perm (survivors s.m_buffer s.m_particleCount dead) := by
  induction dead generalizing s with
  | nil =>
    refine ⟨s, rfl, by simp, hproc, rfl, rfl, ?_⟩
    rw [survivors_nil _ _ hcount]
    exact List.Perm.refl _
  | cons d rest ih =>
    rw [List.pairwise_cons] at hsorted
    have hd := hlt d (List.mem_cons_self _ _)
    obtain ⟨m, hm⟩ : ∃ m, s.m_particleCount = m + 1 := ⟨s.m_particleCount - 1, by omega⟩
    have hkill := KillParticle_living s d m hproc hm (by omega) (by omega) hbuf
    obtain ⟨s', h1, h2, h3, h4, h5, h6⟩ :=
      ih { s with m_particleCount := m, m_buffer := s.m_buffer.set d (s.m_buffer.getD m 0) }
        hproc hsorted.2
        (fun r hr => by
          have := hsorted.1 r hr
          show r < m
          omega)
        (by
          show m ≤ (s.m_buffer.set d (s.m_buffer.getD m 0)).length
          rw [List.length_set]
          omega)
        (by
          show (s.m_buffer.set d (s.m_buffer.getD m 0)).length < 4294967296
          rw [List.length_set]
          exact hbuf)
    refine ⟨s', ?_, ?_, h3, h4, h5, ?_⟩
    · rw [forEach, hkill, Option.some_bind]
      exact h1
    · rw [h2, hm, List.length_cons]
      show m - rest.length = m + 1 - (rest.length + 1)
      omega
    · refine h6.trans ?_
      rw [hm]
      exact survivors_kill s.m_buffer m d rest (by omega) (by omega)
        (fun r hr => hsorted.1 r hr)

/-- A list of distinct indices below `n` that is not shorter than `n` holds every index below
`n`. -/
theorem all_below_mem (dead : List Nat) (n : Nat) (hnodup : dead.Nodup)
    (hlt : ∀ r ∈ dead, r < n) (hlen : n ≤ dead.length) : ∀ i, i < n → i ∈ dead := by
  have hsub : dead.toFinset ⊆ Finset.range n := by
    intro x hx
    exact Finset.mem_range.2 (hlt x (List.mem_toFinset.1 hx))
  have hcard : (Finset.range n).card ≤ dead.toFinset.card := by
    rw [Finset.card_range, List.toFinset_card_of_nodup hnodup]
    exact hlen
  have heq := Finset.eq_of_subset_of_card_le hsub hcard
  intro i hi
  have : i ∈ dead.toFinset := by
    rw [heq]
    exact Finset.mem_range.2 hi
  exact List.mem_toFinset.1 this

end ParticleSystem

/-- C34: for a system of `n` living particles with no dying particle left, whose controllers hand
indices below `n` to `KillParticle`, `ApplyControllers` gives a system whose count is `n` minus
the number of distinct marked indices and whose living particles are, as a multiset, the
particles of the unmarked indices; and during the processing `KillParticle` changes neither the
count nor the buffer. -/
theorem ParticleSystem.ApplyControllers_kills_marked (s : ParticleSystem)
    (controllers : List ParticleSystem.Controller)
    (hdying : s.m_dyingParticles = [])
    (hcount : s.m_particleCount ≤ s.m_buffer.length) (hbuf : s.m_buffer.length < 4294967296)
    (hmarked : ∀ i ∈ controllers.flatMap id, i < s.m_particleCount) :
    (∃ s', s.ApplyControllers controllers = some s' ∧
      s'.GetParticleCount = s.m_particleCount - (controllers.flatMap id).dedup.length ∧
      (ParticleSystem.living s').Perm
        (ParticleSystem.survivors s.m_buffer s.m_particleCount (controllers.flatMap id)) ∧
      s'.m_dyingParticles = [] ∧ s'.m_processing = false) ∧
    ∀ (t : ParticleSystem) (index : Nat), t.m_processing = true →
      ∃ t', t.KillParticle index = some t' ∧ t'.m_particleCount = t.m_particleCount ∧
        t'.m_buffer = t.m_buffer := by
  refine ⟨?_, fun t index ht =>
    ⟨_, ParticleSystem.KillParticle_processing t index ht, rfl, rfl⟩⟩
  obtain ⟨hsorted, hmem⟩ :=
    ParticleSystem.foldl_dyingInsert (controllers.flatMap id) [] List.Pairwise.nil
  have hmem2 : ∀ x, x ∈ (controllers.flatMap id).foldl
      (fun dying index => ParticleSystem.dyingInsert index dying) [] ↔
      x ∈ controllers.flatMap id := by
    intro x
    rw [hmem]
    simp
  have hnodup : ((controllers.flatMap id).foldl
      (fun dying index => ParticleSystem.dyingInsert index dying) []).Nodup :=
    hsorted.imp (fun h => Nat.ne_of_gt h)
  have hlen : ((controllers.flatMap id).foldl
      (fun dying index => ParticleSystem.dyingInsert index dying) []).length =
      (controllers.flatMap id).dedup.length := by
    apply List.Perm.length_eq
    rw [List.perm_ext_iff_of_nodup hnodup (List.nodup_dedup _)]
    intro x
    rw [hmem2, List.mem_dedup]
  unfold ParticleSystem.ApplyControllers
  simp only
  rw [ParticleSystem.controllers_processing controllers { s with m_processing := true } rfl,
    Option.some_bind]
  simp only [hdying]
  by_cases hfew : ((controllers.flatMap id).foldl
      (fun dying index => ParticleSystem.dyingInsert index dying) []).length < s.m_particleCount
  · rw [if_pos hfew]
    obtain ⟨s', h1, h2, h3, _, _, h6⟩ := ParticleSystem.kill_descending
      ((controllers.flatMap id).foldl (fun dying index => ParticleSystem.dyingInsert index dying) [])
      { s with
        m_processing := false
        m_dyingParticles := (controllers.flatMap id).foldl
          (fun dying index => ParticleSystem.dyingInsert index dying) [] }
      rfl hsorted (fun r hr => hmarked r ((hmem2 r).1 hr)) hcount hbuf
    rw [h1, Option.map_some']
    refine ⟨_, rfl, ?_, ?_, rfl, h3⟩
    · show s'.m_particleCount = _
      rw [h2, hlen]
    · refine (List.Perm.trans ?_ (h6.trans (List.Perm.of_eq
        (ParticleSystem.survivors_congr _ _ _ _ hmem2))))
      exact List.Perm.refl _
  · rw [if_neg hfew, Option.map_some']
    refine ⟨_, rfl, ?_, ?_, rfl, rfl⟩
    · show 0 = _
      rw [← hlen]
      omega
    · rw [ParticleSystem.survivors_all_dead _ _ _ (fun i hi => (hmem2 i).1
        (ParticleSystem.all_below_mem _ _ hnodup (fun r hr => hmarked r ((hmem2 r).1 hr))
          (by omega) i hi))]
      exact List.Perm.of_eq (List.take_zero _)

/-- C34 on five particles 10 to 14 whose controllers mark the indices 1, 4 and 3, the index 1
twice: two particles are left, 10 and 12. -/
theorem ParticleSystem.ApplyControllers_kills_marked_witness :
    (∃ s', ParticleSystem.fiveParticles.ApplyControllers [[1, 4], [3, 1]] = some s' ∧
      s'.GetParticleCount = 5 - (([[1, 4], [3, 1]] : List (List Nat)).flatMap id).dedup.length ∧
      (ParticleSystem.living s').Perm
        (ParticleSystem.survivors [10, 11, 12, 13, 14, 0, 0, 0] 5
          (([[1, 4], [3, 1]] : List (List Nat)).flatMap id)) ∧
      s'.m_dyingParticles = [] ∧ s'.m_processing = false) ∧
    ∀ (t : ParticleSystem) (index : Nat), t.m_processing = true →
      ∃ t', t.KillParticle index = some t' ∧ t'.m_particleCount = t.m_particleCount ∧
        t'.m_buffer = t.m_buffer :=
  ParticleSystem.ApplyControllers_kills_marked ParticleSystem.fiveParticles [[1, 4], [3, 1]]
    rfl (by decide) (by decide) (by decide)

set_option maxRecDepth 100000 in
/-- The characters of `symbols`: none is white space, a space, a `-` or the terminator, none is
changed by the conversion to upper case, and `strchr` finds each at its own position. -/
theorem symbols_facts :
    ∀ d, d < 36 →
      (symbols.getD d '0').isWhitespace = false ∧ symbols.getD d '0' ≠ ' ' ∧
      symbols.getD d '0' ≠ '-' ∧ symbols.getD d '0' ≠ Char.ofNat 0 ∧
      (symbols.getD d '0').toUpper = symbols.getD d '0' ∧
      (symbols ++ [Char.ofNat 0]).indexOf (symbols.getD d '0') = d ∧
      symbols[d]? = some (symbols.getD d '0') := by
  decide

/-- The loop of `NumberToString` on a positive number appends its digits in the radix, the least
significant first, when the fuel covers the number of digits. -/
theorem NumberToStringLoop_spec (radix : Nat) (hr : 2 ≤ radix) (hr36 : radix ≤ 36) :
    ∀ (fuel m : Nat) (str : List Char), 0 < m → m < 2 ^ fuel →
      NumberToStringLoop radix fuel (m : Int) str =
        some (str ++ (Nat.digits radix m).map fun d => symbols.getD d '0') := by
  intro fuel
  induction fuel with
  | zero =>
    intro m str hm hlt
    simp at hlt
    omega
  | succ fuel ih =>
    intro m str hm hlt
    have hmod : Int.tmod (m : Int) (radix : Int) = ((m % radix : Nat) : Int) := by
      rw [Int.tmod_eq_emod (by omega) (by omega)]
      norm_cast
    have hdiv : Int.tdiv (m : Int) (radix : Int) = ((m / radix : Nat) : Int) := by
      rw [Int.tdiv_eq_ediv (by omega) (by omega)]
      norm_cast
    have hlt36 : m % radix < 36 := by
      have := Nat.mod_lt m (show 0 < radix by omega)
      omega
    have hdigits : Nat.digits radix m = (m % radix) :: Nat.digits radix (m / radix) :=
      Nat.digits_def' (by omega) hm
    unfold NumberToStringLoop
    simp only [hmod, hdiv]
    rw [if_neg (by omega), Int.toNat_ofNat, (symbols_facts _ hlt36).2.2.2.2.2.2]
    simp only
    by_cases hq : 0 < m / radix
    · rw [if_pos (by exact_mod_cast hq)]
      have hq2 : m / radix < 2 ^ fuel := by
        have h1 : m / radix ≤ m / 2 := Nat.div_le_div_left hr (by decide)
        have h2 : m / 2 < 2 ^ fuel := by
          rw [Nat.div_lt_iff_lt_mul (by decide)]
          rw [Nat.pow_succ] at hlt
          exact hlt
        omega
      rw [ih (m / radix) _ hq hq2, hdigits]
      simp
    · rw [if_neg (by
        intro h
        exact hq (by exact_mod_cast h))]
      have hq0 : m / radix = 0 := Nat.eq_zero_of_not_pos hq
      rw [hdigits, hq0]
      simp

/-- The loop of `StringToNumber` over two runs of characters. -/
theorem digitLoop_append (radix : Nat) (l1 l2 : List Char) (total : Nat) :
    digitLoop radix (l1 ++ l2) total = (digitLoop radix l1 total).bind (digitLoop radix l2) := by
  induction l1 generalizing total with
  | nil => rfl
  | cons c rest ih =>
    simp only [List.cons_append, digitLoop]
    cases digitStep radix total c with
    | none => rfl
    | some t => simp [ih]

/-- The loop of `StringToNumber` over the digits of a number below 2^64, the most significant
first, gives the number. -/
theorem digitLoop_digits (radix : Nat) (hr : 2 ≤ radix) (hr36 : radix ≤ 36) (m : Nat)
    (hm : m < 18446744073709551616) :
    digitLoop radix ((Nat.digits radix m).map fun d => symbols.getD d '0').reverse 0 =
      some m := by
  induction m using Nat.strong_induction_on with
  | _ m ih =>
    by_cases hm0 : m = 0
    · subst hm0
      simp [digitLoop]
    · have hdigits : Nat.digits radix m = (m % radix) :: Nat.digits radix (m / radix) :=
        Nat.digits_def' (by omega) (by omega)
      have hlt : m % radix < radix := Nat.mod_lt m (by omega)
      have hdivlt : m / radix < m := Nat.div_lt_self (by omega) (by omega)
      obtain ⟨_, h2, _, _, _, h6, _⟩ := symbols_facts (m % radix) (by omega)
      rw [hdigits, List.map_cons, List.reverse_cons, digitLoop_append,
        ih (m / radix) hdivlt (by omega), Option.some_bind]
      simp only [digitLoop, digitStep]
      rw [if_neg h2, h6, if_pos ⟨by omega, hlt⟩]
      simp only [Option.some_bind]
      have hle : m / radix * radix ≤ m := Nat.div_mul_le_self m radix
      have h7 : m / radix * radix % 18446744073709551616 = m / radix * radix :=
        Nat.mod_eq_of_lt (by omega)
      rw [h7, Nat.div_add_mod' m radix, Nat.mod_eq_of_lt hm]

/-- The characters of the digits of a number are characters of `symbols`. -/
theorem digit_chars (radix : Nat) (hr : 2 ≤ radix) (hr36 : radix ≤ 36) (m : Nat) :
    ∀ c ∈ ((Nat.digits radix m).map fun d => symbols.getD d '0').reverse,
      ∃ d, d < 36 ∧ c = symbols.getD d '0' := by
  intro c hc
  rw [List.mem_reverse, List.mem_map] at hc
  obtain ⟨d, hd, rfl⟩ := hc
  exact ⟨d, by have := Nat.digits_lt_base (by omega) hd; omega, rfl⟩

/-- The function `NumberToString` on a number that is neither 0 nor the least `long long`: the
digits of the absolute value, the most significant first, after a `-` for a negative number. -/
theorem NumberToString_spec (n : Int) (radix : Nat) (hr : 2 ≤ radix) (hr36 : radix ≤ 36)
    (hn : n ≠ 0) (hlo : longLongMin < n) (hhi : n ≤ longLongMax) :
    NumberToString n radix =
      some ((if n < 0 then ['-'] else []) ++
        ((Nat.digits radix n.natAbs).map fun d => symbols.getD d '0').reverse) := by
  unfold longLongMin at hlo
  unfold longLongMax at hhi
  have habs : 0 < n.natAbs := Int.natAbs_pos.2 hn
  have hlt : n.natAbs < 2 ^ 64 := by
    have : (2 : Nat) ^ 64 = 18446744073709551616 := by norm_num
    omega
  unfold NumberToString
  rw [if_neg (by omega), if_neg hn]
  by_cases hneg : n < 0
  · have hcast : -n = ((n.natAbs : Nat) : Int) := by omega
    simp only [hneg, if_true, decide_True]
    unfold negateLongLong longLongMax
    rw [if_neg (by omega), Option.some_bind, hcast,
      NumberToStringLoop_spec radix hr hr36 64 n.natAbs [] habs hlt]
    simp
  · have hcast : n = ((n.natAbs : Nat) : Int) := by omega
    simp only [hneg, if_false, decide_False]
    rw [Option.some_bind]
    conv_lhs => rw [hcast]
    rw [NumberToStringLoop_spec radix hr hr36 64 n.natAbs [] habs hlt]
    simp

/-- The function `StringToNumber` on the digits of a positive number below 2^63, after a `-` or
not: the number, negated after a `-`, and `ok` set. -/
theorem StringToNumber_digits (radix : Nat) (hr : 2 ≤ radix) (hr36 : radix ≤ 36) (m : Nat)
    (hm : 0 < m) (hlt : m < 9223372036854775808) (negative : Bool) :
    StringToNumber ((if negative then ['-'] else []) ++
        ((Nat.digits radix m).map fun d => symbols.getD d '0').reverse) radix =
      some (if negative then -(m : Int) else (m : Int), true) := by
  have hchars := digit_chars radix hr hr36 m
  have hdigits : Nat.digits radix m = (m % radix) :: Nat.digits radix (m / radix) :=
    Nat.digits_def' (by omega) hm
  obtain ⟨c, rest, hbody⟩ : ∃ c rest,
      ((Nat.digits radix m).map fun d => symbols.getD d '0').reverse = c :: rest := by
    cases h : ((Nat.digits radix m).map fun d => symbols.getD d '0').reverse with
    | nil =>
      rw [hdigits] at h
      simp at h
    | cons c rest => exact ⟨c, rest, rfl⟩
  have hloop := digitLoop_digits radix hr hr36 m (by omega)
  rw [hbody] at hchars hloop ⊢
  obtain ⟨d0, hd0, hc⟩ := hchars c (List.mem_cons_self _ _)
  obtain ⟨hc1, _, hc3, hc4, _, _, _⟩ := symbols_facts d0 hd0
  rw [← hc] at hc1 hc3 hc4
  have hall : ∀ x ∈ (if negative then ['-'] else []) ++ c :: rest,
      x.isWhitespace = false ∧ x.toUpper = x := by
    intro x hx
    rw [List.mem_append] at hx
    rcases hx with hx | hx
    · cases negative
      · simp at hx
      · simp at hx
        subst hx
        decide
    · obtain ⟨d, hd, rfl⟩ := hchars x hx
      exact ⟨(symbols_facts d hd).1, (symbols_facts d hd).2.2.2.2.1⟩
  have hsimplify : Simplify ((if negative then ['-'] else []) ++ c :: rest) =
      (if negative then ['-'] else []) ++ c :: rest := by
    unfold Simplify
    rw [List.splitOnP_eq_single _ _ (fun x hx => by simp [(hall x hx).1])]
    cases negative <;> simp [List.intercalate]
  have hupper : ToUpper ((if negative then ['-'] else []) ++ c :: rest) =
      (if negative then ['-'] else []) ++ c :: rest := by
    unfold ToUpper
    conv_rhs => rw [← List.map_id ((if negative then ['-'] else []) ++ c :: rest)]
    exact List.map_congr_left fun x hx => (hall x hx).2
  have hnul : ∀ x ∈ rest, x ≠ Char.ofNat 0 := by
    intro x hx
    obtain ⟨d, hd, rfl⟩ := hchars x (List.mem_cons_of_mem _ hx)
    exact (symbols_facts d hd).2.2.2.1
  have hvisited : (rest.takeWhile fun x => decide (x ≠ Char.ofNat 0)) = rest := by
    rw [List.takeWhile_eq_self_iff]
    intro x hx
    simp [hnul x hx]
  have hlong : toLongLong m = (m : Int) := by
    unfold toLongLong
    rw [Nat.mod_eq_of_lt (by omega), if_neg (by omega)]
  unfold StringToNumber
  rw [if_neg (by omega)]
  simp only [hsimplify, hupper, ite_self]
  cases negative
  · have hstart : StartsWith (c :: rest) '-' = false := by
      simp [StartsWith, hc3]
    simp only [Bool.false_eq_true, if_false, List.nil_append, hstart, List.drop_zero,
      List.headD_cons, List.tail_cons, hvisited, hloop, hlong]
  · have hstart : StartsWith ('-' :: c :: rest) '-' = true := by
      simp [StartsWith]
    simp only [if_true, List.singleton_append, hstart, List.drop_succ_cons, List.drop_zero,
      List.headD_cons, List.tail_cons, hvisited, hloop, hlong]
    unfold negateLongLong longLongMax
    rw [if_neg (by omega)]
    rfl

/-- The round trip of every `long long` but the least one: for every radix from 2 to 36,
`StringToNumber(NumberToString(n, r), r, &ok)` returns `n` and sets `ok`. -/
theorem numberRoundTrip_spec (n : Int) (radix : Nat) (hr : 2 ≤ radix) (hr36 : radix ≤ 36)
    (hlo : longLongMin < n) (hhi : n ≤ longLongMax) :
    numberRoundTrip n radix = some (n, true) := by
  unfold numberRoundTrip
  by_cases hn : n = 0
  · subst hn
    unfold NumberToString
    rw [if_neg (by omega), if_pos rfl, Option.some_bind]
    unfold StringToNumber
    rw [if_neg (by omega)]
    have hsimplify : Simplify ['0'] = ['0'] := by decide
    have hupper : ToUpper ['0'] = ['0'] := by decide
    have hstart : StartsWith ['0'] '-' = false := by decide
    have hstep : digitStep radix 0 '0' = some 0 := by
      unfold digitStep
      rw [if_neg (by decide)]
      have : (symbols ++ [Char.ofNat 0]).indexOf '0' = 0 := by decide
      simp only [this]
      rw [if_pos ⟨by decide, by omega⟩]
      simp
    simp only [hsimplify, hupper, ite_self, hstart, Bool.false_eq_true, if_false, List.drop_zero,
      List.headD_cons, List.tail_cons, List.takeWhile_nil, digitLoop, hstep, Option.some_bind]
    rfl
  · rw [NumberToString_spec n radix hr hr36 hn hlo hhi, Option.some_bind]
    unfold longLongMin at hlo
    unfold longLongMax at hhi
    have h := StringToNumber_digits radix hr hr36 n.natAbs (Int.natAbs_pos.2 hn) (by omega)
      (decide (n < 0))
    by_cases hneg : n < 0
    · simp only [hneg, decide_True, if_true] at h ⊢
      rw [h]
      congr 2
      omega
    · simp only [hneg, decide_False, Bool.false_eq_true, if_false] at h ⊢
      rw [h]
      congr 2
      omega

end Nz

namespace Ndk

open Nz

/-- C40, failing input: a camera with a perspective projection whose projection matrix is clean
and whose viewport is dirty, the target having gone from the aspect ratio 1 to 800 by 600.
`ApplyView` ensures the projection matrix first, which is clean and stays as it is; the viewport,
ensured last, stores the aspect ratio 4/3 and invalidates the projection matrix. On return the
projection flag is dirty, and the matrix handed to the renderer is the one built for the aspect
ratio 1. -/
theorem CameraComponent.ApplyView_leaves_projection_dirty :
    CameraComponent.resizedCamera.ApplyView =
      some
        ({ CameraComponent.resizedCamera with
            m_aspectRatio := 4 / 3
            m_viewport := ⟨0, 0, 800, 600⟩
            m_projectionMatrixUpdated := false
            m_viewportUpdated := true },
         [ViewCall.SetProjectionMatrix (ProjectionMatrix.perspective 1),
          ViewCall.SetViewMatrix (ViewMatrix.ofNode 0),
          ViewCall.SetTarget ⟨800, 600⟩,
          ViewCall.SetViewport ⟨0, 0, 800, 600⟩]) := by
  simp [CameraComponent.ApplyView, CameraComponent.resizedCamera,
    CameraComponent.EnsureProjectionMatrixUpdate, CameraComponent.EnsureViewMatrixUpdate,
    CameraComponent.EnsureViewportUpdate, CameraComponent.UpdateViewport, Nz.NumberEquals,
    CameraComponent.InvalidateProjectionMatrix, toInt]
  norm_num

end Ndk
